import Mathlib

/-!
# Repeat-list unwinder of libmscore (`repeatlist.cpp`)

A shallow embedding of `Score::searchVolta`, `Score::searchLabel`,
`RepeatList::update`, `RepeatList::utick2tick`, `RepeatList::tick2utick`,
`RepeatList::unwind` and `RepeatList::jumpToStartRepeat`, together with the
measure read-out of `TestRepeat::repeat` (`tst_repeat.cpp`).

Conventions of the embedding.

* A `Measure*` is the zero-based position of the measure in the score's
  measure list; a null pointer is `none`.
* `int` is modelled by `Int` (no wrap-around; signed overflow is undefined in
  the source language).
* `qreal` is an arbitrary type `R` with `0`, `+` and `-`; nothing is assumed
  about these operations unless a theorem says so.
* The `for (Measure* m = fm; m;)` loop of `unwind` is run by `unwindLoop` with
  an explicit iteration budget; `none` means the budget ran out.
-/

namespace Ms

/-! ## Data model -/

/-- Modelled from the spec: the `Repeat` flag set of a measure (declared in a
header that is not part of the sources at hand), "a set drawn from
{START, END, JUMP}". Each field is the result of `flags & Repeat::X`. -/
structure Repeat where
  END : Bool := false
  START : Bool := false
  JUMP : Bool := false
  deriving DecidableEq, Repr, Inhabited

/-- The three labels of a `Jump` element. -/
structure Jump where
  jumpTo : String
  playUntil : String
  continueAt : String
  deriving DecidableEq, Repr, Inhabited

/-- Elements attached to a measure (`m->el()`), as far as the unwinder
distinguishes them by `e->type()`. -/
inductive Element where
  | MARKER (label : String)
  | JUMP (j : Jump)
  | OTHER
  deriving DecidableEq, Repr, Inhabited

/-- The attributes of a `Measure` read or written by the unwinder. -/
structure Measure where
  tick : Int
  ticks : Int
  repeatFlags : Repeat := {}
  repeatCount : Int := 2
  sectionBreak : Bool := false
  playbackCount : Int := 0
  el : List Element := []
  deriving DecidableEq, Repr, Inhabited

/-- The tick at which the measure ends: `m->endTick()`, written
`m->tick() + m->ticks()` in `jumpToStartRepeat`. -/
def Measure.endTick (m : Measure) : Int := m.tick + m.ticks

/-- Modelled from the spec: a `Volta` is "a half-open measure-tick span
[start_tick, end_tick) with a set of ordinal numbers (1-based) listing which
repeat passes it applies to". -/
structure Volta where
  tick : Int
  tick2 : Int
  endings : List Int
  deriving DecidableEq, Repr, Inhabited

/-- Modelled from the spec: `hasEnding(n)` tells whether pass `n` is one of the
volta's ordinal numbers. -/
def Volta.hasEnding (v : Volta) (n : Int) : Bool := v.endings.contains n

/-- The score as seen from the unwinder: its measures in score order and the
voltas among its spanners, in the iteration order of `_spanner.map()`. -/
structure Score where
  measures : List Measure
  voltas : List Volta
  deriving DecidableEq, Repr, Inhabited

/-- Dereference of a measure pointer. -/
def Score.measure (sc : Score) (i : Nat) : Measure := sc.measures.getD i default

/-- The call `firstMeasure()`. -/
def Score.firstMeasure (sc : Score) : Option Nat :=
  if sc.measures.length = 0 then none else some 0

/-- The call `lastMeasure()`. -/
def Score.lastMeasure (sc : Score) : Option Nat :=
  if sc.measures.length = 0 then none else some (sc.measures.length - 1)

/-- The call `m->nextMeasure()`. -/
def Score.nextMeasure (sc : Score) (i : Nat) : Option Nat :=
  if i + 1 < sc.measures.length then some (i + 1) else none

/-- The setter `Measure::setPlaybackCount`. -/
def Measure.setPlaybackCount (m : Measure) (c : Int) : Measure := { m with playbackCount := c }

/-- The call `m->setPlaybackCount(c)` on measure number `i` of the score. -/
def Score.setPlaybackCount (sc : Score) (i : Nat) (c : Int) : Score :=
  { sc with measures := sc.measures.modify (fun m => m.setPlaybackCount c) i }

/-- The statement `m->setPlaybackCount(m->playbackCount() + 1)` on measure
number `i` of the score. -/
def Score.incPlaybackCount (sc : Score) (i : Nat) : Score :=
  sc.setPlaybackCount i ((sc.measure i).playbackCount + 1)

/-- The tempo map collaborator: `tick2time` and `time2tick`. -/
structure TempoMap (R : Type) where
  tick2time : Int → R
  time2tick : R → Int

/-! ## `searchVolta` and `searchLabel` -/

/-- Body of the loop of `Score::searchVolta` over the voltas of the spanner map. -/
def searchVoltaIn (tick : Int) : List Volta → Option Volta
  | [] => none
  | v :: rest =>
    if tick ≥ v.tick ∧ tick < v.tick2 then some v else searchVoltaIn tick rest

/-- The function `Score::searchVolta`: the first volta whose span contains `tick`. -/
def Score.searchVolta (sc : Score) (tick : Int) : Option Volta :=
  searchVoltaIn tick sc.voltas

/-- Inner loop of `Score::searchLabel`: does the element list hold a marker
labelled `s`? -/
def hasMarker (s : String) : List Element → Bool
  | [] => false
  | Element.MARKER l :: rest => if l = s then true else hasMarker s rest
  | _ :: rest => hasMarker s rest

/-- Outer loop of `Score::searchLabel`, from measure number `i` on. -/
def searchLabelFrom (s : String) : Nat → List Measure → Option Nat
  | _, [] => none
  | i, m :: rest => if hasMarker s m.el then some i else searchLabelFrom s (i + 1) rest

/-- The function `Score::searchLabel`. -/
def Score.searchLabel (sc : Score) (s : String) : Option Nat :=
  if s = "start" then sc.firstMeasure
  else if s = "end" then sc.lastMeasure
  else searchLabelFrom s 0 sc.measures

/-! ## `RepeatSegment` and `RepeatList` -/

/-- A `RepeatSegment`. -/
structure RepeatSegment (R : Type) where
  tick : Int
  len : Int
  utick : Int
  utime : R
  timeOffset : R
  deriving DecidableEq, Repr

/-- The constructor `RepeatSegment::RepeatSegment()` (`new RepeatSegment`). -/
def RepeatSegment.new {R : Type} [Zero R] : RepeatSegment R :=
  { tick := 0, len := 0, utick := 0, utime := 0, timeOffset := 0 }

/-- A `RepeatList`: the segments and the two search cursors. -/
structure RepeatList (R : Type) where
  segs : List (RepeatSegment R)
  idx1 : Nat
  idx2 : Nat

variable {R : Type}

/-- The function `RepeatList::ticks`. -/
def ticks (segs : List (RepeatSegment R)) : Int :=
  match segs.getLast? with
  | some s => s.utick + s.len
  | none => 0

/-- The loop of `RepeatList::update`, entered with the running values of
`utick` and `t`. -/
def updateFrom [Add R] [Sub R] (tl : TempoMap R) :
    Int → R → List (RepeatSegment R) → List (RepeatSegment R)
  | _, _, [] => []
  | utick, t, s :: rest =>
    let ct := tl.tick2time s.tick
    { s with utick := utick, utime := t, timeOffset := t - ct } ::
      updateFrom tl (utick + s.len) (t + (tl.tick2time (s.tick + s.len) - ct)) rest

/-- The function `RepeatList::update`. -/
def update [Zero R] [Add R] [Sub R] (tl : TempoMap R)
    (segs : List (RepeatSegment R)) : List (RepeatSegment R) :=
  updateFrom tl 0 0 segs

/-- The search loop shared by `utick2tick` and `utick2utime`: the first
`i ≥ ii` with `tick ≥ at(i)->utick` and (`i + 1 == n` or
`tick < at(i+1)->utick`). The list argument is the suffix starting at `i`. -/
def findUtick (tick : Int) : Nat → List (RepeatSegment R) → Option (Nat × RepeatSegment R)
  | _, [] => none
  | i, [s] => if tick ≥ s.utick then some (i, s) else none
  | i, s :: s2 :: rest =>
    if tick ≥ s.utick ∧ tick < s2.utick then some (i, s)
    else findUtick tick (i + 1) (s2 :: rest)

/-- The start index `ii` of the cursor-guided searches. -/
def startIndex (segs : List (RepeatSegment R)) (idx1 : Nat) (tick : Int) : Nat :=
  match segs.get? idx1 with
  | some s => if tick ≥ s.utick then idx1 else 0
  | none => 0

/-- The function `RepeatList::utick2tick`. The result is the returned tick and
the new value of the cursor `idx1`; `none` stands for the `qFatal` abort taken
in debug mode when no segment is found. -/
def utick2tick (debugMode : Bool) (rl : RepeatList R) (tick : Int) : Option (Int × Nat) :=
  if rl.segs.length = 0 then some (tick, rl.idx1)
  else if tick < 0 then some (0, rl.idx1)
  else
    let ii := startIndex rl.segs rl.idx1 tick
    match findUtick tick ii (rl.segs.drop ii) with
    | some (i, s) => some (tick - (s.utick - s.tick), i)
    | none => if debugMode then none else some (0, rl.idx1)

/-- The loop of `RepeatList::tick2utick`. -/
def findTick (tick : Int) : List (RepeatSegment R) → Option (RepeatSegment R)
  | [] => none
  | s :: rest =>
    if tick ≥ s.tick ∧ tick < s.tick + s.len then some s else findTick tick rest

/-- The function `RepeatList::tick2utick`; `none` stands for the call of
`last()` on an empty list. -/
def tick2utick (segs : List (RepeatSegment R)) (tick : Int) : Option Int :=
  match findTick tick segs with
  | some s => some (s.utick + (tick - s.tick))
  | none =>
    match segs.getLast? with
    | some l => some (l.utick + (tick - l.tick))
    | none => none

/-- The function `RepeatList::utick2utime`; the cursor `idx1` is read but not
written, and `0.0` is returned when no segment is found. -/
def utick2utime [Zero R] [Add R] (tl : TempoMap R) (rl : RepeatList R) (tick : Int) : R :=
  let ii := startIndex rl.segs rl.idx1 tick
  match findUtick tick ii (rl.segs.drop ii) with
  | some (_, s) =>
    let t := tick - (s.utick - s.tick)
    tl.tick2time t + s.timeOffset
  | none => 0

/-- The search loop of `utime2utick`: the first `i ≥ ii` with `t ≥ at(i)->utime`
and (`i + 1 == n` or `t < at(i+1)->utime`). The list argument is the suffix
starting at `i`. -/
def findUtime [LinearOrder R] (t : R) :
    Nat → List (RepeatSegment R) → Option (Nat × RepeatSegment R)
  | _, [] => none
  | i, [s] => if t ≥ s.utime then some (i, s) else none
  | i, s :: s2 :: rest =>
    if t ≥ s.utime ∧ t < s2.utime then some (i, s)
    else findUtime t (i + 1) (s2 :: rest)

/-- The start index `ii` of the search of `utime2utick`, guided by `idx2`. -/
def startIndexTime [LinearOrder R] (segs : List (RepeatSegment R)) (idx2 : Nat) (t : R) : Nat :=
  match segs.get? idx2 with
  | some s => if t ≥ s.utime then idx2 else 0
  | none => 0

/-- The function `RepeatList::utime2utick`. The result is the returned unwound
tick and the new value of the cursor `idx2`; `none` stands for the `qFatal`
abort taken in debug mode when no segment is found. -/
def utime2utick [LinearOrder R] [Sub R] (debugMode : Bool) (tl : TempoMap R)
    (rl : RepeatList R) (t : R) : Option (Int × Nat) :=
  let ii := startIndexTime rl.segs rl.idx2 t
  match findUtime t ii (rl.segs.drop ii) with
  | some (i, s) => some (tl.time2tick (t - s.timeOffset) + (s.utick - s.tick), i)
  | none => if debugMode then none else some (0, rl.idx2)

/-! ## `unwind` -/

/-- Identity of a `Jump` object: the measure it is attached to and its
position in that measure's element list. -/
abbrev JumpPtr := Nat × Nat

/-- The loop `foreach(Element* e, m->el())` of `unwind` that picks the first
element of type `JUMP`, starting at position `k` of the element list. -/
def firstJump : Nat → List Element → Option (Nat × Jump)
  | _, [] => none
  | k, Element.JUMP j :: _ => some (k, j)
  | k, _ :: rest => firstJump (k + 1) rest

/-- The variables of `unwind` that live across loop iterations: the score
(whose measures carry `playbackCount`), the list under construction, the member
`rs`, and the locals `endRepeat`, `continueAt`, `loop`, `repeatCount`,
`isGoto` and `jumps`. -/
structure UState (R : Type) where
  score : Score
  segs : List (RepeatSegment R)
  rs : RepeatSegment R
  endRepeat : Option Nat
  continueAt : Option Nat
  loop : Int
  repeatCount : Int
  isGoto : Bool
  jumps : List (Option JumpPtr)

/-- How one pass through the body of the measure loop ends. -/
inductive Step (R : Type) where
  /-- The body reached `continue` or its last statement; the loop goes on with
  the given `m`. -/
  | next (st : UState R) (m : Option Nat)
  /-- The statement `break` was reached. -/
  | brk (st : UState R)
  /-- The statement `return` inside the loop was reached, after `update()`. -/
  | ret (sc : Score) (segs : List (RepeatSegment R))
  /-- A null `Jump*` was dereferenced. -/
  | crash

/-- The backward search of `jumpToStartRepeat`. -/
def startRepeat (sc : Score) : Nat → Nat
  | 0 => 0
  | k + 1 =>
    if (sc.measure (k + 1)).repeatFlags.START then k + 1
    else if (sc.measure k).sectionBreak then k + 1
    else startRepeat sc k

/-- The function `RepeatList::jumpToStartRepeat`: the state with the finished
segment appended and a fresh `rs`, and the returned measure. -/
def jumpToStartRepeat [Zero R] (st : UState R) (m : Nat) : UState R × Nat :=
  let mm := st.score.measure m
  let rs := { st.rs with len := mm.tick + mm.ticks - st.rs.tick }
  let r := startRepeat st.score m
  ({ st with segs := st.segs ++ [rs],
             rs := { (RepeatSegment.new : RepeatSegment R) with tick := (st.score.measure r).tick } },
   r)

/-- Lines 288-306 of `unwind`: the volta skip and the setting of `doJump`.
Returns the state and `doJump`. -/
def voltaAndJumpFlag [Zero R] (st : UState R) (m : Measure) : UState R × Bool :=
  match st.endRepeat with
  | some _ =>
    match st.score.searchVolta m.tick with
    | some volta =>
      if !volta.hasEnding m.playbackCount then
        -- skip measure
        let st1 : UState R :=
          if st.rs.tick < m.tick then
            { st with segs := st.segs ++ [{ st.rs with len := m.tick - st.rs.tick }],
                      rs := RepeatSegment.new }
          else st
        ({ st1 with rs := { st1.rs with tick := m.endTick } }, false)
      else if m.repeatFlags.JUMP then ({ st with isGoto := false }, true)
      else (st, false)
    | none =>
      if m.repeatFlags.JUMP then ({ st with isGoto := false }, true)
      else (st, false)
  | none => (st, m.repeatFlags.JUMP)

/-- Lines 352-386 of `unwind`: the handling of a `Jump` and the final
`m = m->nextMeasure()`. -/
def jumpOrAdvance [Zero R] (st : UState R) (mi : Nat) (doJump : Bool) : Step R :=
  let m := st.score.measure mi
  if doJump && !st.isGoto then
    let s := firstJump 0 m.el
    let sp : Option JumpPtr := s.map (fun p => (mi, p.1))
    -- jump only once
    if st.jumps.contains sp then
      match s with
      | none => Step.crash
      | some (_, j) =>
        if st.endRepeat = st.score.searchLabel j.playUntil then
          Step.next { st with endRepeat := none } (st.score.nextMeasure mi)
        else
          Step.next st (st.score.nextMeasure mi)
    else
      let st1 := { st with jumps := st.jumps ++ [sp] }
      match s with
      | some (_, j) =>
        let nm := st1.score.searchLabel j.jumpTo
        let st2 := { st1 with endRepeat := st1.score.searchLabel j.playUntil,
                              continueAt := st1.score.searchLabel j.continueAt }
        match nm, st2.endRepeat with
        | some n, some _ =>
          Step.next
            { st2 with isGoto := true,
                       segs := st2.segs ++ [{ st2.rs with len := m.endTick - st2.rs.tick }],
                       rs := { (RepeatSegment.new : RepeatSegment R) with
                                 tick := (st2.score.measure n).tick } }
            (some n)
        | _, _ => Step.next st2 (st2.score.nextMeasure mi)
      | none => Step.next st1 (st1.score.nextMeasure mi)
  else
    Step.next st (st.score.nextMeasure mi)

/-- Lines 309-351 of `unwind`, followed by `jumpOrAdvance`: the end of a
once-only jump and the handling of a repeat END. -/
def gotoOrEnd [Zero R] [Add R] [Sub R] (tl : TempoMap R) (st : UState R) (mi : Nat)
    (doJump : Bool) : Step R :=
  let m := st.score.measure mi
  if st.isGoto && st.endRepeat = some mi then
    match st.continueAt with
    | none =>
      let rs : RepeatSegment R := { st.rs with len := m.endTick - st.rs.tick }
      if rs.len ≠ 0 then Step.ret st.score (update tl (st.segs ++ [rs]))
      else Step.ret st.score (update tl st.segs)
    | some c =>
      Step.next
        { st with segs := st.segs ++ [{ st.rs with len := m.endTick - st.rs.tick }],
                  rs := { (RepeatSegment.new : RepeatSegment R) with
                            tick := (st.score.measure c).tick },
                  isGoto := false,
                  endRepeat := none }
        (some c)
  else if m.repeatFlags.END then
    if st.endRepeat = some mi then
      let st1 := { st with loop := st.loop + 1 }
      if st1.loop ≥ st1.repeatCount then
        jumpOrAdvance { st1 with endRepeat := none, loop := 0 } mi doJump
      else
        let (st2, r) := jumpToStartRepeat st1 mi
        Step.next st2 (some r)
    else if st.endRepeat = none then
      if m.playbackCount ≥ m.repeatCount then Step.brk st
      else
        let (st2, r) :=
          jumpToStartRepeat { st with endRepeat := some mi, repeatCount := m.repeatCount, loop := 1 } mi
        Step.next st2 (some r)
    else jumpOrAdvance st mi doJump
  else jumpOrAdvance st mi doJump

/-- Lines 276-282 of `unwind`: the playback count of the visited measure is
incremented, and during a D.C. or D.S. a measure flagged END forces `loop`. -/
def countVisit (st : UState R) (mi : Nat) : UState R :=
  let sc := st.score.incPlaybackCount mi
  let m := sc.measure mi
  -- during any DC or DS, will take last time through repeat
  if st.isGoto && m.repeatFlags.END then { st with score := sc, loop := m.repeatCount - 1 }
  else { st with score := sc }

/-- One pass through the body of the loop `for (Measure* m = fm; m;)` of
`unwind`, entered with `m` pointing at measure `mi`. -/
def body [Zero R] [Add R] [Sub R] (tl : TempoMap R) (st : UState R) (mi : Nat) : Step R :=
  let st1 := countVisit st mi
  let r := voltaAndJumpFlag st1 (st1.score.measure mi)
  gotoOrEnd tl r.1 mi r.2

/-- Result of a completed run of `unwind`. -/
inductive Outcome (R : Type) where
  /-- The call returned; the score (with its playback counts) and the list. -/
  | done (sc : Score) (segs : List (RepeatSegment R))
  /-- A null `Jump*` was dereferenced. -/
  | crash

/-- Lines 389-398 of `unwind`: the statements after the measure loop. -/
def finish [Zero R] [Add R] [Sub R] (tl : TempoMap R) (st : UState R) : Outcome R :=
  let lm := st.score.measure (st.score.measures.length - 1)
  let rs : RepeatSegment R := { st.rs with len := lm.endTick - st.rs.tick }
  if rs.len ≠ 0 then Outcome.done st.score (update tl (st.segs ++ [rs]))
  else Outcome.done st.score (update tl st.segs)

/-- The loop `for (Measure* m = fm; m;)` of `unwind` followed by the closing
statements, with a budget of loop iterations. -/
def unwindLoop [Zero R] [Add R] [Sub R] (tl : TempoMap R) :
    Nat → UState R → Option Nat → Option (Outcome R)
  | _, st, none => some (finish tl st)
  | 0, _, some _ => none
  | fuel + 1, st, some mi =>
    match body tl st mi with
    | Step.next st1 m1 => unwindLoop tl fuel st1 m1
    | Step.brk st1 => some (finish tl st1)
    | Step.ret sc segs => some (Outcome.done sc segs)
    | Step.crash => some Outcome.crash

/-- The loop `for (Measure* m = fm; m; m = m->nextMeasure()) m->setPlaybackCount(0)`. -/
def resetPlaybackCounts (sc : Score) : Score :=
  { sc with measures := sc.measures.map (fun m => m.setPlaybackCount 0) }

/-- The state of `unwind` on entry to the measure loop; `cleared` is the list
after `qDeleteAll(*this); clear()`. -/
def initState [Zero R] (sc : Score) (cleared : List (RepeatSegment R)) : UState R :=
  { score := resetPlaybackCounts sc,
    segs := cleared,
    rs := RepeatSegment.new,
    endRepeat := none,
    continueAt := none,
    loop := 0,
    repeatCount := 0,
    isGoto := false,
    jumps := [] }

/-- The function `RepeatList::unwind`, called on a list holding the segments
`old`, for the score `sc`, with at most `fuel` iterations of the measure loop.
The cursors `idx1` and `idx2` are not touched by `unwind`. -/
def unwind [Zero R] [Add R] [Sub R] (tl : TempoMap R) (fuel : Nat) (sc : Score)
    (old : List (RepeatSegment R)) : Option (Outcome R) :=
  -- qDeleteAll(*this); clear();
  let cleared : List (RepeatSegment R) := old.drop old.length
  match sc.firstMeasure with
  | none => some (Outcome.done sc cleared)
  | some fm => unwindLoop tl fuel (initState sc cleared) (some fm)

/-! ## Measure read-out of `TestRepeat::repeat` -/

/-- Modelled from the spec: `Score::tick2measure` is called by the read-out of
the test but defined outside the sources at hand; it is taken to return the
first measure, from number `i` on, whose span `[tick, endTick)` holds the given
tick. -/
def tick2measureFrom (t : Int) : Nat → List Measure → Option (Nat × List Measure)
  | _, [] => none
  | i, m :: rest =>
    if m.tick ≤ t ∧ t < m.endTick then some (i, m :: rest) else tick2measureFrom t (i + 1) rest

/-- The inner loop of `TestRepeat::repeat`: the numbers `m->no()+1` of the
measures walked for one segment, where the list is the score from the start
measure on and `i` is the number of its head. -/
def walkSegment (endTick : Int) : Nat → List Measure → List Nat
  | _, [] => []
  | i, m :: rest =>
    (i + 1) :: (if m.tick + m.ticks ≥ endTick then [] else walkSegment endTick (i + 1) rest)

/-- The measure numbers that `TestRepeat::repeat` collects for one segment. -/
def segmentMeasures (sc : Score) (rs : RepeatSegment R) : List Nat :=
  match tick2measureFrom rs.tick 0 sc.measures with
  | some (i, ms) => walkSegment (rs.tick + rs.len) i ms
  | none => []

/-- The measure sequence that `TestRepeat::repeat` compares with its reference
string. -/
def measureSequence (sc : Score) (segs : List (RepeatSegment R)) : List Nat :=
  segs.flatMap (segmentMeasures sc)

/-- The measure sequence that a call of `unwind` emits for the score `sc`: the
read-out of the list it returned; undefined when the call did not return
within its budget or crashed. -/
def emitted (sc : Score) : Option (Outcome R) → Option (List Nat)
  | some (Outcome.done _ segs) => some (measureSequence sc segs)
  | _ => none

/-! ## Predicates used in the statements -/

/-- Post-condition of one pass through the loop body, by the way the pass ends. -/
def Step.Post (N : UState R → Option Nat → Prop) (B : UState R → Prop)
    (T : Score → List (RepeatSegment R) → Prop) : Step R → Prop
  | Step.next st m => N st m
  | Step.brk st => B st
  | Step.ret sc segs => T sc segs
  | Step.crash => True

/-- Post-condition of a completed run, stated for the runs that return. -/
def Outcome.Post (D : Score → List (RepeatSegment R) → Prop) : Outcome R → Prop
  | Outcome.done sc segs => D sc segs
  | Outcome.crash => True

/-- The measures of the score follow one another without gap from tick 0 and
have positive lengths (so their ticks are strictly increasing). -/
def Contiguous (sc : Score) : Prop :=
  (∀ k, k < sc.measures.length → 0 < (sc.measure k).ticks) ∧
  (sc.measure 0).tick = 0 ∧
  (∀ k, k + 1 < sc.measures.length → (sc.measure (k + 1)).tick = (sc.measure k).endTick)

/-- Invariant of the measure loop at the loop head, on the score, the list, the
local `continueAt`, the field `rs->tick` and the loop variable `m`: no
appended segment has a negative length and `rs` starts no later than `m`. -/
def LenInv (sc : Score) (segs : List (RepeatSegment R)) (cont : Option Nat) (t : Int) :
    Option Nat → Prop
  | some i =>
    Contiguous sc ∧ (∀ s ∈ segs, 0 ≤ s.len) ∧ (∀ c, cont = some c → c < sc.measures.length) ∧
      i < sc.measures.length ∧ t ≤ (sc.measure i).tick
  | none =>
    Contiguous sc ∧ (∀ s ∈ segs, 0 ≤ s.len) ∧ (∀ c, cont = some c → c < sc.measures.length) ∧
      0 < sc.measures.length ∧ t ≤ (sc.measure (sc.measures.length - 1)).endTick

/-- The same invariant inside the loop body, after the volta skip: `rs` starts
no later than the end of the visited measure `mi`. -/
def MidInv (sc : Score) (segs : List (RepeatSegment R)) (cont : Option Nat) (t : Int)
    (mi : Nat) : Prop :=
  Contiguous sc ∧ (∀ s ∈ segs, 0 ≤ s.len) ∧ (∀ c, cont = some c → c < sc.measures.length) ∧
    mi < sc.measures.length ∧ t ≤ (sc.measure mi).endTick

/-- Invariant of the measure loop on the score, the list and the field
`rs->tick`: no segment starts before tick 0. -/
def TickInv (sc : Score) (segs : List (RepeatSegment R)) (t : Int) : Prop :=
  Contiguous sc ∧ (∀ s ∈ segs, 0 ≤ s.tick) ∧ 0 ≤ t

/-- The configuration at the head of the measure loop after `k` passes through
its body, started with the state `st` and `m`; `none` when the loop has been
left before. -/
def configAfter [Zero R] [Add R] [Sub R] (tl : TempoMap R) :
    Nat → UState R → Option Nat → Option (UState R × Nat)
  | _, _, none => none
  | 0, st, some mi => some (st, mi)
  | k + 1, st, some mi =>
    match body tl st mi with
    | Step.next st1 m1 => configAfter tl k st1 m1
    | _ => none

/-- The pass through the loop body entered with `st` and measure `mi` takes the
Jump `ptr`: it is the pass that appends `ptr` to `jumps` and sets `isGoto`,
which lines 367-380 do together with `m = nm` and nowhere else. -/
def TakesJump [Zero R] [Add R] [Sub R] (tl : TempoMap R) (st : UState R) (mi : Nat)
    (ptr : JumpPtr) : Prop :=
  ∃ (st1 : UState R) (m1 : Option Nat), body tl st mi = Step.next st1 m1 ∧
    st1.jumps = st.jumps ++ [some ptr] ∧ st1.isGoto = true

/-- The pass through the loop body made from the state `st`, with `m` at measure
`mi`, honours the Jump `ptr`: `ptr` is the first element of type `JUMP` of
measure `mi`, `doJump` is set on this pass, and the pass ends with `isGoto` set
and with `m` at the measure that `searchLabel` returns for the `jumpTo` label of
the Jump (the transfer of lines 372-380). Nothing is asked of the list `jumps`. -/
def HonoursJump [Zero R] [Add R] [Sub R] (tl : TempoMap R) (st : UState R) (mi : Nat)
    (ptr : JumpPtr) : Prop :=
  ∃ (j : Jump) (n : Nat) (st1 : UState R),
    ptr.1 = mi ∧ firstJump 0 (st.score.measure mi).el = some (ptr.2, j) ∧
    (voltaAndJumpFlag (countVisit st mi) ((countVisit st mi).score.measure mi)).2 = true ∧
    st.score.searchLabel j.jumpTo = some n ∧
    body tl st mi = Step.next st1 (some n) ∧ st1.isGoto = true

/-- The segments appended to `old` to give `new` hold no part of the measure `m`:
each ends at or before `m.tick`, or is empty and placed at `m.endTick`. -/
def SkipsMeasure (m : Measure) (old new : List (RepeatSegment R)) : Prop :=
  ∃ app : List (RepeatSegment R), new = old ++ app ∧
    ∀ s ∈ app, s.tick + s.len ≤ m.tick ∨ (s.tick = m.endTick ∧ s.len = 0)

/-- The unwound ticks of a list are the prefix sums of its lengths: the first
segment has `utick = 0` and each further segment starts where the one before
it ends. -/
def UtickPrefixSums (segs : List (RepeatSegment R)) : Prop :=
  (∀ s, segs.head? = some s → s.utick = 0) ∧
  ∀ (i : Nat) (a b : RepeatSegment R),
    segs.get? i = some a → segs.get? (i + 1) = some b → b.utick = a.utick + a.len

/-- The score after `d` consecutive measures, from number `a` on, have each been
visited once (their playback counts incremented). -/
def visitRange (sc : Score) : Nat → Nat → Score
  | _, 0 => sc
  | a, d + 1 => visitRange (sc.incPlaybackCount a) (a + 1) d

/-- A score whose only annotations are START on measure number `a` and END with
repeat count `c ≥ 2` on measure number `b` (zero-based, `a ≤ b`): contiguous
measures, no volta, no section break, no JUMP flag, no other START or END. -/
def SimpleRepeat (sc : Score) (a b c : Nat) : Prop :=
  Contiguous sc ∧ sc.voltas = [] ∧ a ≤ b ∧ b < sc.measures.length ∧
  (∀ k, k < sc.measures.length →
    (sc.measure k).sectionBreak = false ∧
    (sc.measure k).repeatFlags.JUMP = false ∧
    ((sc.measure k).repeatFlags.END = true ↔ k = b) ∧
    ((sc.measure k).repeatFlags.START = true ↔ k = a)) ∧
  (sc.measure b).repeatCount = (c : Int) ∧ 2 ≤ c

/-- A score, without voltas, with one repeat bracket among its first `lim`
measures: the only END below `lim` is on measure number `b`, with repeat count
`c ≥ 2`, the backward search of `jumpToStartRepeat` from `b` stops at measure
number `a`, and no measure below `lim` carries the JUMP flag. -/
def Bracket (sc : Score) (a b c lim : Nat) : Prop :=
  Contiguous sc ∧ sc.voltas = [] ∧ a ≤ b ∧ b < lim ∧ lim ≤ sc.measures.length ∧
  startRepeat sc b = a ∧
  (∀ k, k < lim →
    (sc.measure k).repeatFlags.JUMP = false ∧
    ((sc.measure k).repeatFlags.END = true ↔ k = b)) ∧
  (sc.measure b).repeatCount = (c : Int) ∧ 2 ≤ c

/-- A score whose only annotations are START on measure number `a`, END with
repeat count `c ≥ 2` on measure number `b` (zero-based, `a ≤ b`, `b` not the last
measure) and, on the last measure, the JUMP flag with a first Jump element (at
position `p`) `j` that is a D.C. playing until the end: `jumpTo = "start"`,
`playUntil = "end"`, empty `continueAt`. No volta, no section break, and no
Marker with an empty label. -/
def RepeatThenDC (sc : Score) (a b c p : Nat) (j : Jump) : Prop :=
  Contiguous sc ∧ sc.voltas = [] ∧ a ≤ b ∧ b + 1 < sc.measures.length ∧
  (∀ k, k < sc.measures.length →
    (sc.measure k).sectionBreak = false ∧
    ((sc.measure k).repeatFlags.JUMP = true ↔ k = sc.measures.length - 1) ∧
    ((sc.measure k).repeatFlags.END = true ↔ k = b) ∧
    ((sc.measure k).repeatFlags.START = true ↔ k = a) ∧
    hasMarker "" (sc.measure k).el = false) ∧
  (sc.measure b).repeatCount = (c : Int) ∧ 2 ≤ c ∧
  firstJump 0 (sc.measure (sc.measures.length - 1)).el = some (p, j) ∧
  j.jumpTo = "start" ∧ j.playUntil = "end" ∧ j.continueAt = ""

/-- A score with a first and a second ending: its only annotations are START on
measure number `a`, END with repeat count 2 on measure number `b`, a volta with
ending set {1} spanning exactly the measures number `v..b` and a volta with
ending set {2} starting at measure number `b + 1` and ending at tick `t2`
(zero-based numbers, `a ≤ v ≤ b`, `b` not the last measure). -/
def FirstSecondEnding (sc : Score) (a v b : Nat) (t2 : Int) : Prop :=
  Contiguous sc ∧ a ≤ v ∧ v ≤ b ∧ b + 1 < sc.measures.length ∧
  (∀ k, k < sc.measures.length →
    (sc.measure k).sectionBreak = false ∧
    (sc.measure k).repeatFlags.JUMP = false ∧
    ((sc.measure k).repeatFlags.END = true ↔ k = b) ∧
    ((sc.measure k).repeatFlags.START = true ↔ k = a)) ∧
  (sc.measure b).repeatCount = 2 ∧
  sc.voltas =
    [{ tick := (sc.measure v).tick, tick2 := (sc.measure b).endTick, endings := [1] },
     { tick := (sc.measure (b + 1)).tick, tick2 := t2, endings := [2] }]

/-- A score with a D.C. al fine: contiguous measures, no volta, no END flag, the
JUMP flag on the last measure only, whose first Jump element (at position `p`)
is `j` with `jumpTo = "start"`, an empty `continueAt`, and a `playUntil` that
`searchLabel` resolves to measure number `f` (zero-based); no Marker has an
empty label. -/
def DCAlFine (sc : Score) (f p : Nat) (j : Jump) : Prop :=
  Contiguous sc ∧ sc.voltas = [] ∧ 0 < sc.measures.length ∧
  (∀ k, k < sc.measures.length →
    (sc.measure k).repeatFlags.END = false ∧
    ((sc.measure k).repeatFlags.JUMP = true ↔ k = sc.measures.length - 1) ∧
    hasMarker "" (sc.measure k).el = false) ∧
  firstJump 0 (sc.measure (sc.measures.length - 1)).el = some (p, j) ∧
  j.jumpTo = "start" ∧ j.continueAt = "" ∧
  sc.searchLabel j.playUntil = some f

/-- A score with a D.S. al coda: contiguous measures, no volta, no END flag, the
JUMP flag on measure number `k` only, whose first Jump element (at position
`p`) is `j`, with `jumpTo`, `playUntil` and `continueAt` resolved by
`searchLabel` to the measures number `a`, `b` and `c`, where
`a ≤ b < k < c` (all numbers zero-based). -/
def DSAlCoda (sc : Score) (a b k c p : Nat) (j : Jump) : Prop :=
  Contiguous sc ∧ sc.voltas = [] ∧ a ≤ b ∧ b < k ∧ k < c ∧ c < sc.measures.length ∧
  (∀ m, m < sc.measures.length →
    (sc.measure m).repeatFlags.END = false ∧
    ((sc.measure m).repeatFlags.JUMP = true ↔ m = k)) ∧
  firstJump 0 (sc.measure k).el = some (p, j) ∧
  sc.searchLabel j.jumpTo = some a ∧
  sc.searchLabel j.playUntil = some b ∧
  sc.searchLabel j.continueAt = some c

/-! ## Concrete scores and tempo maps -/

/-- A tempo map over the integers with one time unit per tick. -/
def unitTempo : TempoMap Int := { tick2time := fun t => t, time2tick := fun t => t }

/-- Six measures of 1920 ticks with START on measure 2 and END (repeat count 2)
on measure 3: the shape of `repeat01`. -/
def scoreRepeat01 : Score :=
  { measures := [
      { tick := 0, ticks := 1920 },
      { tick := 1920, ticks := 1920, repeatFlags := { START := true } },
      { tick := 3840, ticks := 1920, repeatFlags := { END := true } },
      { tick := 5760, ticks := 1920 },
      { tick := 7680, ticks := 1920 },
      { tick := 9600, ticks := 1920 }],
    voltas := [] }

/-- The score `scoreRepeat01` with the playback counts left by `unwind`. -/
def scoreRepeat01Played : Score :=
  { measures := [
      { tick := 0, ticks := 1920, playbackCount := 1 },
      { tick := 1920, ticks := 1920, repeatFlags := { START := true }, playbackCount := 2 },
      { tick := 3840, ticks := 1920, repeatFlags := { END := true }, playbackCount := 2 },
      { tick := 5760, ticks := 1920, playbackCount := 1 },
      { tick := 7680, ticks := 1920, playbackCount := 1 },
      { tick := 9600, ticks := 1920, playbackCount := 1 }],
    voltas := [] }

/-- The list that `unwind` builds for `scoreRepeat01` under `unitTempo`. -/
def segsRepeat01 : List (RepeatSegment Int) :=
  [{ tick := 0, len := 5760, utick := 0, utime := 0, timeOffset := 0 },
   { tick := 1920, len := 9600, utick := 5760, utime := 5760, timeOffset := 3840 }]

/-- Three measures of 1920 ticks; measure 2 carries END with repeat count 3 and
lies under a volta with ending set {1}. -/
def scoreVoltaThrice : Score :=
  { measures := [
      { tick := 0, ticks := 1920 },
      { tick := 1920, ticks := 1920, repeatFlags := { END := true }, repeatCount := 3 },
      { tick := 3840, ticks := 1920 }],
    voltas := [{ tick := 1920, tick2 := 3840, endings := [1] }] }

/-- The score `scoreVoltaThrice` with the playback counts left by `unwind`. -/
def scoreVoltaThricePlayed : Score :=
  { measures := [
      { tick := 0, ticks := 1920, playbackCount := 3 },
      { tick := 1920, ticks := 1920, repeatFlags := { END := true }, repeatCount := 3,
        playbackCount := 3 },
      { tick := 3840, ticks := 1920, playbackCount := 1 }],
    voltas := [{ tick := 1920, tick2 := 3840, endings := [1] }] }

/-- The list that `unwind` builds for `scoreVoltaThrice` under `unitTempo`. -/
def segsVoltaThrice : List (RepeatSegment Int) :=
  [{ tick := 0, len := 3840, utick := 0, utime := 0, timeOffset := 0 },
   { tick := 0, len := 1920, utick := 3840, utime := 3840, timeOffset := 3840 },
   { tick := 3840, len := 0, utick := 5760, utime := 5760, timeOffset := 1920 },
   { tick := 0, len := 1920, utick := 5760, utime := 5760, timeOffset := 5760 },
   { tick := 3840, len := 1920, utick := 7680, utime := 7680, timeOffset := 3840 }]

/-- Six measures of 1920 ticks; measure 6 carries the JUMP flag and a D.C. al
fine, measure 3 a Marker labelled "fine": the shape of `repeat07`. -/
def scoreRepeat07 : Score :=
  { measures := [
      { tick := 0, ticks := 1920 },
      { tick := 1920, ticks := 1920 },
      { tick := 3840, ticks := 1920, el := [Element.MARKER "fine"] },
      { tick := 5760, ticks := 1920 },
      { tick := 7680, ticks := 1920 },
      { tick := 9600, ticks := 1920, repeatFlags := { JUMP := true },
        el := [Element.JUMP { jumpTo := "start", playUntil := "fine", continueAt := "" }] }],
    voltas := [] }

/-- Three measures of 1920 ticks; measure 3 carries the JUMP flag and a Jump
with `jumpTo = "start"`, `playUntil = "end"` and an empty `continueAt`;
measure 2 carries a Marker whose label is the reserved word "end". -/
def scoreDCSentinel : Score :=
  { measures := [
      { tick := 0, ticks := 1920 },
      { tick := 1920, ticks := 1920, el := [Element.MARKER "end"] },
      { tick := 3840, ticks := 1920, repeatFlags := { JUMP := true },
        el := [Element.JUMP { jumpTo := "start", playUntil := "end", continueAt := "" }] }],
    voltas := [] }

/-- The score `scoreDCSentinel` with the playback counts left by `unwind`. -/
def scoreDCSentinelPlayed : Score :=
  { measures := [
      { tick := 0, ticks := 1920, playbackCount := 2 },
      { tick := 1920, ticks := 1920, playbackCount := 2, el := [Element.MARKER "end"] },
      { tick := 3840, ticks := 1920, repeatFlags := { JUMP := true }, playbackCount := 2,
        el := [Element.JUMP { jumpTo := "start", playUntil := "end", continueAt := "" }] }],
    voltas := [] }

/-- The list that `unwind` builds for `scoreDCSentinel` under `unitTempo`. -/
def segsDCSentinel : List (RepeatSegment Int) :=
  [{ tick := 0, len := 5760, utick := 0, utime := 0, timeOffset := 0 },
   { tick := 0, len := 5760, utick := 5760, utime := 5760, timeOffset := 5760 }]

/-- Eleven measures of 1920 ticks with a D.S. al coda on measure 6, the segno
on measure 2, the to-coda mark on measure 4 and the coda on measure 7: the
shape of `repeat08`. -/
def scoreRepeat08 : Score :=
  { measures := [
      { tick := 0, ticks := 1920 },
      { tick := 1920, ticks := 1920, el := [Element.MARKER "segno"] },
      { tick := 3840, ticks := 1920 },
      { tick := 5760, ticks := 1920, el := [Element.MARKER "coda"] },
      { tick := 7680, ticks := 1920 },
      { tick := 9600, ticks := 1920, repeatFlags := { JUMP := true },
        el := [Element.JUMP { jumpTo := "segno", playUntil := "coda", continueAt := "codab" }] },
      { tick := 11520, ticks := 1920, el := [Element.MARKER "codab"] },
      { tick := 13440, ticks := 1920 },
      { tick := 15360, ticks := 1920 },
      { tick := 17280, ticks := 1920 },
      { tick := 19200, ticks := 1920 }],
    voltas := [] }

/-- The five-measure score of `repeat34`, with measures ending at the ticks
`t1 < t2 < t3 < t4 < t5`: START on measure 2, END (repeat count 2) on measure 3
under a volta with ending set {1}, measure 4 under a volta with ending set
{2}, and measure 5 carrying START, END (repeat count 2) and JUMP with a D.C.
to the end. -/
def scoreRepeat34At (t1 t2 t3 t4 t5 : Int) : Score :=
  { measures := [
      { tick := 0, ticks := t1 - 0 },
      { tick := t1, ticks := t2 - t1, repeatFlags := { START := true } },
      { tick := t2, ticks := t3 - t2, repeatFlags := { END := true } },
      { tick := t3, ticks := t4 - t3 },
      { tick := t4, ticks := t5 - t4,
        repeatFlags := { START := true, END := true, JUMP := true },
        el := [Element.JUMP { jumpTo := "start", playUntil := "end", continueAt := "" }] }],
    voltas := [{ tick := t2, tick2 := t3, endings := [1] },
               { tick := t3, tick2 := t4, endings := [2] }] }

/-- The five-measure score of `repeat34` with measures of the lengths `l1`, ...,
`l5`, contiguous from tick 0. -/
def scoreRepeat34 (l1 l2 l3 l4 l5 : Int) : Score :=
  scoreRepeat34At l1 (l1 + l2) (l1 + l2 + l3) (l1 + l2 + l3 + l4) (l1 + l2 + l3 + l4 + l5)

/-- Six measures of 1920 ticks with START on measure 2, END (repeat count 2) on
measures 3 and 4, and voltas with the ending sets {1}, {2}, {3} on the measures
3, 4 and 5: the score described for `repeat09`. -/
def scoreThreeVoltas : Score :=
  { measures := [
      { tick := 0, ticks := 1920 },
      { tick := 1920, ticks := 1920, repeatFlags := { START := true } },
      { tick := 3840, ticks := 1920, repeatFlags := { END := true } },
      { tick := 5760, ticks := 1920, repeatFlags := { END := true } },
      { tick := 7680, ticks := 1920 },
      { tick := 9600, ticks := 1920 }],
    voltas := [{ tick := 3840, tick2 := 5760, endings := [1] },
               { tick := 5760, tick2 := 7680, endings := [2] },
               { tick := 7680, tick2 := 9600, endings := [3] }] }

/-- Five measures of 1920 ticks without jumps and voltas; measure 3 carries START
and END with the malformed repeat count 0. -/
def scoreEndCountZero : Score :=
  { measures := [
      { tick := 0, ticks := 1920 },
      { tick := 1920, ticks := 1920 },
      { tick := 3840, ticks := 1920, repeatFlags := { START := true, END := true },
        repeatCount := 0 },
      { tick := 5760, ticks := 1920 },
      { tick := 7680, ticks := 1920 }],
    voltas := [] }

/-- Four measures of 1920 ticks with a first and a second ending: END (repeat
count 2) on measure 2 under a volta with ending set {1}, measure 3 under a volta
with ending set {2}. -/
def scoreFirstSecondEnding : Score :=
  { measures := [
      { tick := 0, ticks := 1920 },
      { tick := 1920, ticks := 1920, repeatFlags := { END := true } },
      { tick := 3840, ticks := 1920 },
      { tick := 5760, ticks := 1920 }],
    voltas := [{ tick := 1920, tick2 := 3840, endings := [1] },
               { tick := 3840, tick2 := 5760, endings := [2] }] }

/-- The score `scoreFirstSecondEnding` with the playback counts that `unwind`
leaves. -/
def scoreFirstSecondEndingPlayed : Score :=
  { measures := [
      { tick := 0, ticks := 1920, playbackCount := 2 },
      { tick := 1920, ticks := 1920, repeatFlags := { END := true }, playbackCount := 2 },
      { tick := 3840, ticks := 1920, playbackCount := 1 },
      { tick := 5760, ticks := 1920, playbackCount := 1 }],
    voltas := [{ tick := 1920, tick2 := 3840, endings := [1] },
               { tick := 3840, tick2 := 5760, endings := [2] }] }

/-- The list that `unwind` builds for `scoreFirstSecondEnding` under `unitTempo`. -/
def segsFirstSecondEnding : List (RepeatSegment Int) :=
  [{ tick := 0, len := 3840, utick := 0, utime := 0, timeOffset := 0 },
   { tick := 0, len := 1920, utick := 3840, utime := 3840, timeOffset := 3840 },
   { tick := 3840, len := 3840, utick := 5760, utime := 5760, timeOffset := 1920 }]

/-- The state of `unwind` on `scoreRepeat07` at the head of the loop when `m`
first points at measure 6: the measures 1 to 5 have been visited once. -/
def stateRepeat07AtJump : UState Int :=
  { score :=
      { measures := [
          { tick := 0, ticks := 1920, playbackCount := 1 },
          { tick := 1920, ticks := 1920, playbackCount := 1 },
          { tick := 3840, ticks := 1920, el := [Element.MARKER "fine"], playbackCount := 1 },
          { tick := 5760, ticks := 1920, playbackCount := 1 },
          { tick := 7680, ticks := 1920, playbackCount := 1 },
          { tick := 9600, ticks := 1920, repeatFlags := { JUMP := true },
            el := [Element.JUMP { jumpTo := "start", playUntil := "fine", continueAt := "" }] }],
        voltas := [] },
    segs := [],
    rs := RepeatSegment.new,
    endRepeat := none,
    continueAt := none,
    loop := 0,
    repeatCount := 0,
    isGoto := false,
    jumps := [] }

/-- The state of `unwind` on `scoreFirstSecondEnding` at the head of the loop when
`m` points at measure 2 for the second time: the bracket closed by measure 2 is
open and the first pass has been appended. -/
def stateFirstSecondEndingAtSkip : UState Int :=
  { score :=
      { measures := [
          { tick := 0, ticks := 1920, playbackCount := 2 },
          { tick := 1920, ticks := 1920, repeatFlags := { END := true }, playbackCount := 1 },
          { tick := 3840, ticks := 1920 },
          { tick := 5760, ticks := 1920 }],
        voltas := [{ tick := 1920, tick2 := 3840, endings := [1] },
                   { tick := 3840, tick2 := 5760, endings := [2] }] },
    segs := [{ tick := 0, len := 3840, utick := 0, utime := 0, timeOffset := 0 }],
    rs := RepeatSegment.new,
    endRepeat := some 1,
    continueAt := none,
    loop := 1,
    repeatCount := 2,
    isGoto := false,
    jumps := [] }

/-- Three measures of 1920 ticks with a section break on measure 1 and END (repeat
count 2) on measure 3; no START. -/
def scoreSectionBreak : Score :=
  { measures := [
      { tick := 0, ticks := 1920, sectionBreak := true },
      { tick := 1920, ticks := 1920 },
      { tick := 3840, ticks := 1920, repeatFlags := { END := true } }],
    voltas := [] }

/-- Three measures of 1920 ticks; the measures 1 and 2 carry the JUMP flag and no
Jump element. -/
def scoreBareJumpFlags : Score :=
  { measures := [
      { tick := 0, ticks := 1920, repeatFlags := { JUMP := true } },
      { tick := 1920, ticks := 1920, repeatFlags := { JUMP := true } },
      { tick := 3840, ticks := 1920 }],
    voltas := [] }

/-- Three measures of 1920 ticks; measure 1 carries the JUMP flag and a Jump to
the Marker "s" of measure 2, measure 2 the JUMP flag and a D.C.; both Jumps play
until the end. -/
def scoreNestedJump : Score :=
  { measures := [
      { tick := 0, ticks := 1920, repeatFlags := { JUMP := true },
        el := [Element.JUMP { jumpTo := "s", playUntil := "end", continueAt := "" }] },
      { tick := 1920, ticks := 1920, repeatFlags := { JUMP := true },
        el := [Element.MARKER "s",
               Element.JUMP { jumpTo := "start", playUntil := "end", continueAt := "" }] },
      { tick := 3840, ticks := 1920 }],
    voltas := [] }

/-- Four measures of 1920 ticks: START on measure 2, END (repeat count 2) and a
Marker "fine" on measure 3, and on measure 1 the JUMP flag with a Jump whose
`jumpTo` matches no Marker and whose `playUntil` is "fine". -/
def scoreGarbageJump : Score :=
  { measures := [
      { tick := 0, ticks := 1920, repeatFlags := { JUMP := true },
        el := [Element.JUMP { jumpTo := "nowhere", playUntil := "fine", continueAt := "" }] },
      { tick := 1920, ticks := 1920, repeatFlags := { START := true } },
      { tick := 3840, ticks := 1920, repeatFlags := { END := true },
        el := [Element.MARKER "fine"] },
      { tick := 5760, ticks := 1920 }],
    voltas := [] }

/-- The score `scoreGarbageJump` with the JUMP flag and the Jump of measure 1
removed. -/
def scoreGarbageJumpRemoved : Score :=
  { measures := [
      { tick := 0, ticks := 1920 },
      { tick := 1920, ticks := 1920, repeatFlags := { START := true } },
      { tick := 3840, ticks := 1920, repeatFlags := { END := true },
        el := [Element.MARKER "fine"] },
      { tick := 5760, ticks := 1920 }],
    voltas := [] }

/-- Four measures of 1920 ticks: END with repeat count 1 on measure 1, START on
measure 2 and END (repeat count 2) on measure 3. -/
def scoreEndCountOne : Score :=
  { measures := [
      { tick := 0, ticks := 1920, repeatFlags := { END := true }, repeatCount := 1 },
      { tick := 1920, ticks := 1920, repeatFlags := { START := true } },
      { tick := 3840, ticks := 1920, repeatFlags := { END := true } },
      { tick := 5760, ticks := 1920 }],
    voltas := [] }

/-- The state of `unwind` on `scoreNestedJump` at the head of the loop after the
Jump of measure 1 has been taken and `m` points at measure 2: the bracket ending
at measure 3 is open. -/
def stateNestedJumpAtSecond : UState Int :=
  { score :=
      { measures := [
          { tick := 0, ticks := 1920, repeatFlags := { JUMP := true },
            el := [Element.JUMP { jumpTo := "s", playUntil := "end", continueAt := "" }],
            playbackCount := 1 },
          { tick := 1920, ticks := 1920, repeatFlags := { JUMP := true },
            el := [Element.MARKER "s",
                   Element.JUMP { jumpTo := "start", playUntil := "end", continueAt := "" }] },
          { tick := 3840, ticks := 1920 }],
        voltas := [] },
    segs := [{ tick := 0, len := 1920, utick := 0, utime := 0, timeOffset := 0 }],
    rs := { tick := 1920, len := 0, utick := 0, utime := 0, timeOffset := 0 },
    endRepeat := some 2,
    continueAt := none,
    loop := 0,
    repeatCount := 0,
    isGoto := true,
    jumps := [some (0, 0)] }

/-- Six measures of 1920 ticks whose only annotation is END (repeat count 2) on
measure 2: the shape of `repeat03`. -/
def scoreRepeat03 : Score :=
  { measures := [
      { tick := 0, ticks := 1920 },
      { tick := 1920, ticks := 1920, repeatFlags := { END := true } },
      { tick := 3840, ticks := 1920 },
      { tick := 5760, ticks := 1920 },
      { tick := 7680, ticks := 1920 },
      { tick := 9600, ticks := 1920 }],
    voltas := [] }

/-- Five measures of 1920 ticks with START on measure 2, END (repeat count 2) on
measure 3, and on measure 5 the JUMP flag with a D.C. that plays until the end. -/
def scoreRepeatDC : Score :=
  { measures := [
      { tick := 0, ticks := 1920 },
      { tick := 1920, ticks := 1920, repeatFlags := { START := true } },
      { tick := 3840, ticks := 1920, repeatFlags := { END := true } },
      { tick := 5760, ticks := 1920 },
      { tick := 7680, ticks := 1920, repeatFlags := { JUMP := true },
        el := [Element.JUMP { jumpTo := "start", playUntil := "end", continueAt := "" }] }],
    voltas := [] }

/-- Six measures of 1920 ticks with START on measure 2, END (repeat count 2) on
measure 3 under a volta with ending set {1}, and measure 4 under a volta with
ending set {2}: the shape of `repeat06`. -/
def scoreRepeat06 : Score :=
  { measures := [
      { tick := 0, ticks := 1920 },
      { tick := 1920, ticks := 1920, repeatFlags := { START := true } },
      { tick := 3840, ticks := 1920, repeatFlags := { END := true } },
      { tick := 5760, ticks := 1920 },
      { tick := 7680, ticks := 1920 },
      { tick := 9600, ticks := 1920 }],
    voltas := [{ tick := 3840, tick2 := 5760, endings := [1] },
               { tick := 5760, tick2 := 7680, endings := [2] }] }

/-- Three measures of 1920 ticks: a D.C. al fine whose Jump, on measure 3, has
`jumpTo = "start"`, `playUntil = "fine"` and an empty `continueAt`; measure 2
carries the Marker "fine" and measure 1 a Marker whose label is the empty
string. -/
def scoreEmptyLabel : Score :=
  { measures := [
      { tick := 0, ticks := 1920, el := [Element.MARKER ""] },
      { tick := 1920, ticks := 1920, el := [Element.MARKER "fine"] },
      { tick := 3840, ticks := 1920, repeatFlags := { JUMP := true },
        el := [Element.JUMP { jumpTo := "start", playUntil := "fine", continueAt := "" }] }],
    voltas := [] }

/-- The state of `unwind` on `scoreDCSentinel` at the head of the loop right
after the Jump on measure 3 has been taken: `m` points at measure 1 again. -/
def stateDCSentinelInGoto : UState Int :=
  { score :=
      { measures := [
          { tick := 0, ticks := 1920, playbackCount := 1 },
          { tick := 1920, ticks := 1920, playbackCount := 1, el := [Element.MARKER "end"] },
          { tick := 3840, ticks := 1920, repeatFlags := { JUMP := true }, playbackCount := 1,
            el := [Element.JUMP { jumpTo := "start", playUntil := "end", continueAt := "" }] }],
        voltas := [] },
    segs := [{ tick := 0, len := 5760, utick := 0, utime := 0, timeOffset := 0 }],
    rs := RepeatSegment.new,
    endRepeat := some 2,
    continueAt := none,
    loop := 0,
    repeatCount := 0,
    isGoto := true,
    jumps := [some (2, 0)] }

/-- Two measures of 1920 ticks: START and the JUMP flag, with no Jump element, on
measure 1, END (repeat count 2) on measure 2. -/
def scoreBareJumpInRepeat : Score :=
  { measures := [
      { tick := 0, ticks := 1920, repeatFlags := { START := true, JUMP := true } },
      { tick := 1920, ticks := 1920, repeatFlags := { END := true } }],
    voltas := [] }

/-! ## Termination measure of the measure loop -/

/-- The `Jump*` values that the loop of `unwind` can store in `jumps`: for every
measure the first element of type `JUMP`, or null. -/
def jumpCandidates (sc : Score) : List (Option JumpPtr) :=
  (List.range sc.measures.length).map
    (fun k => (firstJump 0 (sc.measure k).el).map (fun p => (k, p.1)))

/-- The number of measures whose `Jump*` value is not yet stored in `jumps`. -/
def jumpRank (sc : Score) (jumps : List (Option JumpPtr)) : Nat :=
  (jumpCandidates sc).countP (fun c => !jumps.contains c)

/-- The visits still missing, summed over the measures, before the playback
count reaches the repeat count. -/
def countRank (sc : Score) : Nat :=
  ((List.range sc.measures.length).map
    (fun k => ((sc.measure k).repeatCount - (sc.measure k).playbackCount).toNat)).sum

/-- The passes of the open bracket still missing, outside a D.C. or D.S. -/
def loopRank (st : UState R) : Nat :=
  if st.isGoto = false ∧ st.endRepeat.isSome = true then (st.repeatCount - st.loop).toNat else 0

/-- The quantity that decreases, in lexicographic order, with every pass
through the body of the measure loop of `unwind`. -/
def walkRank (st : UState R) (mi : Nat) : Nat × Nat × Nat × Nat × Nat :=
  (jumpRank st.score st.jumps, countRank st.score, if st.isGoto then 1 else 0, loopRank st,
    st.score.measures.length - mi)

/-- The lexicographic order on the values of `walkRank`. -/
def RankLt : Nat × Nat × Nat × Nat × Nat → Nat × Nat × Nat × Nat × Nat → Prop :=
  Prod.Lex (· < ·) (Prod.Lex (· < ·) (Prod.Lex (· < ·) (Prod.Lex (· < ·) (· < ·))))

/-- The state of `unwind` on `scoreDCSentinel` at the head of the loop when `m`
first points at measure 3: the measures 1 and 2 have been visited once. -/
def stateDCSentinelAtJump : UState Int :=
  { score :=
      { measures := [
          { tick := 0, ticks := 1920, playbackCount := 1 },
          { tick := 1920, ticks := 1920, playbackCount := 1, el := [Element.MARKER "end"] },
          { tick := 3840, ticks := 1920, repeatFlags := { JUMP := true },
            el := [Element.JUMP { jumpTo := "start", playUntil := "end", continueAt := "" }] }],
        voltas := [] },
    segs := [],
    rs := RepeatSegment.new,
    endRepeat := none,
    continueAt := none,
    loop := 0,
    repeatCount := 0,
    isGoto := false,
    jumps := [] }

/-- The state of `unwind` on `scoreDCSentinel` at the head of the loop when `m`
points at measure 3 for the second time, during the D.C. -/
def stateDCSentinelAtRevisit : UState Int :=
  { score :=
      { measures := [
          { tick := 0, ticks := 1920, playbackCount := 2 },
          { tick := 1920, ticks := 1920, playbackCount := 2, el := [Element.MARKER "end"] },
          { tick := 3840, ticks := 1920, repeatFlags := { JUMP := true }, playbackCount := 1,
            el := [Element.JUMP { jumpTo := "start", playUntil := "end", continueAt := "" }] }],
        voltas := [] },
    segs := [{ tick := 0, len := 5760, utick := 0, utime := 0, timeOffset := 0 }],
    rs := RepeatSegment.new,
    endRepeat := some 2,
    continueAt := none,
    loop := 0,
    repeatCount := 0,
    isGoto := true,
    jumps := [some (2, 0)] }

/-! ## Basic facts -/

theorem updateFrom_head [Add R] [Sub R] (tl : TempoMap R) (segs : List (RepeatSegment R))
    (u : Int) (t : R) (s : RepeatSegment R) (h : (updateFrom tl u t segs).head? = some s) :
    s.utick = u := by
  cases segs with
  | nil => simp [updateFrom] at h
  | cons a rest =>
    simp [updateFrom] at h
    rw [← h]

theorem updateFrom_chain [Add R] [Sub R] (tl : TempoMap R) (segs : List (RepeatSegment R)) :
    ∀ (u : Int) (t : R) (i : Nat) (a b : RepeatSegment R),
      (updateFrom tl u t segs).get? i = some a →
      (updateFrom tl u t segs).get? (i + 1) = some b →
      b.utick = a.utick + a.len := by
  induction segs with
  | nil => intro u t i a b h; simp [updateFrom] at h
  | cons s rest ih =>
    intro u t i a b ha hb
    cases i with
    | zero =>
      simp [updateFrom] at ha hb
      have hb1 : (updateFrom tl (u + s.len)
          (t + (tl.tick2time (s.tick + s.len) - tl.tick2time s.tick)) rest).head? = some b := by
        rw [List.head?_eq_getElem?]; simpa using hb
      have := updateFrom_head tl rest _ _ b hb1
      rw [this, ← ha]
    | succ k =>
      simp [updateFrom] at ha hb
      exact ih _ _ k a b (by simpa using ha) (by simpa using hb)

/-- The fields `tick` and `len` of the segments are left alone by `update`. -/
theorem updateFrom_tick_len [Add R] [Sub R] (tl : TempoMap R) (segs : List (RepeatSegment R)) :
    ∀ (u : Int) (t : R),
      (updateFrom tl u t segs).map (fun s => (s.tick, s.len)) =
        segs.map (fun s => (s.tick, s.len)) := by
  induction segs with
  | nil => intro u t; rfl
  | cons s rest ih => intro u t; simp [updateFrom, ih]

theorem update_tick_len [Zero R] [Add R] [Sub R] (tl : TempoMap R) (segs : List (RepeatSegment R)) :
    (update tl segs).map (fun s => (s.tick, s.len)) = segs.map (fun s => (s.tick, s.len)) :=
  updateFrom_tick_len tl segs 0 0

theorem update_len_nonneg [Zero R] [Add R] [Sub R] (tl : TempoMap R)
    (segs : List (RepeatSegment R)) (h : ∀ s ∈ segs, 0 ≤ s.len) :
    ∀ s ∈ update tl segs, 0 ≤ s.len := by
  intro s hs
  have h1 : (s.tick, s.len) ∈ (update tl segs).map (fun s => (s.tick, s.len)) :=
    List.mem_map.mpr ⟨s, hs, rfl⟩
  rw [update_tick_len] at h1
  obtain ⟨s0, hs0, he⟩ := List.mem_map.mp h1
  have := h s0 hs0
  simp only [Prod.mk.injEq] at he
  omega

/-! ### The loop -/

theorem voltaAndJumpFlag_score [Zero R] (st : UState R) (m : Measure) :
    (voltaAndJumpFlag st m).1.score = st.score := by
  unfold voltaAndJumpFlag
  repeat' split
  all_goals rfl

theorem jumpOrAdvance_score [Zero R] (st : UState R) (mi : Nat) (dj : Bool) :
    (jumpOrAdvance st mi dj).Post (fun st1 _ => st1.score = st.score)
      (fun st1 => st1.score = st.score) (fun sc _ => sc = st.score) := by
  unfold jumpOrAdvance
  simp only []
  repeat' split
  all_goals first | rfl | trivial

theorem gotoOrEnd_score [Zero R] [Add R] [Sub R] (tl : TempoMap R) (st : UState R) (mi : Nat)
    (dj : Bool) :
    (gotoOrEnd tl st mi dj).Post (fun st1 _ => st1.score = st.score)
      (fun st1 => st1.score = st.score) (fun sc _ => sc = st.score) := by
  unfold gotoOrEnd
  simp only []
  repeat' split
  all_goals first | rfl | exact jumpOrAdvance_score _ mi dj

theorem countVisit_score (st : UState R) (mi : Nat) :
    (countVisit st mi).score =
      st.score.incPlaybackCount mi := by
  unfold countVisit
  simp only []
  split <;> rfl

theorem body_score [Zero R] [Add R] [Sub R] (tl : TempoMap R) (st : UState R) (mi : Nat) :
    (body tl st mi).Post
      (fun st1 _ => st1.score = st.score.incPlaybackCount mi)
      (fun st1 => st1.score = st.score.incPlaybackCount mi)
      (fun sc _ => sc = st.score.incPlaybackCount mi) := by
  have h := gotoOrEnd_score tl
    (voltaAndJumpFlag (countVisit st mi) ((countVisit st mi).score.measure mi)).1 mi
    (voltaAndJumpFlag (countVisit st mi) ((countVisit st mi).score.measure mi)).2
  have e : (voltaAndJumpFlag (countVisit st mi) ((countVisit st mi).score.measure mi)).1.score =
      st.score.incPlaybackCount mi := by
    rw [voltaAndJumpFlag_score, countVisit_score]
  rw [e] at h
  exact h

/-- Invariant rule for the measure loop: a property of the loop state that every
pass through the body keeps, and that gives `Q` on every way out, gives `Q` for
the outcome of the loop. -/
theorem unwindLoop_post [Zero R] [Add R] [Sub R] (tl : TempoMap R)
    (P : UState R → Option Nat → Prop) (Q : Outcome R → Prop)
    (hbody : ∀ st mi, P st (some mi) →
      (body tl st mi).Post P (fun st1 => Q (finish tl st1)) (fun sc segs => Q (Outcome.done sc segs)))
    (hcrash : Q Outcome.crash)
    (hfin : ∀ st, P st none → Q (finish tl st)) :
    ∀ (fuel : Nat) (st : UState R) (m : Option Nat) (o : Outcome R),
      P st m → unwindLoop tl fuel st m = some o → Q o := by
  intro fuel
  induction fuel with
  | zero =>
    intro st m o hP h
    cases m with
    | none => simp [unwindLoop] at h; rw [← h]; exact hfin st hP
    | some mi => simp [unwindLoop] at h
  | succ f ih =>
    intro st m o hP h
    cases m with
    | none => simp [unwindLoop] at h; rw [← h]; exact hfin st hP
    | some mi =>
      have hb := hbody st mi hP
      rw [unwindLoop] at h
      cases hs : body tl st mi with
      | next st1 m1 =>
        rw [hs] at h hb
        exact ih st1 m1 o hb h
      | brk st1 =>
        rw [hs] at h hb
        simp at h; rw [← h]; exact hb
      | ret sc segs =>
        rw [hs] at h hb
        simp at h; rw [← h]; exact hb
      | crash =>
        rw [hs] at h
        simp at h; rw [← h]; exact hcrash

/-- More budget does not change a result already reached. -/
theorem unwindLoop_mono [Zero R] [Add R] [Sub R] (tl : TempoMap R) :
    ∀ (fuel k : Nat) (st : UState R) (m : Option Nat) (o : Outcome R),
      unwindLoop tl fuel st m = some o → unwindLoop tl (fuel + k) st m = some o := by
  intro fuel
  induction fuel with
  | zero =>
    intro k st m o h
    cases m with
    | none =>
      cases k <;> simpa [unwindLoop] using h
    | some mi => simp [unwindLoop] at h
  | succ f ih =>
    intro k st m o h
    cases m with
    | none =>
      simp only [unwindLoop] at h ⊢
      cases hk : f + 1 + k <;> simpa [unwindLoop] using h
    | some mi =>
      have e : f + 1 + k = (f + k) + 1 := by omega
      rw [e]
      rw [unwindLoop] at h ⊢
      cases hs : body tl st mi with
      | next st1 m1 =>
        rw [hs] at h
        exact ih k st1 m1 o h
      | brk st1 => rw [hs] at h; exact h
      | ret sc segs => rw [hs] at h; exact h
      | crash => rw [hs] at h; exact h

/-! ### Playback counts and the rest of the score -/

theorem measure_reset (sc : Score) (k : Nat) :
    (resetPlaybackCounts sc).measure k = (sc.measure k).setPlaybackCount 0 := by
  unfold resetPlaybackCounts Score.measure
  simp only [List.getD_eq_getElem?_getD, List.getElem?_map]
  cases sc.measures[k]? <;> rfl

theorem reset_setPlaybackCount (sc : Score) (i : Nat) (c : Int) :
    resetPlaybackCounts (sc.setPlaybackCount i c) = resetPlaybackCounts sc := by
  unfold resetPlaybackCounts Score.setPlaybackCount
  simp only [Score.mk.injEq, and_true]
  apply List.ext_getElem?
  intro k
  simp only [List.getElem?_map, List.getElem?_modify]
  cases sc.measures[k]? with
  | none => rfl
  | some m =>
    by_cases h : i = k
    · simp [h, Measure.setPlaybackCount]
    · simp [h]

theorem reset_reset (sc : Score) :
    resetPlaybackCounts (resetPlaybackCounts sc) = resetPlaybackCounts sc := by
  unfold resetPlaybackCounts
  simp [Measure.setPlaybackCount]

theorem length_of_reset_eq {sc sc1 : Score}
    (h : resetPlaybackCounts sc = resetPlaybackCounts sc1) :
    sc.measures.length = sc1.measures.length := by
  have := congrArg (fun s => s.measures.length) h
  simpa [resetPlaybackCounts] using this

theorem firstMeasure_of_reset_eq {sc sc1 : Score}
    (h : resetPlaybackCounts sc = resetPlaybackCounts sc1) :
    sc.firstMeasure = sc1.firstMeasure := by
  unfold Score.firstMeasure
  rw [length_of_reset_eq h]

theorem finish_score [Zero R] [Add R] [Sub R] (tl : TempoMap R) (st : UState R) :
    (finish tl st).Post (fun sc _ => sc = st.score) := by
  unfold finish
  simp only []
  split <;> rfl

/-- The loop changes nothing of the score but playback counts. -/
theorem unwindLoop_reset [Zero R] [Add R] [Sub R] (tl : TempoMap R) (sc0 : Score)
    (fuel : Nat) (st : UState R) (m : Option Nat) (o : Outcome R)
    (h0 : resetPlaybackCounts st.score = resetPlaybackCounts sc0)
    (h : unwindLoop tl fuel st m = some o) :
    o.Post (fun sc _ => resetPlaybackCounts sc = resetPlaybackCounts sc0) := by
  refine unwindLoop_post tl (fun st _ => resetPlaybackCounts st.score = resetPlaybackCounts sc0)
    (fun o => o.Post (fun sc _ => resetPlaybackCounts sc = resetPlaybackCounts sc0))
    ?_ trivial ?_ fuel st m o h0 h
  · intro st mi hP
    have hb := body_score tl st mi
    cases hs : body tl st mi with
    | next st1 m1 =>
      rw [hs] at hb
      show resetPlaybackCounts st1.score = _
      rw [show st1.score = _ from hb, Score.incPlaybackCount, reset_setPlaybackCount]; exact hP
    | brk st1 =>
      rw [hs] at hb
      have hf := finish_score tl st1
      show (finish tl st1).Post _
      cases hfin : finish tl st1 with
      | done sc segs =>
        rw [hfin] at hf
        show resetPlaybackCounts sc = _
        rw [show sc = st1.score from hf, show st1.score = _ from hb, Score.incPlaybackCount,
          reset_setPlaybackCount]
        exact hP
      | crash => trivial
    | ret sc segs =>
      rw [hs] at hb
      show resetPlaybackCounts sc = _
      rw [show sc = _ from hb, Score.incPlaybackCount, reset_setPlaybackCount]; exact hP
    | crash => trivial
  · intro st hP
    have hf := finish_score tl st
    cases hfin : finish tl st with
    | done sc segs =>
      rw [hfin] at hf
      show resetPlaybackCounts sc = _
      rw [show sc = st.score from hf]; exact hP
    | crash => trivial

theorem initState_of_reset_eq [Zero R] {sc sc1 : Score}
    (h : resetPlaybackCounts sc = resetPlaybackCounts sc1) (cleared : List (RepeatSegment R)) :
    initState sc cleared = initState sc1 cleared := by
  unfold initState
  rw [h]

/-! ### Measures of a score -/

theorem length_setPlaybackCount (sc : Score) (i : Nat) (c : Int) :
    (sc.setPlaybackCount i c).measures.length = sc.measures.length := by
  simp [Score.setPlaybackCount]

theorem measure_setPlaybackCount (sc : Score) (i : Nat) (c : Int) (k : Nat) :
    (sc.setPlaybackCount i c).measure k =
      if i = k ∧ k < sc.measures.length then (sc.measure k).setPlaybackCount c
      else sc.measure k := by
  unfold Score.setPlaybackCount Score.measure
  simp only [List.getD_eq_getElem?_getD, List.getElem?_modify]
  by_cases hk : k < sc.measures.length
  · rw [List.getElem?_eq_getElem hk]
    by_cases h : i = k
    · simp [h, hk]
    · simp [h]
  · rw [List.getElem?_eq_none (by omega)]
    simp [hk]

theorem measure_setPlaybackCount_tick (sc : Score) (i : Nat) (c : Int) (k : Nat) :
    ((sc.setPlaybackCount i c).measure k).tick = (sc.measure k).tick := by
  rw [measure_setPlaybackCount]; split <;> rfl

theorem measure_setPlaybackCount_ticks (sc : Score) (i : Nat) (c : Int) (k : Nat) :
    ((sc.setPlaybackCount i c).measure k).ticks = (sc.measure k).ticks := by
  rw [measure_setPlaybackCount]; split <;> rfl

theorem measure_setPlaybackCount_endTick (sc : Score) (i : Nat) (c : Int) (k : Nat) :
    ((sc.setPlaybackCount i c).measure k).endTick = (sc.measure k).endTick := by
  rw [measure_setPlaybackCount]; split <;> rfl

theorem contiguous_setPlaybackCount (sc : Score) (i : Nat) (c : Int) (h : Contiguous sc) :
    Contiguous (sc.setPlaybackCount i c) := by
  unfold Contiguous at h ⊢
  simp only [length_setPlaybackCount, measure_setPlaybackCount_tick,
    measure_setPlaybackCount_ticks, measure_setPlaybackCount_endTick]
  exact h

theorem contiguous_tick_le (sc : Score) (h : Contiguous sc) (i : Nat) :
    ∀ d, i + d < sc.measures.length → (sc.measure i).endTick ≤ (sc.measure (i + d)).endTick := by
  intro d
  induction d with
  | zero => intro _; exact le_refl _
  | succ d ih =>
    intro hd
    have h1 := ih (by omega)
    have h2 := h.2.2 (i + d) (by omega)
    have h3 := h.1 (i + d + 1) (by omega)
    have e : i + (d + 1) = i + d + 1 := by omega
    rw [e]
    unfold Measure.endTick at h1 h2 ⊢
    omega

theorem contiguous_endTick_le_last (sc : Score) (h : Contiguous sc) (i : Nat)
    (hi : i < sc.measures.length) :
    (sc.measure i).endTick ≤ (sc.measure (sc.measures.length - 1)).endTick := by
  have := contiguous_tick_le sc h i (sc.measures.length - 1 - i) (by omega)
  have e : i + (sc.measures.length - 1 - i) = sc.measures.length - 1 := by omega
  rw [e] at this
  exact this

theorem contiguous_tick_le_endTick (sc : Score) (h : Contiguous sc) (i : Nat)
    (hi : i < sc.measures.length) : (sc.measure i).tick ≤ (sc.measure i).endTick := by
  have := h.1 i hi
  unfold Measure.endTick
  omega

theorem searchLabelFrom_lt (s : String) (ms : List Measure) :
    ∀ (i k : Nat), searchLabelFrom s i ms = some k → k < i + ms.length := by
  induction ms with
  | nil => intro i k h; simp [searchLabelFrom] at h
  | cons m rest ih =>
    intro i k h
    simp only [searchLabelFrom] at h
    split at h
    · simp at h; simp; omega
    · have := ih (i + 1) k h
      simp; omega

theorem searchLabel_lt (sc : Score) (s : String) (k : Nat) (h : sc.searchLabel s = some k) :
    k < sc.measures.length := by
  unfold Score.searchLabel Score.firstMeasure Score.lastMeasure at h
  split at h
  · split at h
    · simp at h
    · simp at h; omega
  · split at h
    · split at h
      · simp at h
      · simp at h; omega
    · have := searchLabelFrom_lt s sc.measures 0 k h
      omega

theorem startRepeat_le (sc : Score) (m : Nat) : startRepeat sc m ≤ m := by
  induction m with
  | zero => simp [startRepeat]
  | succ k ih =>
    simp only [startRepeat]
    split
    · exact le_refl _
    · split
      · exact le_refl _
      · omega

/-! ### Segment lengths are never negative -/

theorem lenInv_next (sc : Score) (segs : List (RepeatSegment R)) (cont : Option Nat) (t : Int)
    (mi : Nat) (h : MidInv sc segs cont t mi) : LenInv sc segs cont t (sc.nextMeasure mi) := by
  obtain ⟨hc, hs, hk, hm, ht⟩ := h
  unfold Score.nextMeasure
  split
  · next h1 =>
    refine ⟨hc, hs, hk, h1, ?_⟩
    rw [hc.2.2 mi h1]; exact ht
  · next h1 =>
    refine ⟨hc, hs, hk, by omega, ?_⟩
    have e : sc.measures.length - 1 = mi := by omega
    rw [e]; exact ht

theorem lenInv_brk (sc : Score) (segs : List (RepeatSegment R)) (cont : Option Nat) (t : Int)
    (mi : Nat) (h : MidInv sc segs cont t mi) : LenInv sc segs cont t none := by
  obtain ⟨hc, hs, hk, hm, ht⟩ := h
  refine ⟨hc, hs, hk, by omega, ?_⟩
  have := contiguous_endTick_le_last sc hc mi hm
  omega

theorem lenInv_close (sc : Score) (segs : List (RepeatSegment R)) (cont cont1 : Option Nat)
    (t : Int) (mi k : Nat) (rs : RepeatSegment R)
    (h : MidInv sc segs cont t mi) (hk : k < sc.measures.length)
    (hc1 : ∀ c, cont1 = some c → c < sc.measures.length)
    (hl : rs.len = (sc.measure mi).endTick - t) :
    LenInv sc (segs ++ [rs]) cont1 (sc.measure k).tick (some k) := by
  obtain ⟨hc, hs, _, hm, ht⟩ := h
  refine ⟨hc, ?_, hc1, hk, le_refl _⟩
  intro s hs1
  rcases List.mem_append.mp hs1 with h1 | h1
  · exact hs s h1
  · simp at h1; subst h1; omega

theorem midInv_cont (sc : Score) (segs : List (RepeatSegment R)) (cont cont1 : Option Nat)
    (t : Int) (mi : Nat) (h : MidInv sc segs cont t mi)
    (hc1 : ∀ c, cont1 = some c → c < sc.measures.length) : MidInv sc segs cont1 t mi := by
  obtain ⟨hc, hs, _, hm, ht⟩ := h
  exact ⟨hc, hs, hc1, hm, ht⟩

theorem voltaAndJumpFlag_inv [Zero R] (st : UState R) (mi : Nat)
    (h : LenInv st.score st.segs st.continueAt st.rs.tick (some mi)) :
    MidInv (voltaAndJumpFlag st (st.score.measure mi)).1.score
      (voltaAndJumpFlag st (st.score.measure mi)).1.segs
      (voltaAndJumpFlag st (st.score.measure mi)).1.continueAt
      (voltaAndJumpFlag st (st.score.measure mi)).1.rs.tick mi := by
  obtain ⟨hc, hs, hk, hm, ht⟩ := h
  have hle := contiguous_tick_le_endTick st.score hc mi hm
  have hplain : MidInv st.score st.segs st.continueAt st.rs.tick mi :=
    ⟨hc, hs, hk, hm, by omega⟩
  unfold voltaAndJumpFlag
  repeat' split
  all_goals first
    | exact hplain
    | (refine ⟨hc, ?_, hk, hm, le_refl _⟩
       intro s hs1
       rcases List.mem_append.mp hs1 with h1 | h1
       · exact hs s h1
       · simp at h1; subst h1; simp; omega)
    | exact ⟨hc, hs, hk, hm, le_refl _⟩

theorem jumpOrAdvance_inv [Zero R] (st : UState R) (mi : Nat) (dj : Bool)
    (T : Score → List (RepeatSegment R) → Prop)
    (h : MidInv st.score st.segs st.continueAt st.rs.tick mi) :
    (jumpOrAdvance st mi dj).Post
      (fun st1 m1 => LenInv st1.score st1.segs st1.continueAt st1.rs.tick m1)
      (fun st1 => LenInv st1.score st1.segs st1.continueAt st1.rs.tick none) T := by
  unfold jumpOrAdvance
  simp only []
  repeat' split
  all_goals first
    | trivial
    | exact lenInv_next _ _ _ _ _ h
    | exact lenInv_next _ _ _ _ _ (midInv_cont _ _ _ _ _ _ h (fun c hc => searchLabel_lt _ _ c hc))
    | exact lenInv_close _ _ _ _ _ _ _ _ h (searchLabel_lt _ _ _ (by assumption))
        (fun c hc => searchLabel_lt _ _ c hc) rfl

theorem jumpToStartRepeat_inv [Zero R] (st : UState R) (mi : Nat)
    (h : MidInv st.score st.segs st.continueAt st.rs.tick mi) :
    LenInv (jumpToStartRepeat st mi).1.score (jumpToStartRepeat st mi).1.segs
      (jumpToStartRepeat st mi).1.continueAt (jumpToStartRepeat st mi).1.rs.tick
      (some (jumpToStartRepeat st mi).2) := by
  have hle := startRepeat_le st.score mi
  have hm := h.2.2.2.1
  exact lenInv_close st.score st.segs st.continueAt st.continueAt st.rs.tick mi
    (startRepeat st.score mi) _ h (by omega) h.2.2.1 rfl

theorem gotoOrEnd_inv [Zero R] [Add R] [Sub R] (tl : TempoMap R) (st : UState R) (mi : Nat)
    (dj : Bool) (h : MidInv st.score st.segs st.continueAt st.rs.tick mi) :
    (gotoOrEnd tl st mi dj).Post
      (fun st1 m1 => LenInv st1.score st1.segs st1.continueAt st1.rs.tick m1)
      (fun st1 => LenInv st1.score st1.segs st1.continueAt st1.rs.tick none)
      (fun _ segs => ∃ base : List (RepeatSegment R),
        segs = update tl base ∧ ∀ s ∈ base, 0 ≤ s.len) := by
  obtain ⟨hc, hs, hk, hm, ht⟩ := h
  have h0 : MidInv st.score st.segs st.continueAt st.rs.tick mi := ⟨hc, hs, hk, hm, ht⟩
  unfold gotoOrEnd
  simp only []
  repeat' split
  all_goals first
    | exact jumpOrAdvance_inv _ mi dj _ h0
    | exact lenInv_brk _ _ _ _ _ h0
    | exact jumpToStartRepeat_inv _ mi h0
    | exact ⟨_, rfl, hs⟩
    | (refine ⟨_, rfl, ?_⟩
       intro s hs1
       rcases List.mem_append.mp hs1 with h1 | h1
       · exact hs s h1
       · simp at h1; subst h1; simp; omega)
    | exact lenInv_close _ _ _ _ _ _ _ _ h0 (hk _ (by assumption)) hk rfl

theorem countVisit_inv (st : UState R) (mi : Nat)
    (h : LenInv st.score st.segs st.continueAt st.rs.tick (some mi)) :
    LenInv (countVisit st mi).score (countVisit st mi).segs (countVisit st mi).continueAt
      (countVisit st mi).rs.tick (some mi) := by
  obtain ⟨hc, hs, hk, hm, ht⟩ := h
  have h1 : LenInv (st.score.incPlaybackCount mi)
      st.segs st.continueAt st.rs.tick (some mi) := by
    unfold Score.incPlaybackCount
    refine ⟨contiguous_setPlaybackCount _ _ _ hc, hs, ?_, ?_, ?_⟩
    · simpa [length_setPlaybackCount] using hk
    · simpa [length_setPlaybackCount] using hm
    · rw [measure_setPlaybackCount_tick]; exact ht
  unfold countVisit
  simp only []
  split <;> exact h1

theorem body_inv [Zero R] [Add R] [Sub R] (tl : TempoMap R) (st : UState R) (mi : Nat)
    (h : LenInv st.score st.segs st.continueAt st.rs.tick (some mi)) :
    (body tl st mi).Post
      (fun st1 m1 => LenInv st1.score st1.segs st1.continueAt st1.rs.tick m1)
      (fun st1 => LenInv st1.score st1.segs st1.continueAt st1.rs.tick none)
      (fun _ segs => ∃ base : List (RepeatSegment R),
        segs = update tl base ∧ ∀ s ∈ base, 0 ≤ s.len) :=
  gotoOrEnd_inv tl _ mi _ (voltaAndJumpFlag_inv _ mi (countVisit_inv st mi h))

theorem finish_inv [Zero R] [Add R] [Sub R] (tl : TempoMap R) (st : UState R)
    (h : LenInv st.score st.segs st.continueAt st.rs.tick none) :
    (finish tl st).Post (fun _ segs => ∃ base : List (RepeatSegment R),
        segs = update tl base ∧ ∀ s ∈ base, 0 ≤ s.len) := by
  obtain ⟨hc, hs, hk, hm, ht⟩ := h
  unfold finish
  simp only []
  split
  · refine ⟨_, rfl, ?_⟩
    intro s hs1
    rcases List.mem_append.mp hs1 with h1 | h1
    · exact hs s h1
    · simp at h1; subst h1; simp; omega
  · exact ⟨_, rfl, hs⟩

theorem contiguous_reset (sc : Score) (h : Contiguous sc) :
    Contiguous (resetPlaybackCounts sc) := by
  unfold Contiguous at h ⊢
  have hl : (resetPlaybackCounts sc).measures.length = sc.measures.length := by
    simp [resetPlaybackCounts]
  simp only [hl, measure_reset, Measure.endTick, Measure.setPlaybackCount]
  exact h

/-- On a contiguous score every list returned by `unwind` is `update` applied to
a list of segments of non-negative length. -/
theorem unwind_base [Zero R] [Add R] [Sub R] (tl : TempoMap R) (fuel : Nat) (sc sc1 : Score)
    (old segs : List (RepeatSegment R)) (hc : Contiguous sc)
    (h : unwind tl fuel sc old = some (Outcome.done sc1 segs)) :
    ∃ base : List (RepeatSegment R), segs = update tl base ∧ ∀ s ∈ base, 0 ≤ s.len := by
  unfold unwind at h
  simp only [List.drop_length] at h
  cases hfm : sc.firstMeasure with
  | none =>
    rw [hfm] at h
    simp only [Option.some.injEq, Outcome.done.injEq] at h
    exact ⟨[], by rw [← h.2]; rfl, by simp⟩
  | some fm =>
    rw [hfm] at h
    simp only [] at h
    have hfm0 : fm = 0 ∧ 0 < sc.measures.length := by
      unfold Score.firstMeasure at hfm
      split at hfm
      · simp at hfm
      · simp at hfm; omega
    have hl : (resetPlaybackCounts sc).measures.length = sc.measures.length := by
      simp [resetPlaybackCounts]
    have hcr := contiguous_reset sc hc
    have := unwindLoop_post tl
      (fun st m => LenInv st.score st.segs st.continueAt st.rs.tick m)
      (fun o => o.Post (fun _ segs => ∃ base : List (RepeatSegment R),
        segs = update tl base ∧ ∀ s ∈ base, 0 ≤ s.len))
      (fun st mi hP => by
        have hb := body_inv tl st mi hP
        cases hs : body tl st mi with
        | next st1 m1 => rw [hs] at hb; exact hb
        | brk st1 => rw [hs] at hb; exact finish_inv tl st1 hb
        | ret sc2 segs2 => rw [hs] at hb; exact hb
        | crash => trivial)
      trivial (fun st hP => finish_inv tl st hP)
      fuel (initState sc []) (some fm) _
      (by
        refine ⟨hcr, by simp [initState], by simp [initState], ?_, ?_⟩
        · simp [initState, hl, hfm0]
        · simp only [initState, hfm0.1, RepeatSegment.new]
          rw [hcr.2.1]) h
    exact this

theorem update_prefixSums [Zero R] [Add R] [Sub R] (tl : TempoMap R)
    (base : List (RepeatSegment R)) : UtickPrefixSums (update tl base) :=
  ⟨fun s h => updateFrom_head tl base 0 0 s h,
   fun i a b ha hb => updateFrom_chain tl base 0 0 i a b ha hb⟩

theorem jumpOrAdvance_noret [Zero R] (st : UState R) (mi : Nat) (dj : Bool)
    (T : Score → List (RepeatSegment R) → Prop) :
    (jumpOrAdvance st mi dj).Post (fun _ _ => True) (fun _ => True) T := by
  unfold jumpOrAdvance
  simp only []
  repeat' split
  all_goals trivial

theorem body_ret_update [Zero R] [Add R] [Sub R] (tl : TempoMap R) (st : UState R) (mi : Nat) :
    (body tl st mi).Post (fun _ _ => True) (fun _ => True)
      (fun _ segs => ∃ base : List (RepeatSegment R), segs = update tl base) := by
  unfold body gotoOrEnd
  simp only []
  repeat' split
  all_goals first
    | trivial
    | exact jumpOrAdvance_noret _ mi _ _
    | exact ⟨_, rfl⟩

theorem finish_update [Zero R] [Add R] [Sub R] (tl : TempoMap R) (st : UState R) :
    (finish tl st).Post (fun _ segs => ∃ base : List (RepeatSegment R), segs = update tl base) := by
  unfold finish
  simp only []
  split <;> exact ⟨_, rfl⟩

/-- Every list returned by `unwind` has just been through `update`. -/
theorem unwind_is_update [Zero R] [Add R] [Sub R] (tl : TempoMap R) (fuel : Nat)
    (sc sc1 : Score) (old segs : List (RepeatSegment R))
    (h : unwind tl fuel sc old = some (Outcome.done sc1 segs)) :
    ∃ base : List (RepeatSegment R), segs = update tl base := by
  unfold unwind at h
  simp only [List.drop_length] at h
  cases hfm : sc.firstMeasure with
  | none =>
    rw [hfm] at h
    simp only [Option.some.injEq, Outcome.done.injEq] at h
    exact ⟨[], by rw [← h.2]; rfl⟩
  | some fm =>
    rw [hfm] at h
    simp only [] at h
    exact unwindLoop_post tl (fun _ _ => True)
      (fun o => o.Post (fun _ segs => ∃ base : List (RepeatSegment R), segs = update tl base))
      (fun st mi _ => by
        have hb := body_ret_update tl st mi
        cases hs : body tl st mi with
        | next st1 m1 => trivial
        | brk st1 => exact finish_update tl st1
        | ret sc2 segs2 => rw [hs] at hb; exact hb
        | crash => trivial)
      trivial (fun st _ => finish_update tl st)
      fuel (initState sc []) (some fm) _ trivial h

theorem contiguous_scoreRepeat01 : Contiguous scoreRepeat01 := by
  unfold Contiguous
  refine ⟨by decide, rfl, ?_⟩
  intro k hk
  have hk6 : k < 5 := by
    have h6 : k + 1 < 6 := hk
    omega
  interval_cases k <;> rfl

theorem unwind_scoreRepeat01 :
    unwind unitTempo 20 scoreRepeat01 [] = some (Outcome.done scoreRepeat01Played segsRepeat01) := by
  rfl

/-! ### Searching a list whose unwound ticks are prefix sums -/

/-- Each segment starts, in unwound time, where the one before it ends. -/
theorem updateFrom_chain' [Add R] [Sub R] (tl : TempoMap R) (segs : List (RepeatSegment R)) :
    ∀ (u : Int) (t : R),
      List.Chain' (fun a b : RepeatSegment R => b.utick = a.utick + a.len)
        (updateFrom tl u t segs) := by
  induction segs with
  | nil => intro u t; simp [updateFrom]
  | cons s rest ih =>
    intro u t
    simp only [updateFrom]
    rw [List.chain'_cons']
    refine ⟨?_, ih _ _⟩
    intro b hb
    have := updateFrom_head tl rest _ _ b (by simpa using hb)
    rw [this]

theorem chain_head_le (L : List (RepeatSegment R)) :
    List.Chain' (fun a b : RepeatSegment R => b.utick = a.utick + a.len) L →
    (∀ s ∈ L, 0 ≤ s.len) →
    ∀ (k : Nat) (a s : RepeatSegment R), L.head? = some a → L.get? k = some s →
      a.utick ≤ s.utick := by
  induction L with
  | nil => intro _ _ k a s h; simp at h
  | cons x rest ih =>
    intro hc hn k a s ha hs
    simp at ha; subst ha
    cases k with
    | zero => simp at hs; subst hs; exact le_refl _
    | succ k =>
      simp at hs
      rw [List.chain'_cons'] at hc
      cases rest with
      | nil => simp at hs
      | cons y rest2 =>
        have h1 := hc.1 y (by simp)
        have h2 := ih hc.2 (fun s hs => hn s (List.mem_cons_of_mem _ hs)) k y s (by simp)
          (by simpa using hs)
        have h3 := hn x (by simp)
        omega

theorem chain_end_le (L : List (RepeatSegment R)) :
    List.Chain' (fun a b : RepeatSegment R => b.utick = a.utick + a.len) L →
    (∀ s ∈ L, 0 ≤ s.len) →
    ∀ (i j : Nat) (s b : RepeatSegment R), i < j → L.get? i = some s → L.get? j = some b →
      s.utick + s.len ≤ b.utick := by
  induction L with
  | nil => intro _ _ i j s b _ h; simp at h
  | cons x rest ih =>
    intro hc hn i j s b hij hs hb
    rw [List.chain'_cons'] at hc
    have hn1 : ∀ s ∈ rest, 0 ≤ s.len := fun s hs => hn s (List.mem_cons_of_mem _ hs)
    cases j with
    | zero => omega
    | succ j =>
      simp at hb
      cases i with
      | zero =>
        simp at hs; subst hs
        cases rest with
        | nil => simp at hb
        | cons y rest2 =>
          have h1 := hc.1 y (by simp)
          have h2 := chain_head_le (y :: rest2) hc.2 hn1 j y b (by simp) (by simpa using hb)
          omega
      | succ i =>
        simp at hs
        exact ih hc.2 hn1 i j s b (by omega) (by simpa using hs) (by simpa using hb)

theorem findUtick_chain (u : Int) (L : List (RepeatSegment R)) :
    List.Chain' (fun a b : RepeatSegment R => b.utick = a.utick + a.len) L →
    (∀ s ∈ L, 0 ≤ s.len) →
    ∀ (o k : Nat) (s : RepeatSegment R), L.get? k = some s → s.utick ≤ u → u < s.utick + s.len →
      findUtick u o L = some (o + k, s) := by
  induction L with
  | nil => intro _ _ o k s h; simp at h
  | cons x rest ih =>
    intro hc hn o k s hs h1 h2
    rw [List.chain'_cons'] at hc
    have hn1 : ∀ s ∈ rest, 0 ≤ s.len := fun s hs => hn s (List.mem_cons_of_mem _ hs)
    cases rest with
    | nil =>
      cases k with
      | zero => simp at hs; subst hs; simp [findUtick, h1]
      | succ k => simp at hs
    | cons y rest2 =>
      have hy := hc.1 y (by simp)
      cases k with
      | zero =>
        simp at hs; subst hs
        simp only [findUtick]
        rw [if_pos ⟨h1, by omega⟩]; rfl
      | succ k =>
        simp at hs
        have hle := chain_head_le (y :: rest2) hc.2 hn1 k y s (by simp) (by simpa using hs)
        simp only [findUtick]
        rw [if_neg (by omega)]
        have := ih hc.2 hn1 (o + 1) k s (by simpa using hs) h1 h2
        rw [this]
        congr 2
        omega

theorem findTick_first (t : Int) (L : List (RepeatSegment R)) :
    ∀ (i : Nat) (s : RepeatSegment R), L.get? i = some s → s.tick ≤ t → t < s.tick + s.len →
      (∀ (j : Nat) (a : RepeatSegment R), j < i → L.get? j = some a →
        ¬ (a.tick ≤ t ∧ t < a.tick + a.len)) →
      findTick t L = some s := by
  induction L with
  | nil => intro i s h; simp at h
  | cons x rest ih =>
    intro i s hs h1 h2 hfirst
    cases i with
    | zero =>
      simp at hs; subst hs
      simp only [findTick]
      rw [if_pos ⟨h1, h2⟩]
    | succ i =>
      simp at hs
      simp only [findTick]
      have hx := hfirst 0 x (by omega) (by simp)
      rw [if_neg (by simpa using hx)]
      exact ih i s (by simpa using hs) h1 h2
        (fun j a hj ha => hfirst (j + 1) a (by omega) (by simpa using ha))

theorem startIndex_le (L : List (RepeatSegment R))
    (hc : List.Chain' (fun a b : RepeatSegment R => b.utick = a.utick + a.len) L)
    (hn : ∀ s ∈ L, 0 ≤ s.len) (idx1 : Nat) (u : Int) (i : Nat) (s : RepeatSegment R)
    (hs : L.get? i = some s) (h2 : u < s.utick + s.len) : startIndex L idx1 u ≤ i := by
  unfold startIndex
  split
  · next a ha =>
    split
    · next hu =>
      by_contra hlt
      have := chain_end_le L hc hn i idx1 s a (by omega) hs ha
      omega
    · omega
  · omega

/-- The search of `utick2tick` finds the segment whose unwound span holds `u`,
whatever the cursor. -/
theorem utick2tick_in_span [Zero R] [Add R] [Sub R] (tl : TempoMap R)
    (base : List (RepeatSegment R)) (hb : ∀ s ∈ base, 0 ≤ s.len)
    (dbg : Bool) (idx1 idx2 : Nat) (u : Int) (i : Nat) (s : RepeatSegment R)
    (hs : (update tl base).get? i = some s) (h1 : s.utick ≤ u) (h2 : u < s.utick + s.len) :
    utick2tick dbg { segs := update tl base, idx1 := idx1, idx2 := idx2 } u =
      some (u - (s.utick - s.tick), i) := by
  have hc : List.Chain' (fun a b : RepeatSegment R => b.utick = a.utick + a.len)
      (update tl base) := updateFrom_chain' tl base 0 0
  have hn := update_len_nonneg tl base hb
  have hlen : (update tl base).length ≠ 0 := by
    intro h0
    have : update tl base = [] := List.length_eq_zero.mp h0
    rw [this] at hs; simp at hs
  obtain ⟨a, ha⟩ : ∃ a, (update tl base).head? = some a := by
    cases hL : update tl base with
    | nil => exact absurd (by rw [hL]; rfl) hlen
    | cons x r => exact ⟨x, rfl⟩
  have ha0 : a.utick = 0 := updateFrom_head tl base 0 0 a ha
  have hle := chain_head_le _ hc hn i a s ha hs
  have hii := startIndex_le _ hc hn idx1 u i s hs h2
  have hfind := findUtick_chain u ((update tl base).drop (startIndex (update tl base) idx1 u))
    (hc.drop _) (fun s hs => hn s (List.mem_of_mem_drop hs))
    (startIndex (update tl base) idx1 u) (i - startIndex (update tl base) idx1 u) s
    (by
      rw [List.get?_eq_getElem?, List.getElem?_drop]
      rw [List.get?_eq_getElem?] at hs
      rw [← hs]; congr 1; omega) h1 h2
  unfold utick2tick
  simp only []
  rw [if_neg hlen, if_neg (by omega), hfind]
  simp only [Option.some.injEq, Prod.mk.injEq, true_and]
  omega

/-- The search of `tick2utick` stops at the first segment whose original span
holds the tick. -/
theorem tick2utick_first (L : List (RepeatSegment R)) (t : Int) (i : Nat) (s : RepeatSegment R)
    (hs : L.get? i = some s) (h1 : s.tick ≤ t) (h2 : t < s.tick + s.len)
    (hfirst : ∀ (j : Nat) (a : RepeatSegment R), j < i → L.get? j = some a →
        ¬ (a.tick ≤ t ∧ t < a.tick + a.len)) :
    tick2utick L t = some (s.utick + (t - s.tick)) := by
  unfold tick2utick
  rw [findTick_first t L i s hs h1 h2 hfirst]

/-! ### What the walk reads of the score besides playback counts -/

theorem measure_static_of_reset_eq {sc sc0 : Score}
    (h : resetPlaybackCounts sc = resetPlaybackCounts sc0) (k : Nat) :
    (sc.measure k).tick = (sc0.measure k).tick ∧
    (sc.measure k).ticks = (sc0.measure k).ticks ∧
    (sc.measure k).repeatFlags = (sc0.measure k).repeatFlags ∧
    (sc.measure k).repeatCount = (sc0.measure k).repeatCount ∧
    (sc.measure k).sectionBreak = (sc0.measure k).sectionBreak ∧
    (sc.measure k).el = (sc0.measure k).el := by
  have h1 := congrArg (fun s => s.measure k) h
  simp only [measure_reset, Measure.setPlaybackCount, Measure.mk.injEq] at h1
  obtain ⟨a, b, c, d, e, _, f⟩ := h1
  exact ⟨a, b, c, d, e, f⟩

theorem voltas_of_reset_eq {sc sc0 : Score}
    (h : resetPlaybackCounts sc = resetPlaybackCounts sc0) : sc.voltas = sc0.voltas := by
  have := congrArg (fun s => s.voltas) h
  simpa [resetPlaybackCounts] using this

theorem nextMeasure_of_reset_eq {sc sc0 : Score}
    (h : resetPlaybackCounts sc = resetPlaybackCounts sc0) (k : Nat) :
    sc.nextMeasure k = sc0.nextMeasure k := by
  unfold Score.nextMeasure
  rw [length_of_reset_eq h]

theorem startRepeat_of_reset_eq {sc sc0 : Score}
    (h : resetPlaybackCounts sc = resetPlaybackCounts sc0) (m : Nat) :
    startRepeat sc m = startRepeat sc0 m := by
  induction m with
  | zero => rfl
  | succ k ih =>
    simp only [startRepeat]
    rw [(measure_static_of_reset_eq h (k + 1)).2.2.1,
      (measure_static_of_reset_eq h k).2.2.2.2.1, ih]

theorem searchLabelFrom_map (s : String) (ms : List Measure) :
    ∀ i, searchLabelFrom s i (ms.map (fun m => m.setPlaybackCount 0)) = searchLabelFrom s i ms := by
  induction ms with
  | nil => intro i; rfl
  | cons m rest ih =>
    intro i
    simp only [List.map_cons, searchLabelFrom, ih]
    rfl

theorem searchLabel_reset (sc : Score) (s : String) :
    (resetPlaybackCounts sc).searchLabel s = sc.searchLabel s := by
  unfold Score.searchLabel Score.firstMeasure Score.lastMeasure
  simp only [resetPlaybackCounts, List.length_map, searchLabelFrom_map]

theorem searchLabel_of_reset_eq {sc sc0 : Score}
    (h : resetPlaybackCounts sc = resetPlaybackCounts sc0) (s : String) :
    sc.searchLabel s = sc0.searchLabel s := by
  rw [← searchLabel_reset sc, ← searchLabel_reset sc0, h]

theorem contiguous_of_reset_eq {sc sc0 : Score}
    (h : resetPlaybackCounts sc = resetPlaybackCounts sc0) (hc : Contiguous sc0) :
    Contiguous sc := by
  unfold Contiguous at hc ⊢
  simp only [Measure.endTick, length_of_reset_eq h, (measure_static_of_reset_eq h _).1,
    (measure_static_of_reset_eq h _).2.1]
  exact hc

/-! ### Single passes through the loop body -/

theorem reset_incPlaybackCount (sc : Score) (i : Nat) :
    resetPlaybackCounts (sc.incPlaybackCount i) = resetPlaybackCounts sc :=
  reset_setPlaybackCount sc i _

theorem measure_incPlaybackCount_repeatFlags (sc : Score) (i k : Nat) :
    ((sc.incPlaybackCount i).measure k).repeatFlags = (sc.measure k).repeatFlags :=
  (measure_static_of_reset_eq (reset_incPlaybackCount sc i) k).2.2.1

theorem measure_incPlaybackCount_repeatCount (sc : Score) (i k : Nat) :
    ((sc.incPlaybackCount i).measure k).repeatCount = (sc.measure k).repeatCount :=
  (measure_static_of_reset_eq (reset_incPlaybackCount sc i) k).2.2.2.1

theorem measure_incPlaybackCount_tick (sc : Score) (i k : Nat) :
    ((sc.incPlaybackCount i).measure k).tick = (sc.measure k).tick :=
  (measure_static_of_reset_eq (reset_incPlaybackCount sc i) k).1

theorem measure_incPlaybackCount_ticks (sc : Score) (i k : Nat) :
    ((sc.incPlaybackCount i).measure k).ticks = (sc.measure k).ticks :=
  (measure_static_of_reset_eq (reset_incPlaybackCount sc i) k).2.1

theorem measure_incPlaybackCount_el (sc : Score) (i k : Nat) :
    ((sc.incPlaybackCount i).measure k).el = (sc.measure k).el :=
  (measure_static_of_reset_eq (reset_incPlaybackCount sc i) k).2.2.2.2.2

theorem measure_incPlaybackCount_endTick (sc : Score) (i k : Nat) :
    ((sc.incPlaybackCount i).measure k).endTick = (sc.measure k).endTick := by
  unfold Measure.endTick
  rw [measure_incPlaybackCount_tick, measure_incPlaybackCount_ticks]

theorem measure_incPlaybackCount_self (sc : Score) (i : Nat) (hi : i < sc.measures.length) :
    ((sc.incPlaybackCount i).measure i).playbackCount = (sc.measure i).playbackCount + 1 := by
  unfold Score.incPlaybackCount
  rw [measure_setPlaybackCount, if_pos ⟨rfl, hi⟩]; rfl

theorem measure_incPlaybackCount_ne (sc : Score) (i k : Nat) (h : i ≠ k) :
    (sc.incPlaybackCount i).measure k = sc.measure k := by
  unfold Score.incPlaybackCount
  rw [measure_setPlaybackCount, if_neg (fun hh => h hh.1)]

theorem nextMeasure_incPlaybackCount (sc : Score) (i k : Nat) :
    (sc.incPlaybackCount i).nextMeasure k = sc.nextMeasure k :=
  nextMeasure_of_reset_eq (reset_incPlaybackCount sc i) k

theorem searchVolta_incPlaybackCount (sc : Score) (i : Nat) (t : Int) :
    (sc.incPlaybackCount i).searchVolta t = sc.searchVolta t := rfl

theorem searchVolta_nil (sc : Score) (t : Int) (h : sc.voltas = []) : sc.searchVolta t = none := by
  unfold Score.searchVolta
  rw [h]; rfl

theorem countVisit_plain (st : UState R) (mi : Nat)
    (h : (st.isGoto && (st.score.measure mi).repeatFlags.END) = false) :
    countVisit st mi = { st with score := st.score.incPlaybackCount mi } := by
  unfold countVisit
  simp only [measure_incPlaybackCount_repeatFlags, h, Bool.false_eq_true, if_false]

theorem countVisit_goto_end (st : UState R) (mi : Nat)
    (h : (st.isGoto && (st.score.measure mi).repeatFlags.END) = true) :
    countVisit st mi = { st with score := st.score.incPlaybackCount mi,
                                 loop := (st.score.measure mi).repeatCount - 1 } := by
  unfold countVisit
  simp only [measure_incPlaybackCount_repeatFlags, measure_incPlaybackCount_repeatCount, h,
    if_true]

/-- Without voltas lines 288-306 only set `doJump`, and clear `isGoto` when a
JUMP measure is met inside a bracket. -/
theorem voltaAndJumpFlag_no_volta [Zero R] (st : UState R) (m : Measure)
    (hv : st.score.voltas = []) :
    voltaAndJumpFlag st m =
      (if st.endRepeat.isSome && m.repeatFlags.JUMP then { st with isGoto := false } else st,
       m.repeatFlags.JUMP) := by
  unfold voltaAndJumpFlag
  rw [searchVolta_nil _ _ hv]
  cases st.endRepeat <;> cases m.repeatFlags.JUMP <;> rfl

theorem jumpOrAdvance_no_jump [Zero R] (st : UState R) (mi : Nat) :
    jumpOrAdvance st mi false = Step.next st (st.score.nextMeasure mi) := by
  unfold jumpOrAdvance
  simp

theorem body_eq [Zero R] [Add R] [Sub R] (tl : TempoMap R) (st : UState R) (mi : Nat) :
    body tl st mi =
      gotoOrEnd tl (voltaAndJumpFlag (countVisit st mi) ((countVisit st mi).score.measure mi)).1 mi
        (voltaAndJumpFlag (countVisit st mi) ((countVisit st mi).score.measure mi)).2 := rfl

/-- A measure without END and JUMP, in a score without voltas, that does not
end a once-only jump: the pass counts the visit and moves on. -/
theorem body_plain [Zero R] [Add R] [Sub R] (tl : TempoMap R) (st : UState R) (mi : Nat)
    (hE : (st.score.measure mi).repeatFlags.END = false)
    (hJ : (st.score.measure mi).repeatFlags.JUMP = false)
    (hv : st.score.voltas = [])
    (hg : st.isGoto = true → st.endRepeat ≠ some mi) :
    body tl st mi =
      Step.next { st with score := st.score.incPlaybackCount mi } (st.score.nextMeasure mi) := by
  have hg1 : (st.isGoto && decide (st.endRepeat = some mi)) = false := by
    cases h : st.isGoto with
    | false => rfl
    | true => simp [hg h]
  rw [body_eq, countVisit_plain st mi (by rw [hE]; simp)]
  rw [voltaAndJumpFlag_no_volta { st with score := st.score.incPlaybackCount mi } _ hv]
  simp only [measure_incPlaybackCount_repeatFlags, hJ, Bool.and_false, Bool.false_eq_true,
    if_false]
  unfold gotoOrEnd
  simp only [hg1, measure_incPlaybackCount_repeatFlags, hE, Bool.false_eq_true, if_false]
  rw [jumpOrAdvance_no_jump]
  simp only [nextMeasure_incPlaybackCount]

theorem startRepeat_incPlaybackCount (sc : Score) (i m : Nat) :
    startRepeat (sc.incPlaybackCount i) m = startRepeat sc m :=
  startRepeat_of_reset_eq (reset_incPlaybackCount sc i) m

theorem searchLabel_incPlaybackCount (sc : Score) (i : Nat) (s : String) :
    (sc.incPlaybackCount i).searchLabel s = sc.searchLabel s :=
  searchLabel_of_reset_eq (reset_incPlaybackCount sc i) s

/-- First visit of a measure flagged END outside any bracket, not yet played
`repeatCount` times: the bracket opens and the walk goes back to its start. -/
theorem body_end_first [Zero R] [Add R] [Sub R] (tl : TempoMap R) (st : UState R) (mi : Nat)
    (hE : (st.score.measure mi).repeatFlags.END = true)
    (hJ : (st.score.measure mi).repeatFlags.JUMP = false)
    (hv : st.score.voltas = [])
    (hg : st.isGoto = false) (he : st.endRepeat = none)
    (hm : mi < st.score.measures.length)
    (hp : (st.score.measure mi).playbackCount + 1 < (st.score.measure mi).repeatCount) :
    body tl st mi =
      Step.next
        { st with score := st.score.incPlaybackCount mi,
                  segs := st.segs ++ [{ st.rs with len := (st.score.measure mi).tick + (st.score.measure mi).ticks - st.rs.tick }],
                  rs := { (RepeatSegment.new : RepeatSegment R) with tick := (st.score.measure (startRepeat st.score mi)).tick },
                  endRepeat := some mi,
                  repeatCount := (st.score.measure mi).repeatCount,
                  loop := 1 }
        (some (startRepeat st.score mi)) := by
  rw [body_eq, countVisit_plain st mi (by rw [hg]; rfl)]
  rw [voltaAndJumpFlag_no_volta { st with score := st.score.incPlaybackCount mi } _ hv]
  simp only [measure_incPlaybackCount_repeatFlags, hJ, Bool.and_false, Bool.false_eq_true,
    if_false]
  unfold gotoOrEnd
  simp only [hg, he, hE, Bool.false_and, Bool.false_eq_true, if_false, if_true,
    measure_incPlaybackCount_repeatFlags, measure_incPlaybackCount_repeatCount,
    measure_incPlaybackCount_self _ _ hm, reduceCtorEq, ge_iff_le, not_le.mpr hp,
    jumpToStartRepeat, startRepeat_incPlaybackCount, measure_incPlaybackCount_tick,
    measure_incPlaybackCount_ticks]

/-- Visit of the END measure that closes the open bracket, with passes left:
the segment is closed and the walk goes back to the start of the bracket. -/
theorem body_end_again [Zero R] [Add R] [Sub R] (tl : TempoMap R) (st : UState R) (mi : Nat)
    (hE : (st.score.measure mi).repeatFlags.END = true)
    (hJ : (st.score.measure mi).repeatFlags.JUMP = false)
    (hv : st.score.voltas = [])
    (hg : st.isGoto = false) (he : st.endRepeat = some mi)
    (hp : st.loop + 1 < st.repeatCount) :
    body tl st mi =
      Step.next
        { st with score := st.score.incPlaybackCount mi,
                  segs := st.segs ++ [{ st.rs with len := (st.score.measure mi).tick + (st.score.measure mi).ticks - st.rs.tick }],
                  rs := { (RepeatSegment.new : RepeatSegment R) with tick := (st.score.measure (startRepeat st.score mi)).tick },
                  loop := st.loop + 1 }
        (some (startRepeat st.score mi)) := by
  rw [body_eq, countVisit_plain st mi (by rw [hg]; rfl)]
  rw [voltaAndJumpFlag_no_volta { st with score := st.score.incPlaybackCount mi } _ hv]
  simp only [measure_incPlaybackCount_repeatFlags, hJ, Bool.and_false, Bool.false_eq_true,
    if_false]
  unfold gotoOrEnd
  simp only [hg, he, hE, Bool.false_and, Bool.false_eq_true, if_false, if_true,
    measure_incPlaybackCount_repeatFlags, ge_iff_le, not_le.mpr hp,
    jumpToStartRepeat, startRepeat_incPlaybackCount, measure_incPlaybackCount_tick,
    measure_incPlaybackCount_ticks]

/-- Visit of the END measure that closes the open bracket on its last pass: the
bracket is closed and the walk moves on. -/
theorem body_end_last [Zero R] [Add R] [Sub R] (tl : TempoMap R) (st : UState R) (mi : Nat)
    (hE : (st.score.measure mi).repeatFlags.END = true)
    (hJ : (st.score.measure mi).repeatFlags.JUMP = false)
    (hv : st.score.voltas = [])
    (hg : st.isGoto = false) (he : st.endRepeat = some mi)
    (hp : st.repeatCount ≤ st.loop + 1) :
    body tl st mi =
      Step.next
        { st with score := st.score.incPlaybackCount mi, endRepeat := none, loop := 0 }
        (st.score.nextMeasure mi) := by
  rw [body_eq, countVisit_plain st mi (by rw [hg]; rfl)]
  rw [voltaAndJumpFlag_no_volta { st with score := st.score.incPlaybackCount mi } _ hv]
  simp only [measure_incPlaybackCount_repeatFlags, hJ, Bool.and_false, Bool.false_eq_true,
    if_false]
  unfold gotoOrEnd
  simp only [hg, he, hE, Bool.false_and, Bool.false_eq_true, if_false, if_true,
    measure_incPlaybackCount_repeatFlags, ge_iff_le, hp, jumpOrAdvance_no_jump,
    nextMeasure_incPlaybackCount]

/-! ### Walking through measures without END and JUMP -/

theorem length_incPlaybackCount (sc : Score) (i : Nat) :
    (sc.incPlaybackCount i).measures.length = sc.measures.length :=
  length_setPlaybackCount sc i _

theorem reset_visitRange (d : Nat) : ∀ (sc : Score) (a : Nat),
    resetPlaybackCounts (visitRange sc a d) = resetPlaybackCounts sc := by
  induction d with
  | zero => intro sc a; rfl
  | succ d ih => intro sc a; simp only [visitRange]; rw [ih, reset_incPlaybackCount]

theorem visitRange_measure_out (d : Nat) : ∀ (sc : Score) (a k : Nat),
    k < a ∨ a + d ≤ k → (visitRange sc a d).measure k = sc.measure k := by
  induction d with
  | zero => intro sc a k _; rfl
  | succ d ih =>
    intro sc a k hk
    simp only [visitRange]
    rw [ih _ _ _ (by omega), measure_incPlaybackCount_ne _ _ _ (by omega)]

theorem walk_plain [Zero R] [Add R] [Sub R] (tl : TempoMap R) (fuel d : Nat) :
    ∀ (a : Nat) (st : UState R), a < st.score.measures.length →
      a + d ≤ st.score.measures.length →
      (∀ k, a ≤ k → k < a + d →
        (st.score.measure k).repeatFlags.END = false ∧
        (st.score.measure k).repeatFlags.JUMP = false ∧
        (st.isGoto = true → st.endRepeat ≠ some k)) →
      st.score.voltas = [] →
      unwindLoop tl (fuel + d) st (some a) =
        unwindLoop tl fuel { st with score := visitRange st.score a d }
          (if a + d < st.score.measures.length then some (a + d) else none) := by
  induction d with
  | zero =>
    intro a st ha _ _ _
    simp only [Nat.add_zero, visitRange, if_pos ha]
  | succ d ih =>
    intro a st ha had hpl hv
    have e : fuel + (d + 1) = (fuel + d) + 1 := by omega
    obtain ⟨hE, hJ, hg⟩ := hpl a (le_refl _) (by omega)
    rw [e, unwindLoop, body_plain tl st a hE hJ hv hg]
    simp only []
    by_cases h1 : a + 1 < st.score.measures.length
    · have hn : st.score.nextMeasure a = some (a + 1) := by
        unfold Score.nextMeasure; rw [if_pos h1]
      rw [hn, ih (a + 1) { st with score := st.score.incPlaybackCount a }
        (by simpa [length_incPlaybackCount] using h1)
        (by simp only [length_incPlaybackCount]; omega)
        (by
          intro k hk1 hk2
          obtain ⟨h1, h2, h3⟩ := hpl k (by omega) (by omega)
          simp only [measure_incPlaybackCount_repeatFlags]
          exact ⟨h1, h2, h3⟩)
        hv]
      simp only [visitRange, length_incPlaybackCount]
      have e2 : a + 1 + d = a + (d + 1) := by omega
      rw [e2]
    · have hd : d = 0 := by omega
      subst hd
      have hn : st.score.nextMeasure a = none := by
        unfold Score.nextMeasure; rw [if_neg h1]
      rw [hn]
      simp only [Nat.add_zero, visitRange, Nat.zero_add, if_neg h1]

theorem startRepeat_to_start (sc : Score) (a : Nat)
    (hs : (sc.measure a).repeatFlags.START = true) :
    ∀ d, (∀ k, a < k → k ≤ a + d → (sc.measure k).repeatFlags.START = false) →
      (∀ k, a ≤ k → k < a + d → (sc.measure k).sectionBreak = false) →
      startRepeat sc (a + d) = a := by
  intro d
  induction d with
  | zero =>
    intro _ _
    cases a with
    | zero => rfl
    | succ k => simp only [Nat.add_zero, startRepeat, hs, if_true]
  | succ d ih =>
    intro h1 h2
    have e : a + (d + 1) = (a + d) + 1 := by omega
    rw [e]
    simp only [startRepeat]
    rw [h1 (a + d + 1) (by omega) (by omega), h2 (a + d) (by omega) (by omega)]
    simp only [Bool.false_eq_true, if_false]
    exact ih (fun k hk1 hk2 => h1 k hk1 (by omega)) (fun k hk1 hk2 => h2 k hk1 (by omega))

/-! ### The measure read-out of a segment -/

theorem measure_eq_getElem (sc : Score) (k : Nat) (hk : k < sc.measures.length) :
    sc.measure k = sc.measures[k] := by
  unfold Score.measure
  rw [List.getD_eq_getElem?_getD, List.getElem?_eq_getElem hk]; rfl

theorem drop_measures (sc : Score) (k : Nat) (hk : k < sc.measures.length) :
    sc.measures.drop k = sc.measure k :: sc.measures.drop (k + 1) := by
  rw [measure_eq_getElem sc k hk]
  exact List.drop_eq_getElem_cons hk

theorem contiguous_endTick_le_tick (sc : Score) (h : Contiguous sc) (o x : Nat) (hox : o < x)
    (hx : x < sc.measures.length) : (sc.measure o).endTick ≤ (sc.measure x).tick := by
  have h1 := contiguous_tick_le sc h o (x - 1 - o) (by omega)
  have e : o + (x - 1 - o) = x - 1 := by omega
  rw [e] at h1
  have h2 := h.2.2 (x - 1) (by omega)
  have e2 : x - 1 + 1 = x := by omega
  rw [e2] at h2
  omega

theorem tick2measureFrom_start (sc : Score) (h : Contiguous sc) (x : Nat)
    (hx : x < sc.measures.length) :
    ∀ d o, o + d = x →
      tick2measureFrom (sc.measure x).tick o (sc.measures.drop o) = some (x, sc.measures.drop x) := by
  intro d
  induction d with
  | zero =>
    intro o ho
    have e : o = x := by omega
    subst e
    rw [drop_measures sc o hx]
    simp only [tick2measureFrom]
    have := h.1 o hx
    rw [if_pos ⟨le_refl _, by unfold Measure.endTick; omega⟩]
  | succ d ih =>
    intro o ho
    rw [drop_measures sc o (by omega)]
    simp only [tick2measureFrom]
    have := contiguous_endTick_le_tick sc h o x (by omega) hx
    rw [if_neg (by omega)]
    exact ih (o + 1) (by omega)

theorem walkSegment_span (sc : Score) (h : Contiguous sc) :
    ∀ d x, x + d < sc.measures.length →
      walkSegment (sc.measure (x + d)).endTick x (sc.measures.drop x) = List.range' (x + 1) (d + 1) := by
  intro d
  induction d with
  | zero =>
    intro x hx
    rw [drop_measures sc x hx]
    simp only [walkSegment, Nat.add_zero]
    rw [if_pos (by unfold Measure.endTick; omega)]
    rfl
  | succ d ih =>
    intro x hx
    rw [drop_measures sc x (by omega)]
    simp only [walkSegment]
    have h1 := contiguous_endTick_le_tick sc h x (x + (d + 1)) (by omega) hx
    have h2 := h.1 (x + (d + 1)) hx
    rw [if_neg (by unfold Measure.endTick at h1 ⊢; omega)]
    have e : x + (d + 1) = x + 1 + d := by omega
    rw [e, ih (x + 1) (by omega)]
    rw [List.range'_succ (x + 1) (d + 1)]

/-- On a contiguous score a segment that runs from the start of measure number
`x` to the end of measure number `x + d` (zero-based) reads out as the
measures `x + 1, ..., x + d + 1`. -/
theorem segmentMeasures_span (sc : Score) (h : Contiguous sc) (x d : Nat)
    (hx : x + d < sc.measures.length) (rs : RepeatSegment R)
    (h1 : rs.tick = (sc.measure x).tick) (h2 : rs.tick + rs.len = (sc.measure (x + d)).endTick) :
    segmentMeasures sc rs = List.range' (x + 1) (d + 1) := by
  unfold segmentMeasures
  have := tick2measureFrom_start sc h x (by omega) x 0 (by omega)
  simp only [List.drop_zero] at this
  rw [h1, this]
  simp only []
  rw [← h1, h2]
  exact walkSegment_span sc h d x hx

theorem measureSequence_updateFrom [Add R] [Sub R] (tl : TempoMap R) (sc : Score)
    (base : List (RepeatSegment R)) :
    ∀ (u : Int) (t : R), measureSequence sc (updateFrom tl u t base) = measureSequence sc base := by
  induction base with
  | nil => intro u t; rfl
  | cons s rest ih =>
    intro u t
    unfold measureSequence at ih ⊢
    simp only [updateFrom, List.flatMap_cons, ih]
    rfl

theorem measureSequence_update [Zero R] [Add R] [Sub R] (tl : TempoMap R) (sc : Score)
    (base : List (RepeatSegment R)) :
    measureSequence sc (update tl base) = measureSequence sc base :=
  measureSequence_updateFrom tl sc base 0 0

/-! ### The simple repeat -/

/-- The plain walk, stated against a reference score that differs from the
score of the state in playback counts only. -/
theorem walk_plain_ref [Zero R] [Add R] [Sub R] (tl : TempoMap R) (sc0 : Score)
    (fuel d a : Nat) (st : UState R)
    (hsame : resetPlaybackCounts st.score = resetPlaybackCounts sc0)
    (ha : a < sc0.measures.length) (had : a + d ≤ sc0.measures.length)
    (hpl : ∀ k, a ≤ k → k < a + d →
        (sc0.measure k).repeatFlags.END = false ∧
        (sc0.measure k).repeatFlags.JUMP = false ∧
        (st.isGoto = true → st.endRepeat ≠ some k))
    (hv : sc0.voltas = []) :
    ∃ sc1 : Score, resetPlaybackCounts sc1 = resetPlaybackCounts sc0 ∧
      (∀ k, k < a ∨ a + d ≤ k → sc1.measure k = st.score.measure k) ∧
      unwindLoop tl (fuel + d) st (some a) =
        unwindLoop tl fuel { st with score := sc1 }
          (if a + d < sc0.measures.length then some (a + d) else none) := by
  have hl := length_of_reset_eq hsame
  refine ⟨visitRange st.score a d, ?_, ?_, ?_⟩
  · rw [reset_visitRange, hsame]
  · intro k hk
    exact visitRange_measure_out d st.score a k hk
  · rw [walk_plain tl fuel d a st (by omega) (by omega) ?_ (by rw [voltas_of_reset_eq hsame, hv]), hl]
    intro k hk1 hk2
    rw [(measure_static_of_reset_eq hsame k).2.2.1]
    exact hpl k hk1 hk2

theorem simpleRepeat_startRepeat (sc : Score) (a b c : Nat) (h : SimpleRepeat sc a b c) :
    startRepeat sc b = a := by
  obtain ⟨_, _, hab, hb, hk, _, _⟩ := h
  have := startRepeat_to_start sc a ((hk a (by omega)).2.2.2.mpr rfl) (b - a)
    (fun k hk1 hk2 => by
      have h1 := (hk k (by omega)).2.2.2
      cases hs : (sc.measure k).repeatFlags.START with
      | false => rfl
      | true => have := h1.mp hs; omega)
    (fun k hk1 hk2 => (hk k (by omega)).1)
  have e : a + (b - a) = b := by omega
  rw [e] at this
  exact this

theorem simpleRepeat_plain (sc : Score) (a b c : Nat) (h : SimpleRepeat sc a b c) (k : Nat)
    (hk : k < sc.measures.length) (hkb : k ≠ b) :
    (sc.measure k).repeatFlags.END = false ∧ (sc.measure k).repeatFlags.JUMP = false := by
  obtain ⟨_, _, hab, hb, hh, _, _⟩ := h
  refine ⟨?_, (hh k hk).2.1⟩
  cases hs : (sc.measure k).repeatFlags.END with
  | false => rfl
  | true => exact absurd ((hh k hk).2.2.1.mp hs) hkb

/-- One pass through the bracket `a..b` that is not the last one. -/
theorem simpleRepeat_pass_again [Zero R] [Add R] [Sub R] (tl : TempoMap R) (sc : Score)
    (a b c : Nat) (h : SimpleRepeat sc a b c) (r : Nat) (st : UState R)
    (hsame : resetPlaybackCounts st.score = resetPlaybackCounts sc)
    (hg : st.isGoto = false) (he : st.endRepeat = some b)
    (hp : st.loop + 1 < st.repeatCount) :
    ∃ sc1 : Score, resetPlaybackCounts sc1 = resetPlaybackCounts sc ∧
      unwindLoop tl (r + (b - a + 1)) st (some a) =
        unwindLoop tl r
          { st with score := sc1,
                    segs := st.segs ++ [{ st.rs with len := (sc.measure b).tick + (sc.measure b).ticks - st.rs.tick }],
                    rs := { (RepeatSegment.new : RepeatSegment R) with tick := (sc.measure a).tick },
                    loop := st.loop + 1 }
          (some a) := by
  have hh := h
  obtain ⟨hc, hv, hab, hb, hk, hrc, hc2⟩ := h
  obtain ⟨sc1, hs1, _, hw⟩ := walk_plain_ref tl sc (r + 1) (b - a) a st hsame (by omega) (by omega)
    (fun k hk1 hk2 => ⟨(simpleRepeat_plain sc a b c hh k (by omega) (by omega)).1,
      (simpleRepeat_plain sc a b c hh k (by omega) (by omega)).2, fun hg1 => by rw [hg] at hg1; cases hg1⟩) hv
  have e1 : a + (b - a) = b := by omega
  rw [e1, if_pos hb] at hw
  have e2 : r + (b - a + 1) = r + 1 + (b - a) := by omega
  have hst := measure_static_of_reset_eq hs1 b
  refine ⟨sc1.incPlaybackCount b, by rw [reset_incPlaybackCount, hs1], ?_⟩
  rw [e2, hw, unwindLoop,
    body_end_again tl { st with score := sc1 } b
      (by show (sc1.measure b).repeatFlags.END = true
          rw [hst.2.2.1]; exact (hk b hb).2.2.1.mpr rfl)
      (by show (sc1.measure b).repeatFlags.JUMP = false
          rw [hst.2.2.1]; exact (hk b hb).2.1)
      (by show sc1.voltas = []
          rw [voltas_of_reset_eq hs1]; exact hv) hg he hp]
  simp only []
  rw [startRepeat_of_reset_eq hs1, simpleRepeat_startRepeat sc a b c hh, hst.1, hst.2.1,
    (measure_static_of_reset_eq hs1 a).1]

/-- The last pass through the bracket `a..b`. -/
theorem simpleRepeat_pass_last [Zero R] [Add R] [Sub R] (tl : TempoMap R) (sc : Score)
    (a b c : Nat) (h : SimpleRepeat sc a b c) (r : Nat) (st : UState R)
    (hsame : resetPlaybackCounts st.score = resetPlaybackCounts sc)
    (hg : st.isGoto = false) (he : st.endRepeat = some b)
    (hp : st.repeatCount ≤ st.loop + 1) :
    ∃ sc1 : Score, resetPlaybackCounts sc1 = resetPlaybackCounts sc ∧
      unwindLoop tl (r + (b - a + 1)) st (some a) =
        unwindLoop tl r { st with score := sc1, endRepeat := none, loop := 0 }
          (sc.nextMeasure b) := by
  have hh := h
  obtain ⟨hc, hv, hab, hb, hk, hrc, hc2⟩ := h
  obtain ⟨sc1, hs1, _, hw⟩ := walk_plain_ref tl sc (r + 1) (b - a) a st hsame (by omega) (by omega)
    (fun k hk1 hk2 => ⟨(simpleRepeat_plain sc a b c hh k (by omega) (by omega)).1,
      (simpleRepeat_plain sc a b c hh k (by omega) (by omega)).2, fun hg1 => by rw [hg] at hg1; cases hg1⟩) hv
  have e1 : a + (b - a) = b := by omega
  rw [e1, if_pos hb] at hw
  have e2 : r + (b - a + 1) = r + 1 + (b - a) := by omega
  have hst := measure_static_of_reset_eq hs1 b
  refine ⟨sc1.incPlaybackCount b, by rw [reset_incPlaybackCount, hs1], ?_⟩
  rw [e2, hw, unwindLoop,
    body_end_last tl { st with score := sc1 } b
      (by show (sc1.measure b).repeatFlags.END = true
          rw [hst.2.2.1]; exact (hk b hb).2.2.1.mpr rfl)
      (by show (sc1.measure b).repeatFlags.JUMP = false
          rw [hst.2.2.1]; exact (hk b hb).2.1)
      (by show sc1.voltas = []
          rw [voltas_of_reset_eq hs1]; exact hv) hg he hp]
  simp only []
  rw [nextMeasure_of_reset_eq hs1]

/-- The first pass: from the first measure to the END measure `b`, which opens
the bracket. -/
theorem simpleRepeat_pass_first [Zero R] [Add R] [Sub R] (tl : TempoMap R) (sc : Score)
    (a b c : Nat) (h : SimpleRepeat sc a b c) (r : Nat) (st : UState R)
    (hsame : resetPlaybackCounts st.score = resetPlaybackCounts sc)
    (hg : st.isGoto = false) (he : st.endRepeat = none)
    (hp : (st.score.measure b).playbackCount = 0) :
    ∃ sc1 : Score, resetPlaybackCounts sc1 = resetPlaybackCounts sc ∧
      unwindLoop tl (r + (b + 1)) st (some 0) =
        unwindLoop tl r
          { st with score := sc1,
                    segs := st.segs ++ [{ st.rs with len := (sc.measure b).tick + (sc.measure b).ticks - st.rs.tick }],
                    rs := { (RepeatSegment.new : RepeatSegment R) with tick := (sc.measure a).tick },
                    endRepeat := some b,
                    repeatCount := (c : Int),
                    loop := 1 }
          (some a) := by
  have hh := h
  obtain ⟨hc, hv, hab, hb, hk, hrc, hc2⟩ := h
  obtain ⟨sc1, hs1, hout, hw⟩ := walk_plain_ref tl sc (r + 1) b 0 st hsame (by omega) (by omega)
    (fun k hk1 hk2 => ⟨(simpleRepeat_plain sc a b c hh k (by omega) (by omega)).1,
      (simpleRepeat_plain sc a b c hh k (by omega) (by omega)).2, fun hg1 => by rw [hg] at hg1; cases hg1⟩) hv
  rw [Nat.zero_add, if_pos hb] at hw
  have e2 : r + (b + 1) = r + 1 + b := by omega
  have hst := measure_static_of_reset_eq hs1 b
  have hl := length_of_reset_eq hs1
  refine ⟨sc1.incPlaybackCount b, by rw [reset_incPlaybackCount, hs1], ?_⟩
  rw [e2, hw, unwindLoop,
    body_end_first tl { st with score := sc1 } b
      (by show (sc1.measure b).repeatFlags.END = true
          rw [hst.2.2.1]; exact (hk b hb).2.2.1.mpr rfl)
      (by show (sc1.measure b).repeatFlags.JUMP = false
          rw [hst.2.2.1]; exact (hk b hb).2.1)
      (by show sc1.voltas = []
          rw [voltas_of_reset_eq hs1]; exact hv) hg he
      (by show b < sc1.measures.length
          omega)
      (by show (sc1.measure b).playbackCount + 1 < (sc1.measure b).repeatCount
          rw [hout b (by omega), hp, (measure_static_of_reset_eq hsame b).2.2.2.1, hrc]; omega)]
  simp only []
  rw [startRepeat_of_reset_eq hs1, simpleRepeat_startRepeat sc a b c hh, hst.1, hst.2.1,
    (measure_static_of_reset_eq hs1 a).1, hst.2.2.2.1, hrc]

/-- The passes through the bracket after the first one: `p` further full passes
and the last one. -/
theorem simpleRepeat_passes [Zero R] [Add R] [Sub R] (tl : TempoMap R) (sc : Score)
    (a b c : Nat) (h : SimpleRepeat sc a b c) (r : Nat) :
    ∀ (p : Nat) (st : UState R),
      resetPlaybackCounts st.score = resetPlaybackCounts sc →
      st.isGoto = false → st.endRepeat = some b →
      st.loop + (p : Int) + 1 = st.repeatCount →
      st.rs = { (RepeatSegment.new : RepeatSegment R) with tick := (sc.measure a).tick } →
      ∃ sc1 : Score, resetPlaybackCounts sc1 = resetPlaybackCounts sc ∧
        unwindLoop tl (r + (p + 1) * (b - a + 1)) st (some a) =
          unwindLoop tl r
            { st with score := sc1,
                      segs := st.segs ++ List.replicate p
                        { st.rs with len := (sc.measure b).tick + (sc.measure b).ticks - st.rs.tick },
                      endRepeat := none, loop := 0 }
            (sc.nextMeasure b) := by
  intro p
  induction p with
  | zero =>
    intro st hsame hg he hl hrs
    obtain ⟨sc1, hs1, hw⟩ := simpleRepeat_pass_last tl sc a b c h r st hsame hg he (by omega)
    refine ⟨sc1, hs1, ?_⟩
    simp only [Nat.zero_add, Nat.one_mul, List.replicate_zero, List.append_nil]
    exact hw
  | succ p ih =>
    intro st hsame hg he hl hrs
    obtain ⟨sc1, hs1, hw⟩ := simpleRepeat_pass_again tl sc a b c h
      (r + (p + 1) * (b - a + 1)) st hsame hg he (by push_cast at hl; omega)
    obtain ⟨sc2, hs2, hw2⟩ := ih
      { st with score := sc1,
                segs := st.segs ++ [{ st.rs with len := (sc.measure b).tick + (sc.measure b).ticks - st.rs.tick }],
                rs := { (RepeatSegment.new : RepeatSegment R) with tick := (sc.measure a).tick },
                loop := st.loop + 1 }
      hs1 hg he (by show st.loop + 1 + (p : Int) + 1 = st.repeatCount
                    push_cast at hl; omega) rfl
    refine ⟨sc2, hs2, ?_⟩
    have e : r + (p + 1 + 1) * (b - a + 1) = r + (p + 1) * (b - a + 1) + (b - a + 1) := by
      rw [Nat.add_mul (p + 1) 1, Nat.one_mul]; omega
    rw [e, hw, hw2]
    simp only [List.append_assoc, List.singleton_append, List.replicate_succ]
    rw [hrs]

theorem unwindLoop_none [Zero R] [Add R] [Sub R] (tl : TempoMap R) (fuel : Nat) (st : UState R) :
    unwindLoop tl fuel st none = some (finish tl st) := by
  cases fuel <;> rfl

/-- After the bracket: the rest of the score is walked and the loop is left. -/
theorem simpleRepeat_tail [Zero R] [Add R] [Sub R] (tl : TempoMap R) (sc : Score)
    (a b c : Nat) (h : SimpleRepeat sc a b c) (r : Nat) (st : UState R)
    (hsame : resetPlaybackCounts st.score = resetPlaybackCounts sc)
    (hg : st.isGoto = false) :
    ∃ sc1 : Score, resetPlaybackCounts sc1 = resetPlaybackCounts sc ∧
      unwindLoop tl (r + (sc.measures.length - 1 - b)) st (sc.nextMeasure b) =
        some (finish tl { st with score := sc1 }) := by
  have hh := h
  obtain ⟨hc, hv, hab, hb, hk, hrc, hc2⟩ := h
  by_cases h1 : b + 1 < sc.measures.length
  · obtain ⟨sc1, hs1, _, hw⟩ := walk_plain_ref tl sc r (sc.measures.length - 1 - b) (b + 1) st
      hsame h1 (by omega)
      (fun k hk1 hk2 => ⟨(simpleRepeat_plain sc a b c hh k (by omega) (by omega)).1,
        (simpleRepeat_plain sc a b c hh k (by omega) (by omega)).2,
        fun hg1 => by rw [hg] at hg1; cases hg1⟩) hv
    refine ⟨sc1, hs1, ?_⟩
    have hn : sc.nextMeasure b = some (b + 1) := by
      unfold Score.nextMeasure; rw [if_pos h1]
    rw [hn, hw, if_neg (by omega), unwindLoop_none]
  · refine ⟨st.score, hsame, ?_⟩
    have hn : sc.nextMeasure b = none := by
      unfold Score.nextMeasure; rw [if_neg h1]
    rw [hn, unwindLoop_none]

theorem measureSequence_append (sc : Score) (l1 l2 : List (RepeatSegment R)) :
    measureSequence sc (l1 ++ l2) = measureSequence sc l1 ++ measureSequence sc l2 := by
  unfold measureSequence
  exact List.flatMap_append l1 l2 _

theorem measureSequence_replicate (sc : Score) (p : Nat) (s : RepeatSegment R) :
    measureSequence sc (List.replicate p s) = (List.replicate p (segmentMeasures sc s)).flatten := by
  induction p with
  | zero => rfl
  | succ p ih =>
    rw [List.replicate_succ, List.replicate_succ, List.flatten_cons, ← ih]
    rfl

theorem measureSequence_singleton (sc : Score) (s : RepeatSegment R) :
    measureSequence sc [s] = segmentMeasures sc s := by
  unfold measureSequence
  simp

theorem simpleRepeat_scoreRepeat01 : SimpleRepeat scoreRepeat01 1 2 2 := by
  unfold SimpleRepeat
  exact ⟨contiguous_scoreRepeat01, rfl, by decide, by decide, by decide, rfl, by decide⟩

/-! ### Passes that take or end a jump -/

/-- A JUMP measure met outside any bracket whose Jump has not been taken and
whose `jumpTo` and `playUntil` resolve: the jump is taken. -/
theorem body_jump_take [Zero R] [Add R] [Sub R] (tl : TempoMap R) (st : UState R) (mi : Nat)
    (p : Nat) (j : Jump) (nm e : Nat)
    (hE : (st.score.measure mi).repeatFlags.END = false)
    (hJ : (st.score.measure mi).repeatFlags.JUMP = true)
    (hv : st.score.voltas = [])
    (hg : st.isGoto = false) (he : st.endRepeat = none)
    (hj : firstJump 0 (st.score.measure mi).el = some (p, j))
    (hjs : st.jumps.contains (some (mi, p)) = false)
    (hto : st.score.searchLabel j.jumpTo = some nm)
    (hpu : st.score.searchLabel j.playUntil = some e) :
    body tl st mi =
      Step.next
        { st with score := st.score.incPlaybackCount mi,
                  jumps := st.jumps ++ [some (mi, p)],
                  endRepeat := some e,
                  continueAt := st.score.searchLabel j.continueAt,
                  isGoto := true,
                  segs := st.segs ++ [{ st.rs with len := (st.score.measure mi).endTick - st.rs.tick }],
                  rs := { (RepeatSegment.new : RepeatSegment R) with tick := (st.score.measure nm).tick } }
        (some nm) := by
  rw [body_eq, countVisit_plain st mi (by rw [hg]; rfl)]
  rw [voltaAndJumpFlag_no_volta { st with score := st.score.incPlaybackCount mi } _ hv]
  simp only [he, Option.isSome_none, Bool.false_and, Bool.false_eq_true, if_false,
    measure_incPlaybackCount_repeatFlags, hJ]
  unfold gotoOrEnd
  simp only [hg, hE, Bool.false_and, Bool.false_eq_true, if_false,
    measure_incPlaybackCount_repeatFlags]
  unfold jumpOrAdvance
  simp only [hg, Bool.not_false, Bool.and_self, if_true, measure_incPlaybackCount_el, hj,
    Option.map_some', hjs, Bool.false_eq_true, if_false, searchLabel_incPlaybackCount, hto, hpu,
    measure_incPlaybackCount_endTick, measure_incPlaybackCount_tick]

/-- The measure that ends a once-only jump without a place to continue: the
segment is closed and `unwind` returns. -/
theorem body_goto_stop [Zero R] [Add R] [Sub R] (tl : TempoMap R) (st : UState R) (mi : Nat)
    (hE : (st.score.measure mi).repeatFlags.END = false)
    (hJ : (st.score.measure mi).repeatFlags.JUMP = false)
    (hv : st.score.voltas = [])
    (hg : st.isGoto = true) (he : st.endRepeat = some mi) (hc : st.continueAt = none)
    (hl : (st.score.measure mi).endTick - st.rs.tick ≠ 0) :
    body tl st mi =
      Step.ret (st.score.incPlaybackCount mi)
        (update tl (st.segs ++ [{ st.rs with len := (st.score.measure mi).endTick - st.rs.tick }])) := by
  rw [body_eq, countVisit_plain st mi (by rw [hE]; simp)]
  rw [voltaAndJumpFlag_no_volta { st with score := st.score.incPlaybackCount mi } _ hv]
  simp only [measure_incPlaybackCount_repeatFlags, hJ, Bool.and_false, Bool.false_eq_true,
    if_false]
  unfold gotoOrEnd
  simp only [hg, he, hc, decide_True, Bool.and_self, if_true, measure_incPlaybackCount_endTick,
    ne_eq, hl, not_false_eq_true]

/-- The measure that ends a once-only jump with a place to continue: the
segment is closed and the walk continues there. -/
theorem body_goto_continue [Zero R] [Add R] [Sub R] (tl : TempoMap R) (st : UState R)
    (mi c : Nat)
    (hE : (st.score.measure mi).repeatFlags.END = false)
    (hJ : (st.score.measure mi).repeatFlags.JUMP = false)
    (hv : st.score.voltas = [])
    (hg : st.isGoto = true) (he : st.endRepeat = some mi) (hc : st.continueAt = some c) :
    body tl st mi =
      Step.next
        { st with score := st.score.incPlaybackCount mi,
                  segs := st.segs ++ [{ st.rs with len := (st.score.measure mi).endTick - st.rs.tick }],
                  rs := { (RepeatSegment.new : RepeatSegment R) with tick := (st.score.measure c).tick },
                  isGoto := false,
                  endRepeat := none }
        (some c) := by
  rw [body_eq, countVisit_plain st mi (by rw [hE]; simp)]
  rw [voltaAndJumpFlag_no_volta { st with score := st.score.incPlaybackCount mi } _ hv]
  simp only [measure_incPlaybackCount_repeatFlags, hJ, Bool.and_false, Bool.false_eq_true,
    if_false]
  unfold gotoOrEnd
  simp only [hg, he, hc, decide_True, Bool.and_self, if_true, measure_incPlaybackCount_endTick,
    measure_incPlaybackCount_tick]

/-- A JUMP measure met again, inside the bracket of its own Jump, which ends at
this very measure: the jump is not taken a second time, the bracket is closed
and the walk moves on. -/
theorem body_jump_again [Zero R] [Add R] [Sub R] (tl : TempoMap R) (st : UState R) (mi : Nat)
    (p : Nat) (j : Jump)
    (hE : (st.score.measure mi).repeatFlags.END = false)
    (hJ : (st.score.measure mi).repeatFlags.JUMP = true)
    (hv : st.score.voltas = [])
    (he : st.endRepeat = some mi)
    (hj : firstJump 0 (st.score.measure mi).el = some (p, j))
    (hjs : st.jumps.contains (some (mi, p)) = true)
    (hpu : st.score.searchLabel j.playUntil = some mi) :
    body tl st mi =
      Step.next
        { st with score := st.score.incPlaybackCount mi, isGoto := false, endRepeat := none }
        (st.score.nextMeasure mi) := by
  rw [body_eq, countVisit_plain st mi (by rw [hE]; simp)]
  rw [voltaAndJumpFlag_no_volta { st with score := st.score.incPlaybackCount mi } _ hv]
  simp only [he, Option.isSome_some, Bool.true_and, if_true,
    measure_incPlaybackCount_repeatFlags, hJ]
  unfold gotoOrEnd
  simp only [hE, Bool.false_and, Bool.false_eq_true, if_false,
    measure_incPlaybackCount_repeatFlags]
  unfold jumpOrAdvance
  simp only [Bool.not_false, Bool.and_self, if_true, measure_incPlaybackCount_el, hj,
    Option.map_some', hjs, searchLabel_incPlaybackCount, hpu, he,
    nextMeasure_incPlaybackCount]

/-! ### D.C. al fine -/

theorem searchLabelFrom_none (s : String) (ms : List Measure)
    (h : ∀ m ∈ ms, hasMarker s m.el = false) : ∀ i, searchLabelFrom s i ms = none := by
  induction ms with
  | nil => intro i; rfl
  | cons m rest ih =>
    intro i
    simp only [searchLabelFrom]
    rw [h m (List.mem_cons_self _ _)]
    simp only [Bool.false_eq_true, if_false]
    exact ih (fun m1 hm1 => h m1 (List.mem_cons_of_mem _ hm1)) (i + 1)

theorem searchLabel_empty (sc : Score)
    (h : ∀ k, k < sc.measures.length → hasMarker "" (sc.measure k).el = false) :
    sc.searchLabel "" = none := by
  unfold Score.searchLabel
  rw [if_neg (by decide), if_neg (by decide)]
  apply searchLabelFrom_none
  intro m hm
  obtain ⟨k, hk, rfl⟩ := List.mem_iff_getElem.mp hm
  rw [← measure_eq_getElem sc k hk]
  exact h k hk

theorem searchLabel_start (sc : Score) (h : 0 < sc.measures.length) :
    sc.searchLabel "start" = some 0 := by
  unfold Score.searchLabel Score.firstMeasure
  rw [if_pos rfl, if_neg (by omega)]

/-- The first part of a D.C. al fine: the score is played to its last measure,
where the jump to the first measure is taken. -/
theorem dcAlFine_first [Zero R] [Add R] [Sub R] (tl : TempoMap R) (sc : Score) (f p : Nat)
    (j : Jump) (h : DCAlFine sc f p j) (r : Nat) :
    ∃ sc2 : Score, resetPlaybackCounts sc2 = resetPlaybackCounts sc ∧
      unwindLoop tl (r + sc.measures.length) (initState sc []) (some 0) =
        unwindLoop tl r
          { score := sc2,
            segs := [({ tick := 0, len := (sc.measure (sc.measures.length - 1)).endTick - 0,
                        utick := 0, utime := 0, timeOffset := 0 } : RepeatSegment R)],
            rs := { tick := (sc.measure 0).tick, len := 0, utick := 0, utime := 0, timeOffset := 0 },
            endRepeat := some f, continueAt := none, loop := 0, repeatCount := 0,
            isGoto := true, jumps := [some (sc.measures.length - 1, p)] }
          (some 0) := by
  obtain ⟨hc, hv, hn, hk, hj, hto, hca, hpu⟩ := h
  obtain ⟨sc1, hs1, _, hw⟩ := walk_plain_ref tl sc (r + 1) (sc.measures.length - 1) 0
    (initState sc [] : UState R)
    (by simp [initState, reset_reset]) hn (by omega)
    (fun k hk1 hk2 => ⟨(hk k (by omega)).1, by
        cases hjf : (sc.measure k).repeatFlags.JUMP with
        | false => rfl
        | true => have := (hk k (by omega)).2.1.mp hjf; omega,
      fun hg => by simp [initState] at hg⟩) hv
  rw [Nat.zero_add, if_pos (by omega)] at hw
  have hst := measure_static_of_reset_eq hs1 (sc.measures.length - 1)
  have e : r + sc.measures.length = r + 1 + (sc.measures.length - 1) := by omega
  refine ⟨sc1.incPlaybackCount (sc.measures.length - 1), by rw [reset_incPlaybackCount, hs1], ?_⟩
  rw [e, hw, unwindLoop,
    body_jump_take tl { (initState sc [] : UState R) with score := sc1 }
      (sc.measures.length - 1) p j 0 f
      (by show (sc1.measure _).repeatFlags.END = false
          rw [hst.2.2.1]; exact (hk _ (by omega)).1)
      (by show (sc1.measure _).repeatFlags.JUMP = true
          rw [hst.2.2.1]; exact (hk _ (by omega)).2.1.mpr rfl)
      (by show sc1.voltas = []
          rw [voltas_of_reset_eq hs1]; exact hv) rfl rfl
      (by show firstJump 0 (sc1.measure _).el = some (p, j)
          rw [hst.2.2.2.2.2]; exact hj)
      rfl
      (by show sc1.searchLabel j.jumpTo = some 0
          rw [searchLabel_of_reset_eq hs1, hto]; exact searchLabel_start sc hn)
      (by show sc1.searchLabel j.playUntil = some f
          rw [searchLabel_of_reset_eq hs1]; exact hpu)]
  simp only []
  have hcont : sc1.searchLabel j.continueAt = none := by
    rw [searchLabel_of_reset_eq hs1, hca]
    exact searchLabel_empty sc (fun k hk1 => (hk k hk1).2.2)
  rw [hcont]
  simp only [Measure.endTick, hst.1, hst.2.1, (measure_static_of_reset_eq hs1 0).1]
  rfl

/-- The second part of a D.C. al fine: the score is played again from the first
measure to the end of measure `f`, where `unwind` stops. -/
theorem dcAlFine_second [Zero R] [Add R] [Sub R] (tl : TempoMap R) (sc : Score) (f p : Nat)
    (j : Jump) (h : DCAlFine sc f p j) (r : Nat) (sc2 : Score)
    (hs2 : resetPlaybackCounts sc2 = resetPlaybackCounts sc) :
    ∃ sc3 : Score,
      unwindLoop tl (r + (f + 1))
          { score := sc2,
            segs := [({ tick := 0, len := (sc.measure (sc.measures.length - 1)).endTick - 0,
                        utick := 0, utime := 0, timeOffset := 0 } : RepeatSegment R)],
            rs := { tick := (sc.measure 0).tick, len := 0, utick := 0, utime := 0, timeOffset := 0 },
            endRepeat := some f, continueAt := none, loop := 0, repeatCount := 0,
            isGoto := true, jumps := [some (sc.measures.length - 1, p)] }
          (some 0) =
        some (Outcome.done sc3
          (update tl
            [({ tick := 0, len := (sc.measure (sc.measures.length - 1)).endTick - 0,
                utick := 0, utime := 0, timeOffset := 0 } : RepeatSegment R),
             { tick := (sc.measure 0).tick, len := (sc.measure f).endTick - (sc.measure 0).tick,
               utick := 0, utime := 0, timeOffset := 0 }])) := by
  obtain ⟨hc, hv, hn, hk, hj, hto, hca, hpu⟩ := h
  have hf : f < sc.measures.length := searchLabel_lt sc _ f hpu
  obtain ⟨sc3, hs3, _, hw⟩ := walk_plain_ref tl sc (r + 1) f 0
    ({ score := sc2,
       segs := [({ tick := 0, len := (sc.measure (sc.measures.length - 1)).endTick - 0,
                   utick := 0, utime := 0, timeOffset := 0 } : RepeatSegment R)],
       rs := { tick := (sc.measure 0).tick, len := 0, utick := 0, utime := 0, timeOffset := 0 },
       endRepeat := some f, continueAt := none, loop := 0, repeatCount := 0,
       isGoto := true, jumps := [some (sc.measures.length - 1, p)] } : UState R)
    hs2 hn (by omega)
    (fun k hk1 hk2 => ⟨(hk k (by omega)).1, by
        cases hjf : (sc.measure k).repeatFlags.JUMP with
        | false => rfl
        | true => have := (hk k (by omega)).2.1.mp hjf; omega,
      fun _ => by
        show some f ≠ some k
        intro hh; injection hh with hh; omega⟩) hv
  rw [Nat.zero_add, if_pos hf] at hw
  have hst := measure_static_of_reset_eq hs3 f
  have e : r + (f + 1) = r + 1 + f := by omega
  have hpos : (sc.measure f).endTick - (sc.measure 0).tick ≠ 0 := by
    have h1 := contiguous_tick_le sc hc 0 f (by omega)
    have h2 := hc.1 0 hn
    rw [Nat.zero_add] at h1
    unfold Measure.endTick at h1 ⊢
    omega
  by_cases hlast : f = sc.measures.length - 1
  · -- the jump measure itself ends the bracket
    refine ⟨sc3.incPlaybackCount f, ?_⟩
    rw [e, hw, unwindLoop,
      body_jump_again tl _ f p j
        (by show (sc3.measure f).repeatFlags.END = false
            rw [hst.2.2.1]; exact (hk f hf).1)
        (by show (sc3.measure f).repeatFlags.JUMP = true
            rw [hst.2.2.1]; exact (hk f hf).2.1.mpr hlast)
        (by show sc3.voltas = []
            rw [voltas_of_reset_eq hs3]; exact hv)
        rfl
        (by show firstJump 0 (sc3.measure f).el = some (p, j)
            rw [hst.2.2.2.2.2, hlast]; exact hj)
        (by show ([some (sc.measures.length - 1, p)] : List (Option JumpPtr)).contains (some (f, p)) = true
            rw [hlast]; simp)
        (by show sc3.searchLabel j.playUntil = some f
            rw [searchLabel_of_reset_eq hs3]; exact hpu)]
    simp only []
    have hnx : sc3.nextMeasure f = none := by
      rw [nextMeasure_of_reset_eq hs3]
      unfold Score.nextMeasure
      rw [if_neg (by omega)]
    rw [hnx, unwindLoop_none]
    unfold finish
    simp only [length_incPlaybackCount, length_of_reset_eq hs3, ← hlast,
      measure_incPlaybackCount_tick, measure_incPlaybackCount_ticks, Measure.endTick,
      hst.1, hst.2.1]
    rw [if_pos (by unfold Measure.endTick at hpos; exact hpos)]
    rfl
  · refine ⟨sc3.incPlaybackCount f, ?_⟩
    rw [e, hw, unwindLoop,
      body_goto_stop tl _ f
        (by show (sc3.measure f).repeatFlags.END = false
            rw [hst.2.2.1]; exact (hk f hf).1)
        (by show (sc3.measure f).repeatFlags.JUMP = false
            rw [hst.2.2.1]
            cases hjf : (sc.measure f).repeatFlags.JUMP with
            | false => rfl
            | true => exact absurd ((hk f hf).2.1.mp hjf) hlast)
        (by show sc3.voltas = []
            rw [voltas_of_reset_eq hs3]; exact hv)
        rfl rfl rfl
        (by show (sc3.measure f).endTick - (sc.measure 0).tick ≠ 0
            unfold Measure.endTick at hpos ⊢
            rw [hst.1, hst.2.1]; exact hpos)]
    simp only [Measure.endTick, hst.1, hst.2.1]
    rfl

theorem contiguous_scoreRepeat07 : Contiguous scoreRepeat07 := by
  unfold Contiguous
  refine ⟨by decide, rfl, ?_⟩
  intro k hk
  have hk6 : k < 5 := by
    have h6 : k + 1 < 6 := hk
    omega
  interval_cases k <;> rfl

theorem dcAlFine_scoreRepeat07 :
    DCAlFine scoreRepeat07 2 0 { jumpTo := "start", playUntil := "fine", continueAt := "" } := by
  unfold DCAlFine
  exact ⟨contiguous_scoreRepeat07, rfl, by decide, by decide, rfl, rfl, rfl, rfl⟩

/-! ### D.S. al coda -/

theorem dsAlCoda_plain (sc : Score) (a b k c p : Nat) (j : Jump)
    (h : DSAlCoda sc a b k c p j) (m : Nat) (hm : m < sc.measures.length) (hmk : m ≠ k) :
    (sc.measure m).repeatFlags.END = false ∧ (sc.measure m).repeatFlags.JUMP = false := by
  obtain ⟨_, _, _, _, _, _, hk, _⟩ := h
  refine ⟨(hk m hm).1, ?_⟩
  cases hjf : (sc.measure m).repeatFlags.JUMP with
  | false => rfl
  | true => exact absurd ((hk m hm).2.mp hjf) hmk

/-- The run of `unwind` on a D.S. al coda score, from the entry to the measure
loop. -/
theorem dsAlCoda_run [Zero R] [Add R] [Sub R] (tl : TempoMap R) (sc : Score)
    (a b k c p : Nat) (j : Jump) (h : DSAlCoda sc a b k c p j) (r : Nat) :
    ∃ sc4 : Score,
      unwindLoop tl (r + (sc.measures.length - c) + (b - a + 1) + (k + 1))
          (initState sc []) (some 0) =
        some (Outcome.done sc4
          (update tl
            [({ tick := 0, len := (sc.measure k).endTick - 0,
                utick := 0, utime := 0, timeOffset := 0 } : RepeatSegment R),
             { tick := (sc.measure a).tick, len := (sc.measure b).endTick - (sc.measure a).tick,
               utick := 0, utime := 0, timeOffset := 0 },
             { tick := (sc.measure c).tick,
               len := (sc.measure (sc.measures.length - 1)).endTick - (sc.measure c).tick,
               utick := 0, utime := 0, timeOffset := 0 }])) := by
  have hh := h
  obtain ⟨hc, hv, hab, hbk, hkc, hcn, hk, hj, hto, hpu, hca⟩ := h
  -- up to the jump
  obtain ⟨sc1, hs1, _, hw1⟩ := walk_plain_ref tl sc
    (r + (sc.measures.length - c) + (b - a + 1) + 1) k 0 (initState sc [] : UState R)
    (by simp [initState, reset_reset]) (by omega) (by omega)
    (fun m hm1 hm2 => ⟨(dsAlCoda_plain sc a b k c p j hh m (by omega) (by omega)).1,
      (dsAlCoda_plain sc a b k c p j hh m (by omega) (by omega)).2,
      fun hg => by simp [initState] at hg⟩) hv
  rw [Nat.zero_add, if_pos (by omega)] at hw1
  have hstk := measure_static_of_reset_eq hs1 k
  have hj1 := body_jump_take tl { (initState sc [] : UState R) with score := sc1 } k p j a b
      (by show (sc1.measure _).repeatFlags.END = false
          rw [hstk.2.2.1]; exact (hk _ (by omega)).1)
      (by show (sc1.measure _).repeatFlags.JUMP = true
          rw [hstk.2.2.1]; exact (hk _ (by omega)).2.mpr rfl)
      (by show sc1.voltas = []
          rw [voltas_of_reset_eq hs1]; exact hv) rfl rfl
      (by show firstJump 0 (sc1.measure _).el = some (p, j)
          rw [hstk.2.2.2.2.2]; exact hj)
      rfl
      (by show sc1.searchLabel j.jumpTo = some a
          rw [searchLabel_of_reset_eq hs1]; exact hto)
      (by show sc1.searchLabel j.playUntil = some b
          rw [searchLabel_of_reset_eq hs1]; exact hpu)
  have hcont : sc1.searchLabel j.continueAt = some c := by
    rw [searchLabel_of_reset_eq hs1]; exact hca
  simp only [hcont, Measure.endTick, hstk.1, hstk.2.1, (measure_static_of_reset_eq hs1 a).1]
    at hj1
  -- from the segno to the to-coda mark
  obtain ⟨sc2, hs2, _, hw2⟩ := walk_plain_ref tl sc
    (r + (sc.measures.length - c) + 1) (b - a) a
    ({ score := sc1.incPlaybackCount k,
       segs := [({ tick := 0, len := (sc.measure k).tick + (sc.measure k).ticks - 0,
                   utick := 0, utime := 0, timeOffset := 0 } : RepeatSegment R)],
       rs := { tick := (sc.measure a).tick, len := 0, utick := 0, utime := 0, timeOffset := 0 },
       endRepeat := some b, continueAt := some c, loop := 0, repeatCount := 0,
       isGoto := true, jumps := [some (k, p)] } : UState R)
    (by show resetPlaybackCounts (sc1.incPlaybackCount k) = _
        rw [reset_incPlaybackCount, hs1]) (by omega) (by omega)
    (fun m hm1 hm2 => ⟨(dsAlCoda_plain sc a b k c p j hh m (by omega) (by omega)).1,
      (dsAlCoda_plain sc a b k c p j hh m (by omega) (by omega)).2,
      fun _ => by
        show some b ≠ some m
        intro hx; injection hx with hx; omega⟩) hv
  have eab : a + (b - a) = b := by omega
  rw [eab, if_pos (by omega)] at hw2
  have hstb := measure_static_of_reset_eq hs2 b
  have hj2 := body_goto_continue tl
    ({ score := sc2,
       segs := [({ tick := 0, len := (sc.measure k).tick + (sc.measure k).ticks - 0,
                   utick := 0, utime := 0, timeOffset := 0 } : RepeatSegment R)],
       rs := { tick := (sc.measure a).tick, len := 0, utick := 0, utime := 0, timeOffset := 0 },
       endRepeat := some b, continueAt := some c, loop := 0, repeatCount := 0,
       isGoto := true, jumps := [some (k, p)] } : UState R) b c
    (by show (sc2.measure b).repeatFlags.END = false
        rw [hstb.2.2.1]; exact (dsAlCoda_plain sc a b k c p j hh b (by omega) (by omega)).1)
    (by show (sc2.measure b).repeatFlags.JUMP = false
        rw [hstb.2.2.1]; exact (dsAlCoda_plain sc a b k c p j hh b (by omega) (by omega)).2)
    (by show sc2.voltas = []
        rw [voltas_of_reset_eq hs2]; exact hv) rfl rfl rfl
  simp only [Measure.endTick, hstb.1, hstb.2.1, (measure_static_of_reset_eq hs2 c).1] at hj2
  -- from the coda to the end
  obtain ⟨sc3, hs3, _, hw3⟩ := walk_plain_ref tl sc r (sc.measures.length - c) c
    ({ score := sc2.incPlaybackCount b,
       segs := [({ tick := 0, len := (sc.measure k).tick + (sc.measure k).ticks - 0,
                   utick := 0, utime := 0, timeOffset := 0 } : RepeatSegment R)] ++
               [({ tick := (sc.measure a).tick,
                   len := (sc.measure b).tick + (sc.measure b).ticks - (sc.measure a).tick,
                   utick := 0, utime := 0, timeOffset := 0 } : RepeatSegment R)],
       rs := { tick := (sc.measure c).tick, len := 0, utick := 0, utime := 0, timeOffset := 0 },
       endRepeat := none, continueAt := some c, loop := 0, repeatCount := 0,
       isGoto := false, jumps := [some (k, p)] } : UState R)
    (by show resetPlaybackCounts (sc2.incPlaybackCount b) = _
        rw [reset_incPlaybackCount, hs2]) (by omega) (by omega)
    (fun m hm1 hm2 => ⟨(dsAlCoda_plain sc a b k c p j hh m (by omega) (by omega)).1,
      (dsAlCoda_plain sc a b k c p j hh m (by omega) (by omega)).2,
      fun hg => by cases hg⟩) hv
  rw [if_neg (by omega), unwindLoop_none] at hw3
  have hlast := measure_static_of_reset_eq hs3 (sc.measures.length - 1)
  have hpos : (sc.measure (sc.measures.length - 1)).tick +
      (sc.measure (sc.measures.length - 1)).ticks - (sc.measure c).tick ≠ 0 := by
    have h1 := contiguous_endTick_le_last sc hc c (by omega)
    have h2 := hc.1 c (by omega)
    unfold Measure.endTick at h1
    omega
  have hfinish : finish tl
      ({ score := sc3,
         segs := [({ tick := 0, len := (sc.measure k).tick + (sc.measure k).ticks - 0,
                     utick := 0, utime := 0, timeOffset := 0 } : RepeatSegment R)] ++
                 [({ tick := (sc.measure a).tick,
                     len := (sc.measure b).tick + (sc.measure b).ticks - (sc.measure a).tick,
                     utick := 0, utime := 0, timeOffset := 0 } : RepeatSegment R)],
         rs := { tick := (sc.measure c).tick, len := 0, utick := 0, utime := 0, timeOffset := 0 },
         endRepeat := none, continueAt := some c, loop := 0, repeatCount := 0,
         isGoto := false, jumps := [some (k, p)] } : UState R) =
      Outcome.done sc3
        (update tl
          [({ tick := 0, len := (sc.measure k).endTick - 0,
              utick := 0, utime := 0, timeOffset := 0 } : RepeatSegment R),
           { tick := (sc.measure a).tick, len := (sc.measure b).endTick - (sc.measure a).tick,
             utick := 0, utime := 0, timeOffset := 0 },
           { tick := (sc.measure c).tick,
             len := (sc.measure (sc.measures.length - 1)).endTick - (sc.measure c).tick,
             utick := 0, utime := 0, timeOffset := 0 }]) := by
    unfold finish
    simp only [length_of_reset_eq hs3, Measure.endTick, hlast.1, hlast.2.1]
    rw [if_pos hpos]
    rfl
  refine ⟨sc3, ?_⟩
  have e1 : r + (sc.measures.length - c) + (b - a + 1) + (k + 1) =
      r + (sc.measures.length - c) + (b - a + 1) + 1 + k := by omega
  have e2 : r + (sc.measures.length - c) + (b - a + 1) =
      r + (sc.measures.length - c) + 1 + (b - a) := by omega
  rw [e1, hw1, unwindLoop, hj1]
  simp only []
  rw [e2]
  refine Eq.trans ?_ (hw2.trans ?_)
  · rfl
  · rw [unwindLoop, hj2]
    simp only []
    refine Eq.trans ?_ (hw3.trans ?_)
    · rfl
    · rw [hfinish]

theorem contiguous_scoreRepeat08 : Contiguous scoreRepeat08 := by
  unfold Contiguous
  refine ⟨by decide, rfl, ?_⟩
  intro k hk
  have hk11 : k < 10 := by
    have h11 : k + 1 < 11 := hk
    omega
  interval_cases k <;> rfl

theorem dsAlCoda_scoreRepeat08 :
    DSAlCoda scoreRepeat08 1 3 5 6 0
      { jumpTo := "segno", playUntil := "coda", continueAt := "codab" } := by
  unfold DSAlCoda
  exact ⟨contiguous_scoreRepeat08, rfl, by decide, by decide, by decide, by decide, by decide,
    rfl, rfl, rfl, rfl⟩

/-! ### Runs on the scores of the test suite -/

theorem unwind_mono [Zero R] [Add R] [Sub R] (tl : TempoMap R) (fuel fuel1 : Nat) (sc : Score)
    (old : List (RepeatSegment R)) (o : Outcome R) (hf : fuel ≤ fuel1)
    (h : unwind tl fuel sc old = some o) : unwind tl fuel1 sc old = some o := by
  unfold unwind at h ⊢
  cases hfm : sc.firstMeasure with
  | none => rw [hfm] at h; exact h
  | some fm =>
    rw [hfm] at h
    obtain ⟨k, rfl⟩ := Nat.exists_eq_add_of_le hf
    exact unwindLoop_mono tl fuel k _ _ _ h

theorem emitted_some (sc : Score) (x : Option (Outcome R)) (S : List Nat)
    (h : emitted sc x = some S) :
    ∃ (sc1 : Score) (segs : List (RepeatSegment R)),
      x = some (Outcome.done sc1 segs) ∧ measureSequence sc segs = S := by
  cases x with
  | none => simp [emitted] at h
  | some o =>
    cases o with
    | done sc1 segs => exact ⟨sc1, segs, rfl, by simpa [emitted] using h⟩
    | crash => simp [emitted] at h

set_option maxHeartbeats 4000000 in
set_option maxRecDepth 100000 in
/-- The run of `unwind` on the score of `repeat34`, evaluated with symbolic
measure boundaries. -/
theorem emitted_scoreRepeat34At [Zero R] [Add R] [Sub R] (tl : TempoMap R)
    (old : List (RepeatSegment R)) (t1 t2 t3 t4 t5 : Int)
    (h1 : 0 < t1) (h2 : t1 < t2) (h3 : t2 < t3) (h4 : t3 < t4) (h5 : t4 < t5) :
    emitted (scoreRepeat34At t1 t2 t3 t4 t5) (unwind tl 13 (scoreRepeat34At t1 t2 t3 t4 t5) old) =
      some [1, 2, 3, 2, 4, 5, 5, 1, 2, 4, 5] := by
  have b1 : 0 < t2 := by omega
  have b2 : 0 < t3 := by omega
  have b3 : 0 < t4 := by omega
  have b4 : 0 < t5 := by omega
  have c1 : t1 < t3 := by omega
  have c2 : t1 < t4 := by omega
  have c3 : t1 < t5 := by omega
  have c4 : t2 < t4 := by omega
  have c5 : t2 < t5 := by omega
  have c6 : t3 < t5 := by omega
  have d1 : t5 - t3 ≠ 0 := by omega
  simp [unwind, unwindLoop, body, countVisit, voltaAndJumpFlag, gotoOrEnd, jumpOrAdvance,
      jumpToStartRepeat, startRepeat, initState, resetPlaybackCounts, scoreRepeat34At,
      Score.firstMeasure, Score.lastMeasure, Score.nextMeasure, Score.measure,
      Score.incPlaybackCount, Score.setPlaybackCount, Measure.setPlaybackCount,
      Score.searchVolta, searchVoltaIn, Volta.hasEnding, Score.searchLabel, firstJump,
      Measure.endTick, RepeatSegment.new, finish, emitted, measureSequence_update, d1,
      h1, le_of_lt h1, not_le.mpr h1, not_lt.mpr (le_of_lt h1), h2, le_of_lt h2, not_le.mpr h2,
      not_lt.mpr (le_of_lt h2), h3, le_of_lt h3, not_le.mpr h3, not_lt.mpr (le_of_lt h3), h4,
      le_of_lt h4, not_le.mpr h4, not_lt.mpr (le_of_lt h4), h5, le_of_lt h5, not_le.mpr h5,
      not_lt.mpr (le_of_lt h5), b1, le_of_lt b1, not_le.mpr b1, not_lt.mpr (le_of_lt b1), b2,
      le_of_lt b2, not_le.mpr b2, not_lt.mpr (le_of_lt b2), b3, le_of_lt b3, not_le.mpr b3,
      not_lt.mpr (le_of_lt b3), b4, le_of_lt b4, not_le.mpr b4, not_lt.mpr (le_of_lt b4), c1,
      le_of_lt c1, not_le.mpr c1, not_lt.mpr (le_of_lt c1), c2, le_of_lt c2, not_le.mpr c2,
      not_lt.mpr (le_of_lt c2), c3, le_of_lt c3, not_le.mpr c3, not_lt.mpr (le_of_lt c3), c4,
      le_of_lt c4, not_le.mpr c4, not_lt.mpr (le_of_lt c4), c5, le_of_lt c5, not_le.mpr c5,
      not_lt.mpr (le_of_lt c5), c6, le_of_lt c6, not_le.mpr c6, not_lt.mpr (le_of_lt c6)]
  simp [measureSequence, segmentMeasures, tick2measureFrom, walkSegment, Measure.endTick,
      h1, le_of_lt h1, not_le.mpr h1, not_lt.mpr (le_of_lt h1), h2, le_of_lt h2, not_le.mpr h2,
      not_lt.mpr (le_of_lt h2), h3, le_of_lt h3, not_le.mpr h3, not_lt.mpr (le_of_lt h3), h4,
      le_of_lt h4, not_le.mpr h4, not_lt.mpr (le_of_lt h4), h5, le_of_lt h5, not_le.mpr h5,
      not_lt.mpr (le_of_lt h5), b1, le_of_lt b1, not_le.mpr b1, not_lt.mpr (le_of_lt b1), b2,
      le_of_lt b2, not_le.mpr b2, not_lt.mpr (le_of_lt b2), b3, le_of_lt b3, not_le.mpr b3,
      not_lt.mpr (le_of_lt b3), b4, le_of_lt b4, not_le.mpr b4, not_lt.mpr (le_of_lt b4), c1,
      le_of_lt c1, not_le.mpr c1, not_lt.mpr (le_of_lt c1), c2, le_of_lt c2, not_le.mpr c2,
      not_lt.mpr (le_of_lt c2), c3, le_of_lt c3, not_le.mpr c3, not_lt.mpr (le_of_lt c3), c4,
      le_of_lt c4, not_le.mpr c4, not_lt.mpr (le_of_lt c4), c5, le_of_lt c5, not_le.mpr c5,
      not_lt.mpr (le_of_lt c5), c6, le_of_lt c6, not_le.mpr c6, not_lt.mpr (le_of_lt c6)]

/-! ### Queries at and beyond the last segment -/

theorem findUtick_last (u : Int) (L : List (RepeatSegment R)) :
    List.Chain' (fun a b : RepeatSegment R => b.utick = a.utick + a.len) L →
    (∀ s ∈ L, 0 ≤ s.len) →
    ∀ (o : Nat) (l : RepeatSegment R), L.getLast? = some l → l.utick ≤ u →
      findUtick u o L = some (o + (L.length - 1), l) := by
  induction L with
  | nil => intro _ _ o l h; simp at h
  | cons x rest ih =>
    intro hc hn o l hl hu
    rw [List.chain'_cons'] at hc
    have hn1 : ∀ s ∈ rest, 0 ≤ s.len := fun s hs => hn s (List.mem_cons_of_mem _ hs)
    cases rest with
    | nil =>
      simp at hl; subst hl
      simp [findUtick, hu]
    | cons y rest2 =>
      rw [List.getLast?_cons_cons] at hl
      have hle := chain_head_le (y :: rest2) hc.2 hn1 ((y :: rest2).length - 1) y l (by simp)
        (by rw [List.get?_eq_getElem?, ← List.getLast?_eq_getElem?]; exact hl)
      simp only [findUtick]
      rw [if_neg (by omega), ih hc.2 hn1 (o + 1) l hl hu]
      simp only [List.length_cons]
      congr 2
      omega

theorem startIndex_lt (L : List (RepeatSegment R)) (idx1 : Nat) (u : Int) (h : L ≠ []) :
    startIndex L idx1 u < L.length := by
  have hpos : 0 < L.length := List.length_pos.mpr h
  unfold startIndex
  split
  · next a ha =>
    split
    · rw [List.get?_eq_getElem?] at ha
      exact (List.getElem?_eq_some_iff.mp ha).1
    · exact hpos
  · exact hpos

/-- At and beyond the start of the last segment `utick2tick` extrapolates from the
last segment, whatever the cursor. -/
theorem utick2tick_past_end [Zero R] [Add R] [Sub R] (tl : TempoMap R)
    (base : List (RepeatSegment R)) (hb : ∀ s ∈ base, 0 ≤ s.len)
    (dbg : Bool) (idx1 idx2 : Nat) (u : Int) (l : RepeatSegment R)
    (hl : (update tl base).getLast? = some l) (hu : l.utick ≤ u) :
    utick2tick dbg { segs := update tl base, idx1 := idx1, idx2 := idx2 } u =
      some (u - (l.utick - l.tick), (update tl base).length - 1) := by
  have hc : List.Chain' (fun a b : RepeatSegment R => b.utick = a.utick + a.len)
      (update tl base) := updateFrom_chain' tl base 0 0
  have hn := update_len_nonneg tl base hb
  have hne : update tl base ≠ [] := by
    intro h0; rw [h0] at hl; simp at hl
  have hlen : (update tl base).length ≠ 0 := fun h0 => hne (List.length_eq_zero.mp h0)
  obtain ⟨a, ha⟩ : ∃ a, (update tl base).head? = some a := by
    cases hL : update tl base with
    | nil => exact absurd hL hne
    | cons x r => exact ⟨x, rfl⟩
  have ha0 : a.utick = 0 := updateFrom_head tl base 0 0 a ha
  have hle := chain_head_le _ hc hn ((update tl base).length - 1) a l ha
    (by rw [List.get?_eq_getElem?, ← List.getLast?_eq_getElem?]; exact hl)
  have hii := startIndex_lt (update tl base) idx1 u hne
  have hfind := findUtick_last u ((update tl base).drop (startIndex (update tl base) idx1 u))
    (hc.drop _) (fun s hs => hn s (List.mem_of_mem_drop hs))
    (startIndex (update tl base) idx1 u) l
    (by rw [List.getLast?_drop, if_neg (by omega)]; exact hl) hu
  unfold utick2tick
  simp only []
  rw [if_neg hlen, if_neg (by omega), hfind]
  simp only [List.length_drop, Option.some.injEq, Prod.mk.injEq, true_and]
  omega

/-! ### Segments never start before tick 0 -/

theorem measure_default (sc : Score) (k : Nat) (hk : sc.measures.length ≤ k) :
    sc.measure k = default := by
  unfold Score.measure
  rw [List.getD_eq_getElem?_getD, List.getElem?_eq_none hk]
  rfl

theorem contiguous_tick_nonneg (sc : Score) (h : Contiguous sc) (k : Nat) :
    0 ≤ (sc.measure k).tick ∧ 0 ≤ (sc.measure k).endTick := by
  by_cases hk : k < sc.measures.length
  · have h0 : 0 ≤ (sc.measure 0).endTick := by
      have := h.1 0 (by omega)
      have := h.2.1
      unfold Measure.endTick; omega
    have h1 := contiguous_tick_le sc h 0 k (by omega)
    rw [Nat.zero_add] at h1
    have h2 := h.1 k hk
    unfold Measure.endTick at h0 h1 ⊢
    cases k with
    | zero => rw [h.2.1]; omega
    | succ j =>
      have h3 := h.2.2 j hk
      have h4 := contiguous_tick_le sc h 0 j (by omega)
      rw [Nat.zero_add] at h4
      unfold Measure.endTick at h3 h4
      omega
  · rw [measure_default sc k (by omega)]
    exact ⟨le_refl _, le_refl _⟩

theorem tickInv_close (sc : Score) (segs : List (RepeatSegment R)) (t t1 : Int)
    (rs : RepeatSegment R) (h : TickInv sc segs t) (ht : rs.tick = t) (h1 : 0 ≤ t1) :
    TickInv sc (segs ++ [rs]) t1 := by
  obtain ⟨hc, hs, h0⟩ := h
  refine ⟨hc, ?_, h1⟩
  intro s hs1
  rcases List.mem_append.mp hs1 with h2 | h2
  · exact hs s h2
  · simp at h2; subst h2; omega

theorem tick_nonneg_append (sc : Score) (segs : List (RepeatSegment R)) (t : Int)
    (rs : RepeatSegment R) (h : TickInv sc segs t) (ht : rs.tick = t) :
    ∀ s ∈ segs ++ [rs], 0 ≤ s.tick :=
  (tickInv_close sc segs t 0 rs h ht (le_refl _)).2.1

theorem voltaAndJumpFlag_tickInv [Zero R] (st : UState R) (mi : Nat)
    (h : TickInv st.score st.segs st.rs.tick) :
    TickInv (voltaAndJumpFlag st (st.score.measure mi)).1.score
      (voltaAndJumpFlag st (st.score.measure mi)).1.segs
      (voltaAndJumpFlag st (st.score.measure mi)).1.rs.tick := by
  have hn := contiguous_tick_nonneg st.score h.1 mi
  unfold voltaAndJumpFlag
  repeat' split
  all_goals first
    | exact h
    | exact tickInv_close _ _ _ _ _ h rfl hn.2
    | exact ⟨h.1, h.2.1, hn.2⟩

theorem jumpOrAdvance_tickInv [Zero R] (st : UState R) (mi : Nat) (dj : Bool)
    (T : Score → List (RepeatSegment R) → Prop)
    (h : TickInv st.score st.segs st.rs.tick) :
    (jumpOrAdvance st mi dj).Post
      (fun st1 _ => TickInv st1.score st1.segs st1.rs.tick)
      (fun st1 => TickInv st1.score st1.segs st1.rs.tick) T := by
  unfold jumpOrAdvance
  simp only []
  repeat' split
  all_goals first
    | trivial
    | exact h
    | exact tickInv_close _ _ _ _ _ h rfl (contiguous_tick_nonneg _ h.1 _).1

theorem gotoOrEnd_tickInv [Zero R] [Add R] [Sub R] (tl : TempoMap R) (st : UState R) (mi : Nat)
    (dj : Bool) (h : TickInv st.score st.segs st.rs.tick) :
    (gotoOrEnd tl st mi dj).Post
      (fun st1 _ => TickInv st1.score st1.segs st1.rs.tick)
      (fun st1 => TickInv st1.score st1.segs st1.rs.tick)
      (fun _ segs => ∃ base : List (RepeatSegment R),
        segs = update tl base ∧ ∀ s ∈ base, 0 ≤ s.tick) := by
  unfold gotoOrEnd
  simp only []
  repeat' split
  all_goals first
    | exact jumpOrAdvance_tickInv _ mi dj _ h
    | exact h
    | exact tickInv_close _ _ _ _ _ h rfl (contiguous_tick_nonneg _ h.1 _).1
    | exact ⟨_, rfl, h.2.1⟩
    | exact ⟨_, rfl, tick_nonneg_append _ _ _ _ h rfl⟩

theorem countVisit_tickInv (st : UState R) (mi : Nat)
    (h : TickInv st.score st.segs st.rs.tick) :
    TickInv (countVisit st mi).score (countVisit st mi).segs (countVisit st mi).rs.tick := by
  have h1 : TickInv (st.score.incPlaybackCount mi) st.segs st.rs.tick :=
    ⟨contiguous_of_reset_eq (reset_incPlaybackCount _ _) h.1, h.2.1, h.2.2⟩
  unfold countVisit
  simp only []
  split <;> exact h1

theorem body_tickInv [Zero R] [Add R] [Sub R] (tl : TempoMap R) (st : UState R) (mi : Nat)
    (h : TickInv st.score st.segs st.rs.tick) :
    (body tl st mi).Post
      (fun st1 _ => TickInv st1.score st1.segs st1.rs.tick)
      (fun st1 => TickInv st1.score st1.segs st1.rs.tick)
      (fun _ segs => ∃ base : List (RepeatSegment R),
        segs = update tl base ∧ ∀ s ∈ base, 0 ≤ s.tick) :=
  gotoOrEnd_tickInv tl _ mi _ (voltaAndJumpFlag_tickInv _ mi (countVisit_tickInv st mi h))

theorem finish_tickInv [Zero R] [Add R] [Sub R] (tl : TempoMap R) (st : UState R)
    (h : TickInv st.score st.segs st.rs.tick) :
    (finish tl st).Post (fun _ segs => ∃ base : List (RepeatSegment R),
        segs = update tl base ∧ ∀ s ∈ base, 0 ≤ s.tick) := by
  unfold finish
  simp only []
  split
  · exact ⟨_, rfl, tick_nonneg_append _ _ _ _ h rfl⟩
  · exact ⟨_, rfl, h.2.1⟩

theorem update_tick_nonneg [Zero R] [Add R] [Sub R] (tl : TempoMap R)
    (segs : List (RepeatSegment R)) (h : ∀ s ∈ segs, 0 ≤ s.tick) :
    ∀ s ∈ update tl segs, 0 ≤ s.tick := by
  intro s hs
  have h1 : (s.tick, s.len) ∈ (update tl segs).map (fun s => (s.tick, s.len)) :=
    List.mem_map.mpr ⟨s, hs, rfl⟩
  rw [update_tick_len] at h1
  obtain ⟨s0, hs0, he⟩ := List.mem_map.mp h1
  have := h s0 hs0
  simp only [Prod.mk.injEq] at he
  omega

/-- On a contiguous score no segment of a list returned by `unwind` starts before
tick 0. -/
theorem unwind_tick_nonneg [Zero R] [Add R] [Sub R] (tl : TempoMap R) (fuel : Nat)
    (sc sc1 : Score) (old segs : List (RepeatSegment R)) (hc : Contiguous sc)
    (h : unwind tl fuel sc old = some (Outcome.done sc1 segs)) :
    ∀ s ∈ segs, 0 ≤ s.tick := by
  unfold unwind at h
  simp only [List.drop_length] at h
  cases hfm : sc.firstMeasure with
  | none =>
    rw [hfm] at h
    simp only [Option.some.injEq, Outcome.done.injEq] at h
    rw [← h.2]; simp
  | some fm =>
    rw [hfm] at h
    simp only [] at h
    have := unwindLoop_post tl
      (fun st _ => TickInv st.score st.segs st.rs.tick)
      (fun o => o.Post (fun _ segs => ∃ base : List (RepeatSegment R),
        segs = update tl base ∧ ∀ s ∈ base, 0 ≤ s.tick))
      (fun st mi hP => by
        have hb := body_tickInv tl st mi hP
        cases hs : body tl st mi with
        | next st1 m1 => rw [hs] at hb; exact hb
        | brk st1 => rw [hs] at hb; exact finish_tickInv tl st1 hb
        | ret sc2 segs2 => rw [hs] at hb; exact hb
        | crash => trivial)
      trivial (fun st hP => finish_tickInv tl st hP)
      fuel (initState sc []) (some fm) _
      ⟨contiguous_reset sc hc, by simp [initState], le_refl _⟩ h
    obtain ⟨base, rfl, hb⟩ := this
    exact update_tick_nonneg tl base hb

/-! ### Sorted search keys -/

theorem sorted_get {K : Type} [Preorder K] (f : RepeatSegment R → K)
    (L : List (RepeatSegment R)) (h : List.Pairwise (fun a b => f a ≤ f b) L)
    (i j : Nat) (a b : RepeatSegment R) (hij : i ≤ j)
    (ha : L.get? i = some a) (hb : L.get? j = some b) : f a ≤ f b := by
  rcases Nat.eq_or_lt_of_le hij with e | hlt
  · subst e; rw [ha] at hb; cases hb; exact le_refl _
  · rw [List.get?_eq_getElem?] at ha hb
    obtain ⟨hi, rfl⟩ := List.getElem?_eq_some_iff.mp ha
    obtain ⟨hj, rfl⟩ := List.getElem?_eq_some_iff.mp hb
    exact List.pairwise_iff_getElem.mp h i j hi hj hlt

theorem updateFrom_utick_sorted [Add R] [Sub R] (tl : TempoMap R)
    (segs : List (RepeatSegment R)) (hn : ∀ s ∈ segs, 0 ≤ s.len) :
    ∀ (u : Int) (t : R), (∀ s ∈ updateFrom tl u t segs, u ≤ s.utick) ∧
      List.Pairwise (fun a b : RepeatSegment R => a.utick ≤ b.utick)
        (updateFrom tl u t segs) := by
  induction segs with
  | nil => intro u t; simp [updateFrom]
  | cons x rest ih =>
    intro u t
    have hx := hn x (List.mem_cons_self _ _)
    obtain ⟨h1, h2⟩ := ih (fun s hs => hn s (List.mem_cons_of_mem _ hs)) (u + x.len)
      (t + (tl.tick2time (x.tick + x.len) - tl.tick2time x.tick))
    simp only [updateFrom]
    have hall : ∀ s ∈ updateFrom tl (u + x.len)
        (t + (tl.tick2time (x.tick + x.len) - tl.tick2time x.tick)) rest, u ≤ s.utick := by
      intro s hs; have := h1 s hs; omega
    refine ⟨?_, List.pairwise_cons.mpr ⟨fun b hb => hall b hb, h2⟩⟩
    intro s hs
    rcases List.mem_cons.mp hs with e | e
    · rw [e]
    · exact hall s e

theorem updateFrom_utime_sorted [LinearOrderedAddCommGroup R] (tl : TempoMap R)
    (hmono : ∀ a b : Int, a ≤ b → tl.tick2time a ≤ tl.tick2time b)
    (segs : List (RepeatSegment R)) (hn : ∀ s ∈ segs, 0 ≤ s.len) :
    ∀ (u : Int) (t : R), (∀ s ∈ updateFrom tl u t segs, t ≤ s.utime) ∧
      List.Pairwise (fun a b : RepeatSegment R => a.utime ≤ b.utime)
        (updateFrom tl u t segs) := by
  induction segs with
  | nil => intro u t; simp [updateFrom]
  | cons x rest ih =>
    intro u t
    have hx := hn x (List.mem_cons_self _ _)
    obtain ⟨h1, h2⟩ := ih (fun s hs => hn s (List.mem_cons_of_mem _ hs)) (u + x.len)
      (t + (tl.tick2time (x.tick + x.len) - tl.tick2time x.tick))
    simp only [updateFrom]
    have hstep : t ≤ t + (tl.tick2time (x.tick + x.len) - tl.tick2time x.tick) :=
      le_add_of_nonneg_right (sub_nonneg.mpr (hmono _ _ (by omega)))
    have hall : ∀ s ∈ updateFrom tl (u + x.len)
        (t + (tl.tick2time (x.tick + x.len) - tl.tick2time x.tick)) rest, t ≤ s.utime := by
      intro s hs; exact le_trans hstep (h1 s hs)
    refine ⟨?_, List.pairwise_cons.mpr ⟨fun b hb => hall b hb, h2⟩⟩
    intro s hs
    rcases List.mem_cons.mp hs with e | e
    · rw [e]
    · exact hall s e

theorem updateFrom_timeOffset [Add R] [Sub R] (tl : TempoMap R)
    (segs : List (RepeatSegment R)) :
    ∀ (u : Int) (t : R), ∀ s ∈ updateFrom tl u t segs,
      s.timeOffset = s.utime - tl.tick2time s.tick := by
  induction segs with
  | nil => intro u t s hs; simp [updateFrom] at hs
  | cons x rest ih =>
    intro u t s hs
    simp only [updateFrom] at hs
    rcases List.mem_cons.mp hs with e | e
    · rw [e]
    · exact ih _ _ s e

theorem updateFrom_head_utime [Add R] [Sub R] (tl : TempoMap R) (segs : List (RepeatSegment R))
    (u : Int) (t : R) (s : RepeatSegment R) (h : (updateFrom tl u t segs).head? = some s) :
    s.utime = t := by
  cases segs with
  | nil => simp [updateFrom] at h
  | cons a rest =>
    simp [updateFrom] at h
    rw [← h]

theorem updateFrom_utime_chain [Add R] [Sub R] (tl : TempoMap R)
    (segs : List (RepeatSegment R)) :
    ∀ (u : Int) (t : R) (i : Nat) (a b : RepeatSegment R),
      (updateFrom tl u t segs).get? i = some a →
      (updateFrom tl u t segs).get? (i + 1) = some b →
      b.utime = a.utime + (tl.tick2time (a.tick + a.len) - tl.tick2time a.tick) := by
  induction segs with
  | nil => intro u t i a b h; simp [updateFrom] at h
  | cons s rest ih =>
    intro u t i a b ha hb
    cases i with
    | zero =>
      simp [updateFrom] at ha hb
      have hb1 : (updateFrom tl (u + s.len)
          (t + (tl.tick2time (s.tick + s.len) - tl.tick2time s.tick)) rest).head? = some b := by
        rw [List.head?_eq_getElem?]; simpa using hb
      have := updateFrom_head_utime tl rest _ _ b hb1
      rw [this, ← ha]
    | succ k =>
      simp [updateFrom] at ha hb
      exact ih _ _ k a b (by simpa using ha) (by simpa using hb)

/-! ### The cursor does not change what the searches find -/

theorem findUtick_drop (u : Int) :
    ∀ (ii : Nat) (L : List (RepeatSegment R)) (o : Nat) (a : RepeatSegment R),
      List.Pairwise (fun a b : RepeatSegment R => a.utick ≤ b.utick) L →
      L.get? ii = some a → a.utick ≤ u →
      findUtick u o L = findUtick u (o + ii) (L.drop ii) := by
  intro ii
  induction ii with
  | zero => intro L o a _ _ _; rfl
  | succ k ih =>
    intro L o a hs ha hu
    cases L with
    | nil => simp at ha
    | cons s rest =>
      cases rest with
      | nil => simp at ha
      | cons s2 rest =>
        have hs2 : List.Pairwise (fun a b : RepeatSegment R => a.utick ≤ b.utick)
            (s2 :: rest) := (List.pairwise_cons.mp hs).2
        have ha1 : (s2 :: rest).get? k = some a := by simpa using ha
        have h2 : s2.utick ≤ a.utick :=
          sorted_get (fun s => s.utick) (s2 :: rest) hs2 0 k s2 a (Nat.zero_le _) rfl ha1
        have hstep : findUtick u o (s :: s2 :: rest) = findUtick u (o + 1) (s2 :: rest) := by
          simp only [findUtick]
          rw [if_neg (by intro hh; have := hh.2; omega)]
        rw [hstep, ih (s2 :: rest) (o + 1) a hs2 ha1 hu]
        simp only [List.drop_succ_cons]
        rw [show o + 1 + k = o + (k + 1) by omega]

theorem findUtick_startIndex (u : Int) (L : List (RepeatSegment R))
    (hs : List.Pairwise (fun a b : RepeatSegment R => a.utick ≤ b.utick) L) (idx1 : Nat) :
    findUtick u (startIndex L idx1 u) (L.drop (startIndex L idx1 u)) = findUtick u 0 L := by
  unfold startIndex
  split
  · next a ha =>
    split
    · next hu =>
      have := findUtick_drop u idx1 L 0 a hs ha hu
      rw [Nat.zero_add] at this
      exact this.symm
    · rfl
  · rfl

theorem findUtime_drop [LinearOrder R] (t : R) :
    ∀ (ii : Nat) (L : List (RepeatSegment R)) (o : Nat) (a : RepeatSegment R),
      List.Pairwise (fun a b : RepeatSegment R => a.utime ≤ b.utime) L →
      L.get? ii = some a → a.utime ≤ t →
      findUtime t o L = findUtime t (o + ii) (L.drop ii) := by
  intro ii
  induction ii with
  | zero => intro L o a _ _ _; rfl
  | succ k ih =>
    intro L o a hs ha hu
    cases L with
    | nil => simp at ha
    | cons s rest =>
      cases rest with
      | nil => simp at ha
      | cons s2 rest =>
        have hs2 : List.Pairwise (fun a b : RepeatSegment R => a.utime ≤ b.utime)
            (s2 :: rest) := (List.pairwise_cons.mp hs).2
        have ha1 : (s2 :: rest).get? k = some a := by simpa using ha
        have h2 : s2.utime ≤ a.utime :=
          sorted_get (fun s => s.utime) (s2 :: rest) hs2 0 k s2 a (Nat.zero_le _) rfl ha1
        have hstep : findUtime t o (s :: s2 :: rest) = findUtime t (o + 1) (s2 :: rest) := by
          simp only [findUtime]
          rw [if_neg (by intro hh; exact absurd (le_trans h2 hu) (not_le.mpr hh.2))]
        rw [hstep, ih (s2 :: rest) (o + 1) a hs2 ha1 hu]
        simp only [List.drop_succ_cons]
        rw [show o + 1 + k = o + (k + 1) by omega]

theorem findUtime_startIndexTime [LinearOrder R] (t : R) (L : List (RepeatSegment R))
    (hs : List.Pairwise (fun a b : RepeatSegment R => a.utime ≤ b.utime) L) (idx2 : Nat) :
    findUtime t (startIndexTime L idx2 t) (L.drop (startIndexTime L idx2 t)) =
      findUtime t 0 L := by
  unfold startIndexTime
  split
  · next a ha =>
    split
    · next hu =>
      have := findUtime_drop t idx2 L 0 a hs ha hu
      rw [Nat.zero_add] at this
      exact this.symm
    · rfl
  · rfl

theorem utick2utime_cursor [Zero R] [Add R] (tl : TempoMap R) (L : List (RepeatSegment R))
    (hs : List.Pairwise (fun a b : RepeatSegment R => a.utick ≤ b.utick) L)
    (idx1 idx2 : Nat) (u : Int) :
    utick2utime tl { segs := L, idx1 := idx1, idx2 := idx2 } u =
      utick2utime tl { segs := L, idx1 := 0, idx2 := 0 } u := by
  unfold utick2utime
  simp only []
  rw [findUtick_startIndex u L hs idx1, findUtick_startIndex u L hs 0]

theorem utick2tick_cursor (dbg : Bool) (L : List (RepeatSegment R))
    (hs : List.Pairwise (fun a b : RepeatSegment R => a.utick ≤ b.utick) L)
    (idx1 idx2 : Nat) (u : Int) :
    (utick2tick dbg { segs := L, idx1 := idx1, idx2 := idx2 } u).map Prod.fst =
      (utick2tick dbg { segs := L, idx1 := 0, idx2 := 0 } u).map Prod.fst := by
  unfold utick2tick
  simp only []
  rw [findUtick_startIndex u L hs idx1, findUtick_startIndex u L hs 0]
  split
  · rfl
  · split
    · rfl
    · cases findUtick u 0 L with
      | none => cases dbg <;> rfl
      | some p => rfl

theorem utime2utick_cursor [LinearOrder R] [Sub R] (dbg : Bool) (tl : TempoMap R)
    (L : List (RepeatSegment R))
    (hs : List.Pairwise (fun a b : RepeatSegment R => a.utime ≤ b.utime) L)
    (idx1 idx2 : Nat) (t : R) :
    (utime2utick dbg tl { segs := L, idx1 := idx1, idx2 := idx2 } t).map Prod.fst =
      (utime2utick dbg tl { segs := L, idx1 := 0, idx2 := 0 } t).map Prod.fst := by
  unfold utime2utick
  simp only []
  rw [findUtime_startIndexTime t L hs idx2, findUtime_startIndexTime t L hs 0]
  cases findUtime t 0 L with
  | none => cases dbg <;> rfl
  | some p => rfl

/-! ### What the search for an unwound tick finds -/

theorem findUtick_some (u : Int) (L : List (RepeatSegment R)) :
    ∀ (o i : Nat) (s : RepeatSegment R), findUtick u o L = some (i, s) →
      ∃ k, i = o + k ∧ L.get? k = some s ∧ s.utick ≤ u ∧
        ∀ b, L.get? (k + 1) = some b → u < b.utick := by
  induction L with
  | nil => intro o i s h; simp [findUtick] at h
  | cons x rest ih =>
    intro o i s h
    cases rest with
    | nil =>
      simp only [findUtick] at h
      split at h
      · next hu =>
        simp only [Option.some.injEq, Prod.mk.injEq] at h
        refine ⟨0, by omega, by rw [← h.2]; rfl, by rw [← h.2]; exact hu, ?_⟩
        intro b hb; simp at hb
      · simp at h
    | cons s2 rest =>
      simp only [findUtick] at h
      split at h
      · next hu =>
        simp only [Option.some.injEq, Prod.mk.injEq] at h
        refine ⟨0, by omega, by rw [← h.2]; rfl, by rw [← h.2]; exact hu.1, ?_⟩
        intro b hb
        simp at hb
        rw [← hb]; exact hu.2
      · obtain ⟨k, hk, hget, hle, hnext⟩ := ih (o + 1) i s h
        refine ⟨k + 1, by omega, by simpa using hget, hle, ?_⟩
        intro b hb
        exact hnext b (by simpa using hb)

theorem findUtick_isSome (u : Int) (L : List (RepeatSegment R)) :
    ∀ (o : Nat) (a : RepeatSegment R), L.head? = some a → a.utick ≤ u →
      ∃ p, findUtick u o L = some p := by
  induction L with
  | nil => intro o a h; simp at h
  | cons x rest ih =>
    intro o a ha hu
    simp at ha; subst ha
    cases rest with
    | nil => exact ⟨(o, x), by simp only [findUtick]; rw [if_pos hu]⟩
    | cons s2 rest =>
      by_cases h2 : u < s2.utick
      · exact ⟨(o, x), by simp only [findUtick]; rw [if_pos ⟨hu, h2⟩]⟩
      · obtain ⟨p, hp⟩ := ih (o + 1) s2 rfl (by omega)
        exact ⟨p, by simp only [findUtick]; rw [if_neg (fun hh => h2 hh.2)]; exact hp⟩

theorem utick2utime_eq [Zero R] [Add R] (tl : TempoMap R) (L : List (RepeatSegment R))
    (hs : List.Pairwise (fun a b : RepeatSegment R => a.utick ≤ b.utick) L)
    (idx1 idx2 : Nat) (u : Int) :
    utick2utime tl { segs := L, idx1 := idx1, idx2 := idx2 } u =
      match findUtick u 0 L with
      | some (_, s) => tl.tick2time (u - (s.utick - s.tick)) + s.timeOffset
      | none => 0 := by
  unfold utick2utime
  simp only []
  rw [findUtick_startIndex u L hs idx1]

/-- On a list produced by `update` from segments of non-negative length, under a
non-decreasing `tick2time`, `utick2utime` is non-decreasing. -/
theorem utick2utime_mono_update [LinearOrderedAddCommGroup R] (tl : TempoMap R)
    (hmono : ∀ a b : Int, a ≤ b → tl.tick2time a ≤ tl.tick2time b)
    (base : List (RepeatSegment R)) (hb : ∀ s ∈ base, 0 ≤ s.len)
    (idx1 idx2 : Nat) (u v : Int) (huv : u ≤ v) :
    utick2utime tl { segs := update tl base, idx1 := idx1, idx2 := idx2 } u ≤
      utick2utime tl { segs := update tl base, idx1 := idx1, idx2 := idx2 } v := by
  have hsu := (updateFrom_utick_sorted tl base hb 0 0).2
  have hst := (updateFrom_utime_sorted tl hmono base hb 0 0).2
  have h0t := (updateFrom_utime_sorted tl hmono base hb 0 0).1
  have hoff := updateFrom_timeOffset tl base 0 0
  have hcu := updateFrom_chain tl base 0 0
  have hct := updateFrom_utime_chain tl base 0 0
  have hge : ∀ (s : RepeatSegment R) (w : Int), s ∈ updateFrom tl 0 0 base → s.utick ≤ w →
      s.utime ≤ tl.tick2time (w - (s.utick - s.tick)) + s.timeOffset := by
    intro s w hs hw
    rw [hoff s hs]
    have h1 : tl.tick2time s.tick ≤ tl.tick2time (w - (s.utick - s.tick)) :=
      hmono _ _ (by omega)
    have h2 := add_le_add_right h1 (s.utime - tl.tick2time s.tick)
    have e : tl.tick2time s.tick + (s.utime - tl.tick2time s.tick) = s.utime := by abel
    rw [e] at h2
    exact h2
  have hupd : update tl base = updateFrom tl 0 0 base := rfl
  rw [hupd, utick2utime_eq tl _ hsu idx1 idx2 u, utick2utime_eq tl _ hsu idx1 idx2 v]
  change (match findUtick u 0 (updateFrom tl 0 0 base) with
      | some (_, s) => tl.tick2time (u - (s.utick - s.tick)) + s.timeOffset
      | none => 0) ≤
    (match findUtick v 0 (updateFrom tl 0 0 base) with
      | some (_, s) => tl.tick2time (v - (s.utick - s.tick)) + s.timeOffset
      | none => 0)
  cases hf : findUtick u 0 (updateFrom tl 0 0 base) with
  | none =>
    cases hg : findUtick v 0 (updateFrom tl 0 0 base) with
    | none => exact le_refl _
    | some q =>
      obtain ⟨j, b⟩ := q
      obtain ⟨k, _, hk, hkv, _⟩ := findUtick_some v _ 0 j b hg
      have hmem : b ∈ updateFrom tl 0 0 base := List.get?_mem hk
      exact le_trans (h0t b hmem) (hge b v hmem hkv)
  | some p =>
    obtain ⟨i, a⟩ := p
    obtain ⟨k, _, hk, hku, hknext⟩ := findUtick_some u _ 0 i a hf
    have hamem : a ∈ updateFrom tl 0 0 base := List.get?_mem hk
    obtain ⟨hd, hhd⟩ : ∃ hd, (updateFrom tl 0 0 base).head? = some hd := by
      cases hL : updateFrom tl 0 0 base with
      | nil => rw [hL] at hk; simp at hk
      | cons x rest => exact ⟨x, rfl⟩
    have hhd0 : (updateFrom tl 0 0 base).get? 0 = some hd := by
      rw [List.get?_eq_getElem?, ← List.head?_eq_getElem?]; exact hhd
    have hhdle : hd.utick ≤ a.utick :=
      sorted_get (fun s => s.utick) _ hsu 0 k hd a (Nat.zero_le _) hhd0 hk
    obtain ⟨q, hg⟩ := findUtick_isSome v (updateFrom tl 0 0 base) 0 hd hhd (by omega)
    obtain ⟨j, b⟩ := q
    obtain ⟨m, _, hm, hmv, hmnext⟩ := findUtick_some v _ 0 j b hg
    have hbmem : b ∈ updateFrom tl 0 0 base := List.get?_mem hm
    rw [hg]
    change tl.tick2time (u - (a.utick - a.tick)) + a.timeOffset ≤
      tl.tick2time (v - (b.utick - b.tick)) + b.timeOffset
    rcases lt_trichotomy k m with hlt | heq | hgt
    · -- the segment of `u` comes first
      obtain ⟨c, hc⟩ : ∃ c, (updateFrom tl 0 0 base).get? (k + 1) = some c := by
        have hlen : m < (updateFrom tl 0 0 base).length := by
          rw [List.get?_eq_getElem?] at hm
          exact (List.getElem?_eq_some_iff.mp hm).1
        exact ⟨(updateFrom tl 0 0 base)[k + 1], by
          rw [List.get?_eq_getElem?]; exact List.getElem?_eq_getElem (by omega)⟩
      have hc1 := hcu k a c hk hc
      have hc2 := hct k a c hk hc
      have hu1 := hknext c hc
      have hcb : c.utime ≤ b.utime :=
        sorted_get (fun s => s.utime) _ hst (k + 1) m c b (by omega) hc hm
      refine le_trans ?_ (le_trans hcb (hge b v hbmem hmv))
      rw [hc2, hoff a hamem]
      have h1 : tl.tick2time (u - (a.utick - a.tick)) ≤ tl.tick2time (a.tick + a.len) :=
        hmono _ _ (by omega)
      have e : tl.tick2time (u - (a.utick - a.tick)) + (a.utime - tl.tick2time a.tick) =
          a.utime + (tl.tick2time (u - (a.utick - a.tick)) - tl.tick2time a.tick) := by abel
      rw [e]
      exact add_le_add_left (sub_le_sub_right h1 _) _
    · subst heq
      rw [hk] at hm
      cases hm
      exact add_le_add_right (hmono _ _ (by omega)) _
    · exfalso
      obtain ⟨c, hc⟩ : ∃ c, (updateFrom tl 0 0 base).get? (m + 1) = some c := by
        have hlen : k < (updateFrom tl 0 0 base).length := by
          rw [List.get?_eq_getElem?] at hk
          exact (List.getElem?_eq_some_iff.mp hk).1
        exact ⟨(updateFrom tl 0 0 base)[m + 1], by
          rw [List.get?_eq_getElem?]; exact List.getElem?_eq_getElem (by omega)⟩
      have h1 := hmnext c hc
      have h2 : c.utick ≤ a.utick :=
        sorted_get (fun s => s.utick) _ hsu (m + 1) k c a (by omega) hc hk
      omega

/-! ### The straight walk -/

/-- Visit of a measure flagged END outside any bracket that has been played
`repeatCount` times or more: the loop is left by `break`. -/
theorem body_end_break [Zero R] [Add R] [Sub R] (tl : TempoMap R) (st : UState R) (mi : Nat)
    (hE : (st.score.measure mi).repeatFlags.END = true)
    (hv : st.score.voltas = [])
    (hg : st.isGoto = false) (he : st.endRepeat = none)
    (hm : mi < st.score.measures.length)
    (hp : (st.score.measure mi).repeatCount ≤ (st.score.measure mi).playbackCount + 1) :
    body tl st mi = Step.brk { st with score := st.score.incPlaybackCount mi } := by
  rw [body_eq, countVisit_plain st mi (by rw [hg]; rfl)]
  rw [voltaAndJumpFlag_no_volta { st with score := st.score.incPlaybackCount mi } _ hv]
  simp only [he, Option.isSome_none, Bool.false_and, Bool.false_eq_true, if_false]
  unfold gotoOrEnd
  simp only [hg, he, hE, Bool.false_and, Bool.false_eq_true, if_false, if_true,
    measure_incPlaybackCount_repeatFlags, measure_incPlaybackCount_repeatCount,
    measure_incPlaybackCount_self _ _ hm, reduceCtorEq, ge_iff_le, hp]

theorem straight_loop [Zero R] [Add R] [Sub R] (tl : TempoMap R) (fuel d : Nat) :
    ∀ (a : Nat) (st : UState R), a + d = st.score.measures.length → 0 < d →
      st.score.voltas = [] → st.isGoto = false → st.endRepeat = none →
      (∀ k, k < st.score.measures.length → (st.score.measure k).repeatFlags.JUMP = false) →
      (∀ k, k < st.score.measures.length → (st.score.measure k).repeatFlags.END = true →
        (st.score.measure k).repeatCount < 2) →
      (∀ k, a ≤ k → (st.score.measure k).playbackCount = 0) →
      ∃ sc1 : Score, resetPlaybackCounts sc1 = resetPlaybackCounts st.score ∧
        unwindLoop tl (fuel + d) st (some a) = some (finish tl { st with score := sc1 }) := by
  induction d with
  | zero => intro a st _ h; omega
  | succ d ih =>
    intro a st had _ hv hg he hJ hE hpc
    have e : fuel + (d + 1) = (fuel + d) + 1 := by omega
    have ha : a < st.score.measures.length := by omega
    rw [e, unwindLoop]
    cases hEa : (st.score.measure a).repeatFlags.END with
    | true =>
      have hrc := hE a ha hEa
      have hp := hpc a (le_refl _)
      rw [body_end_break tl st a hEa hv hg he ha (by omega)]
      exact ⟨st.score.incPlaybackCount a, reset_incPlaybackCount _ _, rfl⟩
    | false =>
      rw [body_plain tl st a hEa (hJ a ha) hv (by rw [hg]; intro h; cases h)]
      simp only []
      by_cases h1 : a + 1 < st.score.measures.length
      · have hn : st.score.nextMeasure a = some (a + 1) := by
          unfold Score.nextMeasure; rw [if_pos h1]
        rw [hn]
        obtain ⟨sc1, hs1, hw⟩ := ih (a + 1) { st with score := st.score.incPlaybackCount a }
          (by simp only [length_incPlaybackCount]; omega) (by omega) hv hg he
          (by
            intro k hk
            simp only [length_incPlaybackCount] at hk
            simp only [measure_incPlaybackCount_repeatFlags]
            exact hJ k hk)
          (by
            intro k hk
            simp only [length_incPlaybackCount] at hk
            simp only [measure_incPlaybackCount_repeatFlags,
              measure_incPlaybackCount_repeatCount]
            exact hE k hk)
          (by
            intro k hk
            show ((st.score.incPlaybackCount a).measure k).playbackCount = 0
            rw [measure_incPlaybackCount_ne _ _ _ (by omega)]
            exact hpc k (by omega))
        exact ⟨sc1, hs1.trans (reset_incPlaybackCount _ _), hw⟩
      · have hn : st.score.nextMeasure a = none := by
          unfold Score.nextMeasure; rw [if_neg h1]
        rw [hn, unwindLoop_none]
        exact ⟨st.score.incPlaybackCount a, reset_incPlaybackCount _ _, rfl⟩

theorem contiguous_scoreEndCountZero : Contiguous scoreEndCountZero := by
  refine ⟨?_, rfl, ?_⟩
  · intro k hk
    have : k < 5 := hk
    interval_cases k <;> decide
  · intro k hk
    have : k < 4 := by have h5 : k + 1 < 5 := hk; omega
    interval_cases k <;> rfl

/-! ### The list of taken jumps -/

theorem countVisit_jumps (st : UState R) (mi : Nat) : (countVisit st mi).jumps = st.jumps := by
  unfold countVisit
  simp only []
  split <;> rfl

theorem voltaAndJumpFlag_jumps [Zero R] (st : UState R) (m : Measure) :
    (voltaAndJumpFlag st m).1.jumps = st.jumps := by
  unfold voltaAndJumpFlag
  repeat' split
  all_goals rfl

theorem jumpOrAdvance_jumps [Zero R] (st : UState R) (mi : Nat) (dj : Bool)
    (B : UState R → Prop) (T : Score → List (RepeatSegment R) → Prop) :
    (jumpOrAdvance st mi dj).Post
      (fun st1 _ => st1.jumps = st.jumps ∨
        ∃ sp, st1.jumps = st.jumps ++ [sp] ∧ ¬ (st.jumps.contains sp = true)) B T := by
  unfold jumpOrAdvance
  simp only []
  repeat' split
  all_goals first
    | trivial
    | exact Or.inl rfl
    | exact Or.inr ⟨_, rfl, by assumption⟩

theorem gotoOrEnd_jumps [Zero R] [Add R] [Sub R] (tl : TempoMap R) (st : UState R) (mi : Nat)
    (dj : Bool) :
    (gotoOrEnd tl st mi dj).Post
      (fun st1 _ => st1.jumps = st.jumps ∨
        ∃ sp, st1.jumps = st.jumps ++ [sp] ∧ ¬ (st.jumps.contains sp = true))
      (fun _ => True) (fun _ _ => True) := by
  unfold gotoOrEnd
  simp only []
  repeat' split
  all_goals first
    | trivial
    | exact jumpOrAdvance_jumps _ mi dj _ _
    | exact Or.inl rfl

theorem body_jumps [Zero R] [Add R] [Sub R] (tl : TempoMap R) (st : UState R) (mi : Nat) :
    (body tl st mi).Post
      (fun st1 _ => st1.jumps = st.jumps ∨
        ∃ sp, st1.jumps = st.jumps ++ [sp] ∧ ¬ (st.jumps.contains sp = true))
      (fun _ => True) (fun _ _ => True) := by
  have h := gotoOrEnd_jumps tl
    (voltaAndJumpFlag (countVisit st mi) ((countVisit st mi).score.measure mi)).1 mi
    (voltaAndJumpFlag (countVisit st mi) ((countVisit st mi).score.measure mi)).2
  rw [voltaAndJumpFlag_jumps, countVisit_jumps] at h
  exact h

theorem body_jumps_next [Zero R] [Add R] [Sub R] (tl : TempoMap R) (st st1 : UState R)
    (mi : Nat) (m1 : Option Nat) (h : body tl st mi = Step.next st1 m1) :
    st1.jumps = st.jumps ∨
      ∃ sp, st1.jumps = st.jumps ++ [sp] ∧ ¬ (st.jumps.contains sp = true) := by
  have := body_jumps tl st mi
  rw [h] at this
  exact this

/-- The list `jumps` only grows along the loop. -/
theorem configAfter_jumps [Zero R] [Add R] [Sub R] (tl : TempoMap R) :
    ∀ (k : Nat) (st : UState R) (m : Option Nat) (st1 : UState R) (m1 : Nat),
      configAfter tl k st m = some (st1, m1) → ∀ x ∈ st.jumps, x ∈ st1.jumps := by
  intro k
  induction k with
  | zero =>
    intro st m st1 m1 h x hx
    cases m with
    | none => simp [configAfter] at h
    | some mi =>
      simp only [configAfter, Option.some.injEq, Prod.mk.injEq] at h
      rw [← h.1]; exact hx
  | succ k ih =>
    intro st m st1 m1 h x hx
    cases m with
    | none => simp [configAfter] at h
    | some mi =>
      simp only [configAfter] at h
      cases hb : body tl st mi with
      | next st2 m2 =>
        rw [hb] at h
        simp only [] at h
        refine ih st2 m2 st1 m1 h x ?_
        rcases body_jumps_next tl st st2 mi m2 hb with e | ⟨sp, e, _⟩
        · rw [e]; exact hx
        · rw [e]; exact List.mem_append_left _ hx
      | brk st2 => rw [hb] at h; simp at h
      | ret sc2 segs2 => rw [hb] at h; simp at h
      | crash => rw [hb] at h; simp at h

theorem configAfter_add [Zero R] [Add R] [Sub R] (tl : TempoMap R) :
    ∀ (k d : Nat) (st : UState R) (m : Option Nat) (st1 : UState R) (m1 : Nat),
      configAfter tl k st m = some (st1, m1) →
      configAfter tl (k + d) st m = configAfter tl d st1 (some m1) := by
  intro k
  induction k with
  | zero =>
    intro d st m st1 m1 h
    cases m with
    | none => simp [configAfter] at h
    | some mi =>
      simp only [configAfter, Option.some.injEq, Prod.mk.injEq] at h
      rw [Nat.zero_add, h.1, h.2]
  | succ k ih =>
    intro d st m st1 m1 h
    cases m with
    | none => simp [configAfter] at h
    | some mi =>
      have e : k + 1 + d = (k + d) + 1 := by omega
      rw [e]
      simp only [configAfter] at h ⊢
      cases hb : body tl st mi with
      | next st2 m2 =>
        rw [hb] at h
        simp only [] at h ⊢
        exact ih d st2 m2 st1 m1 h
      | brk st2 => rw [hb] at h; simp at h
      | ret sc2 segs2 => rw [hb] at h; simp at h
      | crash => rw [hb] at h; simp at h

/-- A pass that takes a Jump finds it absent from `jumps`, and leaves it there. -/
theorem takesJump_fresh [Zero R] [Add R] [Sub R] (tl : TempoMap R) (st : UState R) (mi : Nat)
    (ptr : JumpPtr) (h : TakesJump tl st mi ptr) : some ptr ∉ st.jumps := by
  obtain ⟨st1, m1, hb, hj, _⟩ := h
  rcases body_jumps_next tl st st1 mi m1 hb with e | ⟨sp, e, hc⟩
  · rw [e] at hj
    have := congrArg List.length hj
    simp at this
  · rw [e] at hj
    have h1 := List.append_cancel_left hj
    simp only [List.cons.injEq, and_true] at h1
    rw [h1] at hc
    intro hmem
    exact hc (List.elem_iff.mpr hmem)

theorem takesJump_order [Zero R] [Add R] [Sub R] (tl : TempoMap R) (st0 : UState R)
    (m0 : Option Nat) (k d : Nat) (st1 st2 : UState R) (m1 m2 : Nat) (ptr : JumpPtr)
    (h1 : configAfter tl k st0 m0 = some (st1, m1))
    (h2 : configAfter tl (k + (d + 1)) st0 m0 = some (st2, m2))
    (t1 : TakesJump tl st1 m1 ptr) (t2 : TakesJump tl st2 m2 ptr) : False := by
  have hfresh := takesJump_fresh tl st2 m2 ptr t2
  obtain ⟨st1a, m1a, hb, hj, _⟩ := t1
  rw [configAfter_add tl k (d + 1) st0 m0 st1 m1 h1] at h2
  simp only [configAfter, hb] at h2
  have := configAfter_jumps tl d st1a m1a st2 m2 h2 (some ptr) (by rw [hj]; simp)
  exact hfresh this

theorem configAfter_scoreRepeat07 :
    configAfter unitTempo 5 (initState scoreRepeat07 []) scoreRepeat07.firstMeasure =
      some (stateRepeat07AtJump, 5) := by
  rfl

theorem takesJump_scoreRepeat07 : TakesJump unitTempo stateRepeat07AtJump 5 (5, 0) :=
  ⟨_, _, body_jump_take unitTempo stateRepeat07AtJump 5 0
      { jumpTo := "start", playUntil := "fine", continueAt := "" } 0 2
      rfl rfl rfl rfl rfl rfl rfl rfl (by decide), rfl, rfl⟩

/-! ### The volta skip -/

theorem gotoOrEnd_after_skip [Zero R] [Add R] [Sub R] (tl : TempoMap R) (X : UState R)
    (mi : Nat) (h : X.rs.tick = (X.score.measure mi).endTick) :
    (gotoOrEnd tl X mi false).Post
      (fun st1 m1 =>
        (∃ app : List (RepeatSegment R), st1.segs = X.segs ++ app ∧
          ∀ s ∈ app, s.tick = (X.score.measure mi).endTick ∧ s.len = 0) ∧
        (st1.rs.tick = (X.score.measure mi).endTick ∨
          ∃ r, m1 = some r ∧ st1.rs.tick = (X.score.measure r).tick))
      (fun st1 => st1.segs = X.segs ∧ st1.rs.tick = (X.score.measure mi).endTick)
      (fun _ segs => segs = update tl X.segs) := by
  have h0 : (X.score.measure mi).endTick - X.rs.tick = 0 := by omega
  have h1 : (X.score.measure mi).tick + (X.score.measure mi).ticks - X.rs.tick = 0 := by
    unfold Measure.endTick at h; omega
  unfold gotoOrEnd
  simp only [jumpOrAdvance_no_jump, h0, jumpToStartRepeat, h1, ne_eq, not_true_eq_false,
    if_false]
  repeat' split
  all_goals first
    | exact ⟨⟨[], by simp, by simp⟩, Or.inl h⟩
    | exact ⟨⟨[_], rfl, by simp [h]⟩, Or.inr ⟨_, rfl, rfl⟩⟩
    | exact ⟨rfl, h⟩
    | rfl

theorem step_post_mono {N N1 : UState R → Option Nat → Prop} {B B1 : UState R → Prop}
    {T T1 : Score → List (RepeatSegment R) → Prop} (s : Step R)
    (hN : ∀ st m, N st m → N1 st m) (hB : ∀ st, B st → B1 st)
    (hT : ∀ sc segs, T sc segs → T1 sc segs) (h : s.Post N B T) : s.Post N1 B1 T1 := by
  cases s with
  | next st m => exact hN st m h
  | brk st => exact hB st h
  | ret sc segs => exact hT sc segs h
  | crash => trivial

theorem countVisit_fields (st : UState R) (mi : Nat) :
    (countVisit st mi).score = st.score.incPlaybackCount mi ∧
    (countVisit st mi).segs = st.segs ∧ (countVisit st mi).rs = st.rs ∧
    (countVisit st mi).endRepeat = st.endRepeat := by
  unfold countVisit
  simp only []
  split <;> exact ⟨rfl, rfl, rfl, rfl⟩

/-- Inside a bracket, a measure under a volta that lacks the measure's playback
count is skipped: the open segment is closed at the start of the measure, if it
started before, and the next one starts at the end of the measure. -/
theorem voltaAndJumpFlag_skip [Zero R] (c : UState R) (m : Measure) (e : Nat) (v : Volta)
    (he : c.endRepeat = some e) (hv : c.score.searchVolta m.tick = some v)
    (hk : v.hasEnding m.playbackCount = false) :
    (voltaAndJumpFlag c m).2 = false ∧
    (voltaAndJumpFlag c m).1.rs.tick = m.endTick ∧
    (voltaAndJumpFlag c m).1.score = c.score ∧
    ((voltaAndJumpFlag c m).1.segs = c.segs ∨
      (voltaAndJumpFlag c m).1.segs = c.segs ++ [{ c.rs with len := m.tick - c.rs.tick }]) := by
  unfold voltaAndJumpFlag
  rw [he]
  simp only []
  rw [hv]
  simp only [hk, Bool.not_false, if_true]
  split <;> simp

/-! ### The backward search for the start of a repeat -/

theorem startRepeat_stop (sc : Score) (m : Nat) :
    (sc.measure (startRepeat sc m)).repeatFlags.START = true ∨ startRepeat sc m = 0 ∨
      (sc.measure (startRepeat sc m - 1)).sectionBreak = true := by
  induction m with
  | zero => right; left; rfl
  | succ k ih =>
    simp only [startRepeat]
    split
    · next h => left; exact h
    · split
      · next h => right; right; simpa using h
      · exact ih

theorem startRepeat_nearest (sc : Score) (m : Nat) :
    ∀ k, startRepeat sc m < k → k ≤ m →
      (sc.measure k).repeatFlags.START = false ∧ (sc.measure (k - 1)).sectionBreak = false := by
  induction m with
  | zero => intro k h1 h2; omega
  | succ j ih =>
    intro k h1 h2
    simp only [startRepeat] at h1
    split at h1
    · omega
    · next hS =>
      split at h1
      · omega
      · next hB =>
        rcases Nat.eq_or_lt_of_le h2 with e | hlt
        · subst e
          exact ⟨by simpa using hS, by simpa using hB⟩
        · exact ih k h1 (by omega)

/-! ### The unwound times assigned by `update` -/

theorem updateFrom_utime_sum [AddCommGroup R] (tl : TempoMap R)
    (base : List (RepeatSegment R)) :
    ∀ (u : Int) (t : R) (i : Nat) (s : RepeatSegment R),
      (updateFrom tl u t base).get? i = some s →
      s.utime = t + ((base.take i).map
        (fun a => tl.tick2time (a.tick + a.len) - tl.tick2time a.tick)).sum := by
  induction base with
  | nil => intro u t i s h; simp [updateFrom] at h
  | cons x rest ih =>
    intro u t i s h
    cases i with
    | zero =>
      simp [updateFrom] at h
      rw [← h]
      simp
    | succ k =>
      simp only [updateFrom, List.get?_cons_succ] at h
      rw [ih _ _ k s h]
      simp only [List.take_succ_cons, List.map_cons, List.sum_cons]
      abel

theorem update_take_map [Zero R] [Add R] [Sub R] (tl : TempoMap R)
    (base : List (RepeatSegment R)) (i : Nat) (g : Int × Int → R) :
    ((update tl base).take i).map (fun a => g (a.tick, a.len)) =
      (base.take i).map (fun a => g (a.tick, a.len)) := by
  have h := congrArg (fun L => (L.take i).map g) (update_tick_len tl base)
  simp only [← List.map_take, List.map_map] at h
  exact h

/-! ### Passes that meet a Jump or a volta inside a bracket -/

/-- Outside any bracket lines 288-306 only copy the JUMP flag into `doJump`. -/
theorem voltaAndJumpFlag_open [Zero R] (st : UState R) (m : Measure)
    (he : st.endRepeat = none) : voltaAndJumpFlag st m = (st, m.repeatFlags.JUMP) := by
  unfold voltaAndJumpFlag
  rw [he]

/-- Inside a bracket, on a JUMP measure that no volta excludes, lines 288-306 set
`doJump` and clear `isGoto`. -/
theorem voltaAndJumpFlag_in_jump [Zero R] (st : UState R) (m : Measure) (e : Nat)
    (he : st.endRepeat = some e) (hJ : m.repeatFlags.JUMP = true)
    (hv : ∀ v, st.score.searchVolta m.tick = some v → v.hasEnding m.playbackCount = true) :
    voltaAndJumpFlag st m = ({ st with isGoto := false }, true) := by
  unfold voltaAndJumpFlag
  rw [he]
  simp only []
  cases hs : st.score.searchVolta m.tick with
  | none => simp [hJ]
  | some v => simp [hv v hs, hJ]

/-- Lines 352-386 on a Jump that has not been taken and whose `jumpTo` and
`playUntil` resolve. -/
theorem jumpOrAdvance_take [Zero R] (X : UState R) (mi p : Nat) (j : Jump) (nm e : Nat)
    (hg : X.isGoto = false)
    (hj : firstJump 0 (X.score.measure mi).el = some (p, j))
    (hjs : X.jumps.contains (some (mi, p)) = false)
    (hto : X.score.searchLabel j.jumpTo = some nm)
    (hpu : X.score.searchLabel j.playUntil = some e) :
    jumpOrAdvance X mi true =
      Step.next
        { X with jumps := X.jumps ++ [some (mi, p)],
                 endRepeat := some e,
                 continueAt := X.score.searchLabel j.continueAt,
                 isGoto := true,
                 segs := X.segs ++ [{ X.rs with len := (X.score.measure mi).endTick - X.rs.tick }],
                 rs := { (RepeatSegment.new : RepeatSegment R) with tick := (X.score.measure nm).tick } }
        (some nm) := by
  unfold jumpOrAdvance
  simp only [hg, Bool.not_false, Bool.and_self, if_true, hj, Option.map_some', hjs,
    Bool.false_eq_true, if_false, hto, hpu]

/-- Lines 352-386 on a Jump that has not been taken and whose `jumpTo` or
`playUntil` does not resolve. -/
theorem jumpOrAdvance_unresolved [Zero R] (X : UState R) (mi p : Nat) (j : Jump)
    (hg : X.isGoto = false)
    (hj : firstJump 0 (X.score.measure mi).el = some (p, j))
    (hjs : X.jumps.contains (some (mi, p)) = false)
    (hun : X.score.searchLabel j.jumpTo = none ∨ X.score.searchLabel j.playUntil = none) :
    jumpOrAdvance X mi true =
      Step.next
        { X with jumps := X.jumps ++ [some (mi, p)],
                 endRepeat := X.score.searchLabel j.playUntil,
                 continueAt := X.score.searchLabel j.continueAt }
        (X.score.nextMeasure mi) := by
  unfold jumpOrAdvance
  simp only [hg, Bool.not_false, Bool.and_self, if_true, hj, Option.map_some', hjs,
    Bool.false_eq_true, if_false]
  rcases hun with h | h
  · rw [h]
  · rw [h]
    cases X.score.searchLabel j.jumpTo <;> rfl

/-- Inside a bracket that ends at another measure, with `isGoto` clear, lines
309-351 do nothing. -/
theorem gotoOrEnd_other_bracket [Zero R] [Add R] [Sub R] (tl : TempoMap R) (X : UState R)
    (mi e : Nat) (dj : Bool) (hg : X.isGoto = false) (he : X.endRepeat = some e)
    (hne : e ≠ mi) : gotoOrEnd tl X mi dj = jumpOrAdvance X mi dj := by
  unfold gotoOrEnd
  have h1 : ¬ (some e = some mi) := by
    intro h; exact hne (Option.some.inj h)
  simp only [hg, he, Bool.false_and, Bool.false_eq_true, if_false, h1, reduceCtorEq]
  split <;> rfl

theorem body_stateNestedJumpAtSecond :
    body unitTempo stateNestedJumpAtSecond 1 =
      Step.next
        ({ stateNestedJumpAtSecond with
            score := stateNestedJumpAtSecond.score.incPlaybackCount 1,
            jumps := [some (0, 0), some (1, 1)],
            endRepeat := some 2,
            continueAt := none,
            isGoto := true,
            segs := [{ tick := 0, len := 1920, utick := 0, utime := 0, timeOffset := 0 },
                     { tick := 1920, len := 1920, utick := 0, utime := 0, timeOffset := 0 }],
            rs := RepeatSegment.new } : UState Int)
        (some 0) := by
  rfl

/-! ### Removing an END flag -/

/-- Visit, outside any bracket, of a measure flagged END that has been played
`repeatCount` times or more: the loop is left by `break`. -/
theorem body_end_break_open [Zero R] [Add R] [Sub R] (tl : TempoMap R) (st : UState R)
    (mi : Nat)
    (hE : (st.score.measure mi).repeatFlags.END = true)
    (he : st.endRepeat = none)
    (hm : mi < st.score.measures.length)
    (hp : (st.score.measure mi).repeatCount ≤ (st.score.measure mi).playbackCount + 1) :
    body tl st mi = Step.brk (countVisit st mi) := by
  obtain ⟨c1, c2, c3, c4⟩ := countVisit_fields st mi
  rw [body_eq, voltaAndJumpFlag_open _ _ (by rw [c4]; exact he)]
  unfold gotoOrEnd
  simp only [c4, he, c1, measure_incPlaybackCount_repeatFlags, hE,
    measure_incPlaybackCount_repeatCount, measure_incPlaybackCount_self _ _ hm, reduceCtorEq,
    Bool.and_false, decide_False, Bool.false_eq_true, if_false, if_true, ge_iff_le, hp]

/-! ### One repeat bracket among the first measures -/

theorem bracket_plain (sc : Score) (a b c lim : Nat) (h : Bracket sc a b c lim) (k : Nat)
    (hk : k < lim) (hkb : k ≠ b) :
    (sc.measure k).repeatFlags.END = false ∧ (sc.measure k).repeatFlags.JUMP = false := by
  obtain ⟨_, _, _, _, _, _, hh, _, _⟩ := h
  refine ⟨?_, (hh k hk).1⟩
  cases hs : (sc.measure k).repeatFlags.END with
  | false => rfl
  | true => exact absurd ((hh k hk).2.mp hs) hkb

/-- One pass through the bracket `a..b` that is not the last one. -/
theorem bracket_pass_again [Zero R] [Add R] [Sub R] (tl : TempoMap R) (sc : Score)
    (a b c lim : Nat) (h : Bracket sc a b c lim) (r : Nat) (st : UState R)
    (hsame : resetPlaybackCounts st.score = resetPlaybackCounts sc)
    (hg : st.isGoto = false) (he : st.endRepeat = some b)
    (hp : st.loop + 1 < st.repeatCount) :
    ∃ sc1 : Score, resetPlaybackCounts sc1 = resetPlaybackCounts sc ∧
      unwindLoop tl (r + (b - a + 1)) st (some a) =
        unwindLoop tl r
          { st with score := sc1,
                    segs := st.segs ++ [{ st.rs with len := (sc.measure b).tick + (sc.measure b).ticks - st.rs.tick }],
                    rs := { (RepeatSegment.new : RepeatSegment R) with tick := (sc.measure a).tick },
                    loop := st.loop + 1 }
          (some a) := by
  have hh := h
  obtain ⟨hc, hv, hab, hb, hlim, hsr, hk, hrc, hc2⟩ := h
  have hbn : b < sc.measures.length := by omega
  obtain ⟨sc1, hs1, _, hw⟩ := walk_plain_ref tl sc (r + 1) (b - a) a st hsame (by omega) (by omega)
    (fun k hk1 hk2 => ⟨(bracket_plain sc a b c lim hh k (by omega) (by omega)).1,
      (bracket_plain sc a b c lim hh k (by omega) (by omega)).2, fun hg1 => by rw [hg] at hg1; cases hg1⟩) hv
  have e1 : a + (b - a) = b := by omega
  rw [e1, if_pos hbn] at hw
  have e2 : r + (b - a + 1) = r + 1 + (b - a) := by omega
  have hst := measure_static_of_reset_eq hs1 b
  refine ⟨sc1.incPlaybackCount b, by rw [reset_incPlaybackCount, hs1], ?_⟩
  rw [e2, hw, unwindLoop,
    body_end_again tl { st with score := sc1 } b
      (by show (sc1.measure b).repeatFlags.END = true
          rw [hst.2.2.1]; exact (hk b hb).2.mpr rfl)
      (by show (sc1.measure b).repeatFlags.JUMP = false
          rw [hst.2.2.1]; exact (hk b hb).1)
      (by show sc1.voltas = []
          rw [voltas_of_reset_eq hs1]; exact hv) hg he hp]
  simp only []
  rw [startRepeat_of_reset_eq hs1, hsr, hst.1, hst.2.1,
    (measure_static_of_reset_eq hs1 a).1]

/-- The last pass through the bracket `a..b`. -/
theorem bracket_pass_last [Zero R] [Add R] [Sub R] (tl : TempoMap R) (sc : Score)
    (a b c lim : Nat) (h : Bracket sc a b c lim) (r : Nat) (st : UState R)
    (hsame : resetPlaybackCounts st.score = resetPlaybackCounts sc)
    (hg : st.isGoto = false) (he : st.endRepeat = some b)
    (hp : st.repeatCount ≤ st.loop + 1) :
    ∃ sc1 : Score, resetPlaybackCounts sc1 = resetPlaybackCounts sc ∧
      unwindLoop tl (r + (b - a + 1)) st (some a) =
        unwindLoop tl r { st with score := sc1, endRepeat := none, loop := 0 }
          (sc.nextMeasure b) := by
  have hh := h
  obtain ⟨hc, hv, hab, hb, hlim, hsr, hk, hrc, hc2⟩ := h
  have hbn : b < sc.measures.length := by omega
  obtain ⟨sc1, hs1, _, hw⟩ := walk_plain_ref tl sc (r + 1) (b - a) a st hsame (by omega) (by omega)
    (fun k hk1 hk2 => ⟨(bracket_plain sc a b c lim hh k (by omega) (by omega)).1,
      (bracket_plain sc a b c lim hh k (by omega) (by omega)).2, fun hg1 => by rw [hg] at hg1; cases hg1⟩) hv
  have e1 : a + (b - a) = b := by omega
  rw [e1, if_pos hbn] at hw
  have e2 : r + (b - a + 1) = r + 1 + (b - a) := by omega
  have hst := measure_static_of_reset_eq hs1 b
  refine ⟨sc1.incPlaybackCount b, by rw [reset_incPlaybackCount, hs1], ?_⟩
  rw [e2, hw, unwindLoop,
    body_end_last tl { st with score := sc1 } b
      (by show (sc1.measure b).repeatFlags.END = true
          rw [hst.2.2.1]; exact (hk b hb).2.mpr rfl)
      (by show (sc1.measure b).repeatFlags.JUMP = false
          rw [hst.2.2.1]; exact (hk b hb).1)
      (by show sc1.voltas = []
          rw [voltas_of_reset_eq hs1]; exact hv) hg he hp]
  simp only []
  rw [nextMeasure_of_reset_eq hs1]

/-- The first pass: from the first measure to the END measure `b`, which opens
the bracket. -/
theorem bracket_pass_first [Zero R] [Add R] [Sub R] (tl : TempoMap R) (sc : Score)
    (a b c lim : Nat) (h : Bracket sc a b c lim) (r : Nat) (st : UState R)
    (hsame : resetPlaybackCounts st.score = resetPlaybackCounts sc)
    (hg : st.isGoto = false) (he : st.endRepeat = none)
    (hp : (st.score.measure b).playbackCount = 0) :
    ∃ sc1 : Score, resetPlaybackCounts sc1 = resetPlaybackCounts sc ∧
      unwindLoop tl (r + (b + 1)) st (some 0) =
        unwindLoop tl r
          { st with score := sc1,
                    segs := st.segs ++ [{ st.rs with len := (sc.measure b).tick + (sc.measure b).ticks - st.rs.tick }],
                    rs := { (RepeatSegment.new : RepeatSegment R) with tick := (sc.measure a).tick },
                    endRepeat := some b,
                    repeatCount := (c : Int),
                    loop := 1 }
          (some a) := by
  have hh := h
  obtain ⟨hc, hv, hab, hb, hlim, hsr, hk, hrc, hc2⟩ := h
  have hbn : b < sc.measures.length := by omega
  obtain ⟨sc1, hs1, hout, hw⟩ := walk_plain_ref tl sc (r + 1) b 0 st hsame (by omega) (by omega)
    (fun k hk1 hk2 => ⟨(bracket_plain sc a b c lim hh k (by omega) (by omega)).1,
      (bracket_plain sc a b c lim hh k (by omega) (by omega)).2, fun hg1 => by rw [hg] at hg1; cases hg1⟩) hv
  rw [Nat.zero_add, if_pos hbn] at hw
  have e2 : r + (b + 1) = r + 1 + b := by omega
  have hst := measure_static_of_reset_eq hs1 b
  have hl := length_of_reset_eq hs1
  refine ⟨sc1.incPlaybackCount b, by rw [reset_incPlaybackCount, hs1], ?_⟩
  rw [e2, hw, unwindLoop,
    body_end_first tl { st with score := sc1 } b
      (by show (sc1.measure b).repeatFlags.END = true
          rw [hst.2.2.1]; exact (hk b hb).2.mpr rfl)
      (by show (sc1.measure b).repeatFlags.JUMP = false
          rw [hst.2.2.1]; exact (hk b hb).1)
      (by show sc1.voltas = []
          rw [voltas_of_reset_eq hs1]; exact hv) hg he
      (by show b < sc1.measures.length
          omega)
      (by show (sc1.measure b).playbackCount + 1 < (sc1.measure b).repeatCount
          rw [hout b (by omega), hp, (measure_static_of_reset_eq hsame b).2.2.2.1, hrc]; omega)]
  simp only []
  rw [startRepeat_of_reset_eq hs1, hsr, hst.1, hst.2.1,
    (measure_static_of_reset_eq hs1 a).1, hst.2.2.2.1, hrc]

/-- The passes through the bracket after the first one: `p` further full passes
and the last one. -/
theorem bracket_passes [Zero R] [Add R] [Sub R] (tl : TempoMap R) (sc : Score)
    (a b c lim : Nat) (h : Bracket sc a b c lim) (r : Nat) :
    ∀ (p : Nat) (st : UState R),
      resetPlaybackCounts st.score = resetPlaybackCounts sc →
      st.isGoto = false → st.endRepeat = some b →
      st.loop + (p : Int) + 1 = st.repeatCount →
      st.rs = { (RepeatSegment.new : RepeatSegment R) with tick := (sc.measure a).tick } →
      ∃ sc1 : Score, resetPlaybackCounts sc1 = resetPlaybackCounts sc ∧
        unwindLoop tl (r + (p + 1) * (b - a + 1)) st (some a) =
          unwindLoop tl r
            { st with score := sc1,
                      segs := st.segs ++ List.replicate p
                        { st.rs with len := (sc.measure b).tick + (sc.measure b).ticks - st.rs.tick },
                      endRepeat := none, loop := 0 }
            (sc.nextMeasure b) := by
  intro p
  induction p with
  | zero =>
    intro st hsame hg he hl hrs
    obtain ⟨sc1, hs1, hw⟩ := bracket_pass_last tl sc a b c lim h r st hsame hg he (by omega)
    refine ⟨sc1, hs1, ?_⟩
    simp only [Nat.zero_add, Nat.one_mul, List.replicate_zero, List.append_nil]
    exact hw
  | succ p ih =>
    intro st hsame hg he hl hrs
    obtain ⟨sc1, hs1, hw⟩ := bracket_pass_again tl sc a b c lim h
      (r + (p + 1) * (b - a + 1)) st hsame hg he (by push_cast at hl; omega)
    obtain ⟨sc2, hs2, hw2⟩ := ih
      { st with score := sc1,
                segs := st.segs ++ [{ st.rs with len := (sc.measure b).tick + (sc.measure b).ticks - st.rs.tick }],
                rs := { (RepeatSegment.new : RepeatSegment R) with tick := (sc.measure a).tick },
                loop := st.loop + 1 }
      hs1 hg he (by show st.loop + 1 + (p : Int) + 1 = st.repeatCount
                    push_cast at hl; omega) rfl
    refine ⟨sc2, hs2, ?_⟩
    have e : r + (p + 1 + 1) * (b - a + 1) = r + (p + 1) * (b - a + 1) + (b - a + 1) := by
      rw [Nat.add_mul (p + 1) 1, Nat.one_mul]; omega
    rw [e, hw, hw2]
    simp only [List.append_assoc, List.singleton_append, List.replicate_succ]
    rw [hrs]


/-- The run through a bracket from the entry to the measure loop: the first
pass from measure 1 to the END measure, and the `c - 1` further passes. -/
theorem bracket_run [Zero R] [Add R] [Sub R] (tl : TempoMap R) (sc : Score)
    (a b c lim : Nat) (h : Bracket sc a b c lim) (r : Nat) :
    ∃ sc2 : Score, resetPlaybackCounts sc2 = resetPlaybackCounts sc ∧
      unwindLoop tl (r + (c - 1) * (b - a + 1) + (b + 1)) (initState sc []) (some 0) =
        unwindLoop tl r
          { score := sc2,
            segs := [({ tick := 0, len := (sc.measure b).tick + (sc.measure b).ticks - 0,
                        utick := 0, utime := 0, timeOffset := 0 } : RepeatSegment R)] ++
              List.replicate (c - 2)
                ({ tick := (sc.measure a).tick,
                   len := (sc.measure b).tick + (sc.measure b).ticks - (sc.measure a).tick,
                   utick := 0, utime := 0, timeOffset := 0 } : RepeatSegment R),
            rs := { tick := (sc.measure a).tick, len := 0, utick := 0, utime := 0,
                    timeOffset := 0 },
            endRepeat := none, continueAt := none, loop := 0, repeatCount := (c : Int),
            isGoto := false, jumps := [] }
          (sc.nextMeasure b) := by
  have hh := h
  obtain ⟨hc, hv, hab, hb, hlim, hsr, hk, hrc, hc2⟩ := h
  obtain ⟨sc1, hs1, hw1⟩ := bracket_pass_first tl sc a b c lim hh
    (r + (c - 2 + 1) * (b - a + 1)) (initState sc [])
    (by simp [initState, reset_reset]) rfl rfl
    (by show ((resetPlaybackCounts sc).measure b).playbackCount = 0
        rw [measure_reset]; rfl)
  obtain ⟨sc2, hs2, hw2⟩ := bracket_passes tl sc a b c lim hh r (c - 2)
    { (initState sc [] : UState R) with
        score := sc1,
        segs := (initState sc [] : UState R).segs ++ [{ (initState sc [] : UState R).rs with
          len := (sc.measure b).tick + (sc.measure b).ticks - (initState sc [] : UState R).rs.tick }],
        rs := { (RepeatSegment.new : RepeatSegment R) with tick := (sc.measure a).tick },
        endRepeat := some b,
        repeatCount := (c : Int),
        loop := 1 }
    hs1 rfl rfl
    (by show (1 : Int) + ((c - 2 : Nat) : Int) + 1 = (c : Int)
        omega) rfl
  have e : c - 2 + 1 = c - 1 := by omega
  rw [e] at hw1 hw2
  exact ⟨sc2, hs2, hw1.trans hw2⟩

theorem startRepeat_zero (sc : Score) :
    ∀ m, (∀ k, k ≤ m → (sc.measure k).repeatFlags.START = false) →
      (∀ k, k < m → (sc.measure k).sectionBreak = false) → startRepeat sc m = 0 := by
  intro m
  induction m with
  | zero => intro _ _; rfl
  | succ j ih =>
    intro h1 h2
    simp only [startRepeat, h1 (j + 1) (le_refl _), h2 j (by omega), Bool.false_eq_true,
      if_false]
    exact ih (fun k hk => h1 k (by omega)) (fun k hk => h2 k (by omega))

/-- The plain walk from the measure after `b` to the end of the score, after
which the loop is left. -/
theorem plain_tail [Zero R] [Add R] [Sub R] (tl : TempoMap R) (sc : Score) (b r : Nat)
    (st : UState R) (hv : sc.voltas = [])
    (hpl : ∀ k, b < k → k < sc.measures.length →
      (sc.measure k).repeatFlags.END = false ∧ (sc.measure k).repeatFlags.JUMP = false)
    (hsame : resetPlaybackCounts st.score = resetPlaybackCounts sc)
    (hg : st.isGoto = false) :
    ∃ sc1 : Score, resetPlaybackCounts sc1 = resetPlaybackCounts sc ∧
      unwindLoop tl (r + (sc.measures.length - 1 - b)) st (sc.nextMeasure b) =
        some (finish tl { st with score := sc1 }) := by
  by_cases h1 : b + 1 < sc.measures.length
  · obtain ⟨sc1, hs1, _, hw⟩ := walk_plain_ref tl sc r (sc.measures.length - 1 - b) (b + 1) st
      hsame h1 (by omega)
      (fun k hk1 hk2 => ⟨(hpl k (by omega) (by omega)).1, (hpl k (by omega) (by omega)).2,
        fun hg1 => by rw [hg] at hg1; cases hg1⟩) hv
    refine ⟨sc1, hs1, ?_⟩
    have hn : sc.nextMeasure b = some (b + 1) := by
      unfold Score.nextMeasure; rw [if_pos h1]
    rw [hn, hw, if_neg (by omega), unwindLoop_none]
  · refine ⟨st.score, hsame, ?_⟩
    have hn : sc.nextMeasure b = none := by
      unfold Score.nextMeasure; rw [if_neg h1]
    rw [hn, unwindLoop_none]

theorem contiguous_scoreRepeat03 : Contiguous scoreRepeat03 := by
  refine ⟨by decide, rfl, ?_⟩
  intro k hk
  have : k < 5 := by have h6 : k + 1 < 6 := hk; omega
  interval_cases k <;> rfl

/-! ### A repeat followed by a D.C. -/

theorem searchLabel_end (sc : Score) (h : 0 < sc.measures.length) :
    sc.searchLabel "end" = some (sc.measures.length - 1) := by
  unfold Score.searchLabel Score.lastMeasure
  rw [if_neg (by decide), if_pos rfl, if_neg (by omega)]

/-- Visit of a measure flagged END during a once-only jump whose bracket ends at
another measure: `loop` is forced to the last pass and the walk moves on. -/
theorem body_end_in_goto [Zero R] [Add R] [Sub R] (tl : TempoMap R) (st : UState R)
    (mi e : Nat)
    (hE : (st.score.measure mi).repeatFlags.END = true)
    (hJ : (st.score.measure mi).repeatFlags.JUMP = false)
    (hv : st.score.voltas = [])
    (hg : st.isGoto = true) (he : st.endRepeat = some e) (hne : e ≠ mi) :
    body tl st mi =
      Step.next
        { st with score := st.score.incPlaybackCount mi,
                  loop := (st.score.measure mi).repeatCount - 1 }
        (st.score.nextMeasure mi) := by
  have h1 : ¬ (some e = some mi) := by
    intro h; exact hne (Option.some.inj h)
  rw [body_eq, countVisit_goto_end st mi (by rw [hg, hE]; rfl)]
  rw [voltaAndJumpFlag_no_volta
    { st with score := st.score.incPlaybackCount mi,
              loop := (st.score.measure mi).repeatCount - 1 } _ hv]
  simp only [measure_incPlaybackCount_repeatFlags, hJ, Bool.and_false, Bool.false_eq_true,
    if_false]
  unfold gotoOrEnd
  simp only [hg, he, hE, h1, decide_False, Bool.and_false, Bool.false_eq_true, if_false,
    if_true, measure_incPlaybackCount_repeatFlags, reduceCtorEq, jumpOrAdvance_no_jump,
    nextMeasure_incPlaybackCount]

theorem repeatThenDC_bracket (sc : Score) (a b c p : Nat) (j : Jump)
    (h : RepeatThenDC sc a b c p j) : Bracket sc a b c (sc.measures.length - 1) := by
  obtain ⟨hc, hv, hab, hb, hk, hrc, hc2, _⟩ := h
  refine ⟨hc, hv, hab, by omega, by omega, ?_, ?_, hrc, hc2⟩
  · have := startRepeat_to_start sc a ((hk a (by omega)).2.2.2.1.mpr rfl) (b - a)
      (fun k hk1 hk2 => by
        have h1 := (hk k (by omega)).2.2.2.1
        cases hs : (sc.measure k).repeatFlags.START with
        | false => rfl
        | true => have := h1.mp hs; omega)
      (fun k hk1 hk2 => (hk k (by omega)).1)
    have e : a + (b - a) = b := by omega
    rw [e] at this
    exact this
  · intro k hk1
    refine ⟨?_, (hk k (by omega)).2.2.1⟩
    cases hs : (sc.measure k).repeatFlags.JUMP with
    | false => rfl
    | true => have := (hk k (by omega)).2.1.mp hs; omega

theorem repeatThenDC_plain (sc : Score) (a b c p : Nat) (j : Jump)
    (h : RepeatThenDC sc a b c p j) (k : Nat) (hk1 : k < sc.measures.length - 1)
    (hkb : k ≠ b) :
    (sc.measure k).repeatFlags.END = false ∧ (sc.measure k).repeatFlags.JUMP = false :=
  bracket_plain sc a b c (sc.measures.length - 1) (repeatThenDC_bracket sc a b c p j h) k hk1 hkb

/-- The D.C. pass: the score is played once more from the first measure to the
last one, where the loop is left. -/
theorem repeatThenDC_pass [Zero R] [Add R] [Sub R] (tl : TempoMap R) (sc : Score)
    (a b c p : Nat) (j : Jump) (h : RepeatThenDC sc a b c p j) (r : Nat) (st : UState R)
    (hsame : resetPlaybackCounts st.score = resetPlaybackCounts sc)
    (hg : st.isGoto = true) (he : st.endRepeat = some (sc.measures.length - 1))
    (hjs : st.jumps.contains (some (sc.measures.length - 1, p)) = true) :
    ∃ st1 : UState R, st1.segs = st.segs ∧ st1.rs = st.rs ∧
      resetPlaybackCounts st1.score = resetPlaybackCounts sc ∧
      unwindLoop tl (r + sc.measures.length) st (some 0) = some (finish tl st1) := by
  have hh := h
  obtain ⟨hc, hv, hab, hb, hk, hrc, hc2, hj, hto, hpu, hca⟩ := h
  have hne : ∀ k, k < sc.measures.length - 1 → st.isGoto = true → st.endRepeat ≠ some k := by
    intro k hk1 _
    rw [he]
    intro hh1
    have := Option.some.inj hh1
    omega
  -- the measures before the END measure
  obtain ⟨sc1, hs1, _, hw1⟩ := walk_plain_ref tl sc (r + 1 + (sc.measures.length - 2 - b) + 1) b 0
    st hsame (by omega) (by omega)
    (fun k hk1 hk2 => ⟨(repeatThenDC_plain sc a b c p j hh k (by omega) (by omega)).1,
      (repeatThenDC_plain sc a b c p j hh k (by omega) (by omega)).2,
      hne k (by omega)⟩) hv
  rw [Nat.zero_add, if_pos (by omega)] at hw1
  have hst1 := measure_static_of_reset_eq hs1 b
  -- the END measure
  have hw2 := body_end_in_goto tl { st with score := sc1 } b (sc.measures.length - 1)
    (by show (sc1.measure b).repeatFlags.END = true
        rw [hst1.2.2.1]; exact (hk b (by omega)).2.2.1.mpr rfl)
    (by show (sc1.measure b).repeatFlags.JUMP = false
        rw [hst1.2.2.1]
        cases hs : (sc.measure b).repeatFlags.JUMP with
        | false => rfl
        | true => have := (hk b (by omega)).2.1.mp hs; omega)
    (by show sc1.voltas = []
        rw [voltas_of_reset_eq hs1]; exact hv)
    hg he (by omega)
  have hn2 : sc1.nextMeasure b = some (b + 1) := by
    rw [nextMeasure_of_reset_eq hs1]
    unfold Score.nextMeasure; rw [if_pos (by omega)]
  -- the measures between the END measure and the last one
  obtain ⟨sc3, hs3, _, hw3⟩ := walk_plain_ref tl sc (r + 1) (sc.measures.length - 2 - b) (b + 1)
    { st with score := sc1.incPlaybackCount b, loop := (sc1.measure b).repeatCount - 1 }
    (by show resetPlaybackCounts (sc1.incPlaybackCount b) = resetPlaybackCounts sc
        rw [reset_incPlaybackCount, hs1])
    (by omega) (by omega)
    (fun k hk1 hk2 => ⟨(repeatThenDC_plain sc a b c p j hh k (by omega) (by omega)).1,
      (repeatThenDC_plain sc a b c p j hh k (by omega) (by omega)).2,
      hne k (by omega)⟩) hv
  have e3 : b + 1 + (sc.measures.length - 2 - b) = sc.measures.length - 1 := by omega
  rw [e3, if_pos (by omega)] at hw3
  have hst3 := measure_static_of_reset_eq hs3 (sc.measures.length - 1)
  -- the last measure
  have hw4 := body_jump_again tl
    { st with score := sc3, loop := (sc1.measure b).repeatCount - 1 }
    (sc.measures.length - 1) p j
    (by show (sc3.measure _).repeatFlags.END = false
        rw [hst3.2.2.1]
        cases hs : (sc.measure (sc.measures.length - 1)).repeatFlags.END with
        | false => rfl
        | true => have := (hk _ (by omega)).2.2.1.mp hs; omega)
    (by show (sc3.measure _).repeatFlags.JUMP = true
        rw [hst3.2.2.1]; exact (hk _ (by omega)).2.1.mpr rfl)
    (by show sc3.voltas = []
        rw [voltas_of_reset_eq hs3]; exact hv)
    he
    (by show firstJump 0 (sc3.measure _).el = some (p, j)
        rw [hst3.2.2.2.2.2]; exact hj)
    hjs
    (by show sc3.searchLabel j.playUntil = some (sc.measures.length - 1)
        rw [searchLabel_of_reset_eq hs3, hpu]; exact searchLabel_end sc (by omega))
  have hn4 : sc3.nextMeasure (sc.measures.length - 1) = none := by
    rw [nextMeasure_of_reset_eq hs3]
    unfold Score.nextMeasure; rw [if_neg (by omega)]
  refine ⟨{ st with score := sc3.incPlaybackCount (sc.measures.length - 1),
                    loop := (sc1.measure b).repeatCount - 1,
                    isGoto := false, endRepeat := none }, rfl, rfl,
    by show resetPlaybackCounts (sc3.incPlaybackCount _) = resetPlaybackCounts sc
       rw [reset_incPlaybackCount, hs3], ?_⟩
  have efuel : r + sc.measures.length =
      r + 1 + (sc.measures.length - 2 - b) + 1 + b := by omega
  rw [efuel, hw1, unwindLoop, hw2]
  simp only []
  rw [hn2, hw3, unwindLoop, hw4]
  simp only []
  rw [hn4, unwindLoop_none]

/-- The first part of a repeat followed by a D.C.: the bracket is played `c`
times and the score to its last measure, where the jump to the first measure is
taken. -/
theorem repeatThenDC_first [Zero R] [Add R] [Sub R] (tl : TempoMap R) (sc : Score)
    (a b c p : Nat) (j : Jump) (h : RepeatThenDC sc a b c p j) (r : Nat) :
    ∃ sc4 : Score, resetPlaybackCounts sc4 = resetPlaybackCounts sc ∧
      unwindLoop tl (r + 1 + (sc.measures.length - 2 - b) + (c - 1) * (b - a + 1) + (b + 1))
          (initState sc []) (some 0) =
        unwindLoop tl r
          { score := sc4,
            segs := [({ tick := 0, len := (sc.measure b).tick + (sc.measure b).ticks - 0,
                        utick := 0, utime := 0, timeOffset := 0 } : RepeatSegment R)] ++
              List.replicate (c - 2)
                ({ tick := (sc.measure a).tick,
                   len := (sc.measure b).tick + (sc.measure b).ticks - (sc.measure a).tick,
                   utick := 0, utime := 0, timeOffset := 0 } : RepeatSegment R) ++
              [({ tick := (sc.measure a).tick,
                  len := (sc.measure (sc.measures.length - 1)).endTick - (sc.measure a).tick,
                  utick := 0, utime := 0, timeOffset := 0 } : RepeatSegment R)],
            rs := { tick := (sc.measure 0).tick, len := 0, utick := 0, utime := 0,
                    timeOffset := 0 },
            endRepeat := some (sc.measures.length - 1), continueAt := none, loop := 0,
            repeatCount := (c : Int), isGoto := true,
            jumps := [some (sc.measures.length - 1, p)] }
          (some 0) := by
  have hh := h
  have hbr := repeatThenDC_bracket sc a b c p j h
  obtain ⟨hc, hv, hab, hb, hk, hrc, hc2, hj, hto, hpu, hca⟩ := h
  obtain ⟨sc2, hs2, hw2⟩ := bracket_run tl sc a b c (sc.measures.length - 1) hbr
    (r + 1 + (sc.measures.length - 2 - b))
  have hn2 : sc.nextMeasure b = some (b + 1) := by
    unfold Score.nextMeasure; rw [if_pos (by omega)]
  rw [hn2] at hw2
  obtain ⟨sc3, hs3, _, hw3⟩ := walk_plain_ref tl sc (r + 1) (sc.measures.length - 2 - b) (b + 1)
    ({ score := sc2,
       segs := [({ tick := 0, len := (sc.measure b).tick + (sc.measure b).ticks - 0,
                   utick := 0, utime := 0, timeOffset := 0 } : RepeatSegment R)] ++
         List.replicate (c - 2)
           ({ tick := (sc.measure a).tick,
              len := (sc.measure b).tick + (sc.measure b).ticks - (sc.measure a).tick,
              utick := 0, utime := 0, timeOffset := 0 } : RepeatSegment R),
       rs := { tick := (sc.measure a).tick, len := 0, utick := 0, utime := 0,
               timeOffset := 0 },
       endRepeat := none, continueAt := none, loop := 0, repeatCount := (c : Int),
       isGoto := false, jumps := [] } : UState R)
    hs2 (by omega) (by omega)
    (fun k hk1 hk2 => ⟨(repeatThenDC_plain sc a b c p j hh k (by omega) (by omega)).1,
      (repeatThenDC_plain sc a b c p j hh k (by omega) (by omega)).2,
      fun hg => by cases hg⟩) hv
  have e3 : b + 1 + (sc.measures.length - 2 - b) = sc.measures.length - 1 := by omega
  rw [e3, if_pos (by omega)] at hw3
  have hst := measure_static_of_reset_eq hs3 (sc.measures.length - 1)
  refine ⟨sc3.incPlaybackCount (sc.measures.length - 1),
    by rw [reset_incPlaybackCount, hs3], ?_⟩
  rw [hw2, hw3, unwindLoop,
    body_jump_take tl
      ({ score := sc3,
         segs := [({ tick := 0, len := (sc.measure b).tick + (sc.measure b).ticks - 0,
                     utick := 0, utime := 0, timeOffset := 0 } : RepeatSegment R)] ++
           List.replicate (c - 2)
             ({ tick := (sc.measure a).tick,
                len := (sc.measure b).tick + (sc.measure b).ticks - (sc.measure a).tick,
                utick := 0, utime := 0, timeOffset := 0 } : RepeatSegment R),
         rs := { tick := (sc.measure a).tick, len := 0, utick := 0, utime := 0,
                 timeOffset := 0 },
         endRepeat := none, continueAt := none, loop := 0, repeatCount := (c : Int),
         isGoto := false, jumps := [] } : UState R)
      (sc.measures.length - 1) p j 0 (sc.measures.length - 1)
      (by show (sc3.measure _).repeatFlags.END = false
          rw [hst.2.2.1]
          cases hs : (sc.measure (sc.measures.length - 1)).repeatFlags.END with
          | false => rfl
          | true => have := (hk _ (by omega)).2.2.1.mp hs; omega)
      (by show (sc3.measure _).repeatFlags.JUMP = true
          rw [hst.2.2.1]; exact (hk _ (by omega)).2.1.mpr rfl)
      (by show sc3.voltas = []
          rw [voltas_of_reset_eq hs3]; exact hv) rfl rfl
      (by show firstJump 0 (sc3.measure _).el = some (p, j)
          rw [hst.2.2.2.2.2]; exact hj)
      rfl
      (by show sc3.searchLabel j.jumpTo = some 0
          rw [searchLabel_of_reset_eq hs3, hto]; exact searchLabel_start sc (by omega))
      (by show sc3.searchLabel j.playUntil = some (sc.measures.length - 1)
          rw [searchLabel_of_reset_eq hs3, hpu]; exact searchLabel_end sc (by omega))]
  simp only []
  have hcont : sc3.searchLabel j.continueAt = none := by
    rw [searchLabel_of_reset_eq hs3, hca]
    exact searchLabel_empty sc (fun k hk1 => (hk k hk1).2.2.2.2)
  rw [hcont]
  simp only [Measure.endTick, hst.1, hst.2.1, (measure_static_of_reset_eq hs3 0).1]
  rfl

theorem contiguous_scoreRepeatDC : Contiguous scoreRepeatDC := by
  refine ⟨by decide, rfl, ?_⟩
  intro k hk
  have : k < 4 := by have h5 : k + 1 < 5 := hk; omega
  interval_cases k <;> rfl

theorem repeatThenDC_scoreRepeatDC :
    RepeatThenDC scoreRepeatDC 1 2 2 0
      { jumpTo := "start", playUntil := "end", continueAt := "" } := by
  unfold RepeatThenDC
  exact ⟨contiguous_scoreRepeatDC, rfl, by decide, by decide, by decide, rfl, by decide,
    rfl, rfl, rfl, rfl⟩

/-! ### Walking through measures of a score with voltas -/

/-- On a measure without the JUMP flag, outside any bracket or at a tick that no
volta covers, lines 288-306 do nothing. -/
theorem voltaAndJumpFlag_plain [Zero R] (st : UState R) (m : Measure)
    (hJ : m.repeatFlags.JUMP = false)
    (h : st.endRepeat = none ∨ st.score.searchVolta m.tick = none) :
    voltaAndJumpFlag st m = (st, false) := by
  unfold voltaAndJumpFlag
  cases he : st.endRepeat with
  | none => simp only [hJ]
  | some e =>
    rcases h with h | h
    · rw [he] at h; cases h
    · simp only [h, hJ, Bool.false_eq_true, if_false]

theorem body_plain_gen [Zero R] [Add R] [Sub R] (tl : TempoMap R) (st : UState R) (mi : Nat)
    (hE : (st.score.measure mi).repeatFlags.END = false)
    (hJ : (st.score.measure mi).repeatFlags.JUMP = false)
    (hv : st.endRepeat = none ∨ st.score.searchVolta (st.score.measure mi).tick = none)
    (hg : st.isGoto = true → st.endRepeat ≠ some mi) :
    body tl st mi =
      Step.next { st with score := st.score.incPlaybackCount mi } (st.score.nextMeasure mi) := by
  have hg1 : (st.isGoto && decide (st.endRepeat = some mi)) = false := by
    cases h : st.isGoto with
    | false => rfl
    | true => simp [hg h]
  rw [body_eq, countVisit_plain st mi (by rw [hE]; simp)]
  rw [voltaAndJumpFlag_plain { st with score := st.score.incPlaybackCount mi } _
    (by rw [measure_incPlaybackCount_repeatFlags]; exact hJ)
    (by
      rcases hv with h | h
      · exact Or.inl h
      · right
        show (st.score.incPlaybackCount mi).searchVolta
          ((st.score.incPlaybackCount mi).measure mi).tick = none
        rw [searchVolta_incPlaybackCount, measure_incPlaybackCount_tick]; exact h)]
  unfold gotoOrEnd
  simp only [hg1, measure_incPlaybackCount_repeatFlags, hE, Bool.false_eq_true, if_false]
  rw [jumpOrAdvance_no_jump]
  simp only [nextMeasure_incPlaybackCount]

theorem walk_gen [Zero R] [Add R] [Sub R] (tl : TempoMap R) (fuel d : Nat) :
    ∀ (a : Nat) (st : UState R), a < st.score.measures.length →
      a + d ≤ st.score.measures.length →
      (∀ k, a ≤ k → k < a + d →
        (st.score.measure k).repeatFlags.END = false ∧
        (st.score.measure k).repeatFlags.JUMP = false ∧
        (st.endRepeat = none ∨ st.score.searchVolta (st.score.measure k).tick = none) ∧
        (st.isGoto = true → st.endRepeat ≠ some k)) →
      unwindLoop tl (fuel + d) st (some a) =
        unwindLoop tl fuel { st with score := visitRange st.score a d }
          (if a + d < st.score.measures.length then some (a + d) else none) := by
  induction d with
  | zero =>
    intro a st ha _ _
    simp only [Nat.add_zero, visitRange, if_pos ha]
  | succ d ih =>
    intro a st ha had hpl
    have e : fuel + (d + 1) = (fuel + d) + 1 := by omega
    obtain ⟨hE, hJ, hv, hg⟩ := hpl a (le_refl _) (by omega)
    rw [e, unwindLoop, body_plain_gen tl st a hE hJ hv hg]
    simp only []
    by_cases h1 : a + 1 < st.score.measures.length
    · have hn : st.score.nextMeasure a = some (a + 1) := by
        unfold Score.nextMeasure; rw [if_pos h1]
      rw [hn, ih (a + 1) { st with score := st.score.incPlaybackCount a }
        (by simpa [length_incPlaybackCount] using h1)
        (by simp only [length_incPlaybackCount]; omega)
        (by
          intro k hk1 hk2
          obtain ⟨h1, h2, h3, h4⟩ := hpl k (by omega) (by omega)
          simp only [measure_incPlaybackCount_repeatFlags, measure_incPlaybackCount_tick,
            searchVolta_incPlaybackCount]
          exact ⟨h1, h2, h3, h4⟩)]
      simp only [visitRange, length_incPlaybackCount]
      have e2 : a + 1 + d = a + (d + 1) := by omega
      rw [e2]
    · have hd : d = 0 := by omega
      subst hd
      have hn : st.score.nextMeasure a = none := by
        unfold Score.nextMeasure; rw [if_neg h1]
      rw [hn]
      simp only [Nat.add_zero, visitRange, Nat.zero_add, if_neg h1]

theorem length_visitRange (d : Nat) : ∀ (sc : Score) (a : Nat),
    (visitRange sc a d).measures.length = sc.measures.length := by
  induction d with
  | zero => intro sc a; rfl
  | succ d ih => intro sc a; simp only [visitRange]; rw [ih, length_incPlaybackCount]

theorem visitRange_pc_in (d : Nat) : ∀ (sc : Score) (a k : Nat),
    a ≤ k → k < a + d → k < sc.measures.length →
    ((visitRange sc a d).measure k).playbackCount = (sc.measure k).playbackCount + 1 := by
  induction d with
  | zero => intro sc a k h1 h2; omega
  | succ d ih =>
    intro sc a k h1 h2 h3
    simp only [visitRange]
    rcases Nat.eq_or_lt_of_le h1 with e | hlt
    · subst e
      rw [visitRange_measure_out d _ (a + 1) a (Or.inl (by omega))]
      exact measure_incPlaybackCount_self sc a h3
    · rw [ih _ (a + 1) k (by omega) (by omega) (by rw [length_incPlaybackCount]; exact h3),
        measure_incPlaybackCount_ne _ _ _ (by omega)]

/-- The walk through measures without END and JUMP, none of which is excluded by
a volta, stated against a reference score that differs from the score of the
state in playback counts only. -/
theorem walk_gen_ref [Zero R] [Add R] [Sub R] (tl : TempoMap R) (sc0 : Score)
    (fuel d a : Nat) (st : UState R)
    (hsame : resetPlaybackCounts st.score = resetPlaybackCounts sc0)
    (ha : a < sc0.measures.length) (had : a + d ≤ sc0.measures.length)
    (hpl : ∀ k, a ≤ k → k < a + d →
        (sc0.measure k).repeatFlags.END = false ∧
        (sc0.measure k).repeatFlags.JUMP = false ∧
        (st.endRepeat = none ∨ sc0.searchVolta (sc0.measure k).tick = none) ∧
        (st.isGoto = true → st.endRepeat ≠ some k)) :
    ∃ sc1 : Score, resetPlaybackCounts sc1 = resetPlaybackCounts sc0 ∧
      (∀ k, k < a ∨ a + d ≤ k → sc1.measure k = st.score.measure k) ∧
      (∀ k, a ≤ k → k < a + d →
        (sc1.measure k).playbackCount = (st.score.measure k).playbackCount + 1) ∧
      unwindLoop tl (fuel + d) st (some a) =
        unwindLoop tl fuel { st with score := sc1 }
          (if a + d < sc0.measures.length then some (a + d) else none) := by
  have hl := length_of_reset_eq hsame
  have hvo : st.score.voltas = sc0.voltas := voltas_of_reset_eq hsame
  refine ⟨visitRange st.score a d, ?_, ?_, ?_, ?_⟩
  · rw [reset_visitRange, hsame]
  · intro k hk
    exact visitRange_measure_out d st.score a k hk
  · intro k hk1 hk2
    exact visitRange_pc_in d st.score a k hk1 hk2 (by omega)
  · rw [walk_gen tl fuel d a st (by omega) (by omega) ?_, hl]
    intro k hk1 hk2
    obtain ⟨h1, h2, h3, h4⟩ := hpl k hk1 hk2
    rw [(measure_static_of_reset_eq hsame k).2.2.1, (measure_static_of_reset_eq hsame k).1]
    refine ⟨h1, h2, ?_, h4⟩
    rcases h3 with h | h
    · exact Or.inl h
    · right
      unfold Score.searchVolta at h ⊢
      rw [hvo]; exact h

/-- First visit of a measure flagged END outside any bracket, not yet played
`repeatCount` times, in a score that may have voltas: the bracket opens and the
walk goes back to its start. -/
theorem body_end_first_open [Zero R] [Add R] [Sub R] (tl : TempoMap R) (st : UState R)
    (mi : Nat)
    (hE : (st.score.measure mi).repeatFlags.END = true)
    (hg : st.isGoto = false) (he : st.endRepeat = none)
    (hm : mi < st.score.measures.length)
    (hp : (st.score.measure mi).playbackCount + 1 < (st.score.measure mi).repeatCount) :
    body tl st mi =
      Step.next
        { st with score := st.score.incPlaybackCount mi,
                  segs := st.segs ++ [{ st.rs with len := (st.score.measure mi).tick + (st.score.measure mi).ticks - st.rs.tick }],
                  rs := { (RepeatSegment.new : RepeatSegment R) with tick := (st.score.measure (startRepeat st.score mi)).tick },
                  endRepeat := some mi,
                  repeatCount := (st.score.measure mi).repeatCount,
                  loop := 1 }
        (some (startRepeat st.score mi)) := by
  rw [body_eq, countVisit_plain st mi (by rw [hg]; rfl)]
  rw [voltaAndJumpFlag_open { st with score := st.score.incPlaybackCount mi } _ he]
  unfold gotoOrEnd
  simp only [hg, he, hE, Bool.false_and, Bool.false_eq_true, if_false, if_true,
    measure_incPlaybackCount_repeatFlags, measure_incPlaybackCount_repeatCount,
    measure_incPlaybackCount_self _ _ hm, reduceCtorEq, ge_iff_le, not_le.mpr hp,
    jumpToStartRepeat, startRepeat_incPlaybackCount, measure_incPlaybackCount_tick,
    measure_incPlaybackCount_ticks]

/-- The volta skip of lines 288-298, for a visit that does not force `loop`: the
pass goes on at line 309 with `doJump` clear, the segment under construction
closed at the start of the measure, if it started before, and the next one
starting at the end of the measure. -/
theorem body_skip_eq [Zero R] [Add R] [Sub R] (tl : TempoMap R) (st : UState R)
    (mi e : Nat) (v : Volta)
    (hm : mi < st.score.measures.length)
    (he : st.endRepeat = some e)
    (hv : st.score.searchVolta (st.score.measure mi).tick = some v)
    (hk : v.hasEnding ((st.score.measure mi).playbackCount + 1) = false)
    (hcv : (st.isGoto && (st.score.measure mi).repeatFlags.END) = false) :
    (st.rs.tick < (st.score.measure mi).tick →
      body tl st mi =
        gotoOrEnd tl
          { st with
              score := st.score.incPlaybackCount mi,
              segs := st.segs ++ [{ st.rs with len := (st.score.measure mi).tick - st.rs.tick }],
              rs := { (RepeatSegment.new : RepeatSegment R) with
                        tick := (st.score.measure mi).endTick } }
          mi false) ∧
    (¬ st.rs.tick < (st.score.measure mi).tick →
      body tl st mi =
        gotoOrEnd tl
          { st with
              score := st.score.incPlaybackCount mi,
              rs := { st.rs with tick := (st.score.measure mi).endTick } }
          mi false) := by
  obtain ⟨score, segs, rs, endRepeat, continueAt, loop, repeatCount, isGoto, jumps⟩ := st
  simp only [] at hm he hv hk hcv ⊢
  subst he
  rw [body_eq, countVisit_plain _ mi hcv]
  simp only []
  have hvolta : voltaAndJumpFlag
      ({ score := score.incPlaybackCount mi, segs := segs, rs := rs, endRepeat := some e,
         continueAt := continueAt, loop := loop, repeatCount := repeatCount,
         isGoto := isGoto, jumps := jumps } : UState R)
      ((score.incPlaybackCount mi).measure mi) =
      (if rs.tick < (score.measure mi).tick then
        ({ score := score.incPlaybackCount mi,
           segs := segs ++ [{ rs with len := (score.measure mi).tick - rs.tick }],
           rs := { (RepeatSegment.new : RepeatSegment R) with tick := (score.measure mi).endTick },
           endRepeat := some e, continueAt := continueAt, loop := loop,
           repeatCount := repeatCount, isGoto := isGoto, jumps := jumps } : UState R)
       else
        ({ score := score.incPlaybackCount mi, segs := segs,
           rs := { rs with tick := (score.measure mi).endTick },
           endRepeat := some e, continueAt := continueAt, loop := loop,
           repeatCount := repeatCount, isGoto := isGoto, jumps := jumps } : UState R),
       false) := by
    unfold voltaAndJumpFlag
    simp only [searchVolta_incPlaybackCount, measure_incPlaybackCount_tick, hv,
      measure_incPlaybackCount_self _ _ hm, hk, Bool.not_false, if_true,
      measure_incPlaybackCount_endTick]
    split <;> rfl
  rw [hvolta]
  constructor
  · intro hlt
    simp only [if_pos hlt]
  · intro hlt
    simp only [if_neg hlt]

/-- Lines 309-351 on a measure without END that does not end a once-only jump,
with `doJump` clear: the walk advances. -/
theorem gotoOrEnd_plain [Zero R] [Add R] [Sub R] (tl : TempoMap R) (X : UState R) (mi : Nat)
    (hE : (X.score.measure mi).repeatFlags.END = false)
    (hg : X.isGoto = true → X.endRepeat ≠ some mi) :
    gotoOrEnd tl X mi false = Step.next X (X.score.nextMeasure mi) := by
  have hg1 : (X.isGoto && decide (X.endRepeat = some mi)) = false := by
    cases h : X.isGoto with
    | false => rfl
    | true => simp [hg h]
  unfold gotoOrEnd
  simp only [hg1, hE, Bool.false_eq_true, if_false, jumpOrAdvance_no_jump]

/-- Lines 309-351 on the END measure that closes the open bracket on its last
pass, with `doJump` clear: the bracket is closed and the walk advances. -/
theorem gotoOrEnd_end_last [Zero R] [Add R] [Sub R] (tl : TempoMap R) (X : UState R)
    (mi : Nat)
    (hE : (X.score.measure mi).repeatFlags.END = true)
    (hg : X.isGoto = false) (he : X.endRepeat = some mi)
    (hp : X.repeatCount ≤ X.loop + 1) :
    gotoOrEnd tl X mi false =
      Step.next { X with endRepeat := none, loop := 0 } (X.score.nextMeasure mi) := by
  unfold gotoOrEnd
  simp only [hg, he, hE, Bool.false_and, Bool.false_eq_true, if_false, if_true, ge_iff_le, hp,
    jumpOrAdvance_no_jump]

/-! ### First and second ending -/

theorem contiguous_tick_lt (sc : Score) (h : Contiguous sc) (o x : Nat) (hox : o < x)
    (hx : x < sc.measures.length) : (sc.measure o).tick < (sc.measure x).tick := by
  have h1 := contiguous_endTick_le_tick sc h o x hox hx
  have h2 := h.1 o (by omega)
  unfold Measure.endTick at h1
  omega

theorem firstSecondEnding_volta (sc : Score) (a v b : Nat) (t2 : Int)
    (h : FirstSecondEnding sc a v b t2) :
    (∀ k, v ≤ k → k ≤ b → sc.searchVolta (sc.measure k).tick =
      some { tick := (sc.measure v).tick, tick2 := (sc.measure b).endTick, endings := [1] }) ∧
    (∀ k, k < v → sc.searchVolta (sc.measure k).tick = none) := by
  obtain ⟨hc, hav, hvb, hb, hk, hrc, hvo⟩ := h
  constructor
  · intro k hk1 hk2
    have h1 : (sc.measure v).tick ≤ (sc.measure k).tick := by
      rcases Nat.eq_or_lt_of_le hk1 with e | hlt
      · rw [e]
      · exact le_of_lt (contiguous_tick_lt sc hc v k hlt (by omega))
    have h2 : (sc.measure k).tick < (sc.measure b).endTick := by
      have h3 := contiguous_tick_le sc hc k (b - k) (by omega)
      have e : k + (b - k) = b := by omega
      rw [e] at h3
      have h4 := hc.1 k (by omega)
      unfold Measure.endTick at h3 ⊢
      omega
    unfold Score.searchVolta
    rw [hvo]
    simp only [searchVoltaIn, ge_iff_le, h1, h2, and_self, if_true]
  · intro k hk1
    have h1 : (sc.measure k).tick < (sc.measure v).tick :=
      contiguous_tick_lt sc hc k v hk1 (by omega)
    have h2 : (sc.measure k).tick < (sc.measure (b + 1)).tick :=
      contiguous_tick_lt sc hc k (b + 1) (by omega) hb
    unfold Score.searchVolta
    rw [hvo]
    simp only [searchVoltaIn, ge_iff_le, not_le.mpr h1, not_le.mpr h2, false_and, if_false]

/-- The second pass through the first ending: the measures from `x` to the END
measure `b` are skipped one by one, and the END measure closes the bracket. -/
theorem skip_run [Zero R] [Add R] [Sub R] (tl : TempoMap R) (sc : Score) (b : Nat)
    (V : Volta) (r : Nat) (hc : Contiguous sc) (hb : b + 1 < sc.measures.length) :
    ∀ (d x : Nat) (st : UState R) (t : Int), x + d = b →
      resetPlaybackCounts st.score = resetPlaybackCounts sc →
      st.isGoto = false → st.endRepeat = some b → st.repeatCount ≤ st.loop + 1 →
      st.rs = ⟨t, 0, 0, 0, 0⟩ → t ≤ (sc.measure x).tick →
      (∀ k, x ≤ k → k ≤ b →
        sc.searchVolta (sc.measure k).tick = some V ∧
        V.hasEnding ((st.score.measure k).playbackCount + 1) = false ∧
        ((sc.measure k).repeatFlags.END = true ↔ k = b)) →
      ∃ sc1 : Score, resetPlaybackCounts sc1 = resetPlaybackCounts sc ∧
        unwindLoop tl (r + (d + 1)) st (some x) =
          unwindLoop tl r
            { st with
                score := sc1,
                segs := (if t < (sc.measure x).tick
                  then st.segs ++ [⟨t, (sc.measure x).tick - t, 0, 0, 0⟩] else st.segs),
                rs := ⟨(sc.measure b).endTick, 0, 0, 0, 0⟩,
                endRepeat := none,
                loop := 0 }
            (some (b + 1)) := by
  intro d
  induction d with
  | zero =>
    intro x st t hx hsame hg he hp hrs ht hall
    have hxb : x = b := by omega
    subst hxb
    obtain ⟨h1, h2, h3⟩ := hall x (le_refl _) (le_refl _)
    have hst := measure_static_of_reset_eq hsame x
    have hl := length_of_reset_eq hsame
    have hE : (st.score.measure x).repeatFlags.END = true := by
      rw [hst.2.2.1]; exact h3.mpr rfl
    have hsk := body_skip_eq tl st x x V (by omega) he
      (by rw [hst.1]; unfold Score.searchVolta at h1 ⊢
          rw [voltas_of_reset_eq hsame]; exact h1)
      h2 (by rw [hg]; rfl)
    have hnx : (st.score.incPlaybackCount x).nextMeasure x = some (x + 1) := by
      rw [nextMeasure_incPlaybackCount, nextMeasure_of_reset_eq hsame]
      unfold Score.nextMeasure; rw [if_pos hb]
    refine ⟨st.score.incPlaybackCount x, by rw [reset_incPlaybackCount, hsame], ?_⟩
    rw [show r + (0 + 1) = r + 1 by omega, unwindLoop]
    by_cases hlt : t < (sc.measure x).tick
    · rw [hsk.1 (by rw [hrs, hst.1]; exact hlt),
        gotoOrEnd_end_last tl
          ({ st with
            score := st.score.incPlaybackCount x,
            segs := st.segs ++ [{ st.rs with len := (st.score.measure x).tick - st.rs.tick }],
            rs := { (RepeatSegment.new : RepeatSegment R) with
                      tick := (st.score.measure x).endTick } } : UState R) x
          (by show ((st.score.incPlaybackCount x).measure x).repeatFlags.END = true
              rw [measure_incPlaybackCount_repeatFlags]; exact hE)
          hg he hp]
      simp only [hnx, if_pos hlt, hrs, hst.1, Measure.endTick, hst.2.1]
      rfl
    · rw [hsk.2 (by rw [hrs, hst.1]; exact hlt),
        gotoOrEnd_end_last tl
          ({ st with
            score := st.score.incPlaybackCount x,
            rs := { st.rs with tick := (st.score.measure x).endTick } } : UState R) x
          (by show ((st.score.incPlaybackCount x).measure x).repeatFlags.END = true
              rw [measure_incPlaybackCount_repeatFlags]; exact hE)
          hg he hp]
      simp only [hnx, if_neg hlt, hrs, hst.1, Measure.endTick, hst.2.1]
  | succ d ih =>
    intro x st t hx hsame hg he hp hrs ht hall
    obtain ⟨h1, h2, h3⟩ := hall x (le_refl _) (by omega)
    have hst := measure_static_of_reset_eq hsame x
    have hl := length_of_reset_eq hsame
    have hE : (st.score.measure x).repeatFlags.END = false := by
      rw [hst.2.2.1]
      cases hs : (sc.measure x).repeatFlags.END with
      | false => rfl
      | true => have := h3.mp hs; omega
    have hsk := body_skip_eq tl st x b V (by omega) he
      (by rw [hst.1]; unfold Score.searchVolta at h1 ⊢
          rw [voltas_of_reset_eq hsame]; exact h1)
      h2 (by rw [hg]; rfl)
    have hnx : (st.score.incPlaybackCount x).nextMeasure x = some (x + 1) := by
      rw [nextMeasure_incPlaybackCount, nextMeasure_of_reset_eq hsame]
      unfold Score.nextMeasure; rw [if_pos (by omega)]
    have hnext : (sc.measure (x + 1)).tick = (sc.measure x).endTick := hc.2.2 x (by omega)
    have hall1 : ∀ (sc0 : Score), sc0 = st.score.incPlaybackCount x →
        ∀ k, x + 1 ≤ k → k ≤ b →
        sc.searchVolta (sc.measure k).tick = some V ∧
        V.hasEnding ((sc0.measure k).playbackCount + 1) = false ∧
        ((sc.measure k).repeatFlags.END = true ↔ k = b) := by
      intro sc0 hsc0 k hk1 hk2
      obtain ⟨g1, g2, g3⟩ := hall k (by omega) hk2
      rw [hsc0, measure_incPlaybackCount_ne _ _ _ (by omega)]
      exact ⟨g1, g2, g3⟩
    rw [show r + (d + 1 + 1) = (r + (d + 1)) + 1 by omega, unwindLoop]
    by_cases hlt : t < (sc.measure x).tick
    · rw [hsk.1 (by rw [hrs, hst.1]; exact hlt),
        gotoOrEnd_plain tl
          ({ st with
            score := st.score.incPlaybackCount x,
            segs := st.segs ++ [{ st.rs with len := (st.score.measure x).tick - st.rs.tick }],
            rs := { (RepeatSegment.new : RepeatSegment R) with
                      tick := (st.score.measure x).endTick } } : UState R) x
          (by show ((st.score.incPlaybackCount x).measure x).repeatFlags.END = false
              rw [measure_incPlaybackCount_repeatFlags]; exact hE)
          (by intro hh; rw [hg] at hh; cases hh)]
      simp only [hnx]
      obtain ⟨sc1, hs1, hw⟩ := ih (x + 1)
        { st with
            score := st.score.incPlaybackCount x,
            segs := st.segs ++ [{ st.rs with len := (st.score.measure x).tick - st.rs.tick }],
            rs := { (RepeatSegment.new : RepeatSegment R) with
                      tick := (st.score.measure x).endTick } }
        (st.score.measure x).endTick (by omega)
        (by show resetPlaybackCounts (st.score.incPlaybackCount x) = resetPlaybackCounts sc
            rw [reset_incPlaybackCount, hsame])
        hg he hp rfl
        (by rw [hnext]; unfold Measure.endTick; rw [hst.1, hst.2.1])
        (hall1 _ rfl)
      refine ⟨sc1, hs1, ?_⟩
      rw [hw]
      have hno : ¬ (st.score.measure x).endTick < (sc.measure (x + 1)).tick := by
        rw [hnext]; unfold Measure.endTick; rw [hst.1, hst.2.1]; omega
      simp only [if_neg hno, if_pos hlt, hrs, hst.1]
    · rw [hsk.2 (by rw [hrs, hst.1]; exact hlt),
        gotoOrEnd_plain tl
          ({ st with
            score := st.score.incPlaybackCount x,
            rs := { st.rs with tick := (st.score.measure x).endTick } } : UState R) x
          (by show ((st.score.incPlaybackCount x).measure x).repeatFlags.END = false
              rw [measure_incPlaybackCount_repeatFlags]; exact hE)
          (by intro hh; rw [hg] at hh; cases hh)]
      simp only [hnx]
      obtain ⟨sc1, hs1, hw⟩ := ih (x + 1)
        { st with
            score := st.score.incPlaybackCount x,
            rs := { st.rs with tick := (st.score.measure x).endTick } }
        (st.score.measure x).endTick (by omega)
        (by show resetPlaybackCounts (st.score.incPlaybackCount x) = resetPlaybackCounts sc
            rw [reset_incPlaybackCount, hsame])
        hg he hp (by rw [hrs])
        (by rw [hnext]; unfold Measure.endTick; rw [hst.1, hst.2.1])
        (hall1 _ rfl)
      refine ⟨sc1, hs1, ?_⟩
      rw [hw]
      have hno : ¬ (st.score.measure x).endTick < (sc.measure (x + 1)).tick := by
        rw [hnext]; unfold Measure.endTick; rw [hst.1, hst.2.1]; omega
      simp only [if_neg hno, if_neg hlt]

theorem firstSecondEnding_startRepeat (sc : Score) (a v b : Nat) (t2 : Int)
    (h : FirstSecondEnding sc a v b t2) : startRepeat sc b = a := by
  obtain ⟨hc, hav, hvb, hb, hk, hrc, hvo⟩ := h
  have := startRepeat_to_start sc a ((hk a (by omega)).2.2.2.mpr rfl) (b - a)
    (fun k hk1 hk2 => by
      have h1 := (hk k (by omega)).2.2.2
      cases hs : (sc.measure k).repeatFlags.START with
      | false => rfl
      | true => have := h1.mp hs; omega)
    (fun k hk1 hk2 => (hk k (by omega)).1)
  have e : a + (b - a) = b := by omega
  rw [e] at this
  exact this

theorem firstSecondEnding_plain (sc : Score) (a v b : Nat) (t2 : Int)
    (h : FirstSecondEnding sc a v b t2) (k : Nat) (hk1 : k < sc.measures.length)
    (hkb : k ≠ b) :
    (sc.measure k).repeatFlags.END = false ∧ (sc.measure k).repeatFlags.JUMP = false := by
  obtain ⟨_, _, _, _, hk, _, _⟩ := h
  refine ⟨?_, (hk k hk1).2.1⟩
  cases hs : (sc.measure k).repeatFlags.END with
  | false => rfl
  | true => exact absurd ((hk k hk1).2.2.1.mp hs) hkb

/-- The first pass of a score with a first and a second ending: from the first
measure to the END measure, which opens the bracket. -/
theorem firstSecondEnding_first [Zero R] [Add R] [Sub R] (tl : TempoMap R) (sc : Score)
    (a v b : Nat) (t2 : Int) (h : FirstSecondEnding sc a v b t2) (r : Nat) :
    ∃ sc2 : Score, resetPlaybackCounts sc2 = resetPlaybackCounts sc ∧
      (∀ k, k ≤ b → (sc2.measure k).playbackCount = 1) ∧
      unwindLoop tl (r + (b + 1)) (initState sc []) (some 0) =
        unwindLoop tl r
          { score := sc2,
            segs := [(⟨0, (sc.measure b).tick + (sc.measure b).ticks - 0, 0, 0, 0⟩ :
              RepeatSegment R)],
            rs := ⟨(sc.measure a).tick, 0, 0, 0, 0⟩,
            endRepeat := some b, continueAt := none, loop := 1, repeatCount := 2,
            isGoto := false, jumps := [] }
          (some a) := by
  have hh := h
  obtain ⟨hc, hav, hvb, hb, hk, hrc, hvo⟩ := h
  obtain ⟨sc1, hs1, hout, hin, hw⟩ := walk_gen_ref tl sc (r + 1) b 0 (initState sc [] : UState R)
    (by simp [initState, reset_reset]) (by omega) (by omega)
    (fun k hk1 hk2 => ⟨(firstSecondEnding_plain sc a v b t2 hh k (by omega) (by omega)).1,
      (firstSecondEnding_plain sc a v b t2 hh k (by omega) (by omega)).2,
      Or.inl rfl, fun hg => by cases hg⟩)
  rw [Nat.zero_add, if_pos (by omega)] at hw
  have hst := measure_static_of_reset_eq hs1 b
  have hl := length_of_reset_eq hs1
  have hpcb : (sc1.measure b).playbackCount = 0 := by
    rw [hout b (Or.inr (by omega))]
    show ((resetPlaybackCounts sc).measure b).playbackCount = 0
    rw [measure_reset]; rfl
  refine ⟨sc1.incPlaybackCount b, by rw [reset_incPlaybackCount, hs1], ?_, ?_⟩
  · intro k hk1
    rcases Nat.eq_or_lt_of_le hk1 with e | hlt
    · rw [e, measure_incPlaybackCount_self _ _ (by omega), hpcb]; rfl
    · rw [measure_incPlaybackCount_ne _ _ _ (by omega), hin k (Nat.zero_le _) (by omega)]
      show ((resetPlaybackCounts sc).measure k).playbackCount + 1 = 1
      rw [measure_reset]; rfl
  · rw [show r + (b + 1) = r + 1 + b by omega, hw, unwindLoop,
      body_end_first_open tl { (initState sc [] : UState R) with score := sc1 } b
        (by show (sc1.measure b).repeatFlags.END = true
            rw [hst.2.2.1]; exact (hk b (by omega)).2.2.1.mpr rfl)
        rfl rfl
        (by show b < sc1.measures.length
            omega)
        (by show (sc1.measure b).playbackCount + 1 < (sc1.measure b).repeatCount
            rw [hpcb, hst.2.2.2.1, hrc]; decide)]
    simp only []
    rw [startRepeat_of_reset_eq hs1, firstSecondEnding_startRepeat sc a v b t2 hh, hst.1,
      hst.2.1, (measure_static_of_reset_eq hs1 a).1, hst.2.2.2.1, hrc]
    rfl

theorem update_len_pos [Zero R] [Add R] [Sub R] (tl : TempoMap R)
    (segs : List (RepeatSegment R)) (h : ∀ s ∈ segs, 0 < s.len) :
    ∀ s ∈ update tl segs, 0 < s.len := by
  intro s hs
  have h1 : (s.tick, s.len) ∈ (update tl segs).map (fun s => (s.tick, s.len)) :=
    List.mem_map.mpr ⟨s, hs, rfl⟩
  rw [update_tick_len] at h1
  obtain ⟨s0, hs0, he⟩ := List.mem_map.mp h1
  have := h s0 hs0
  simp only [Prod.mk.injEq] at he
  omega

theorem contiguous_scoreRepeat06 : Contiguous scoreRepeat06 := by
  refine ⟨by decide, rfl, ?_⟩
  intro k hk
  have : k < 5 := by have h6 : k + 1 < 6 := hk; omega
  interval_cases k <;> rfl

theorem firstSecondEnding_scoreRepeat06 : FirstSecondEnding scoreRepeat06 1 2 2 7680 := by
  unfold FirstSecondEnding
  exact ⟨contiguous_scoreRepeat06, by decide, by decide, by decide, by decide, rfl, rfl⟩

/-! ### `searchLabel` as a first-match search -/

theorem hasMarker_iff (s : String) (el : List Element) :
    hasMarker s el = true ↔ Element.MARKER s ∈ el := by
  induction el with
  | nil => simp [hasMarker]
  | cons e rest ih =>
    cases e with
    | MARKER l =>
      simp only [hasMarker, List.mem_cons, Element.MARKER.injEq]
      by_cases h : l = s
      · rw [if_pos h]; simp [h]
      · rw [if_neg h, ih]
        constructor
        · intro hm; exact Or.inr hm
        · rintro (e | hm)
          · exact absurd e.symm h
          · exact hm
    | JUMP j => simp [hasMarker, ih]
    | OTHER => simp [hasMarker, ih]

theorem hasMarker_false_iff (s : String) (el : List Element) :
    hasMarker s el = false ↔ Element.MARKER s ∉ el := by
  rw [← hasMarker_iff]; simp

theorem searchLabelFrom_some_iff (s : String) (ms : List Measure) :
    ∀ (i k : Nat), searchLabelFrom s i ms = some k ↔
      ∃ j, k = i + j ∧ j < ms.length ∧ Element.MARKER s ∈ (ms.getD j default).el ∧
        ∀ l, l < j → Element.MARKER s ∉ (ms.getD l default).el := by
  induction ms with
  | nil => intro i k; simp [searchLabelFrom]
  | cons m rest ih =>
    intro i k
    simp only [searchLabelFrom]
    by_cases hm : hasMarker s m.el = true
    · rw [if_pos hm]
      constructor
      · intro h
        simp only [Option.some.injEq] at h
        exact ⟨0, by omega, by simp, by simpa using (hasMarker_iff s m.el).mp hm,
          fun l hl => absurd hl (by omega)⟩
      · rintro ⟨j, hk, _, _, hfirst⟩
        cases j with
        | zero => simp only [Option.some.injEq]; omega
        | succ j =>
          have := hfirst 0 (by omega)
          simp only [List.getD_cons_zero] at this
          exact absurd ((hasMarker_iff s m.el).mp hm) this
    · rw [if_neg hm, ih (i + 1) k]
      have hm1 : Element.MARKER s ∉ m.el := fun h => hm ((hasMarker_iff s m.el).mpr h)
      constructor
      · rintro ⟨j, hk, hj, hin, hfirst⟩
        refine ⟨j + 1, by omega, by simp; omega, by simpa using hin, ?_⟩
        intro l hl
        cases l with
        | zero => simpa using hm1
        | succ l => simpa using hfirst l (by omega)
      · rintro ⟨j, hk, hj, hin, hfirst⟩
        cases j with
        | zero => simp only [List.getD_cons_zero] at hin; exact absurd hin hm1
        | succ j =>
          refine ⟨j, by omega, by simp at hj; omega, by simpa using hin, ?_⟩
          intro l hl
          simpa using hfirst (l + 1) (by omega)

theorem searchLabelFrom_none_iff (s : String) (ms : List Measure) :
    ∀ (i : Nat), searchLabelFrom s i ms = none ↔
      ∀ j, j < ms.length → Element.MARKER s ∉ (ms.getD j default).el := by
  induction ms with
  | nil => intro i; simp [searchLabelFrom]
  | cons m rest ih =>
    intro i
    simp only [searchLabelFrom]
    by_cases hm : hasMarker s m.el = true
    · rw [if_pos hm]
      simp only [reduceCtorEq, false_iff]
      intro h
      have := h 0 (by simp)
      simp only [List.getD_cons_zero] at this
      exact this ((hasMarker_iff s m.el).mp hm)
    · rw [if_neg hm, ih (i + 1)]
      have hm1 : Element.MARKER s ∉ m.el := fun h => hm ((hasMarker_iff s m.el).mpr h)
      constructor
      · intro h j hj
        cases j with
        | zero => simpa using hm1
        | succ j => simpa using h j (by simp at hj; omega)
      · intro h j hj
        simpa using h (j + 1) (by simp; omega)

/-! ### Round trip from score ticks -/

theorem findTick_of_mem (t : Int) (L : List (RepeatSegment R))
    (h : ∃ s ∈ L, s.tick ≤ t ∧ t < s.tick + s.len) :
    ∃ (i : Nat) (s : RepeatSegment R), L.get? i = some s ∧ s.tick ≤ t ∧ t < s.tick + s.len ∧
      findTick t L = some s := by
  induction L with
  | nil => obtain ⟨s, hs, _⟩ := h; simp at hs
  | cons x rest ih =>
    by_cases hx : t ≥ x.tick ∧ t < x.tick + x.len
    · exact ⟨0, x, by simp, hx.1, hx.2, by simp only [findTick]; rw [if_pos hx]⟩
    · obtain ⟨s, hs, h1, h2⟩ := h
      rcases List.mem_cons.mp hs with e | e
      · subst e; exact absurd ⟨h1, h2⟩ hx
      · obtain ⟨i, s1, hg, h3, h4, hf⟩ := ih ⟨s, e, h1, h2⟩
        exact ⟨i + 1, s1, by simpa using hg, h3, h4, by simp only [findTick]; rw [if_neg hx]; exact hf⟩

/-! ### Round trip through seconds -/

theorem findUtime_at [LinearOrder R] (t : R) (L : List (RepeatSegment R))
    (hs : List.Pairwise (fun a b : RepeatSegment R => a.utime ≤ b.utime) L)
    (i : Nat) (a : RepeatSegment R) (ha : L.get? i = some a) (h1 : a.utime ≤ t)
    (h2 : ∀ b, L.get? (i + 1) = some b → t < b.utime) :
    findUtime t 0 L = some (i, a) := by
  rw [findUtime_drop t i L 0 a hs ha h1, Nat.zero_add]
  rw [List.get?_eq_getElem?] at ha
  obtain ⟨hi, rfl⟩ := List.getElem?_eq_some_iff.mp ha
  rw [List.drop_eq_getElem_cons hi]
  cases hd : L.drop (i + 1) with
  | nil =>
    simp only [findUtime]
    rw [if_pos h1]
  | cons b rest =>
    have hb : L.get? (i + 1) = some b := by
      have := congrArg List.head? hd
      simp only [List.head?_drop, List.head?_cons] at this
      rw [List.get?_eq_getElem?]
      exact this
    simp only [findUtime]
    rw [if_pos ⟨h1, h2 b hb⟩]

/-! ### A once-only jump in progress has a stop measure -/

theorem configAfter_inv [Zero R] [Add R] [Sub R] (tl : TempoMap R) (P : UState R → Prop)
    (hstep : ∀ (st : UState R) (mi : Nat), P st →
      (body tl st mi).Post (fun st1 _ => P st1) (fun _ => True) (fun _ _ => True)) :
    ∀ (k : Nat) (st : UState R) (m : Option Nat) (st1 : UState R) (m1 : Nat), P st →
      configAfter tl k st m = some (st1, m1) → P st1 := by
  intro k
  induction k with
  | zero =>
    intro st m st1 m1 hP h
    cases m with
    | none => simp [configAfter] at h
    | some mi =>
      simp only [configAfter, Option.some.injEq, Prod.mk.injEq] at h
      rw [← h.1]; exact hP
  | succ k ih =>
    intro st m st1 m1 hP h
    cases m with
    | none => simp [configAfter] at h
    | some mi =>
      have hb := hstep st mi hP
      simp only [configAfter] at h
      cases hs : body tl st mi with
      | next st2 m2 =>
        rw [hs] at h hb
        exact ih st2 m2 st1 m1 hb h
      | brk st2 => rw [hs] at h; simp at h
      | ret sc segs => rw [hs] at h; simp at h
      | crash => rw [hs] at h; simp at h

theorem voltaAndJumpFlag_goto [Zero R] (st : UState R) (m : Measure)
    (h : st.isGoto = true → st.endRepeat ≠ none) :
    (voltaAndJumpFlag st m).1.isGoto = true → (voltaAndJumpFlag st m).1.endRepeat ≠ none := by
  unfold voltaAndJumpFlag
  repeat' split
  all_goals first
    | exact h
    | (intro hg; simp at hg)

theorem jumpOrAdvance_goto [Zero R] (st : UState R) (mi : Nat) (dj : Bool)
    (B : UState R → Prop) (T : Score → List (RepeatSegment R) → Prop)
    (h : st.isGoto = true → st.endRepeat ≠ none) :
    (jumpOrAdvance st mi dj).Post
      (fun st1 _ => st1.isGoto = true → st1.endRepeat ≠ none) B T := by
  unfold jumpOrAdvance
  simp only []
  repeat' split
  all_goals first
    | trivial
    | exact h
    | (simp only [Step.Post]; intro hg; simp_all)

theorem gotoOrEnd_goto [Zero R] [Add R] [Sub R] (tl : TempoMap R) (st : UState R) (mi : Nat)
    (dj : Bool) (h : st.isGoto = true → st.endRepeat ≠ none) :
    (gotoOrEnd tl st mi dj).Post
      (fun st1 _ => st1.isGoto = true → st1.endRepeat ≠ none) (fun _ => True)
      (fun _ _ => True) := by
  unfold gotoOrEnd
  simp only []
  repeat' split
  all_goals first
    | trivial
    | exact jumpOrAdvance_goto _ mi dj _ _ h
    | (apply jumpOrAdvance_goto; intro hg; simp_all)
    | (simp only [Step.Post, jumpToStartRepeat]; intro hg; simp_all)

theorem countVisit_goto (st : UState R) (mi : Nat)
    (h : st.isGoto = true → st.endRepeat ≠ none) :
    (countVisit st mi).isGoto = true → (countVisit st mi).endRepeat ≠ none := by
  unfold countVisit
  simp only []
  split <;> exact h

theorem body_goto [Zero R] [Add R] [Sub R] (tl : TempoMap R) (st : UState R) (mi : Nat)
    (h : st.isGoto = true → st.endRepeat ≠ none) :
    (body tl st mi).Post
      (fun st1 _ => st1.isGoto = true → st1.endRepeat ≠ none) (fun _ => True)
      (fun _ _ => True) :=
  gotoOrEnd_goto tl _ mi _ (voltaAndJumpFlag_goto _ _ (countVisit_goto st mi h))

theorem configAfter_scoreDCSentinel :
    configAfter unitTempo 3 (initState scoreDCSentinel []) scoreDCSentinel.firstMeasure =
      some (stateDCSentinelInGoto, 0) := by
  rfl

/-! ### Leaving the loop at an END that has been played often enough -/

theorem contiguous_scoreEndCountOne : Contiguous scoreEndCountOne := by
  refine ⟨?_, rfl, ?_⟩
  · intro k hk
    have : k < 4 := hk
    interval_cases k <;> decide
  · intro k hk
    have : k < 3 := by have h5 : k + 1 < 4 := hk; omega
    interval_cases k <;> rfl

/-- Invariant rule for the loop heads reached from a configuration. -/
theorem configAfter_post [Zero R] [Add R] [Sub R] (tl : TempoMap R)
    (P : UState R → Option Nat → Prop)
    (hstep : ∀ (st : UState R) (mi : Nat), P st (some mi) →
      (body tl st mi).Post P (fun _ => True) (fun _ _ => True)) :
    ∀ (k : Nat) (st : UState R) (m : Option Nat) (st1 : UState R) (m1 : Nat), P st m →
      configAfter tl k st m = some (st1, m1) → P st1 (some m1) := by
  intro k
  induction k with
  | zero =>
    intro st m st1 m1 hP h
    cases m with
    | none => simp [configAfter] at h
    | some mi =>
      simp only [configAfter, Option.some.injEq, Prod.mk.injEq] at h
      rw [← h.1, ← h.2]; exact hP
  | succ k ih =>
    intro st m st1 m1 hP h
    cases m with
    | none => simp [configAfter] at h
    | some mi =>
      have hb := hstep st mi hP
      simp only [configAfter] at h
      cases hs : body tl st mi with
      | next st2 m2 =>
        rw [hs] at h hb
        exact ih st2 m2 st1 m1 hb h
      | brk st2 => rw [hs] at h; simp at h
      | ret sc segs => rw [hs] at h; simp at h
      | crash => rw [hs] at h; simp at h

/-- The loop run from a configuration reached after `k` passes. -/
theorem unwindLoop_configAfter [Zero R] [Add R] [Sub R] (tl : TempoMap R) :
    ∀ (k : Nat) (st : UState R) (m : Option Nat) (st1 : UState R) (m1 : Nat) (f : Nat),
      configAfter tl k st m = some (st1, m1) →
      unwindLoop tl (k + f) st m = unwindLoop tl f st1 (some m1) := by
  intro k
  induction k with
  | zero =>
    intro st m st1 m1 f h
    cases m with
    | none => simp [configAfter] at h
    | some mi =>
      simp only [configAfter, Option.some.injEq, Prod.mk.injEq] at h
      rw [← h.1, ← h.2, Nat.zero_add]
  | succ k ih =>
    intro st m st1 m1 f h
    cases m with
    | none => simp [configAfter] at h
    | some mi =>
      simp only [configAfter] at h
      rw [show k + 1 + f = (k + f) + 1 by omega]
      simp only [unwindLoop]
      cases hs : body tl st mi with
      | next st2 m2 =>
        rw [hs] at h
        exact ih st2 m2 st1 m1 f h
      | brk st2 => rw [hs] at h; simp at h
      | ret sc segs => rw [hs] at h; simp at h
      | crash => rw [hs] at h; simp at h

theorem step_post_and {N N1 : UState R → Option Nat → Prop} {B B1 : UState R → Prop}
    {T T1 : Score → List (RepeatSegment R) → Prop} (s : Step R)
    (h : s.Post N B T) (h1 : s.Post N1 B1 T1) :
    s.Post (fun st m => N st m ∧ N1 st m) (fun st => B st ∧ B1 st)
      (fun sc segs => T sc segs ∧ T1 sc segs) := by
  cases s with
  | next st m => exact ⟨h, h1⟩
  | brk st => exact ⟨h, h1⟩
  | ret sc segs => exact ⟨h, h1⟩
  | crash => trivial

/-- The segment under construction starts at a measure at or before `m` (at the
loop head), or right after the visited measure (after a volta skip). -/
theorem align_next (sc : Score) (hc : Contiguous sc) (t : Int) (mi : Nat)
    (h : (∃ x, x ≤ mi ∧ t = (sc.measure x).tick) ∨ t = (sc.measure mi).endTick) :
    ∀ j, sc.nextMeasure mi = some j → ∃ x, x ≤ j ∧ t = (sc.measure x).tick := by
  intro j hj
  unfold Score.nextMeasure at hj
  split at hj
  · next hlt =>
    simp only [Option.some.injEq] at hj
    subst hj
    rcases h with ⟨x, hx, e⟩ | e
    · exact ⟨x, by omega, e⟩
    · exact ⟨mi + 1, le_refl _, by rw [e, hc.2.2 mi hlt]⟩
  · simp at hj

theorem voltaAndJumpFlag_align [Zero R] (st : UState R) (mi : Nat)
    (h : ∃ x, x ≤ mi ∧ st.rs.tick = (st.score.measure x).tick) :
    (∃ x, x ≤ mi ∧ (voltaAndJumpFlag st (st.score.measure mi)).1.rs.tick =
        ((voltaAndJumpFlag st (st.score.measure mi)).1.score.measure x).tick) ∨
      (voltaAndJumpFlag st (st.score.measure mi)).1.rs.tick =
        ((voltaAndJumpFlag st (st.score.measure mi)).1.score.measure mi).endTick := by
  unfold voltaAndJumpFlag
  repeat' split
  all_goals first
    | exact Or.inl h
    | exact Or.inr rfl

theorem jumpOrAdvance_align [Zero R] (st : UState R) (mi : Nat) (dj : Bool)
    (B : UState R → Prop) (T : Score → List (RepeatSegment R) → Prop)
    (hc : Contiguous st.score)
    (h : (∃ x, x ≤ mi ∧ st.rs.tick = (st.score.measure x).tick) ∨
      st.rs.tick = (st.score.measure mi).endTick) :
    (jumpOrAdvance st mi dj).Post
      (fun st1 m1 => ∀ j, m1 = some j → ∃ x, x ≤ j ∧ st1.rs.tick = (st1.score.measure x).tick)
      B T := by
  unfold jumpOrAdvance
  simp only []
  repeat' split
  all_goals first
    | trivial
    | exact align_next _ hc _ mi h
    | (intro j hj; simp only [Option.some.injEq] at hj; subst hj; exact ⟨_, le_refl _, rfl⟩)

theorem gotoOrEnd_align [Zero R] [Add R] [Sub R] (tl : TempoMap R) (st : UState R) (mi : Nat)
    (dj : Bool) (hc : Contiguous st.score)
    (h : (∃ x, x ≤ mi ∧ st.rs.tick = (st.score.measure x).tick) ∨
      st.rs.tick = (st.score.measure mi).endTick) :
    (gotoOrEnd tl st mi dj).Post
      (fun st1 m1 => ∀ j, m1 = some j → ∃ x, x ≤ j ∧ st1.rs.tick = (st1.score.measure x).tick)
      (fun _ => True) (fun _ _ => True) := by
  unfold gotoOrEnd
  simp only []
  repeat' split
  all_goals first
    | trivial
    | exact jumpOrAdvance_align _ mi dj _ _ hc h
    | (intro j hj; simp only [Option.some.injEq] at hj; subst hj; exact ⟨_, le_refl _, rfl⟩)

theorem body_align [Zero R] [Add R] [Sub R] (tl : TempoMap R) (sc : Score) (hc : Contiguous sc)
    (st : UState R) (mi : Nat)
    (h : resetPlaybackCounts st.score = resetPlaybackCounts sc ∧
      ∀ j, some mi = some j → ∃ x, x ≤ j ∧ st.rs.tick = (st.score.measure x).tick) :
    (body tl st mi).Post
      (fun st1 m1 => resetPlaybackCounts st1.score = resetPlaybackCounts sc ∧
        ∀ j, m1 = some j → ∃ x, x ≤ j ∧ st1.rs.tick = (st1.score.measure x).tick)
      (fun _ => True) (fun _ _ => True) := by
  obtain ⟨hr, ha⟩ := h
  obtain ⟨c1, _, c3, _⟩ := countVisit_fields st mi
  have hr1 : resetPlaybackCounts (st.score.incPlaybackCount mi) = resetPlaybackCounts sc := by
    rw [reset_incPlaybackCount]; exact hr
  have h1 : ∃ x, x ≤ mi ∧ (countVisit st mi).rs.tick = ((countVisit st mi).score.measure x).tick := by
    obtain ⟨x, hx, e⟩ := ha mi rfl
    exact ⟨x, hx, by rw [c3, c1, measure_incPlaybackCount_tick]; exact e⟩
  have h2 := voltaAndJumpFlag_align (countVisit st mi) mi h1
  have hc2 : Contiguous (voltaAndJumpFlag (countVisit st mi)
      ((countVisit st mi).score.measure mi)).1.score := by
    rw [voltaAndJumpFlag_score, c1]
    exact contiguous_of_reset_eq hr1 hc
  have h3 := gotoOrEnd_align tl _ mi
    (voltaAndJumpFlag (countVisit st mi) ((countVisit st mi).score.measure mi)).2 hc2 h2
  have h4 := body_score tl st mi
  have h5 := step_post_and _ h4 h3
  refine step_post_mono _ ?_ ?_ ?_ h5
  · intro st1 m1 hh
    exact ⟨by rw [hh.1]; exact hr1, hh.2⟩
  · intro _ _; trivial
  · intro _ _ _; trivial

/-- At every loop head of a run of `unwind` on a contiguous score, the score
differs from the given one in its playback counts only and the segment under
construction starts at a measure at or before `m`. -/
theorem configAfter_align [Zero R] [Add R] [Sub R] (tl : TempoMap R) (sc : Score)
    (hc : Contiguous sc) (cleared : List (RepeatSegment R)) (k : Nat) (st : UState R) (mi : Nat)
    (h : configAfter tl k (initState sc cleared) sc.firstMeasure = some (st, mi)) :
    resetPlaybackCounts st.score = resetPlaybackCounts sc ∧
      ∃ x, x ≤ mi ∧ st.rs.tick = (st.score.measure x).tick := by
  have := configAfter_post tl
    (fun st m => resetPlaybackCounts st.score = resetPlaybackCounts sc ∧
      ∀ j, m = some j → ∃ x, x ≤ j ∧ st.rs.tick = (st.score.measure x).tick)
    (fun st mi hP => body_align tl sc hc st mi hP) k (initState sc cleared) sc.firstMeasure st mi
    ⟨reset_reset sc, fun j _ => ⟨0, Nat.zero_le _, by
      have := (contiguous_reset sc hc).2.1
      simp only [initState]
      rw [this]; rfl⟩⟩ h
  exact ⟨this.1, this.2 mi rfl⟩

/-! ### The list of a non-empty score is not empty -/

theorem update_ne_nil [Zero R] [Add R] [Sub R] (tl : TempoMap R) (L : List (RepeatSegment R))
    (h : L ≠ []) : update tl L ≠ [] := by
  cases L with
  | nil => exact absurd rfl h
  | cons x rest => simp [update, updateFrom]

theorem next_tick_pos (sc : Score) (hc : Contiguous sc) (mi j : Nat)
    (h : sc.nextMeasure mi = some j) : 0 < (sc.measure j).tick := by
  unfold Score.nextMeasure at h
  split at h
  · next hlt =>
    simp only [Option.some.injEq] at h
    subst h
    have := contiguous_tick_lt sc hc 0 (mi + 1) (by omega) hlt
    rw [hc.2.1] at this
    exact this
  · simp at h

theorem voltaAndJumpFlag_nonempty [Zero R] (st : UState R) (mi : Nat)
    (h : st.segs ≠ [] ∨ (st.rs.tick = 0 ∧ st.isGoto = false ∧
      (st.endRepeat = none ∨ 0 < (st.score.measure mi).tick))) :
    (voltaAndJumpFlag st (st.score.measure mi)).1.segs ≠ [] ∨
      ((voltaAndJumpFlag st (st.score.measure mi)).1.rs.tick = 0 ∧
        (voltaAndJumpFlag st (st.score.measure mi)).1.isGoto = false) := by
  have h0 : st.segs ≠ [] ∨ (st.rs.tick = 0 ∧ st.isGoto = false) := by
    rcases h with h | h
    · exact Or.inl h
    · exact Or.inr ⟨h.1, h.2.1⟩
  unfold voltaAndJumpFlag
  repeat' split
  all_goals first
    | exact h0
    | (left; simp; done)
    | (rcases h with h | ⟨h1, _, h3 | h3⟩
       · exact Or.inl h
       · simp_all
       · omega)
    | (rcases h0 with h | h
       · exact Or.inl h
       · exact Or.inr ⟨h.1, rfl⟩)

theorem jumpOrAdvance_nonempty [Zero R] (st : UState R) (mi : Nat) (dj : Bool)
    (B : UState R → Prop) (T : Score → List (RepeatSegment R) → Prop)
    (hc : Contiguous st.score)
    (h : st.segs ≠ [] ∨ (st.rs.tick = 0 ∧ st.isGoto = false)) :
    (jumpOrAdvance st mi dj).Post
      (fun st1 m1 => st1.segs ≠ [] ∨ (st1.rs.tick = 0 ∧ st1.isGoto = false ∧
        (st1.endRepeat = none ∨ ∀ j, m1 = some j → 0 < (st1.score.measure j).tick)))
      B T := by
  have hnext : st.segs ≠ [] ∨ (st.rs.tick = 0 ∧ st.isGoto = false ∧
      ∀ j, st.score.nextMeasure mi = some j → 0 < (st.score.measure j).tick) := by
    rcases h with h | h
    · exact Or.inl h
    · exact Or.inr ⟨h.1, h.2, fun j hj => next_tick_pos st.score hc mi j hj⟩
  unfold jumpOrAdvance
  simp only []
  repeat' split
  all_goals first
    | trivial
    | (simp only [Step.Post]; left; simp; done)
    | (simp only [Step.Post]
       rcases hnext with h1 | ⟨h1, h2, h3⟩
       · exact Or.inl h1
       · exact Or.inr ⟨h1, h2, Or.inr h3⟩)

theorem gotoOrEnd_nonempty [Zero R] [Add R] [Sub R] (tl : TempoMap R) (st : UState R) (mi : Nat)
    (dj : Bool) (hc : Contiguous st.score)
    (h : st.segs ≠ [] ∨ (st.rs.tick = 0 ∧ st.isGoto = false)) :
    (gotoOrEnd tl st mi dj).Post
      (fun st1 m1 => st1.segs ≠ [] ∨ (st1.rs.tick = 0 ∧ st1.isGoto = false ∧
        (st1.endRepeat = none ∨ ∀ j, m1 = some j → 0 < (st1.score.measure j).tick)))
      (fun st1 => st1.segs ≠ [] ∨ st1.rs.tick = 0)
      (fun _ segs => segs ≠ []) := by
  have hb : st.segs ≠ [] ∨ st.rs.tick = 0 := by
    rcases h with h | h
    · exact Or.inl h
    · exact Or.inr h.1
  unfold gotoOrEnd
  simp only []
  repeat' split
  all_goals first
    | exact jumpOrAdvance_nonempty _ mi dj _ _ hc h
    | exact hb
    | (simp only [Step.Post, jumpToStartRepeat]; left; simp)
    | (simp only [Step.Post]; apply update_ne_nil; simp; done)
    | (simp only [Step.Post]
       apply update_ne_nil
       rcases h with h | h
       · exact h
       · simp_all)

theorem countVisit_nonempty (st : UState R) (mi : Nat)
    (h : st.segs ≠ [] ∨ (st.rs.tick = 0 ∧ st.isGoto = false ∧
      (st.endRepeat = none ∨ 0 < (st.score.measure mi).tick))) :
    (countVisit st mi).segs ≠ [] ∨ ((countVisit st mi).rs.tick = 0 ∧
      (countVisit st mi).isGoto = false ∧
      ((countVisit st mi).endRepeat = none ∨ 0 < ((countVisit st mi).score.measure mi).tick)) := by
  have e : ∀ sc1 : Score, sc1 = st.score.incPlaybackCount mi →
      (sc1.measure mi).tick = (st.score.measure mi).tick := by
    intro sc1 h1; rw [h1, measure_incPlaybackCount_tick]
  unfold countVisit
  simp only []
  split
  all_goals (simp only [e _ rfl]; exact h)

theorem body_nonempty [Zero R] [Add R] [Sub R] (tl : TempoMap R) (sc : Score)
    (hc : Contiguous sc) (st : UState R) (mi : Nat)
    (h : resetPlaybackCounts st.score = resetPlaybackCounts sc ∧
      (st.segs ≠ [] ∨ (st.rs.tick = 0 ∧ st.isGoto = false ∧
        (st.endRepeat = none ∨ ∀ j, some mi = some j → 0 < (st.score.measure j).tick)))) :
    (body tl st mi).Post
      (fun st1 m1 => resetPlaybackCounts st1.score = resetPlaybackCounts sc ∧
        (st1.segs ≠ [] ∨ (st1.rs.tick = 0 ∧ st1.isGoto = false ∧
          (st1.endRepeat = none ∨ ∀ j, m1 = some j → 0 < (st1.score.measure j).tick))))
      (fun st1 => resetPlaybackCounts st1.score = resetPlaybackCounts sc ∧
        (st1.segs ≠ [] ∨ st1.rs.tick = 0))
      (fun _ segs => segs ≠ []) := by
  obtain ⟨hr, hJ⟩ := h
  have hJ1 : st.segs ≠ [] ∨ (st.rs.tick = 0 ∧ st.isGoto = false ∧
      (st.endRepeat = none ∨ 0 < (st.score.measure mi).tick)) := by
    rcases hJ with h | ⟨h1, h2, h3 | h3⟩
    · exact Or.inl h
    · exact Or.inr ⟨h1, h2, Or.inl h3⟩
    · exact Or.inr ⟨h1, h2, Or.inr (h3 mi rfl)⟩
  obtain ⟨c1, _, _, _⟩ := countVisit_fields st mi
  have hr1 : resetPlaybackCounts (st.score.incPlaybackCount mi) = resetPlaybackCounts sc := by
    rw [reset_incPlaybackCount]; exact hr
  have h2 := voltaAndJumpFlag_nonempty (countVisit st mi) mi (countVisit_nonempty st mi hJ1)
  have hc2 : Contiguous (voltaAndJumpFlag (countVisit st mi)
      ((countVisit st mi).score.measure mi)).1.score := by
    rw [voltaAndJumpFlag_score, c1]
    exact contiguous_of_reset_eq hr1 hc
  have h3 := gotoOrEnd_nonempty tl _ mi
    (voltaAndJumpFlag (countVisit st mi) ((countVisit st mi).score.measure mi)).2 hc2 h2
  have h4 := body_score tl st mi
  have h5 := step_post_and _ h4 h3
  refine step_post_mono _ ?_ ?_ ?_ h5
  · intro st1 m1 hh
    exact ⟨by rw [hh.1]; exact hr1, hh.2⟩
  · intro st1 hh
    exact ⟨by rw [hh.1]; exact hr1, hh.2⟩
  · intro _ _ hh; exact hh.2

theorem finish_nonempty [Zero R] [Add R] [Sub R] (tl : TempoMap R) (sc : Score)
    (hc : Contiguous sc) (hn : 0 < sc.measures.length) (st : UState R)
    (hr : resetPlaybackCounts st.score = resetPlaybackCounts sc)
    (h : st.segs ≠ [] ∨ st.rs.tick = 0) :
    (finish tl st).Post (fun _ segs => segs ≠ []) := by
  have hc1 : Contiguous st.score := contiguous_of_reset_eq hr hc
  have hl := length_of_reset_eq hr
  have hpos : 0 < (st.score.measure (st.score.measures.length - 1)).endTick := by
    have h1 := contiguous_tick_nonneg st.score hc1 (st.score.measures.length - 1)
    have h2 := hc1.1 (st.score.measures.length - 1) (by omega)
    unfold Measure.endTick; omega
  unfold finish
  simp only []
  split
  · simp only [Outcome.Post]; apply update_ne_nil; simp
  · next hz =>
    simp only [Outcome.Post]; apply update_ne_nil
    rcases h with h | h
    · exact h
    · exfalso; apply hz; simp only [ne_eq]; omega

/-! ### Termination of the measure loop -/

theorem rankLt_wf : WellFounded RankLt :=
  WellFounded.prod_lex wellFounded_lt
    (WellFounded.prod_lex wellFounded_lt
      (WellFounded.prod_lex wellFounded_lt
        (WellFounded.prod_lex wellFounded_lt wellFounded_lt)))

theorem rankLt_of (a1 a2 a3 a4 a5 b1 b2 b3 b4 b5 : Nat)
    (h1 : a1 ≤ b1) (h2 : a2 ≤ b2)
    (h : a1 < b1 ∨ a2 < b2 ∨ (a3 ≤ b3 ∧ (a3 < b3 ∨ (a4 ≤ b4 ∧ (a4 < b4 ∨ a5 < b5))))) :
    RankLt (a1, a2, a3, a4, a5) (b1, b2, b3, b4, b5) := by
  unfold RankLt
  rcases Nat.lt_or_ge a1 b1 with g1 | g1
  · exact Prod.Lex.left _ _ g1
  · have e1 : a1 = b1 := by omega
    subst e1
    apply Prod.Lex.right
    rcases Nat.lt_or_ge a2 b2 with g2 | g2
    · exact Prod.Lex.left _ _ g2
    · have e2 : a2 = b2 := by omega
      subst e2
      apply Prod.Lex.right
      have h' : a3 ≤ b3 ∧ (a3 < b3 ∨ (a4 ≤ b4 ∧ (a4 < b4 ∨ a5 < b5))) := by
        rcases h with h | h | h
        · omega
        · omega
        · exact h
      rcases Nat.lt_or_ge a3 b3 with g3 | g3
      · exact Prod.Lex.left _ _ g3
      · have e3 : a3 = b3 := by omega
        subst e3
        apply Prod.Lex.right
        have h'' : a4 ≤ b4 ∧ (a4 < b4 ∨ a5 < b5) := by
          rcases h'.2 with h | h
          · omega
          · exact h
        rcases Nat.lt_or_ge a4 b4 with g4 | g4
        · exact Prod.Lex.left _ _ g4
        · have e4 : a4 = b4 := by omega
          subst e4
          apply Prod.Lex.right
          rcases h''.2 with h | h
          · omega
          · exact h

theorem jumpCandidates_incPlaybackCount (sc : Score) (i : Nat) :
    jumpCandidates (sc.incPlaybackCount i) = jumpCandidates sc := by
  unfold jumpCandidates
  rw [length_incPlaybackCount]
  congr 1
  funext k
  rw [measure_incPlaybackCount_el]

theorem countP_le_of_imp {α : Type} (p q : α → Bool) (l : List α)
    (h : ∀ x, q x = true → p x = true) : l.countP q ≤ l.countP p := by
  induction l with
  | nil => simp
  | cons a l ih =>
    simp only [List.countP_cons]
    by_cases hq : q a = true
    · simp [hq, h a hq]; exact ih
    · simp [hq]; omega

theorem countP_lt_of_imp {α : Type} (p q : α → Bool) (l : List α)
    (h : ∀ x, q x = true → p x = true) (c : α) (hc : c ∈ l) (hp : p c = true)
    (hq : q c = false) : l.countP q < l.countP p := by
  induction l with
  | nil => simp at hc
  | cons a l ih =>
    simp only [List.countP_cons]
    rcases List.mem_cons.mp hc with e | e
    · subst e
      have := countP_le_of_imp p q l h
      simp [hp, hq]; omega
    · have := ih e
      by_cases hqa : q a = true
      · simp [hqa, h a hqa]; exact this
      · simp [hqa]; omega

theorem jumpRank_append_le (sc : Score) (J : List (Option JumpPtr)) (c : Option JumpPtr) :
    jumpRank sc (J ++ [c]) ≤ jumpRank sc J := by
  unfold jumpRank
  apply countP_le_of_imp
  intro x hx
  simp only [List.contains_eq_any_beq, List.any_append, Bool.not_or, Bool.and_eq_true,
    Bool.not_eq_eq_eq_not, Bool.not_true] at hx ⊢
  exact hx.1

theorem jumpRank_append_lt (sc : Score) (J : List (Option JumpPtr)) (c : Option JumpPtr)
    (hc : c ∈ jumpCandidates sc) (hJ : J.contains c = false) :
    jumpRank sc (J ++ [c]) < jumpRank sc J := by
  unfold jumpRank
  have hJ1 : c ∉ J := by simpa using hJ
  apply countP_lt_of_imp _ _ _ _ c hc
  · simp [hJ1]
  · simp
  · intro x hx
    simp only [List.contains_eq_any_beq, List.any_append, Bool.not_or, Bool.and_eq_true,
      Bool.not_eq_eq_eq_not, Bool.not_true] at hx ⊢
    exact hx.1

theorem mem_jumpCandidates (sc : Score) (mi : Nat) (h : mi < sc.measures.length) :
    (firstJump 0 (sc.measure mi).el).map (fun p => (mi, p.1)) ∈ jumpCandidates sc := by
  unfold jumpCandidates
  exact List.mem_map.mpr ⟨mi, List.mem_range.mpr h, rfl⟩

theorem countRank_incPlaybackCount_le (sc : Score) (i : Nat) :
    countRank (sc.incPlaybackCount i) ≤ countRank sc := by
  unfold countRank
  rw [length_incPlaybackCount]
  apply List.sum_le_sum
  intro k hk
  have hk1 := List.mem_range.mp hk
  rw [measure_incPlaybackCount_repeatCount]
  by_cases e : i = k
  · subst e
    rw [measure_incPlaybackCount_self sc i hk1]
    omega
  · rw [measure_incPlaybackCount_ne sc i k e]

theorem countRank_incPlaybackCount_lt (sc : Score) (i : Nat) (hi : i < sc.measures.length)
    (h : (sc.measure i).playbackCount + 1 < (sc.measure i).repeatCount) :
    countRank (sc.incPlaybackCount i) < countRank sc := by
  unfold countRank
  rw [length_incPlaybackCount]
  apply List.sum_lt_sum
  · intro k hk
    have hk1 := List.mem_range.mp hk
    rw [measure_incPlaybackCount_repeatCount]
    by_cases e : i = k
    · subst e
      rw [measure_incPlaybackCount_self sc i hk1]
      omega
    · rw [measure_incPlaybackCount_ne sc i k e]
  · refine ⟨i, List.mem_range.mpr hi, ?_⟩
    rw [measure_incPlaybackCount_repeatCount, measure_incPlaybackCount_self sc i hi]
    omega

theorem countVisit_rank (st : UState R) (mi : Nat) :
    (countVisit st mi).score = st.score.incPlaybackCount mi ∧
    (countVisit st mi).jumps = st.jumps ∧
    (countVisit st mi).isGoto = st.isGoto ∧
    (countVisit st mi).endRepeat = st.endRepeat ∧
    (countVisit st mi).repeatCount = st.repeatCount ∧
    (st.isGoto = false → (countVisit st mi).loop = st.loop) := by
  unfold countVisit
  simp only []
  split
  · next h =>
    refine ⟨rfl, rfl, rfl, rfl, rfl, ?_⟩
    intro hg
    rw [hg] at h
    simp at h
  · exact ⟨rfl, rfl, rfl, rfl, rfl, fun _ => rfl⟩

theorem voltaAndJumpFlag_rank [Zero R] (st : UState R) (m : Measure) :
    (voltaAndJumpFlag st m).1.score = st.score ∧
    (voltaAndJumpFlag st m).1.jumps = st.jumps ∧
    (voltaAndJumpFlag st m).1.endRepeat = st.endRepeat ∧
    (voltaAndJumpFlag st m).1.loop = st.loop ∧
    (voltaAndJumpFlag st m).1.repeatCount = st.repeatCount ∧
    ((voltaAndJumpFlag st m).1.isGoto = st.isGoto ∨ (voltaAndJumpFlag st m).1.isGoto = false) ∧
    ((voltaAndJumpFlag st m).2 = true → m.repeatFlags.JUMP = true) := by
  unfold voltaAndJumpFlag
  repeat' split
  all_goals
    refine ⟨rfl, rfl, rfl, rfl, rfl, ?_, ?_⟩
    · first
        | exact Or.inl rfl
        | exact Or.inr rfl
    · intro h
      first
        | exact h
        | assumption
        | simp at h

theorem jumpOrAdvance_rank [Zero R] (st : UState R) (mi : Nat) (dj : Bool)
    (B : UState R → Prop) (T : Score → List (RepeatSegment R) → Prop)
    (hdj : dj = true → mi < st.score.measures.length) :
    (jumpOrAdvance st mi dj).Post
      (fun st1 m1 => st1.score = st.score ∧
        (jumpRank st.score st1.jumps < jumpRank st.score st.jumps ∨
          (st1.jumps = st.jumps ∧ st1.isGoto = st.isGoto ∧
            (st1.endRepeat = none ∨ (st1.endRepeat = st.endRepeat ∧ st1.loop = st.loop ∧
              st1.repeatCount = st.repeatCount)) ∧
            m1 = st.score.nextMeasure mi)))
      B T := by
  unfold jumpOrAdvance
  simp only []
  split
  · next hc =>
    simp only [Bool.and_eq_true] at hc
    have hm := hdj hc.1
    split
    · repeat' split
      all_goals first
        | trivial
        | exact ⟨rfl, Or.inr ⟨rfl, rfl, Or.inl rfl, rfl⟩⟩
        | exact ⟨rfl, Or.inr ⟨rfl, rfl, Or.inr ⟨rfl, rfl, rfl⟩, rfl⟩⟩
    · next hnc =>
      have hlt := jumpRank_append_lt st.score st.jumps _ (mem_jumpCandidates st.score mi hm)
        (by simpa using hnc)
      repeat' split
      all_goals exact ⟨rfl, Or.inl hlt⟩
  · exact ⟨rfl, Or.inr ⟨rfl, rfl, Or.inr ⟨rfl, rfl, rfl⟩, rfl⟩⟩

theorem gotoOrEnd_rank [Zero R] [Add R] [Sub R] (tl : TempoMap R) (st : UState R) (mi : Nat)
    (dj : Bool) (hdj : dj = true → mi < st.score.measures.length) :
    (gotoOrEnd tl st mi dj).Post
      (fun st1 m1 => st1.score = st.score ∧
        (jumpRank st.score st1.jumps < jumpRank st.score st.jumps ∨
          (st1.jumps = st.jumps ∧
            ((st.isGoto = true ∧ st1.isGoto = false) ∨
             (st1.isGoto = st.isGoto ∧ (st.score.measure mi).repeatFlags.END = true ∧
                (st.score.measure mi).playbackCount < (st.score.measure mi).repeatCount) ∨
             (st.isGoto = false ∧ st1.isGoto = false ∧ st.endRepeat.isSome = true ∧
                st1.endRepeat = st.endRepeat ∧ st1.repeatCount = st.repeatCount ∧
                st1.loop = st.loop + 1 ∧ st.loop + 1 < st.repeatCount) ∨
             (st1.isGoto = st.isGoto ∧
                (st1.endRepeat = none ∨ (st1.endRepeat = st.endRepeat ∧ st1.loop = st.loop ∧
                  st1.repeatCount = st.repeatCount)) ∧
                m1 = st.score.nextMeasure mi)))))
      (fun _ => True) (fun _ _ => True) := by
  have hadv : ∀ X : UState R, X.score = st.score → X.jumps = st.jumps → X.isGoto = st.isGoto →
      (X.endRepeat = none ∨ (X.endRepeat = st.endRepeat ∧ X.loop = st.loop ∧
        X.repeatCount = st.repeatCount)) →
      (jumpOrAdvance X mi dj).Post
        (fun st1 m1 => st1.score = st.score ∧
          (jumpRank st.score st1.jumps < jumpRank st.score st.jumps ∨
            (st1.jumps = st.jumps ∧
              ((st.isGoto = true ∧ st1.isGoto = false) ∨
               (st1.isGoto = st.isGoto ∧ (st.score.measure mi).repeatFlags.END = true ∧
                  (st.score.measure mi).playbackCount < (st.score.measure mi).repeatCount) ∨
               (st.isGoto = false ∧ st1.isGoto = false ∧ st.endRepeat.isSome = true ∧
                  st1.endRepeat = st.endRepeat ∧ st1.repeatCount = st.repeatCount ∧
                  st1.loop = st.loop + 1 ∧ st.loop + 1 < st.repeatCount) ∨
               (st1.isGoto = st.isGoto ∧
                  (st1.endRepeat = none ∨ (st1.endRepeat = st.endRepeat ∧ st1.loop = st.loop ∧
                    st1.repeatCount = st.repeatCount)) ∧
                  m1 = st.score.nextMeasure mi)))))
        (fun _ => True) (fun _ _ => True) := by
    intro X h1 h2 h3 h4
    refine step_post_mono _ ?_ (fun _ h => h) (fun _ _ h => h)
      (jumpOrAdvance_rank X mi dj (fun _ => True) (fun _ _ => True) (by rw [h1]; exact hdj))
    intro st1 m1 ⟨e1, e2⟩
    refine ⟨by rw [e1, h1], ?_⟩
    rw [h1, h2] at e2
    rcases e2 with e2 | ⟨e2, e3, e4, e5⟩
    · exact Or.inl e2
    · refine Or.inr ⟨e2, Or.inr (Or.inr (Or.inr ⟨by rw [e3, h3], ?_, e5⟩))⟩
      rcases e4 with e4 | ⟨e4, e6, e7⟩
      · exact Or.inl e4
      · rcases h4 with h4 | ⟨h4, h5, h6⟩
        · exact Or.inl (by rw [e4, h4])
        · exact Or.inr ⟨by rw [e4, h4], by rw [e6, h5], by rw [e7, h6]⟩
  unfold gotoOrEnd
  simp only []
  split
  · next hg =>
    simp only [Bool.and_eq_true, decide_eq_true_eq] at hg
    split
    · split <;> trivial
    · exact ⟨rfl, Or.inr ⟨rfl, Or.inl ⟨hg.1, rfl⟩⟩⟩
  · next hg =>
    split
    · next hE =>
      split
      · next he =>
        have hng : st.isGoto = false := by
          cases hgg : st.isGoto
          · rfl
          · exfalso; apply hg; simp [hgg, he]
        split
        · exact hadv _ rfl rfl rfl (Or.inl rfl)
        · next hl =>
          simp only [jumpToStartRepeat]
          refine ⟨rfl, Or.inr ⟨rfl, Or.inr (Or.inr (Or.inl
            ⟨hng, hng, by rw [he]; rfl, rfl, rfl, rfl, by simpa using hl⟩))⟩⟩
      · split
        · split
          · trivial
          · next hp =>
            simp only [jumpToStartRepeat]
            exact ⟨rfl, Or.inr ⟨rfl, Or.inr (Or.inl ⟨rfl, hE, by simpa using hp⟩)⟩⟩
        · exact hadv _ rfl rfl rfl (Or.inr ⟨rfl, rfl, rfl⟩)
    · exact hadv _ rfl rfl rfl (Or.inr ⟨rfl, rfl, rfl⟩)

theorem jumpRank_incPlaybackCount (sc : Score) (i : Nat) (J : List (Option JumpPtr)) :
    jumpRank (sc.incPlaybackCount i) J = jumpRank sc J := by
  unfold jumpRank
  rw [jumpCandidates_incPlaybackCount]

theorem flag_lt_length (sc : Score) (mi : Nat)
    (h : (sc.measure mi).repeatFlags.JUMP = true ∨ (sc.measure mi).repeatFlags.END = true) :
    mi < sc.measures.length := by
  by_contra hn
  rw [measure_default sc mi (by omega)] at h
  rcases h with h | h <;> exact absurd h (by decide)

theorem loopRank_eq (st st1 : UState R) (hg : st1.isGoto = st.isGoto)
    (h : st1.endRepeat = none ∨ (st1.endRepeat = st.endRepeat ∧ st1.loop = st.loop ∧
      st1.repeatCount = st.repeatCount)) : loopRank st1 ≤ loopRank st := by
  unfold loopRank
  rcases h with h | ⟨h1, h2, h3⟩
  · rw [h]; simp
  · rw [hg, h1, h2, h3]

theorem loopRank_goto (st : UState R) (h : st.isGoto = true) : loopRank st = 0 := by
  unfold loopRank
  rw [h]; simp

theorem loopRank_open (st : UState R) (h : st.isGoto = false) (he : st.endRepeat.isSome = true) :
    loopRank st = (st.repeatCount - st.loop).toNat := by
  unfold loopRank
  rw [if_pos ⟨h, he⟩]

/-- Every pass through the body of the measure loop that goes on with a further
measure lowers `walkRank`. -/
theorem body_rank [Zero R] [Add R] [Sub R] (tl : TempoMap R) (st : UState R) (mi : Nat) :
    (body tl st mi).Post
      (fun st1 m1 => ∀ j, m1 = some j → RankLt (walkRank st1 j) (walkRank st mi))
      (fun _ => True) (fun _ _ => True) := by
  obtain ⟨a1, a2, a3, a4, a5, a6⟩ := countVisit_rank st mi
  obtain ⟨b1, b2, b3, b4, b5, b6, b7⟩ :=
    voltaAndJumpFlag_rank (countVisit st mi) ((countVisit st mi).score.measure mi)
  have hX : (voltaAndJumpFlag (countVisit st mi) ((countVisit st mi).score.measure mi)).1.score =
      st.score.incPlaybackCount mi := by rw [b1, a1]
  have hdj : (voltaAndJumpFlag (countVisit st mi) ((countVisit st mi).score.measure mi)).2 = true →
      mi < (voltaAndJumpFlag (countVisit st mi)
        ((countVisit st mi).score.measure mi)).1.score.measures.length := by
    intro h
    rw [b1]
    exact flag_lt_length _ mi (Or.inl (b7 h))
  have hC := gotoOrEnd_rank tl
    (voltaAndJumpFlag (countVisit st mi) ((countVisit st mi).score.measure mi)).1 mi
    (voltaAndJumpFlag (countVisit st mi) ((countVisit st mi).score.measure mi)).2 hdj
  refine step_post_mono _ ?_ (fun _ h => h) (fun _ _ h => h) hC
  intro st1 m1 ⟨e1, e2⟩ j hj
  subst hj
  generalize (voltaAndJumpFlag (countVisit st mi) ((countVisit st mi).score.measure mi)).1 = X
    at b1 b2 b3 b4 b5 b6 hX e1 e2
  rw [hX] at e1 e2
  simp only [jumpRank_incPlaybackCount, b2, a2] at e2
  -- the first two components never grow
  have hlen : st1.score.measures.length = st.score.measures.length := by
    rw [e1, length_incPlaybackCount]
  have h1 : jumpRank st1.score st1.jumps ≤ jumpRank st.score st.jumps := by
    rw [e1, jumpRank_incPlaybackCount]
    rcases e2 with e2 | e2
    · omega
    · rw [e2.1]
  have h2 : countRank st1.score ≤ countRank st.score := by
    rw [e1]; exact countRank_incPlaybackCount_le st.score mi
  have hXg : X.isGoto = true → st.isGoto = true := by
    intro h
    rcases b6 with b6 | b6
    · rw [← a3, ← b6]; exact h
    · rw [b6] at h; exact absurd h (by decide)
  unfold walkRank
  apply rankLt_of _ _ _ _ _ _ _ _ _ _ h1 h2
  rcases e2 with e2 | ⟨_, e2 | e2 | e2 | e2⟩
  · left
    rw [e1, jumpRank_incPlaybackCount]
    exact e2
  · -- the end of a once-only jump
    right; right
    rw [e2.2, hXg e2.1]
    exact ⟨by decide, Or.inl (by decide)⟩
  · -- a bracket is opened
    right; left
    obtain ⟨_, hE, hp⟩ := e2
    rw [measure_incPlaybackCount_repeatFlags] at hE
    have hm := flag_lt_length st.score mi (Or.inr hE)
    rw [measure_incPlaybackCount_repeatCount, measure_incPlaybackCount_self _ _ hm] at hp
    rw [e1]
    exact countRank_incPlaybackCount_lt st.score mi hm hp
  · -- a further pass of the open bracket
    right; right
    obtain ⟨g1, g2, g3, g4, g5, g6, g7⟩ := e2
    cases hg : st.isGoto
    · have hl : loopRank st1 < loopRank st := by
        rw [loopRank_open st1 g2 (by rw [g4]; exact g3),
          loopRank_open st hg (by rw [← a4, ← b3]; exact g3), g5, g6, b5, a5, b4, a6 hg]
        rw [b5, a5, b4, a6 hg] at g7
        omega
      rw [g2]
      exact ⟨by decide, Or.inr ⟨by omega, Or.inl hl⟩⟩
    · rw [g2]
      exact ⟨by decide, Or.inl (by decide)⟩
  · -- the walk advances
    right; right
    obtain ⟨g1, g2, g3⟩ := e2
    have hj : mi + 1 < st.score.measures.length ∧ j = mi + 1 := by
      have := g3
      unfold Score.nextMeasure at this
      rw [length_incPlaybackCount] at this
      split at this
      · next hlt => simp only [Option.some.injEq] at this; exact ⟨hlt, this⟩
      · simp at this
    have h5 : st1.score.measures.length - j < st.score.measures.length - mi := by
      rw [hlen]; omega
    rcases b6 with b6 | b6
    · -- `isGoto` unchanged
      have hgg : st1.isGoto = st.isGoto := by rw [g1, b6, a3]
      have hl : loopRank st1 ≤ loopRank st := by
        cases hg : st.isGoto
        · apply loopRank_eq st st1 hgg
          rcases g2 with g2 | ⟨g21, g22, g23⟩
          · exact Or.inl g2
          · exact Or.inr ⟨by rw [g21, b3, a4], by rw [g22, b4, a6 hg], by rw [g23, b5, a5]⟩
        · rw [loopRank_goto st1 (by rw [hgg]; exact hg)]
          exact Nat.zero_le _
      rw [hgg]
      exact ⟨le_refl _, Or.inr ⟨hl, Or.inr h5⟩⟩
    · rw [g1, b6]
      cases hg : st.isGoto
      · have hl : loopRank st1 ≤ loopRank st := by
          apply loopRank_eq st st1 (by rw [g1, b6, hg])
          rcases g2 with g2 | ⟨g21, g22, g23⟩
          · exact Or.inl g2
          · exact Or.inr ⟨by rw [g21, b3, a4], by rw [g22, b4, a6 hg], by rw [g23, b5, a5]⟩
        exact ⟨by decide, Or.inr ⟨hl, Or.inr h5⟩⟩
      · exact ⟨by decide, Or.inl (by decide)⟩

/-- The measure loop of `unwind` ends, from every state and measure: some budget
of iterations is enough. -/
theorem unwindLoop_terminates [Zero R] [Add R] [Sub R] (tl : TempoMap R) :
    ∀ (st : UState R) (m : Option Nat), ∃ fuel o, unwindLoop tl fuel st m = some o := by
  have key : ∀ p : UState R × Nat, ∃ fuel o, unwindLoop tl fuel p.1 (some p.2) = some o := by
    intro p
    refine (InvImage.wf (fun p : UState R × Nat => walkRank p.1 p.2) rankLt_wf).induction
      (C := fun p => ∃ fuel o, unwindLoop tl fuel p.1 (some p.2) = some o) p ?_
    intro ⟨st, mi⟩ ih
    have hb := body_rank tl st mi
    cases hs : body tl st mi with
    | next st1 m1 =>
      rw [hs] at hb
      cases m1 with
      | none => exact ⟨1, finish tl st1, by simp [unwindLoop, hs]⟩
      | some j =>
        obtain ⟨fuel, o, ho⟩ := ih (st1, j) (hb j rfl)
        exact ⟨fuel + 1, o, by simp only [unwindLoop, hs]; exact ho⟩
    | brk st1 => exact ⟨1, finish tl st1, by simp [unwindLoop, hs]⟩
    | ret sc segs => exact ⟨1, Outcome.done sc segs, by simp [unwindLoop, hs]⟩
    | crash => exact ⟨1, Outcome.crash, by simp [unwindLoop, hs]⟩
  intro st m
  cases m with
  | none => exact ⟨0, finish tl st, by simp [unwindLoop]⟩
  | some mi => exact key (st, mi)

/-- The call of `unwind` ends for every score: some budget of loop iterations is
enough, and so is every larger one. -/
theorem unwind_terminates [Zero R] [Add R] [Sub R] (tl : TempoMap R) (sc : Score)
    (old : List (RepeatSegment R)) :
    ∃ fuel o, ∀ f, fuel ≤ f → unwind tl f sc old = some o := by
  unfold unwind
  simp only [List.drop_length]
  cases hfm : sc.firstMeasure with
  | none => exact ⟨0, _, fun _ _ => rfl⟩
  | some fm =>
    obtain ⟨fuel, o, ho⟩ := unwindLoop_terminates tl (initState sc []) (some fm)
    refine ⟨fuel, o, ?_⟩
    intro f hf
    have := unwindLoop_mono tl fuel (f - fuel) _ _ o ho
    rw [show fuel + (f - fuel) = f by omega] at this
    exact this

theorem jumpOrAdvance_no_crash [Zero R] (st : UState R) (mi : Nat) (dj : Bool)
    (h : dj = true → firstJump 0 (st.score.measure mi).el ≠ none) :
    jumpOrAdvance st mi dj ≠ Step.crash := by
  unfold jumpOrAdvance
  simp only []
  split
  · next hc =>
    simp only [Bool.and_eq_true] at hc
    have hj := h hc.1
    cases hf : firstJump 0 (st.score.measure mi).el with
    | none => exact absurd hf hj
    | some p =>
      simp only [Option.map_some']
      repeat' split
      all_goals simp
  · simp

theorem gotoOrEnd_no_crash [Zero R] [Add R] [Sub R] (tl : TempoMap R) (st : UState R) (mi : Nat)
    (dj : Bool) (h : dj = true → firstJump 0 (st.score.measure mi).el ≠ none) :
    gotoOrEnd tl st mi dj ≠ Step.crash := by
  unfold gotoOrEnd
  simp only []
  repeat' split
  all_goals first
    | exact jumpOrAdvance_no_crash _ mi dj h
    | simp

theorem body_no_crash [Zero R] [Add R] [Sub R] (tl : TempoMap R) (st : UState R) (mi : Nat)
    (h : ∀ k, (st.score.measure k).repeatFlags.JUMP = true →
      firstJump 0 (st.score.measure k).el ≠ none) :
    body tl st mi ≠ Step.crash := by
  obtain ⟨a1, _⟩ := countVisit_rank st mi
  obtain ⟨b1, _, _, _, _, _, b7⟩ :=
    voltaAndJumpFlag_rank (countVisit st mi) ((countVisit st mi).score.measure mi)
  apply gotoOrEnd_no_crash
  intro hd
  have := b7 hd
  rw [b1, a1, measure_incPlaybackCount_el]
  rw [a1, measure_incPlaybackCount_repeatFlags] at this
  exact h mi this

theorem unwindLoop_no_crash [Zero R] [Add R] [Sub R] (tl : TempoMap R) (sc : Score)
    (h : ∀ k, (sc.measure k).repeatFlags.JUMP = true → firstJump 0 (sc.measure k).el ≠ none) :
    ∀ (fuel : Nat) (st : UState R) (m : Option Nat),
      resetPlaybackCounts st.score = resetPlaybackCounts sc →
      unwindLoop tl fuel st m ≠ some Outcome.crash := by
  have hfin : ∀ st : UState R, finish tl st ≠ Outcome.crash := by
    intro st
    unfold finish
    simp only []
    split <;> simp
  intro fuel
  induction fuel with
  | zero =>
    intro st m _
    cases m with
    | none => simp [unwindLoop, hfin]
    | some mi => simp [unwindLoop]
  | succ f ih =>
    intro st m hr
    cases m with
    | none => simp [unwindLoop, hfin]
    | some mi =>
      have hst : ∀ k, (st.score.measure k).repeatFlags.JUMP = true →
          firstJump 0 (st.score.measure k).el ≠ none := by
        intro k hk
        rw [(measure_static_of_reset_eq hr k).2.2.1] at hk
        rw [(measure_static_of_reset_eq hr k).2.2.2.2.2]
        exact h k hk
      have hnc := body_no_crash tl st mi hst
      have hsc := body_score tl st mi
      simp only [unwindLoop]
      cases hs : body tl st mi with
      | next st1 m1 =>
        rw [hs] at hsc
        simp only []
        exact ih st1 m1 (by rw [hsc, reset_incPlaybackCount]; exact hr)
      | brk st1 => simp [hfin]
      | ret sc2 segs => simp
      | crash => exact absurd hs hnc

/-- When every measure that carries the JUMP flag also carries a Jump element,
`unwind` returns: some budget of loop iterations is enough, and every larger
budget gives the same score and list. -/
theorem unwind_returns [Zero R] [Add R] [Sub R] (tl : TempoMap R) (sc : Score)
    (old : List (RepeatSegment R))
    (h : ∀ k, (sc.measure k).repeatFlags.JUMP = true → firstJump 0 (sc.measure k).el ≠ none) :
    ∃ fuel sc1 segs, ∀ f, fuel ≤ f → unwind tl f sc old = some (Outcome.done sc1 segs) := by
  obtain ⟨fuel, o, ho⟩ := unwind_terminates tl sc old
  cases o with
  | done sc1 segs => exact ⟨fuel, sc1, segs, ho⟩
  | crash =>
    exfalso
    have h1 := ho fuel (le_refl _)
    unfold unwind at h1
    simp only [List.drop_length] at h1
    cases hfm : sc.firstMeasure with
    | none => rw [hfm] at h1; simp at h1
    | some fm =>
      rw [hfm] at h1
      exact unwindLoop_no_crash tl sc h fuel (initState sc []) (some fm) (reset_reset sc) h1

/-- A list returned by `unwind` for a contiguous score with at least one measure
is not empty, and `tick2utick` is defined on it. -/
theorem unwind_done_nonempty [Zero R] [Add R] [Sub R] (tl : TempoMap R) (fuel : Nat)
    (sc sc1 : Score) (old segs : List (RepeatSegment R)) (hc : Contiguous sc)
    (hn : 0 < sc.measures.length)
    (h : unwind tl fuel sc old = some (Outcome.done sc1 segs)) :
    segs ≠ [] ∧ ∀ t, ∃ u, tick2utick segs t = some u := by
  have hne : segs ≠ [] := by
    unfold unwind at h
    simp only [List.drop_length] at h
    have hfm : sc.firstMeasure = some 0 := by
      unfold Score.firstMeasure
      rw [if_neg (by omega)]
    rw [hfm] at h
    simp only [] at h
    have := unwindLoop_post tl
      (fun st m => resetPlaybackCounts st.score = resetPlaybackCounts sc ∧
        (st.segs ≠ [] ∨ (st.rs.tick = 0 ∧ st.isGoto = false ∧
          (st.endRepeat = none ∨ ∀ j, m = some j → 0 < (st.score.measure j).tick))))
      (fun o => o.Post (fun _ segs => segs ≠ []))
      (fun st mi hP => by
        have hb := body_nonempty tl sc hc st mi hP
        cases hs : body tl st mi with
        | next st1 m1 => rw [hs] at hb; exact hb
        | brk st1 => rw [hs] at hb; exact finish_nonempty tl sc hc hn st1 hb.1 hb.2
        | ret sc2 segs2 => rw [hs] at hb; exact hb
        | crash => trivial)
      trivial
      (fun st hP => finish_nonempty tl sc hc hn st hP.1 (by
        rcases hP.2 with h1 | h1
        · exact Or.inl h1
        · exact Or.inr h1.1))
      fuel (initState sc []) (some 0) (Outcome.done sc1 segs)
      ⟨reset_reset sc, Or.inr ⟨rfl, rfl, Or.inl rfl⟩⟩ h
    exact this
  refine ⟨hne, ?_⟩
  intro t
  unfold tick2utick
  cases findTick t segs with
  | some s => exact ⟨_, rfl⟩
  | none =>
    simp only []
    cases hl : segs.getLast? with
    | some l => exact ⟨_, rfl⟩
    | none => exact absurd (List.getLast?_eq_none_iff.mp hl) hne

/-! ### A Jump is honoured once -/

theorem voltaAndJumpFlag_doJump_goto [Zero R] (st : UState R) (m : Measure)
    (h : st.isGoto = true → st.endRepeat ≠ none)
    (hd : (voltaAndJumpFlag st m).2 = true) : (voltaAndJumpFlag st m).1.isGoto = false := by
  revert hd
  unfold voltaAndJumpFlag
  repeat' split
  all_goals
    intro hd
    first
      | rfl
      | (simp at hd; done)
      | (cases hg : st.isGoto
         · rfl
         · exact absurd (by assumption) (h hg))

theorem jumpOrAdvance_sets_goto [Zero R] (st : UState R) (mi : Nat) (dj : Bool)
    (B : UState R → Prop) (T : Score → List (RepeatSegment R) → Prop)
    (hg : st.isGoto = false) :
    (jumpOrAdvance st mi dj).Post
      (fun st1 _ => st1.isGoto = true →
        st1.jumps = st.jumps ++ [(firstJump 0 (st.score.measure mi).el).map (fun p => (mi, p.1))] ∧
        ¬ (st.jumps.contains
          ((firstJump 0 (st.score.measure mi).el).map (fun p => (mi, p.1))) = true))
      B T := by
  unfold jumpOrAdvance
  simp only []
  repeat' split
  all_goals first
    | trivial
    | (intro h1
       have h2 : st.isGoto = true := h1
       rw [hg] at h2
       exact absurd h2 (by decide))
    | (intro _
       refine ⟨rfl, ?_⟩
       assumption)

theorem gotoOrEnd_sets_goto [Zero R] [Add R] [Sub R] (tl : TempoMap R) (st : UState R)
    (mi : Nat) (dj : Bool) (hg : st.isGoto = false) :
    (gotoOrEnd tl st mi dj).Post
      (fun st1 _ => st1.isGoto = true →
        st1.jumps = st.jumps ++ [(firstJump 0 (st.score.measure mi).el).map (fun p => (mi, p.1))] ∧
        ¬ (st.jumps.contains
          ((firstJump 0 (st.score.measure mi).el).map (fun p => (mi, p.1))) = true))
      (fun _ => True) (fun _ _ => True) := by
  unfold gotoOrEnd
  simp only []
  repeat' split
  all_goals first
    | trivial
    | exact jumpOrAdvance_sets_goto _ mi dj _ _ hg
    | (intro h1
       have h2 : st.isGoto = true := h1
       rw [hg] at h2
       exact absurd h2 (by decide))
    | (intro h1
       have h2 : false = true := h1
       exact absurd h2 (by decide))

/-- A pass that honours a Jump, made from a state in which a once-only jump in
progress has a stop measure, finds the Jump absent from `jumps` and leaves it
there. -/
theorem honoursJump_fresh [Zero R] [Add R] [Sub R] (tl : TempoMap R) (st : UState R) (mi : Nat)
    (ptr : JumpPtr) (hinv : st.isGoto = true → st.endRepeat ≠ none)
    (h : HonoursJump tl st mi ptr) :
    some ptr ∉ st.jumps ∧
    ∃ (st1 : UState R) (m1 : Option Nat), body tl st mi = Step.next st1 m1 ∧
      some ptr ∈ st1.jumps := by
  obtain ⟨j, n, st1, hp, hf, hd, _, hb, hg1⟩ := h
  obtain ⟨c1, c2, c3, c4⟩ := countVisit_fields st mi
  have hcg : (countVisit st mi).isGoto = true → (countVisit st mi).endRepeat ≠ none :=
    countVisit_goto st mi hinv
  have hXg := voltaAndJumpFlag_doJump_goto (countVisit st mi) _ hcg hd
  have hP := gotoOrEnd_sets_goto tl
    (voltaAndJumpFlag (countVisit st mi) ((countVisit st mi).score.measure mi)).1 mi
    (voltaAndJumpFlag (countVisit st mi) ((countVisit st mi).score.measure mi)).2 hXg
  have hb1 : gotoOrEnd tl
      (voltaAndJumpFlag (countVisit st mi) ((countVisit st mi).score.measure mi)).1 mi
      (voltaAndJumpFlag (countVisit st mi) ((countVisit st mi).score.measure mi)).2 =
      Step.next st1 (some n) := hb
  rw [hb1] at hP
  obtain ⟨e1, e2⟩ := hP hg1
  rw [voltaAndJumpFlag_score, voltaAndJumpFlag_jumps, countVisit_jumps, c1,
    measure_incPlaybackCount_el, hf] at e1 e2
  have hptr : (some (ptr.2, j) : Option (Nat × Jump)).map (fun p => (mi, p.1)) = some ptr := by
    simp only [Option.map_some', Option.some.injEq]
    rw [← hp]
  rw [hptr] at e1 e2
  refine ⟨?_, st1, some n, hb, ?_⟩
  · intro hmem
    exact e2 (List.elem_iff.mpr hmem)
  · rw [e1]; simp

theorem configAfter_reset [Zero R] [Add R] [Sub R] (tl : TempoMap R) (k : Nat)
    (st0 : UState R) (m0 : Option Nat) (st : UState R) (mi : Nat)
    (h : configAfter tl k st0 m0 = some (st, mi)) :
    resetPlaybackCounts st.score = resetPlaybackCounts st0.score :=
  configAfter_inv tl (fun st => resetPlaybackCounts st.score = resetPlaybackCounts st0.score)
    (fun st mi hP => by
      refine step_post_mono _ ?_ (fun _ _ => trivial) (fun _ _ _ => trivial) (body_score tl st mi)
      intro st1 _ hs
      show resetPlaybackCounts st1.score = resetPlaybackCounts st0.score
      rw [hs, reset_incPlaybackCount]; exact hP)
    k st0 m0 st mi rfl h

/-- The statements of lines 352-386, entered with `doJump` set and `isGoto` clear
on a measure whose first Jump is already in `jumps`, go on with the next
measure: nothing is appended and `isGoto` stays clear. -/
theorem jumpOrAdvance_again [Zero R] (Y : UState R) (mi p : Nat) (j : Jump)
    (hf : firstJump 0 (Y.score.measure mi).el = some (p, j))
    (hc : some (mi, p) ∈ Y.jumps) (hg : Y.isGoto = false) :
    ∃ Y1 : UState R, jumpOrAdvance Y mi true = Step.next Y1 (Y.score.nextMeasure mi) ∧
      Y1.isGoto = false ∧ Y1.segs = Y.segs ∧ Y1.rs = Y.rs ∧ Y1.jumps = Y.jumps := by
  have hc1 : Y.jumps.contains (some (mi, p)) = true := List.elem_iff.mpr hc
  unfold jumpOrAdvance
  simp only [hg, hf, Option.map_some', hc1, Bool.not_false, Bool.and_self, if_true]
  split
  · exact ⟨_, rfl, rfl, rfl, rfl, rfl⟩
  · exact ⟨_, rfl, hg, rfl, rfl, rfl⟩

theorem honoursJump_order [Zero R] [Add R] [Sub R] (tl : TempoMap R) (st0 : UState R)
    (m0 : Option Nat) (k d : Nat) (st1 st2 : UState R) (m1 m2 : Nat) (ptr : JumpPtr)
    (h0 : st0.isGoto = true → st0.endRepeat ≠ none)
    (h1 : configAfter tl k st0 m0 = some (st1, m1))
    (h2 : configAfter tl (k + (d + 1)) st0 m0 = some (st2, m2))
    (t1 : HonoursJump tl st1 m1 ptr) : some ptr ∈ st2.jumps := by
  have hinv1 := configAfter_inv tl (fun st => st.isGoto = true → st.endRepeat ≠ none)
    (fun st mi hP => body_goto tl st mi hP) k st0 m0 st1 m1 h0 h1
  obtain ⟨_, st1a, m1a, hb, hmem⟩ := honoursJump_fresh tl st1 m1 ptr hinv1 t1
  rw [configAfter_add tl k (d + 1) st0 m0 st1 m1 h1] at h2
  simp only [configAfter, hb] at h2
  exact configAfter_jumps tl d st1a m1a st2 m2 h2 (some ptr) hmem

theorem configAfter_scoreDCSentinel_jump :
    configAfter unitTempo 2 (initState scoreDCSentinel []) scoreDCSentinel.firstMeasure =
      some (stateDCSentinelAtJump, 2) := by
  rfl

theorem configAfter_scoreDCSentinel_revisit :
    configAfter unitTempo 5 (initState scoreDCSentinel []) scoreDCSentinel.firstMeasure =
      some (stateDCSentinelAtRevisit, 2) := by
  rfl

theorem honoursJump_scoreDCSentinel :
    HonoursJump unitTempo stateDCSentinelAtJump 2 (2, 0) :=
  ⟨{ jumpTo := "start", playUntil := "end", continueAt := "" }, 0, _, rfl, rfl, rfl,
    by decide, rfl, rfl⟩

/-! ### A Jump that does not resolve -/

/-- A Jump with an unresolvable label is not taken, but leaves its mark. On a
visit outside any bracket of a measure without END that carries the JUMP flag
and a Jump, not yet in `jumps`, whose `jumpTo` or `playUntil` is resolved by
`searchLabel` to no measure, the walk advances to the next measure and nothing is
appended; the visit counts the measure, records the Jump in `jumps`, and sets
`endRepeat` and `continueAt` to what `searchLabel` returns for `playUntil` and
`continueAt`. -/
theorem body_unresolved_jump [Zero R] [Add R] [Sub R] (tl : TempoMap R) (st : UState R)
    (mi p : Nat) (j : Jump)
    (hE : (st.score.measure mi).repeatFlags.END = false)
    (hJ : (st.score.measure mi).repeatFlags.JUMP = true)
    (hg : st.isGoto = false) (he : st.endRepeat = none)
    (hj : firstJump 0 (st.score.measure mi).el = some (p, j))
    (hjs : st.jumps.contains (some (mi, p)) = false)
    (hun : st.score.searchLabel j.jumpTo = none ∨ st.score.searchLabel j.playUntil = none) :
    body tl st mi =
      Step.next
        { st with score := st.score.incPlaybackCount mi,
                  jumps := st.jumps ++ [some (mi, p)],
                  endRepeat := st.score.searchLabel j.playUntil,
                  continueAt := st.score.searchLabel j.continueAt }
        (st.score.nextMeasure mi) := by
  obtain ⟨score, segs, rs, endRepeat, continueAt, loop, repeatCount, isGoto, jumps⟩ := st
  simp only [] at hE hJ hg he hj hjs hun
  subst hg he
  rw [body_eq, countVisit_plain _ mi (by rfl)]
  rw [voltaAndJumpFlag_open _ _ rfl]
  simp only [measure_incPlaybackCount_repeatFlags, hJ]
  unfold gotoOrEnd
  simp only [hE, Bool.false_and, Bool.false_eq_true, if_false,
    measure_incPlaybackCount_repeatFlags]
  rw [jumpOrAdvance_unresolved _ mi p j rfl
    (by simpa only [measure_incPlaybackCount_el] using hj) hjs
    (by simpa only [searchLabel_incPlaybackCount] using hun)]
  simp only [searchLabel_incPlaybackCount, nextMeasure_incPlaybackCount]
/-! ## The claims -/

/-- C1. Simple repeat. For a score of `n` measures whose only annotations are
START on measure `i = a + 1` and END with repeat count `c ≥ 2` on measure
`j = b + 1` (`i ≤ j ≤ n`), `unwind` returns for every budget of at least `c * n`
loop iterations, and the measure sequence read from its list is `1..j`, then
`c - 1` further copies of `i..j`, then `j+1..n`. -/
theorem simple_repeat [Zero R] [Add R] [Sub R] (tl : TempoMap R) (sc : Score)
    (old : List (RepeatSegment R)) (a b c : Nat) (h : SimpleRepeat sc a b c)
    (fuel : Nat) (hf : c * sc.measures.length ≤ fuel) :
    ∃ (sc1 : Score) (segs : List (RepeatSegment R)),
      unwind tl fuel sc old = some (Outcome.done sc1 segs) ∧
      measureSequence sc segs =
        List.range' 1 (b + 1) ++
          (List.replicate (c - 1) (List.range' (a + 1) (b - a + 1))).flatten ++
          List.range' (b + 2) (sc.measures.length - (b + 1)) := by
  have hh := h
  obtain ⟨hc, hv, hab, hb, hk, hrc, hc2⟩ := h
  -- the number of loop iterations
  have hN : (b + 1) + (c - 1) * (b - a + 1) + (sc.measures.length - 1 - b) ≤ fuel := by
    have h1 : (c - 1) * (b - a + 1) ≤ (c - 1) * sc.measures.length :=
      Nat.mul_le_mul_left _ (by omega)
    have h2 : c * sc.measures.length = (c - 1) * sc.measures.length + sc.measures.length := by
      have e : c = (c - 1) + 1 := by omega
      conv_lhs => rw [e, Nat.add_mul, Nat.one_mul]
    omega
  obtain ⟨r, hr⟩ := Nat.exists_eq_add_of_le hN
  -- first pass
  obtain ⟨sc1, hs1, hw1⟩ := simpleRepeat_pass_first tl sc a b c hh
    (r + (sc.measures.length - 1 - b) + (c - 2 + 1) * (b - a + 1)) (initState sc [])
    (by simp [initState, reset_reset]) rfl rfl
    (by show ((resetPlaybackCounts sc).measure b).playbackCount = 0
        rw [measure_reset]; rfl)
  -- further passes
  obtain ⟨sc2, hs2, hw2⟩ := simpleRepeat_passes tl sc a b c hh (r + (sc.measures.length - 1 - b))
    (c - 2)
    { (initState sc [] : UState R) with
        score := sc1,
        segs := (initState sc [] : UState R).segs ++ [{ (initState sc [] : UState R).rs with
          len := (sc.measure b).tick + (sc.measure b).ticks - (initState sc [] : UState R).rs.tick }],
        rs := { (RepeatSegment.new : RepeatSegment R) with tick := (sc.measure a).tick },
        endRepeat := some b,
        repeatCount := (c : Int),
        loop := 1 }
    hs1 rfl rfl
    (by show (1 : Int) + ((c - 2 : Nat) : Int) + 1 = (c : Int)
        omega) rfl
  -- rest of the score
  obtain ⟨sc3, hs3, hw3⟩ := simpleRepeat_tail tl sc a b c hh r
    { score := sc2,
      segs := ([] ++ [{ (RepeatSegment.new : RepeatSegment R) with
          len := (sc.measure b).tick + (sc.measure b).ticks - (RepeatSegment.new : RepeatSegment R).tick }]) ++
        List.replicate (c - 2)
          { (RepeatSegment.new : RepeatSegment R) with
              tick := (sc.measure a).tick,
              len := (sc.measure b).tick + (sc.measure b).ticks - (sc.measure a).tick },
      rs := { (RepeatSegment.new : RepeatSegment R) with tick := (sc.measure a).tick },
      endRepeat := none, continueAt := none, loop := 0, repeatCount := (c : Int),
      isGoto := false, jumps := [] }
    hs2 rfl
  have hfuel : fuel = r + (sc.measures.length - 1 - b) + (c - 2 + 1) * (b - a + 1) + (b + 1) := by
    have e : c - 2 + 1 = c - 1 := by omega
    rw [e]; omega
  have hlen3 := length_of_reset_eq hs3
  have hlast := measure_static_of_reset_eq hs3 (sc.measures.length - 1)
  have hpos : (sc.measure (sc.measures.length - 1)).endTick - (sc.measure a).tick ≠ 0 := by
    have h1 := contiguous_endTick_le_last sc hc a (by omega)
    have h2 := hc.1 a (by omega)
    unfold Measure.endTick at h1 ⊢
    omega
  have hfin := hw1.trans (hw2.trans hw3)
  rw [← hfuel] at hfin
  refine ⟨sc3,
    update tl
      ([({ tick := 0, len := (sc.measure b).tick + (sc.measure b).ticks - 0,
           utick := 0, utime := 0, timeOffset := 0 } : RepeatSegment R)] ++
        List.replicate (c - 2)
          ({ tick := (sc.measure a).tick,
             len := (sc.measure b).tick + (sc.measure b).ticks - (sc.measure a).tick,
             utick := 0, utime := 0, timeOffset := 0 } : RepeatSegment R) ++
        [({ tick := (sc.measure a).tick,
            len := (sc.measure (sc.measures.length - 1)).tick +
              (sc.measure (sc.measures.length - 1)).ticks - (sc.measure a).tick,
            utick := 0, utime := 0, timeOffset := 0 } : RepeatSegment R)]), ?_, ?_⟩
  · unfold unwind
    simp only [List.drop_length]
    have hfm : sc.firstMeasure = some 0 := by
      unfold Score.firstMeasure; rw [if_neg (by omega)]
    rw [hfm]
    simp only []
    rw [hfin]
    unfold finish
    simp only [hlen3, Measure.endTick, hlast.1, hlast.2.1]
    rw [if_pos (by unfold Measure.endTick at hpos; exact hpos)]
    rfl
  · rw [measureSequence_update]
    simp only [measureSequence_append, measureSequence_replicate, measureSequence_singleton]
    have e1 := segmentMeasures_span sc hc 0 b (by omega)
      ({ tick := 0, len := (sc.measure b).tick + (sc.measure b).ticks - 0,
         utick := 0, utime := 0, timeOffset := 0 } : RepeatSegment R)
      (by show (0 : Int) = (sc.measure 0).tick
          rw [hc.2.1])
      (by show (0 : Int) + ((sc.measure b).tick + (sc.measure b).ticks - 0) = (sc.measure (0 + b)).endTick
          unfold Measure.endTick; rw [Nat.zero_add]; omega)
    have e2 := segmentMeasures_span sc hc a (b - a) (by omega)
      ({ tick := (sc.measure a).tick, len := (sc.measure b).tick + (sc.measure b).ticks - (sc.measure a).tick,
         utick := 0, utime := 0, timeOffset := 0 } : RepeatSegment R) rfl
      (by show (sc.measure a).tick + ((sc.measure b).tick + (sc.measure b).ticks - (sc.measure a).tick) = (sc.measure (a + (b - a))).endTick
          have e : a + (b - a) = b := by omega
          rw [e]; unfold Measure.endTick; omega)
    have e3 := segmentMeasures_span sc hc a (sc.measures.length - 1 - a) (by omega)
      ({ tick := (sc.measure a).tick,
         len := (sc.measure (sc.measures.length - 1)).tick + (sc.measure (sc.measures.length - 1)).ticks - (sc.measure a).tick,
         utick := 0, utime := 0, timeOffset := 0 } : RepeatSegment R) rfl
      (by show (sc.measure a).tick + ((sc.measure (sc.measures.length - 1)).tick + (sc.measure (sc.measures.length - 1)).ticks - (sc.measure a).tick) = (sc.measure (a + (sc.measures.length - 1 - a))).endTick
          have e : a + (sc.measures.length - 1 - a) = sc.measures.length - 1 := by omega
          rw [e]; unfold Measure.endTick; omega)
    rw [e1, e2, e3]
    have hsplit : List.range' (a + 1) (sc.measures.length - 1 - a + 1) =
        List.range' (a + 1) (b - a + 1) ++ List.range' (b + 2) (sc.measures.length - (b + 1)) := by
      have := List.range'_append (a + 1) (b - a + 1) (sc.measures.length - (b + 1)) 1
      simp only [Nat.one_mul] at this
      have e5 : a + 1 + (b - a + 1) = b + 2 := by omega
      rw [e5] at this
      rw [this]
      congr 1
      omega
    have hrep : List.replicate (c - 1) (List.range' (a + 1) (b - a + 1)) =
        List.replicate (c - 2) (List.range' (a + 1) (b - a + 1)) ++ [List.range' (a + 1) (b - a + 1)] := by
      have e : c - 1 = (c - 2) + 1 := by omega
      rw [e, List.replicate_succ']
    rw [hsplit, hrep, List.flatten_append]
    simp only [List.flatten_cons, List.flatten_nil, List.append_nil, List.append_assoc]

theorem simple_repeat_witness :
    SimpleRepeat scoreRepeat01 1 2 2 ∧
    ∃ (sc1 : Score) (segs : List (RepeatSegment Int)),
      unwind unitTempo 12 scoreRepeat01 [] = some (Outcome.done sc1 segs) ∧
      measureSequence scoreRepeat01 segs = [1, 2, 3, 2, 3, 4, 5, 6] :=
  ⟨simpleRepeat_scoreRepeat01,
   simple_repeat unitTempo scoreRepeat01 [] 1 2 2 simpleRepeat_scoreRepeat01 12 (by decide)⟩

/-- C2, as amended. D.C. al fine. For a score of `n` measures without END flags
and voltas whose last measure carries the JUMP flag and a Jump with
`jumpTo = "start"`, an empty `continueAt` and a `playUntil` that `searchLabel`
resolves to measure `f + 1`, no Marker having an empty label, `unwind` returns
for every budget of at least `2 * n` loop iterations, and the measure sequence
read from its list is `1..n` followed by `1..f+1`. -/
theorem dc_al_fine [Zero R] [Add R] [Sub R] (tl : TempoMap R) (sc : Score)
    (old : List (RepeatSegment R)) (f p : Nat) (j : Jump) (h : DCAlFine sc f p j)
    (fuel : Nat) (hfuel : 2 * sc.measures.length ≤ fuel) :
    ∃ (sc1 : Score) (segs : List (RepeatSegment R)),
      unwind tl fuel sc old = some (Outcome.done sc1 segs) ∧
      measureSequence sc segs =
        List.range' 1 sc.measures.length ++ List.range' 1 (f + 1) := by
  have hh := h
  obtain ⟨hc, hv, hn, hk, hj, hto, hca, hpu⟩ := h
  have hf : f < sc.measures.length := searchLabel_lt sc _ f hpu
  obtain ⟨r, hr⟩ := Nat.exists_eq_add_of_le (show (f + 1) + sc.measures.length ≤ fuel by omega)
  obtain ⟨sc2, hs2, hw1⟩ := dcAlFine_first tl sc f p j hh (r + (f + 1))
  obtain ⟨sc3, hw2⟩ := dcAlFine_second tl sc f p j hh r sc2 hs2
  have hfin := hw1.trans hw2
  have hfu : fuel = r + (f + 1) + sc.measures.length := by omega
  rw [← hfu] at hfin
  have hun : unwind tl fuel sc old = unwindLoop tl fuel (initState sc []) (some 0) := by
    unfold unwind
    simp only [List.drop_length]
    have hfm : sc.firstMeasure = some 0 := by
      unfold Score.firstMeasure; rw [if_neg (by omega)]
    rw [hfm]
  refine ⟨sc3, _, hun.trans hfin, ?_⟩
  · rw [measureSequence_update]
    have e1 := segmentMeasures_span sc hc 0 (sc.measures.length - 1) (by omega)
      ({ tick := 0, len := (sc.measure (sc.measures.length - 1)).endTick - 0,
         utick := 0, utime := 0, timeOffset := 0 } : RepeatSegment R)
      (by show (0 : Int) = (sc.measure 0).tick
          rw [hc.2.1])
      (by show (0 : Int) + ((sc.measure (sc.measures.length - 1)).endTick - 0) =
            (sc.measure (0 + (sc.measures.length - 1))).endTick
          rw [Nat.zero_add]; omega)
    have e2 := segmentMeasures_span sc hc 0 f (by omega)
      ({ tick := (sc.measure 0).tick, len := (sc.measure f).endTick - (sc.measure 0).tick,
         utick := 0, utime := 0, timeOffset := 0 } : RepeatSegment R) rfl
      (by show (sc.measure 0).tick + ((sc.measure f).endTick - (sc.measure 0).tick) =
            (sc.measure (0 + f)).endTick
          rw [Nat.zero_add]; omega)
    have e3 : sc.measures.length - 1 + 1 = sc.measures.length := by omega
    rw [e3] at e1
    unfold measureSequence
    simp only [List.flatMap_cons, List.flatMap_nil, List.append_nil]
    rw [e1, e2]

theorem dc_al_fine_witness :
    DCAlFine scoreRepeat07 2 0 { jumpTo := "start", playUntil := "fine", continueAt := "" } ∧
    ∃ (sc1 : Score) (segs : List (RepeatSegment Int)),
      unwind unitTempo 12 scoreRepeat07 [] = some (Outcome.done sc1 segs) ∧
      measureSequence scoreRepeat07 segs = [1, 2, 3, 4, 5, 6, 1, 2, 3] :=
  ⟨dcAlFine_scoreRepeat07,
   dc_al_fine unitTempo scoreRepeat07 [] 2 0 _ dcAlFine_scoreRepeat07 12 (by decide)⟩

/-- C2, counterexample. In `scoreDCSentinel` the label of the Marker on measure 2
is "end", and the Jump on the last measure has `playUntil = "end"`: all the
conditions of the claim hold with `n = 3`, `f = 2`, but `searchLabel` resolves
"end" to the last measure, and the measure sequence is 1;2;3;1;2;3 instead of
1;2;3;1;2. -/
theorem dc_al_fine_reserved_label :
    scoreDCSentinel.voltas = [] ∧
    (∀ k, k < 3 → (scoreDCSentinel.measure k).repeatFlags.END = false ∧
      (scoreDCSentinel.measure k).repeatFlags.START = false ∧
      hasMarker "" (scoreDCSentinel.measure k).el = false) ∧
    (scoreDCSentinel.measure 2).repeatFlags.JUMP = true ∧
    firstJump 0 (scoreDCSentinel.measure 2).el =
      some (0, { jumpTo := "start", playUntil := "end", continueAt := "" }) ∧
    hasMarker "end" (scoreDCSentinel.measure 1).el = true ∧
    unwind unitTempo 20 scoreDCSentinel [] =
      some (Outcome.done scoreDCSentinelPlayed segsDCSentinel) ∧
    measureSequence scoreDCSentinel segsDCSentinel = [1, 2, 3, 1, 2, 3] ∧
    measureSequence scoreDCSentinel segsDCSentinel ≠ [1, 2, 3, 1, 2] := by
  refine ⟨rfl, by decide, rfl, rfl, rfl, rfl, rfl, by decide⟩

/-- C3. D.S. al coda. For a score of `n` measures without END flags and voltas,
with the JUMP flag on measure `k + 1` only and there a Jump whose `jumpTo`,
`playUntil` and `continueAt` resolve to the measures `a + 1`, `b + 1` and
`c + 1` with `a ≤ b < k < c < n`, `unwind` returns for every budget of at least
`2 * n` loop iterations, and the measure sequence read from its list is
`1..k+1`, then `a+1..b+1`, then `c+1..n`. -/
theorem ds_al_coda [Zero R] [Add R] [Sub R] (tl : TempoMap R) (sc : Score)
    (old : List (RepeatSegment R)) (a b k c p : Nat) (j : Jump)
    (h : DSAlCoda sc a b k c p j) (fuel : Nat) (hfuel : 2 * sc.measures.length ≤ fuel) :
    ∃ (sc1 : Score) (segs : List (RepeatSegment R)),
      unwind tl fuel sc old = some (Outcome.done sc1 segs) ∧
      measureSequence sc segs =
        List.range' 1 (k + 1) ++ List.range' (a + 1) (b - a + 1) ++
          List.range' (c + 1) (sc.measures.length - c) := by
  have hh := h
  obtain ⟨hc, hv, hab, hbk, hkc, hcn, hk, hj, hto, hpu, hca⟩ := h
  obtain ⟨r, hr⟩ := Nat.exists_eq_add_of_le
    (show (sc.measures.length - c) + (b - a + 1) + (k + 1) ≤ fuel by omega)
  obtain ⟨sc4, hrun⟩ := dsAlCoda_run tl sc a b k c p j hh r
  have hfu : fuel = r + (sc.measures.length - c) + (b - a + 1) + (k + 1) := by omega
  rw [← hfu] at hrun
  have hun : unwind tl fuel sc old = unwindLoop tl fuel (initState sc []) (some 0) := by
    unfold unwind
    simp only [List.drop_length]
    have hfm : sc.firstMeasure = some 0 := by
      unfold Score.firstMeasure; rw [if_neg (by omega)]
    rw [hfm]
  refine ⟨sc4, _, hun.trans hrun, ?_⟩
  rw [measureSequence_update]
  have e1 := segmentMeasures_span sc hc 0 k (by omega)
    ({ tick := 0, len := (sc.measure k).endTick - 0,
       utick := 0, utime := 0, timeOffset := 0 } : RepeatSegment R)
    (by show (0 : Int) = (sc.measure 0).tick
        rw [hc.2.1])
    (by show (0 : Int) + ((sc.measure k).endTick - 0) = (sc.measure (0 + k)).endTick
        rw [Nat.zero_add]; omega)
  have e2 := segmentMeasures_span sc hc a (b - a) (by omega)
    ({ tick := (sc.measure a).tick, len := (sc.measure b).endTick - (sc.measure a).tick,
       utick := 0, utime := 0, timeOffset := 0 } : RepeatSegment R) rfl
    (by show (sc.measure a).tick + ((sc.measure b).endTick - (sc.measure a).tick) =
          (sc.measure (a + (b - a))).endTick
        have e : a + (b - a) = b := by omega
        rw [e]; omega)
  have e3 := segmentMeasures_span sc hc c (sc.measures.length - 1 - c) (by omega)
    ({ tick := (sc.measure c).tick,
       len := (sc.measure (sc.measures.length - 1)).endTick - (sc.measure c).tick,
       utick := 0, utime := 0, timeOffset := 0 } : RepeatSegment R) rfl
    (by show (sc.measure c).tick +
          ((sc.measure (sc.measures.length - 1)).endTick - (sc.measure c).tick) =
          (sc.measure (c + (sc.measures.length - 1 - c))).endTick
        have e : c + (sc.measures.length - 1 - c) = sc.measures.length - 1 := by omega
        rw [e]; omega)
  have e4 : sc.measures.length - 1 - c + 1 = sc.measures.length - c := by omega
  rw [e4] at e3
  unfold measureSequence
  simp only [List.flatMap_cons, List.flatMap_nil, List.append_nil]
  rw [e1, e2, e3, List.append_assoc]

theorem ds_al_coda_witness :
    DSAlCoda scoreRepeat08 1 3 5 6 0
      { jumpTo := "segno", playUntil := "coda", continueAt := "codab" } ∧
    ∃ (sc1 : Score) (segs : List (RepeatSegment Int)),
      unwind unitTempo 22 scoreRepeat08 [] = some (Outcome.done sc1 segs) ∧
      measureSequence scoreRepeat08 segs = [1, 2, 3, 4, 5, 6, 2, 3, 4, 7, 8, 9, 10, 11] :=
  ⟨dsAlCoda_scoreRepeat08,
   ds_al_coda unitTempo scoreRepeat08 [] 1 3 5 6 0 _ dsAlCoda_scoreRepeat08 22 (by decide)⟩

/-- C4, failing input. On `scoreThreeVoltas` (START on 2, END with repeat count 2
on 3 and 4, voltas {1}, {2}, {3} on 3, 4, 5) the third pass reaches measure 4
with playback count 2, which the volta with ending set {2} admits, so measure
4 is played a second time: the measure sequence is 1;2;3;2;4;2;4;5;6 and not
1;2;3;2;4;2;5;6. -/
theorem three_voltas_replays_second_ending :
    Contiguous scoreThreeVoltas ∧
    emitted scoreThreeVoltas (unwind unitTempo 20 scoreThreeVoltas []) =
      some [1, 2, 3, 2, 4, 2, 4, 5, 6] ∧
    emitted scoreThreeVoltas (unwind unitTempo 20 scoreThreeVoltas []) ≠
      some [1, 2, 3, 2, 4, 2, 5, 6] := by
  refine ⟨?_, rfl, by decide⟩
  unfold Contiguous
  refine ⟨by decide, rfl, ?_⟩
  intro k hk
  have hk6 : k < 5 := by
    have h6 : k + 1 < 6 := hk
    omega
  interval_cases k <;> rfl

/-- C5. The score of `repeat34`, five contiguous measures of arbitrary positive
lengths `l1`, ..., `l5`, with START on measure 2, END (repeat count 2) on
measure 3 under a volta with ending set {1}, measure 4 under a volta with
ending set {2}, and measure 5 carrying START, END (repeat count 2) and JUMP
with a Jump from "start" until "end": `unwind` returns for every budget of at
least 13 loop iterations, and the measure sequence read from its list is
1;2;3;2;4;5;5;1;2;4;5. -/
theorem end_and_jump_nested [Zero R] [Add R] [Sub R] (tl : TempoMap R)
    (old : List (RepeatSegment R)) (l1 l2 l3 l4 l5 : Int)
    (h1 : 0 < l1) (h2 : 0 < l2) (h3 : 0 < l3) (h4 : 0 < l4) (h5 : 0 < l5)
    (fuel : Nat) (hf : 13 ≤ fuel) :
    Contiguous (scoreRepeat34 l1 l2 l3 l4 l5) ∧
    (scoreRepeat34 l1 l2 l3 l4 l5).measures.map (fun m => m.ticks) = [l1, l2, l3, l4, l5] ∧
    ∃ (sc1 : Score) (segs : List (RepeatSegment R)),
      unwind tl fuel (scoreRepeat34 l1 l2 l3 l4 l5) old = some (Outcome.done sc1 segs) ∧
      measureSequence (scoreRepeat34 l1 l2 l3 l4 l5) segs =
        [1, 2, 3, 2, 4, 5, 5, 1, 2, 4, 5] := by
  refine ⟨?_, ?_, ?_⟩
  · unfold Contiguous
    refine ⟨?_, rfl, ?_⟩
    · intro k hk
      have hk5 : k < 5 := hk
      interval_cases k <;>
        simp [scoreRepeat34, scoreRepeat34At, Score.measure] <;> omega
    · intro k hk
      have hk5 : k < 4 := by
        have h5 : k + 1 < 5 := hk
        omega
      interval_cases k <;>
        simp [scoreRepeat34, scoreRepeat34At, Score.measure, Measure.endTick]
  · simp [scoreRepeat34, scoreRepeat34At]
  · have he := emitted_scoreRepeat34At tl old l1 (l1 + l2) (l1 + l2 + l3) (l1 + l2 + l3 + l4)
      (l1 + l2 + l3 + l4 + l5) h1 (by omega) (by omega) (by omega) (by omega)
    obtain ⟨sc1, segs, hu, hs⟩ := emitted_some _ _ _ he
    exact ⟨sc1, segs, unwind_mono tl 13 fuel _ old _ hf hu, hs⟩

theorem end_and_jump_nested_witness :
    Contiguous (scoreRepeat34 1920 1920 1920 1920 1920) ∧
    (scoreRepeat34 1920 1920 1920 1920 1920).measures.map (fun m => m.ticks) =
      [1920, 1920, 1920, 1920, 1920] ∧
    ∃ (sc1 : Score) (segs : List (RepeatSegment Int)),
      unwind unitTempo 13 (scoreRepeat34 1920 1920 1920 1920 1920) [] =
        some (Outcome.done sc1 segs) ∧
      measureSequence (scoreRepeat34 1920 1920 1920 1920 1920) segs =
        [1, 2, 3, 2, 4, 5, 5, 1, 2, 4, 5] :=
  end_and_jump_nested unitTempo [] 1920 1920 1920 1920 1920 (by decide) (by decide) (by decide)
    (by decide) (by decide) 13 (by decide)

/-- C6, as amended. For a list returned by `unwind` on a contiguous score, and an
unwound tick `u` inside the unwound span of segment `i`, `utick2tick` returns
the score tick `u - (utick - tick)` of that segment whatever the cursor; and
when no earlier segment covers that score tick, `tick2utick` maps it back to
`u`. -/
theorem utick_roundtrip [Zero R] [Add R] [Sub R] (tl : TempoMap R) (fuel : Nat)
    (sc sc1 : Score) (old segs : List (RepeatSegment R)) (hc : Contiguous sc)
    (h : unwind tl fuel sc old = some (Outcome.done sc1 segs))
    (dbg : Bool) (idx1 idx2 : Nat) (u : Int) (i : Nat) (s : RepeatSegment R)
    (hs : segs.get? i = some s) (h1 : s.utick ≤ u) (h2 : u < s.utick + s.len)
    (hfirst : ∀ (j : Nat) (a : RepeatSegment R), j < i → segs.get? j = some a →
        ¬ (a.tick ≤ u - (s.utick - s.tick) ∧ u - (s.utick - s.tick) < a.tick + a.len)) :
    utick2tick dbg { segs := segs, idx1 := idx1, idx2 := idx2 } u =
      some (u - (s.utick - s.tick), i) ∧
    tick2utick segs (u - (s.utick - s.tick)) = some u := by
  obtain ⟨base, rfl, hb⟩ := unwind_base tl fuel sc sc1 old segs hc h
  refine ⟨utick2tick_in_span tl base hb dbg idx1 idx2 u i s hs h1 h2, ?_⟩
  rw [tick2utick_first _ _ i s hs (by omega) (by omega) hfirst]
  congr 1
  omega

/-- C6, counterexample. In the list that `unwind` returns for `scoreRepeat01`
the unwound tick 5760 starts the second segment; it maps to score tick 1920,
which `tick2utick` maps to 1920, the first time that tick is played. -/
theorem utick_roundtrip_fails :
    unwind unitTempo 20 scoreRepeat01 [] = some (Outcome.done scoreRepeat01Played segsRepeat01) ∧
    (∃ s ∈ segsRepeat01, s.utick ≤ 5760 ∧ (5760 : Int) < s.utick + s.len) ∧
    utick2tick false { segs := segsRepeat01, idx1 := 0, idx2 := 0 } 5760 = some (1920, 1) ∧
    tick2utick segsRepeat01 1920 = some 1920 := by
  refine ⟨unwind_scoreRepeat01, ⟨⟨1920, 9600, 5760, 5760, 3840⟩, by decide, by decide⟩, rfl, rfl⟩

theorem utick_roundtrip_witness :
    Contiguous scoreRepeat01 ∧
    unwind unitTempo 20 scoreRepeat01 [] = some (Outcome.done scoreRepeat01Played segsRepeat01) ∧
    utick2tick true { segs := segsRepeat01, idx1 := 1, idx2 := 0 } 100 = some (100 - (0 - 0), 0) ∧
    tick2utick segsRepeat01 (100 - (0 - 0)) = some 100 :=
  ⟨contiguous_scoreRepeat01, unwind_scoreRepeat01,
   utick_roundtrip unitTempo 20 scoreRepeat01 scoreRepeat01Played [] segsRepeat01
    contiguous_scoreRepeat01 unwind_scoreRepeat01 true 1 0 100 0
    { tick := 0, len := 5760, utick := 0, utime := 0, timeOffset := 0 } rfl (by decide) (by decide)
    (fun j a hj _ => absurd hj (by omega))⟩

/-- C7, failing input. On `scoreVoltaThrice` the second pass skips measure 2
(its volta has no ending 2), which moves `rs` to the end of measure 2; the END
of the same measure then calls `jumpToStartRepeat`, which appends `rs` with
`len = 0` without the test that the other closing statements make. -/
theorem unwind_appends_empty_segment :
    Contiguous scoreVoltaThrice ∧
    unwind unitTempo 20 scoreVoltaThrice [] =
      some (Outcome.done scoreVoltaThricePlayed segsVoltaThrice) ∧
    (∃ s ∈ segsVoltaThrice, s.len = 0) ∧
    measureSequence scoreVoltaThrice segsVoltaThrice = [1, 2, 1, 3, 1, 3] := by
  refine ⟨?_, rfl, ⟨⟨3840, 0, 5760, 5760, 1920⟩, by decide, rfl⟩, rfl⟩
  unfold Contiguous
  refine ⟨by decide, rfl, ?_⟩
  intro k hk
  have hk3 : k < 2 := by
    have h3 : k + 1 < 3 := hk
    omega
  interval_cases k <;> rfl

/-- C8. On a score whose measures are contiguous from tick 0 with positive
lengths, every segment of a list returned by `unwind` has `len ≥ 0`. -/
theorem unwind_len_nonneg [Zero R] [Add R] [Sub R] (tl : TempoMap R) (fuel : Nat)
    (sc sc1 : Score) (old segs : List (RepeatSegment R)) (hc : Contiguous sc)
    (h : unwind tl fuel sc old = some (Outcome.done sc1 segs)) :
    ∀ s ∈ segs, 0 ≤ s.len := by
  obtain ⟨base, rfl, hb⟩ := unwind_base tl fuel sc sc1 old segs hc h
  exact update_len_nonneg tl base hb

theorem unwind_len_nonneg_witness :
    Contiguous scoreRepeat01 ∧
    unwind unitTempo 20 scoreRepeat01 [] = some (Outcome.done scoreRepeat01Played segsRepeat01) ∧
    ∀ s ∈ segsRepeat01, 0 ≤ s.len :=
  ⟨contiguous_scoreRepeat01, unwind_scoreRepeat01,
   unwind_len_nonneg unitTempo 20 scoreRepeat01 scoreRepeat01Played [] segsRepeat01
     contiguous_scoreRepeat01 unwind_scoreRepeat01⟩

/-- C9. After any call of `update` the unwound ticks are the prefix sums of the
lengths (first `utick = 0`, then `utick[i+1] = utick[i] + len[i]`), and so are
those of every list returned by `unwind`. -/
theorem utick_prefix_sums [Zero R] [Add R] [Sub R] (tl : TempoMap R)
    (base : List (RepeatSegment R)) (fuel : Nat) (sc : Score) (old : List (RepeatSegment R)) :
    UtickPrefixSums (update tl base) ∧
    ∀ (sc1 : Score) (segs : List (RepeatSegment R)),
      unwind tl fuel sc old = some (Outcome.done sc1 segs) → UtickPrefixSums segs := by
  refine ⟨update_prefixSums tl base, ?_⟩
  intro sc1 segs h
  obtain ⟨b, rfl⟩ := unwind_is_update tl fuel sc sc1 old segs h
  exact update_prefixSums tl b

theorem utick_prefix_sums_witness :
    UtickPrefixSums (update unitTempo segsRepeat01) ∧ UtickPrefixSums segsRepeat01 :=
  ⟨(utick_prefix_sums unitTempo segsRepeat01 20 scoreRepeat01 []).1,
   (utick_prefix_sums unitTempo segsRepeat01 20 scoreRepeat01 []).2
     scoreRepeat01Played segsRepeat01 unwind_scoreRepeat01⟩

/-- C10. Calling `unwind` a second time, on the score as the first call left it
(playback counts included) and on the list the first call produced, returns
the same score state and exactly the same segment list; the playback counts
and the list contents before the first call are arbitrary. -/
theorem unwind_idempotent [Zero R] [Add R] [Sub R] (tl : TempoMap R)
    (fuel fuel1 : Nat) (sc sc1 : Score) (old segs : List (RepeatSegment R))
    (hf : fuel ≤ fuel1)
    (h : unwind tl fuel sc old = some (Outcome.done sc1 segs)) :
    unwind tl fuel1 sc1 segs = some (Outcome.done sc1 segs) := by
  unfold unwind at h ⊢
  simp only [List.drop_length] at h ⊢
  cases hfm : sc.firstMeasure with
  | none =>
    rw [hfm] at h
    simp only [Option.some.injEq, Outcome.done.injEq] at h
    obtain ⟨h1, h2⟩ := h
    subst h1
    rw [hfm, ← h2]
  | some fm =>
    rw [hfm] at h
    simp only [] at h
    have hr := unwindLoop_reset tl sc fuel (initState sc []) (some fm) _
      (by simp [initState, reset_reset]) h
    have hr1 : resetPlaybackCounts sc1 = resetPlaybackCounts sc := hr
    rw [firstMeasure_of_reset_eq hr1, hfm]
    simp only []
    rw [initState_of_reset_eq hr1]
    obtain ⟨k, rfl⟩ := Nat.exists_eq_add_of_le hf
    exact unwindLoop_mono tl fuel k _ _ _ h

theorem unwind_idempotent_witness :
    unwind unitTempo 20 scoreRepeat01 [] = some (Outcome.done scoreRepeat01Played segsRepeat01) ∧
    unwind unitTempo 25 scoreRepeat01Played segsRepeat01 =
      some (Outcome.done scoreRepeat01Played segsRepeat01) :=
  ⟨unwind_scoreRepeat01,
   unwind_idempotent unitTempo 20 25 scoreRepeat01 scoreRepeat01Played [] segsRepeat01
     (by decide) unwind_scoreRepeat01⟩

/-- C11. Each Jump is honoured at most once. In the run of the measure loop of
`unwind` on any score, let the pass number `k1` honour a Jump: `doJump` is set,
and the pass ends with `isGoto` set and the walk transferred to the `jumpTo`
target of the Jump. Then no other pass honours that Jump; and on every later
visit of its measure the statements of lines 352-386, entered with `doJump` set
and `isGoto` clear, find the Jump in `jumps` and go on with the next measure,
appending nothing and leaving `isGoto` clear. -/
theorem jump_taken_once [Zero R] [Add R] [Sub R] (tl : TempoMap R) (sc : Score)
    (old : List (RepeatSegment R)) (k1 k2 : Nat) (st1 st2 : UState R) (m1 m2 : Nat)
    (ptr : JumpPtr)
    (h1 : configAfter tl k1 (initState sc (old.drop old.length)) sc.firstMeasure =
      some (st1, m1))
    (h2 : configAfter tl k2 (initState sc (old.drop old.length)) sc.firstMeasure =
      some (st2, m2))
    (t1 : HonoursJump tl st1 m1 ptr) :
    (HonoursJump tl st2 m2 ptr → k1 = k2) ∧
    (k1 < k2 → m2 = m1 →
      ∀ Y : UState R, Y.score = st2.score.incPlaybackCount m2 → Y.jumps = st2.jumps →
        Y.isGoto = false →
        ∃ Y1 : UState R, jumpOrAdvance Y m2 true = Step.next Y1 (Y.score.nextMeasure m2) ∧
          Y1.isGoto = false ∧ Y1.segs = Y.segs ∧ Y1.rs = Y.rs ∧ Y1.jumps = Y.jumps) := by
  have h0 : (initState sc (old.drop old.length) : UState R).isGoto = true →
      (initState sc (old.drop old.length) : UState R).endRepeat ≠ none := by
    intro h; simp [initState] at h
  have hinv1 := configAfter_inv tl (fun st => st.isGoto = true → st.endRepeat ≠ none)
    (fun st mi hP => body_goto tl st mi hP) k1 _ _ st1 m1 h0 h1
  have hinv2 := configAfter_inv tl (fun st => st.isGoto = true → st.endRepeat ≠ none)
    (fun st mi hP => body_goto tl st mi hP) k2 _ _ st2 m2 h0 h2
  constructor
  · intro t2
    rcases lt_trichotomy k1 k2 with hlt | heq | hgt
    · exfalso
      obtain ⟨d, rfl⟩ : ∃ d, k2 = k1 + (d + 1) := ⟨k2 - k1 - 1, by omega⟩
      have hmem := honoursJump_order tl _ _ k1 d st1 st2 m1 m2 ptr h0 h1 h2 t1
      exact (honoursJump_fresh tl st2 m2 ptr hinv2 t2).1 hmem
    · exact heq
    · exfalso
      obtain ⟨d, rfl⟩ : ∃ d, k1 = k2 + (d + 1) := ⟨k1 - k2 - 1, by omega⟩
      have hmem := honoursJump_order tl _ _ k2 d st2 st1 m2 m1 ptr h0 h2 h1 t2
      exact (honoursJump_fresh tl st1 m1 ptr hinv1 t1).1 hmem
  · intro hlt hm Y hY1 hY2 hY3
    obtain ⟨d, rfl⟩ : ∃ d, k2 = k1 + (d + 1) := ⟨k2 - k1 - 1, by omega⟩
    have hmem := honoursJump_order tl _ _ k1 d st1 st2 m1 m2 ptr h0 h1 h2 t1
    obtain ⟨j, n, st1a, hp, hf, _⟩ := t1
    have hr1 := configAfter_reset tl k1 _ _ st1 m1 h1
    have hr2 := configAfter_reset tl (k1 + (d + 1)) _ _ st2 m2 h2
    have hel : (Y.score.measure m2).el = (st1.score.measure m1).el := by
      rw [hY1, measure_incPlaybackCount_el, hm,
        (measure_static_of_reset_eq hr2 m1).2.2.2.2.2,
        (measure_static_of_reset_eq hr1 m1).2.2.2.2.2]
    have hptr : some ptr = some (m2, ptr.2) := by
      rw [hm, ← hp]
    apply jumpOrAdvance_again Y m2 ptr.2 j (by rw [hel]; exact hf)
      (by rw [hY2, ← hptr]; exact hmem) hY3

theorem jump_taken_once_witness :
    configAfter unitTempo 2 (initState scoreDCSentinel []) scoreDCSentinel.firstMeasure =
      some (stateDCSentinelAtJump, 2) ∧
    configAfter unitTempo 5 (initState scoreDCSentinel []) scoreDCSentinel.firstMeasure =
      some (stateDCSentinelAtRevisit, 2) ∧
    HonoursJump unitTempo stateDCSentinelAtJump 2 (2, 0) ∧
    ¬ HonoursJump unitTempo stateDCSentinelAtRevisit 2 (2, 0) :=
  ⟨configAfter_scoreDCSentinel_jump, configAfter_scoreDCSentinel_revisit,
    honoursJump_scoreDCSentinel,
    fun t2 => absurd
      ((jump_taken_once unitTempo scoreDCSentinel [] 2 5 stateDCSentinelAtJump
        stateDCSentinelAtRevisit 2 2 (2, 0) configAfter_scoreDCSentinel_jump
        configAfter_scoreDCSentinel_revisit honoursJump_scoreDCSentinel).1 t2)
      (by decide)⟩

/-- C12, as amended. Volta exclusion holds for the visits made while a bracket is
open. If `endRepeat` is set when the loop body is entered with a measure `m` whose
tick lies in a volta that does not list the playback count `m` reaches on this
visit, then the pass adds no part of `m` to the list: every segment it appends
ends at or before `m.tick` or is empty, and the segment under construction
afterwards starts at `m.endTick` or at the measure the walk was sent to. -/
theorem volta_skips_measure [Zero R] [Add R] [Sub R] (tl : TempoMap R) (st : UState R)
    (mi e : Nat) (v : Volta)
    (hm : mi < st.score.measures.length)
    (he : st.endRepeat = some e)
    (hv : st.score.searchVolta (st.score.measure mi).tick = some v)
    (hk : v.hasEnding ((st.score.measure mi).playbackCount + 1) = false) :
    (body tl st mi).Post
      (fun st1 m1 => SkipsMeasure (st.score.measure mi) st.segs st1.segs ∧
        (st1.rs.tick = (st.score.measure mi).endTick ∨
          ∃ r, m1 = some r ∧ st1.rs.tick = (st.score.measure r).tick))
      (fun st1 => SkipsMeasure (st.score.measure mi) st.segs st1.segs ∧
        st1.rs.tick = (st.score.measure mi).endTick)
      (fun _ segs => ∃ base : List (RepeatSegment R), segs = update tl base ∧
        SkipsMeasure (st.score.measure mi) st.segs base) := by
  obtain ⟨c1, c2, c3, c4⟩ := countVisit_fields st mi
  have hpc : ((countVisit st mi).score.measure mi).playbackCount =
      (st.score.measure mi).playbackCount + 1 := by
    rw [c1]; exact measure_incPlaybackCount_self _ _ hm
  have htk : ((countVisit st mi).score.measure mi).tick = (st.score.measure mi).tick := by
    rw [c1]; exact measure_incPlaybackCount_tick _ _ _
  have het : ∀ k, ((countVisit st mi).score.measure k).endTick = (st.score.measure k).endTick := by
    intro k; rw [c1]; exact measure_incPlaybackCount_endTick _ _ _
  have htk1 : ∀ k, ((countVisit st mi).score.measure k).tick = (st.score.measure k).tick := by
    intro k; rw [c1]; exact measure_incPlaybackCount_tick _ _ _
  obtain ⟨s1, s2, s3, s4⟩ := voltaAndJumpFlag_skip (countVisit st mi)
    ((countVisit st mi).score.measure mi) e v (by rw [c4]; exact he)
    (by rw [htk, c1]; exact hv) (by rw [hpc]; exact hk)
  have hpre : SkipsMeasure (st.score.measure mi) st.segs
      (voltaAndJumpFlag (countVisit st mi) ((countVisit st mi).score.measure mi)).1.segs := by
    rcases s4 with s4 | s4
    · exact ⟨[], by rw [s4, c2]; simp, by simp⟩
    · refine ⟨[_], by rw [s4, c2], ?_⟩
      intro s hs
      simp only [List.mem_singleton] at hs
      rw [hs, htk]
      left
      show (countVisit st mi).rs.tick + ((st.score.measure mi).tick - (countVisit st mi).rs.tick)
        ≤ (st.score.measure mi).tick
      omega
  have hext : ∀ (segs1 : List (RepeatSegment R)),
      (∃ app : List (RepeatSegment R),
        segs1 = (voltaAndJumpFlag (countVisit st mi)
          ((countVisit st mi).score.measure mi)).1.segs ++ app ∧
        ∀ s ∈ app, s.tick = (st.score.measure mi).endTick ∧ s.len = 0) →
      SkipsMeasure (st.score.measure mi) st.segs segs1 := by
    intro segs1 h
    obtain ⟨app, ha, hz⟩ := h
    obtain ⟨app0, hb, hz0⟩ := hpre
    refine ⟨app0 ++ app, by rw [ha, hb, List.append_assoc], ?_⟩
    intro s hs
    rcases List.mem_append.mp hs with h1 | h1
    · exact hz0 s h1
    · exact Or.inr (hz s h1)
  have hg := gotoOrEnd_after_skip tl
    (voltaAndJumpFlag (countVisit st mi) ((countVisit st mi).score.measure mi)).1 mi
    (by rw [s2, s3])
  rw [body_eq, s1]
  refine step_post_mono _ ?_ ?_ ?_ hg
  · intro st1 m1 h
    rw [s3] at h
    simp only [het, htk1] at h
    exact ⟨hext _ h.1, h.2⟩
  · intro st1 h
    rw [s3] at h
    simp only [het] at h
    exact ⟨hext _ ⟨[], by rw [h.1]; simp, by simp⟩, h.2⟩
  · intro sc1 segs h
    exact ⟨_, h, hpre⟩

theorem volta_skips_measure_witness :
    configAfter unitTempo 3 (initState scoreFirstSecondEnding [])
      scoreFirstSecondEnding.firstMeasure = some (stateFirstSecondEndingAtSkip, 1) ∧
    (body unitTempo stateFirstSecondEndingAtSkip 1).Post
      (fun st1 m1 =>
        SkipsMeasure (stateFirstSecondEndingAtSkip.score.measure 1)
          stateFirstSecondEndingAtSkip.segs st1.segs ∧
        (st1.rs.tick = (stateFirstSecondEndingAtSkip.score.measure 1).endTick ∨
          ∃ r, m1 = some r ∧
            st1.rs.tick = (stateFirstSecondEndingAtSkip.score.measure r).tick))
      (fun st1 =>
        SkipsMeasure (stateFirstSecondEndingAtSkip.score.measure 1)
          stateFirstSecondEndingAtSkip.segs st1.segs ∧
        st1.rs.tick = (stateFirstSecondEndingAtSkip.score.measure 1).endTick)
      (fun _ segs => ∃ base : List (RepeatSegment Int), segs = update unitTempo base ∧
        SkipsMeasure (stateFirstSecondEndingAtSkip.score.measure 1)
          stateFirstSecondEndingAtSkip.segs base) :=
  ⟨rfl, volta_skips_measure unitTempo stateFirstSecondEndingAtSkip 1 1
    { tick := 1920, tick2 := 3840, endings := [1] } (by decide) rfl rfl rfl⟩

/-- C12, counterexample. In the score with a first and a second ending, measure 3
lies under the volta with ending set {2} and is visited once, so that its
playback count becomes 1, which the volta lacks; no bracket is open on that
visit, the volta is not consulted, and measure 3 is emitted: the sequence is
1;2;1;3;4. -/
theorem volta_exclusion_fails :
    unwind unitTempo 20 scoreFirstSecondEnding [] =
      some (Outcome.done scoreFirstSecondEndingPlayed segsFirstSecondEnding) ∧
    scoreFirstSecondEnding.searchVolta (scoreFirstSecondEnding.measure 2).tick =
      some { tick := 3840, tick2 := 5760, endings := [2] } ∧
    Volta.hasEnding { tick := 3840, tick2 := 5760, endings := [2] } 1 = false ∧
    (scoreFirstSecondEndingPlayed.measure 2).playbackCount = 1 ∧
    measureSequence scoreFirstSecondEnding segsFirstSecondEnding = [1, 2, 1, 3, 4] :=
  ⟨rfl, rfl, rfl, rfl, rfl⟩

/-- C13. `utick2utime` is non-decreasing on every list that `unwind` returns for a
score with contiguous measures, under a tempo map whose `tick2time` is
non-decreasing, with the arithmetic of `qreal` taken as that of an ordered group:
`u ≤ v` gives `utick2utime u ≤ utick2utime v` for all integers `u` and `v`,
whatever the value of the cursor. -/
theorem utick2utime_monotone [LinearOrderedAddCommGroup R] (tl : TempoMap R)
    (hmono : ∀ a b : Int, a ≤ b → tl.tick2time a ≤ tl.tick2time b)
    (fuel : Nat) (sc sc1 : Score) (old segs : List (RepeatSegment R))
    (hc : Contiguous sc)
    (hun : unwind tl fuel sc old = some (Outcome.done sc1 segs))
    (idx1 idx2 : Nat) (u v : Int) (huv : u ≤ v) :
    utick2utime tl { segs := segs, idx1 := idx1, idx2 := idx2 } u ≤
      utick2utime tl { segs := segs, idx1 := idx1, idx2 := idx2 } v := by
  obtain ⟨base, rfl, hb⟩ := unwind_base tl fuel sc sc1 old segs hc hun
  exact utick2utime_mono_update tl hmono base hb idx1 idx2 u v huv

theorem utick2utime_monotone_witness :
    utick2utime unitTempo { segs := segsRepeat01, idx1 := 1, idx2 := 0 } (-3) ≤
      utick2utime unitTempo { segs := segsRepeat01, idx1 := 1, idx2 := 0 } 5760 :=
  utick2utime_monotone unitTempo (fun _ _ h => h) 20 scoreRepeat01 scoreRepeat01Played []
    segsRepeat01 contiguous_scoreRepeat01 unwind_scoreRepeat01 1 0 (-3) 5760 (by decide)

/-- C14. On a non-empty list produced by `update` from segments of non-negative
length, `utick2tick u` is `tick[i] + (u - utick[i])` for `u` inside the unwound
span of segment `i`, and `u - (last.utick - last.tick)` for `u` at or beyond
the start of the last segment; the cursor and the debug flag make no
difference. -/
theorem utick2tick_inside_and_past [Zero R] [Add R] [Sub R] (tl : TempoMap R)
    (base : List (RepeatSegment R)) (hb : ∀ s ∈ base, 0 ≤ s.len)
    (dbg : Bool) (idx1 idx2 : Nat) (u : Int) :
    (∀ (i : Nat) (s : RepeatSegment R), (update tl base).get? i = some s →
      s.utick ≤ u → u < s.utick + s.len →
      utick2tick dbg { segs := update tl base, idx1 := idx1, idx2 := idx2 } u =
        some (s.tick + (u - s.utick), i)) ∧
    (∀ l : RepeatSegment R, (update tl base).getLast? = some l → l.utick ≤ u →
      utick2tick dbg { segs := update tl base, idx1 := idx1, idx2 := idx2 } u =
        some (u - (l.utick - l.tick), (update tl base).length - 1)) := by
  refine ⟨?_, fun l hl hu => utick2tick_past_end tl base hb dbg idx1 idx2 u l hl hu⟩
  intro i s hs h1 h2
  rw [utick2tick_in_span tl base hb dbg idx1 idx2 u i s hs h1 h2]
  congr 2
  omega

theorem utick2tick_inside_and_past_witness :
    (∀ s ∈ segsRepeat01, 0 ≤ s.len) ∧
    utick2tick true { segs := update unitTempo segsRepeat01, idx1 := 1, idx2 := 0 } 100 =
      some (0 + (100 - 0), 0) ∧
    utick2tick true { segs := update unitTempo segsRepeat01, idx1 := 1, idx2 := 0 } 99999 =
      some (99999 - (5760 - 1920), (update unitTempo segsRepeat01).length - 1) :=
  ⟨by decide,
   (utick2tick_inside_and_past unitTempo segsRepeat01 (by decide) true 1 0 100).1 0
     { tick := 0, len := 5760, utick := 0, utime := 0, timeOffset := 0 } rfl
     (by decide) (by decide),
   (utick2tick_inside_and_past unitTempo segsRepeat01 (by decide) true 1 0 99999).2
     { tick := 1920, len := 9600, utick := 5760, utime := 5760, timeOffset := 3840 } rfl
     (by decide)⟩

/-- C15, as amended. On a non-empty list `utick2tick` returns 0 for every negative
argument, leaving the cursor alone; on the empty list it returns its argument
unchanged. -/
theorem utick2tick_negative (dbg : Bool) (segs : List (RepeatSegment R)) (idx1 idx2 : Nat)
    (u : Int) (hu : u < 0) :
    (segs ≠ [] →
      utick2tick dbg { segs := segs, idx1 := idx1, idx2 := idx2 } u = some (0, idx1)) ∧
    utick2tick dbg { segs := ([] : List (RepeatSegment R)), idx1 := idx1, idx2 := idx2 } u =
      some (u, idx1) := by
  refine ⟨?_, rfl⟩
  intro hne
  unfold utick2tick
  simp only []
  rw [if_neg (by
    intro h0
    exact hne (List.length_eq_zero.mp h0)), if_pos hu]

theorem utick2tick_negative_witness :
    (segsRepeat01 ≠ [] →
      utick2tick true { segs := segsRepeat01, idx1 := 1, idx2 := 0 } (-5) = some (0, 1)) ∧
    utick2tick true { segs := ([] : List (RepeatSegment Int)), idx1 := 1, idx2 := 0 } (-5) =
      some (-5, 1) :=
  utick2tick_negative true segsRepeat01 1 0 (-5) (by decide)

/-- C15, counterexample. On the empty list `utick2tick (-1)` is `-1`, not 0: the
test `n == 0` comes first and returns the argument. -/
theorem utick2tick_negative_empty :
    utick2tick false { segs := ([] : List (RepeatSegment Int)), idx1 := 0, idx2 := 0 } (-1) =
      some (-1, 0) ∧ (-1 : Int) ≠ 0 := by
  exact ⟨rfl, by decide⟩

/-- C16. On a non-empty list `tick2utick t` is `s.utick + (t - s.tick)` for the
first segment `s`, in emission order, whose original span holds `t`, and
`last.utick + (t - last.tick)` when no segment's original span holds `t`. -/
theorem tick2utick_cover_or_extrapolate (front : List (RepeatSegment R)) (l : RepeatSegment R)
    (t : Int) :
    (∀ (i : Nat) (s : RepeatSegment R), (front ++ [l]).get? i = some s →
      s.tick ≤ t → t < s.tick + s.len →
      (∀ (j : Nat) (a : RepeatSegment R), j < i → (front ++ [l]).get? j = some a →
        ¬ (a.tick ≤ t ∧ t < a.tick + a.len)) →
      tick2utick (front ++ [l]) t = some (s.utick + (t - s.tick))) ∧
    ((∀ s ∈ front ++ [l], ¬ (s.tick ≤ t ∧ t < s.tick + s.len)) →
      tick2utick (front ++ [l]) t = some (l.utick + (t - l.tick))) := by
  refine ⟨fun i s hs h1 h2 hf => tick2utick_first _ t i s hs h1 h2 hf, ?_⟩
  intro hnone
  have hfind : ∀ L : List (RepeatSegment R),
      (∀ s ∈ L, ¬ (s.tick ≤ t ∧ t < s.tick + s.len)) → findTick t L = none := by
    intro L
    induction L with
    | nil => intro _; rfl
    | cons x rest ih =>
      intro h
      simp only [findTick]
      rw [if_neg (by simpa using h x (List.mem_cons_self _ _))]
      exact ih (fun s hs => h s (List.mem_cons_of_mem _ hs))
  unfold tick2utick
  rw [hfind _ hnone, List.getLast?_append, List.getLast?_singleton]
  rfl

theorem tick2utick_cover_or_extrapolate_witness :
    tick2utick segsRepeat01 2000 = some (0 + (2000 - 0)) ∧
    tick2utick segsRepeat01 20000 = some (5760 + (20000 - 1920)) :=
  ⟨(tick2utick_cover_or_extrapolate
      [{ tick := 0, len := 5760, utick := 0, utime := 0, timeOffset := 0 }]
      { tick := 1920, len := 9600, utick := 5760, utime := 5760, timeOffset := 3840 } 2000).1
      0 { tick := 0, len := 5760, utick := 0, utime := 0, timeOffset := 0 } rfl
      (by decide) (by decide) (fun j a hj _ => absurd hj (by omega)),
   (tick2utick_cover_or_extrapolate
      [{ tick := 0, len := 5760, utick := 0, utime := 0, timeOffset := 0 }]
      { tick := 1920, len := 9600, utick := 5760, utime := 5760, timeOffset := 3840 } 20000).2
      (by decide)⟩

/-- C17, as amended. `tick2utick` has no clamp. On the list that `unwind` returns
for a score with contiguous measures from tick 0, no segment's original span holds
a negative tick `t`, and `tick2utick t` is the extrapolation from the last segment,
`last.utick + (t - last.tick)`. -/
theorem tick2utick_negative [Zero R] [Add R] [Sub R] (tl : TempoMap R) (fuel : Nat)
    (sc sc1 : Score) (old segs : List (RepeatSegment R)) (l : RepeatSegment R) (t : Int)
    (hc : Contiguous sc)
    (hun : unwind tl fuel sc old = some (Outcome.done sc1 segs))
    (hl : segs.getLast? = some l) (ht : t < 0) :
    tick2utick segs t = some (l.utick + (t - l.tick)) := by
  have hpos := unwind_tick_nonneg tl fuel sc sc1 old segs hc hun
  have hfind : ∀ L : List (RepeatSegment R), (∀ s ∈ L, 0 ≤ s.tick) → findTick t L = none := by
    intro L
    induction L with
    | nil => intro _; rfl
    | cons x rest ih =>
      intro h
      simp only [findTick]
      have hx := h x (List.mem_cons_self _ _)
      rw [if_neg (by intro hh; have := hh.1; omega)]
      exact ih (fun s hs => h s (List.mem_cons_of_mem _ hs))
  unfold tick2utick
  rw [hfind segs hpos, hl]

theorem tick2utick_negative_witness :
    tick2utick segsRepeat01 (-1) = some (5760 + (-1 - 1920)) :=
  tick2utick_negative unitTempo 20 scoreRepeat01 scoreRepeat01Played [] segsRepeat01
    { tick := 1920, len := 9600, utick := 5760, utime := 5760, timeOffset := 3840 } (-1)
    contiguous_scoreRepeat01 unwind_scoreRepeat01 rfl (by decide)

/-- C17, counterexample. On the list that `unwind` returns for the score of
`repeat01`, `tick2utick (-1)` is 3839: the search finds no segment and the
fallback extrapolates from the last segment, which starts at tick 1920 and
unwound tick 5760. -/
theorem tick2utick_negative_not_clamped :
    unwind unitTempo 20 scoreRepeat01 [] =
      some (Outcome.done scoreRepeat01Played segsRepeat01) ∧
    tick2utick segsRepeat01 (-1) = some 3839 ∧ (3839 : Int) ≠ 0 :=
  ⟨unwind_scoreRepeat01, rfl, by decide⟩

/-- C18. The values returned by the queries do not depend on the cursors. On a list
produced by `update` from segments with `len ≥ 0`, under a non-decreasing
`tick2time`, for all values of `idx1` and `idx2` the calls `utick2tick u`,
`utick2utime u` and `utime2utick s` return what they return with both cursors at
0 (the same number, or the same abort in debug mode), for every `u` and `s`, in
particular for `u ≥ 0` and `s ≥ 0`. -/
theorem queries_ignore_cursors [LinearOrderedAddCommGroup R] (tl : TempoMap R)
    (hmono : ∀ a b : Int, a ≤ b → tl.tick2time a ≤ tl.tick2time b)
    (base : List (RepeatSegment R)) (hb : ∀ s ∈ base, 0 ≤ s.len)
    (dbg : Bool) (idx1 idx2 : Nat) (u : Int) (s : R) :
    (utick2tick dbg { segs := update tl base, idx1 := idx1, idx2 := idx2 } u).map Prod.fst =
      (utick2tick dbg { segs := update tl base, idx1 := 0, idx2 := 0 } u).map Prod.fst ∧
    utick2utime tl { segs := update tl base, idx1 := idx1, idx2 := idx2 } u =
      utick2utime tl { segs := update tl base, idx1 := 0, idx2 := 0 } u ∧
    (utime2utick dbg tl { segs := update tl base, idx1 := idx1, idx2 := idx2 } s).map
        Prod.fst =
      (utime2utick dbg tl { segs := update tl base, idx1 := 0, idx2 := 0 } s).map Prod.fst :=
  ⟨utick2tick_cursor dbg _ (updateFrom_utick_sorted tl base hb 0 0).2 idx1 idx2 u,
   utick2utime_cursor tl _ (updateFrom_utick_sorted tl base hb 0 0).2 idx1 idx2 u,
   utime2utick_cursor dbg tl _ (updateFrom_utime_sorted tl hmono base hb 0 0).2 idx1 idx2 s⟩

theorem queries_ignore_cursors_witness :
    (∀ s ∈ segsRepeat01, 0 ≤ s.len) ∧
    (utick2tick true { segs := update unitTempo segsRepeat01, idx1 := 1, idx2 := 1 }
        100).map Prod.fst =
      (utick2tick true { segs := update unitTempo segsRepeat01, idx1 := 0, idx2 := 0 }
        100).map Prod.fst ∧
    utick2utime unitTempo { segs := update unitTempo segsRepeat01, idx1 := 1, idx2 := 1 } 100 =
      utick2utime unitTempo { segs := update unitTempo segsRepeat01, idx1 := 0, idx2 := 0 }
        100 ∧
    (utime2utick true unitTempo { segs := update unitTempo segsRepeat01, idx1 := 1, idx2 := 1 }
        7000).map Prod.fst =
      (utime2utick true unitTempo { segs := update unitTempo segsRepeat01, idx1 := 0, idx2 := 0 }
        7000).map Prod.fst :=
  ⟨by decide,
   queries_ignore_cursors unitTempo (fun _ _ h => h) segsRepeat01 (by decide) true 1 1 100 7000⟩

/-- C19. The function `ticks` returns `last.utick + last.len` on a non-empty list
and 0 on the empty one; on a score without measures `unwind` returns at once,
with any budget, leaving the list empty, so that `ticks` is 0. -/
theorem ticks_total_length [Zero R] [Add R] [Sub R] (tl : TempoMap R) (fuel : Nat)
    (voltas : List Volta) (old front : List (RepeatSegment R)) (l : RepeatSegment R) :
    ticks (front ++ [l]) = l.utick + l.len ∧
    ticks ([] : List (RepeatSegment R)) = 0 ∧
    unwind tl fuel { measures := [], voltas := voltas } old =
      some (Outcome.done { measures := [], voltas := voltas } []) := by
  refine ⟨?_, rfl, ?_⟩
  · unfold ticks
    rw [List.getLast?_append, List.getLast?_singleton]
    rfl
  · unfold unwind
    simp [Score.firstMeasure]

/-- C20. Straight walk. For a score with at least one measure, contiguous
measures from tick 0 of positive lengths, no volta, no measure flagged JUMP, and
a repeat count below 2 (0 and negative counts included) on every measure flagged
END, `unwind` returns within as many loop iterations as the score has measures,
and its list holds exactly one segment, with `tick = 0`, `utick = 0` and
`len = endTick` of the last measure; the measure sequence read from it is
`1..n`. -/
theorem straight_walk [Zero R] [Add R] [Sub R] (tl : TempoMap R) (fuel : Nat) (sc : Score)
    (old : List (RepeatSegment R))
    (hc : Contiguous sc) (hn : 0 < sc.measures.length) (hv : sc.voltas = [])
    (hJ : ∀ k, k < sc.measures.length → (sc.measure k).repeatFlags.JUMP = false)
    (hE : ∀ k, k < sc.measures.length → (sc.measure k).repeatFlags.END = true →
      (sc.measure k).repeatCount < 2) :
    ∃ (sc1 : Score) (s : RepeatSegment R),
      unwind tl (sc.measures.length + fuel) sc old = some (Outcome.done sc1 [s]) ∧
      s.tick = 0 ∧ s.utick = 0 ∧
      s.len = (sc.measure (sc.measures.length - 1)).endTick ∧
      measureSequence sc [s] = List.range' 1 sc.measures.length := by
  have hl : (resetPlaybackCounts sc).measures.length = sc.measures.length := by
    simp [resetPlaybackCounts]
  obtain ⟨sc1, hs1, hw⟩ := straight_loop tl fuel sc.measures.length 0 (initState sc [])
    (by show 0 + sc.measures.length = (resetPlaybackCounts sc).measures.length
        rw [hl]; omega)
    hn hv rfl rfl
    (by
      intro k hk
      show ((resetPlaybackCounts sc).measure k).repeatFlags.JUMP = false
      rw [measure_reset]
      exact hJ k (by rw [← hl]; exact hk))
    (by
      intro k hk
      show ((resetPlaybackCounts sc).measure k).repeatFlags.END = true →
        ((resetPlaybackCounts sc).measure k).repeatCount < 2
      rw [measure_reset]
      exact hE k (by rw [← hl]; exact hk))
    (by
      intro k _
      show ((resetPlaybackCounts sc).measure k).playbackCount = 0
      rw [measure_reset]; rfl)
  have hs2 : resetPlaybackCounts sc1 = resetPlaybackCounts sc := by
    rw [hs1]; simp [initState, reset_reset]
  have hl1 : sc1.measures.length = sc.measures.length := length_of_reset_eq hs2
  have het : (sc1.measure (sc1.measures.length - 1)).endTick =
      (sc.measure (sc.measures.length - 1)).endTick := by
    unfold Measure.endTick
    rw [hl1, (measure_static_of_reset_eq hs2 _).1, (measure_static_of_reset_eq hs2 _).2.1]
  have hpos : 0 < (sc.measure (sc.measures.length - 1)).endTick := by
    have h1 := (contiguous_tick_nonneg sc hc (sc.measures.length - 1)).1
    have h2 := hc.1 (sc.measures.length - 1) (by omega)
    unfold Measure.endTick; omega
  have hun : unwind tl (sc.measures.length + fuel) sc old =
      some (finish tl { (initState sc [] : UState R) with score := sc1 }) := by
    unfold unwind
    simp only [List.drop_length]
    have hfm : sc.firstMeasure = some 0 := by
      unfold Score.firstMeasure; rw [if_neg (by omega)]
    rw [hfm]
    simp only []
    rw [Nat.add_comm]
    exact hw
  have hfin : finish tl { (initState sc [] : UState R) with score := sc1 } =
      Outcome.done sc1 (update tl
        ([⟨0, (sc.measure (sc.measures.length - 1)).endTick, 0, 0, 0⟩] :
          List (RepeatSegment R))) := by
    unfold finish
    simp only [initState, RepeatSegment.new, het, sub_zero, ne_eq, List.nil_append]
    rw [if_pos (by omega)]
  refine ⟨sc1, _, hun.trans (by rw [hfin]; rfl), rfl, rfl, rfl, ?_⟩
  rw [measureSequence_singleton]
  have := segmentMeasures_span sc hc 0 (sc.measures.length - 1) (by omega)
    (⟨0, (sc.measure (sc.measures.length - 1)).endTick, 0, 0, 0 - tl.tick2time 0⟩ :
      RepeatSegment R)
    (by rw [hc.2.1]) (by simp)
  rw [show sc.measures.length - 1 + 1 = sc.measures.length by omega] at this
  exact this

theorem straight_walk_witness :
    ∃ (sc1 : Score) (s : RepeatSegment Int),
      unwind unitTempo (scoreEndCountZero.measures.length + 0) scoreEndCountZero [] =
        some (Outcome.done sc1 [s]) ∧
      s.tick = 0 ∧ s.utick = 0 ∧
      s.len = (scoreEndCountZero.measure (scoreEndCountZero.measures.length - 1)).endTick ∧
      measureSequence scoreEndCountZero [s] =
        List.range' 1 scoreEndCountZero.measures.length :=
  straight_walk unitTempo 0 scoreEndCountZero [] contiguous_scoreEndCountZero (by decide) rfl
    (by
      intro k hk
      have : k < 5 := hk
      interval_cases k <;> rfl)
    (by
      intro k hk
      have : k < 5 := hk
      interval_cases k <;> decide)

/-- C22, failing input. The Jump on measure 1 of `scoreGarbageJump` has a `jumpTo`
that matches no Marker and a `playUntil` that resolves to measure 3. The Jump
is not taken: the visit of measure 1 appends nothing and goes on with measure
2. But it leaves `endRepeat` set to measure 3, assigned before the test of
`nm && endRepeat`, so that the END on measure 3 closes a bracket instead of
opening one: the list is the single segment 1;2;3;4, while the score without
the JUMP flag and the Jump gives 1;2;3;2;3;4. -/
theorem unresolved_jump_changes_list :
    scoreGarbageJump.searchLabel "nowhere" = none ∧
    body unitTempo (initState scoreGarbageJump []) 0 =
      Step.next
        { (initState scoreGarbageJump [] : UState Int) with
            score := (initState scoreGarbageJump [] : UState Int).score.incPlaybackCount 0,
            jumps := [some (0, 0)],
            endRepeat := some 2,
            continueAt := none }
        (some 1) ∧
    (∃ sc1 : Score, unwind unitTempo 20 scoreGarbageJump [] =
      some (Outcome.done sc1
        ([{ tick := 0, len := 7680, utick := 0, utime := 0, timeOffset := 0 }] :
          List (RepeatSegment Int)))) ∧
    (∃ sc2 : Score, unwind unitTempo 20 scoreGarbageJumpRemoved [] =
      some (Outcome.done sc2
        ([{ tick := 0, len := 5760, utick := 0, utime := 0, timeOffset := 0 },
          { tick := 1920, len := 5760, utick := 5760, utime := 5760, timeOffset := 3840 }] :
          List (RepeatSegment Int)))) ∧
    emitted scoreGarbageJump (unwind unitTempo 20 scoreGarbageJump []) = some [1, 2, 3, 4] ∧
    emitted scoreGarbageJumpRemoved (unwind unitTempo 20 scoreGarbageJumpRemoved []) =
      some [1, 2, 3, 2, 3, 4] :=
  ⟨by decide,
   body_unresolved_jump unitTempo (initState scoreGarbageJump []) 0 0
    { jumpTo := "nowhere", playUntil := "fine", continueAt := "" }
    rfl rfl rfl rfl rfl rfl (Or.inl (by decide)),
   ⟨_, rfl⟩, ⟨_, rfl⟩, rfl, rfl⟩
/-- C23, failing input. With the JUMP flag and no Jump element on the measures 1
and 2, the visit of measure 1 appends the null pointer to `jumps`, and the visit
of measure 2 finds it there and dereferences it in `s->playUntil()`. -/
theorem bare_jump_flags_crash :
    unwind unitTempo 20 scoreBareJumpFlags [] = some Outcome.crash := by
  rfl

/-- C24. First and second ending. For a score of `n` measures whose only
annotations are START on measure `i = a + 1`, END with repeat count 2 on measure
`j = b + 1`, a volta with ending set {1} spanning exactly the measures
`v + 1..j` and a volta with ending set {2} starting at measure `j + 1`
(`i ≤ v + 1 ≤ j < n`), `unwind` returns for every budget of at least `2 * n`
loop iterations; the measure sequence read from its list is `1..j`, then the
measures from `i` up to the one before the first ending, then `j+1..n`, and no
segment of the list is empty. -/
theorem first_second_ending [Zero R] [Add R] [Sub R] (tl : TempoMap R) (sc : Score)
    (old : List (RepeatSegment R)) (a v b : Nat) (t2 : Int)
    (h : FirstSecondEnding sc a v b t2)
    (fuel : Nat) (hf : 2 * sc.measures.length ≤ fuel) :
    ∃ (sc1 : Score) (segs : List (RepeatSegment R)),
      unwind tl fuel sc old = some (Outcome.done sc1 segs) ∧
      measureSequence sc segs =
        List.range' 1 (b + 1) ++ List.range' (a + 1) (v - a) ++
          List.range' (b + 2) (sc.measures.length - (b + 1)) ∧
      ∀ s ∈ segs, 0 < s.len := by
  have hh := h
  obtain ⟨hvin, hvout⟩ := firstSecondEnding_volta sc a v b t2 h
  obtain ⟨hc, hav, hvb, hb, hk, hrc, hvo⟩ := h
  have hN : (sc.measures.length - 1 - b) + (b - v + 1) + (v - a) + (b + 1) ≤ fuel := by omega
  obtain ⟨r, hr⟩ := Nat.exists_eq_add_of_le hN
  -- first pass
  obtain ⟨sc2, hs2, hpc2, hw2⟩ := firstSecondEnding_first tl sc a v b t2 hh
    (r + (sc.measures.length - 1 - b) + (b - v + 1) + (v - a))
  -- second pass, before the first ending
  obtain ⟨sc3, hs3, hout3, _, hw3⟩ := walk_gen_ref tl sc
    (r + (sc.measures.length - 1 - b) + (b - v + 1)) (v - a) a
    ({ score := sc2,
       segs := [(⟨0, (sc.measure b).tick + (sc.measure b).ticks - 0, 0, 0, 0⟩ :
         RepeatSegment R)],
       rs := ⟨(sc.measure a).tick, 0, 0, 0, 0⟩,
       endRepeat := some b, continueAt := none, loop := 1, repeatCount := 2,
       isGoto := false, jumps := [] } : UState R)
    hs2 (by omega) (by omega)
    (fun k hk1 hk2 => ⟨(firstSecondEnding_plain sc a v b t2 hh k (by omega) (by omega)).1,
      (firstSecondEnding_plain sc a v b t2 hh k (by omega) (by omega)).2,
      Or.inr (hvout k (by omega)), fun hg => by cases hg⟩)
  have e3 : a + (v - a) = v := by omega
  rw [e3, if_pos (by omega)] at hw3
  -- second pass, the first ending
  obtain ⟨sc4, hs4, hw4⟩ := skip_run tl sc b
    { tick := (sc.measure v).tick, tick2 := (sc.measure b).endTick, endings := [1] }
    (r + (sc.measures.length - 1 - b)) hc hb (b - v) v
    ({ score := sc3,
       segs := [(⟨0, (sc.measure b).tick + (sc.measure b).ticks - 0, 0, 0, 0⟩ :
         RepeatSegment R)],
       rs := ⟨(sc.measure a).tick, 0, 0, 0, 0⟩,
       endRepeat := some b, continueAt := none, loop := 1, repeatCount := 2,
       isGoto := false, jumps := [] } : UState R)
    (sc.measure a).tick (by omega) hs3 rfl rfl (by show (2 : Int) ≤ 1 + 1; decide) rfl
    (by
      rcases Nat.eq_or_lt_of_le hav with e | hlt
      · rw [e]
      · exact le_of_lt (contiguous_tick_lt sc hc a v hlt (by omega)))
    (by
      intro k hk1 hk2
      refine ⟨hvin k hk1 hk2, ?_, (hk k (by omega)).2.2.1⟩
      show Volta.hasEnding _ ((sc3.measure k).playbackCount + 1) = false
      rw [hout3 k (Or.inr (by omega))]
      show Volta.hasEnding _ ((sc2.measure k).playbackCount + 1) = false
      rw [hpc2 k hk2]
      rfl)
  -- the rest of the score
  obtain ⟨sc5, hs5, _, _, hw5⟩ := walk_gen_ref tl sc r (sc.measures.length - 1 - b) (b + 1)
    ({ score := sc4,
       segs := (if (sc.measure a).tick < (sc.measure v).tick
         then [(⟨0, (sc.measure b).tick + (sc.measure b).ticks - 0, 0, 0, 0⟩ :
             RepeatSegment R)] ++
           [⟨(sc.measure a).tick, (sc.measure v).tick - (sc.measure a).tick, 0, 0, 0⟩]
         else [(⟨0, (sc.measure b).tick + (sc.measure b).ticks - 0, 0, 0, 0⟩ :
             RepeatSegment R)]),
       rs := ⟨(sc.measure b).endTick, 0, 0, 0, 0⟩,
       endRepeat := none, continueAt := none, loop := 0, repeatCount := 2,
       isGoto := false, jumps := [] } : UState R)
    hs4 hb (by omega)
    (fun k hk1 hk2 => ⟨(firstSecondEnding_plain sc a v b t2 hh k (by omega) (by omega)).1,
      (firstSecondEnding_plain sc a v b t2 hh k (by omega) (by omega)).2,
      Or.inl rfl, fun hg => by cases hg⟩)
  have e5 : b + 1 + (sc.measures.length - 1 - b) = sc.measures.length := by omega
  rw [e5, if_neg (Nat.lt_irrefl _), unwindLoop_none] at hw5
  have hfuel : fuel = r + (sc.measures.length - 1 - b) + (b - v + 1) + (v - a) + (b + 1) := by
    omega
  have hfin := hw2.trans (hw3.trans (hw4.trans hw5))
  rw [← hfuel] at hfin
  have hlen5 := length_of_reset_eq hs5
  have hlast := measure_static_of_reset_eq hs5 (sc.measures.length - 1)
  have hposT : 0 < (sc.measure (sc.measures.length - 1)).endTick - (sc.measure b).endTick := by
    have h1 := contiguous_tick_le sc hc (b + 1) (sc.measures.length - 1 - (b + 1)) (by omega)
    have e : b + 1 + (sc.measures.length - 1 - (b + 1)) = sc.measures.length - 1 := by omega
    rw [e] at h1
    have h2 := hc.2.2 b hb
    have h3 := hc.1 (b + 1) hb
    unfold Measure.endTick at h1 h2 ⊢
    omega
  have hpos0 : 0 < (sc.measure b).tick + (sc.measure b).ticks - 0 := by
    have h1 := (contiguous_tick_nonneg sc hc b).1
    have h2 := hc.1 b (by omega)
    omega
  have hun : unwind tl fuel sc old =
      some (Outcome.done sc5 (update tl
        ((if (sc.measure a).tick < (sc.measure v).tick
          then [(⟨0, (sc.measure b).tick + (sc.measure b).ticks - 0, 0, 0, 0⟩ :
              RepeatSegment R)] ++
            [⟨(sc.measure a).tick, (sc.measure v).tick - (sc.measure a).tick, 0, 0, 0⟩]
          else [(⟨0, (sc.measure b).tick + (sc.measure b).ticks - 0, 0, 0, 0⟩ :
              RepeatSegment R)]) ++
          [⟨(sc.measure b).endTick,
            (sc.measure (sc.measures.length - 1)).endTick - (sc.measure b).endTick,
            0, 0, 0⟩]))) := by
    unfold unwind
    simp only [List.drop_length]
    have hfm : sc.firstMeasure = some 0 := by
      unfold Score.firstMeasure; rw [if_neg (by omega)]
    rw [hfm]
    simp only []
    rw [hfin]
    unfold finish
    have het : (sc5.measure (sc.measures.length - 1)).endTick =
        (sc.measure (sc.measures.length - 1)).endTick := by
      unfold Measure.endTick; rw [hlast.1, hlast.2.1]
    simp only [hlen5, het]
    rw [if_pos (by omega)]
  refine ⟨sc5, _, hun, ?_, ?_⟩
  · rw [measureSequence_update, measureSequence_append, measureSequence_singleton]
    have e1 := segmentMeasures_span sc hc 0 b (by omega)
      (⟨0, (sc.measure b).tick + (sc.measure b).ticks - 0, 0, 0, 0⟩ : RepeatSegment R)
      (by show (0 : Int) = (sc.measure 0).tick
          rw [hc.2.1])
      (by show (0 : Int) + ((sc.measure b).tick + (sc.measure b).ticks - 0) =
            (sc.measure (0 + b)).endTick
          unfold Measure.endTick; rw [Nat.zero_add]; omega)
    have e3 := segmentMeasures_span sc hc (b + 1) (sc.measures.length - 1 - (b + 1)) (by omega)
      (⟨(sc.measure b).endTick,
        (sc.measure (sc.measures.length - 1)).endTick - (sc.measure b).endTick, 0, 0, 0⟩ :
        RepeatSegment R)
      (by show (sc.measure b).endTick = (sc.measure (b + 1)).tick
          rw [hc.2.2 b hb])
      (by show (sc.measure b).endTick +
            ((sc.measure (sc.measures.length - 1)).endTick - (sc.measure b).endTick) =
            (sc.measure (b + 1 + (sc.measures.length - 1 - (b + 1)))).endTick
          have e : b + 1 + (sc.measures.length - 1 - (b + 1)) = sc.measures.length - 1 := by
            omega
          rw [e]; omega)
    have e6 : sc.measures.length - 1 - (b + 1) + 1 = sc.measures.length - (b + 1) := by omega
    rw [e3, e6]
    rcases Nat.eq_or_lt_of_le hav with e | hlt
    · subst e
      rw [if_neg (by omega), measureSequence_singleton, e1]
      simp
    · have htl := contiguous_tick_lt sc hc a v hlt (by omega)
      have e2 := segmentMeasures_span sc hc a (v - 1 - a) (by omega)
        (⟨(sc.measure a).tick, (sc.measure v).tick - (sc.measure a).tick, 0, 0, 0⟩ :
          RepeatSegment R) rfl
        (by show (sc.measure a).tick + ((sc.measure v).tick - (sc.measure a).tick) =
              (sc.measure (a + (v - 1 - a))).endTick
            have e : a + (v - 1 - a) = v - 1 := by omega
            rw [e]
            have := hc.2.2 (v - 1) (by omega)
            rw [show v - 1 + 1 = v by omega] at this
            omega)
      rw [if_pos htl, measureSequence_append, measureSequence_singleton,
        measureSequence_singleton, e1, e2]
      rw [show v - 1 - a + 1 = v - a by omega]
  · apply update_len_pos
    intro s hs
    rcases List.mem_append.mp hs with h1 | h1
    · by_cases htl : (sc.measure a).tick < (sc.measure v).tick
      · rw [if_pos htl] at h1
        rcases List.mem_append.mp h1 with h2 | h2
        · rw [List.mem_singleton] at h2; rw [h2]; exact hpos0
        · rw [List.mem_singleton] at h2; rw [h2]
          show 0 < (sc.measure v).tick - (sc.measure a).tick
          omega
      · rw [if_neg htl] at h1
        rw [List.mem_singleton] at h1; rw [h1]; exact hpos0
    · rw [List.mem_singleton] at h1; rw [h1]; exact hposT

theorem first_second_ending_witness :
    FirstSecondEnding scoreRepeat06 1 2 2 7680 ∧
    ∃ (sc1 : Score) (segs : List (RepeatSegment Int)),
      unwind unitTempo 12 scoreRepeat06 [] = some (Outcome.done sc1 segs) ∧
      measureSequence scoreRepeat06 segs = [1, 2, 3] ++ [2] ++ [4, 5, 6] ∧
      ∀ s ∈ segs, 0 < s.len :=
  ⟨firstSecondEnding_scoreRepeat06,
   first_second_ending unitTempo scoreRepeat06 [] 1 2 2 7680
     firstSecondEnding_scoreRepeat06 12 (by decide)⟩

/-- C25. END without START repeats from the beginning. For a score of `n`
measures whose only annotation is END with repeat count 2 on measure `j = b + 1`,
with no START flag, no section break, no JUMP flag and no volta, `unwind` returns
for every budget of at least `2 * n` loop iterations, and the measure sequence
read from its list is `1..j`, `1..j`, `j+1..n`. -/
theorem end_without_start [Zero R] [Add R] [Sub R] (tl : TempoMap R) (sc : Score)
    (old : List (RepeatSegment R)) (b : Nat)
    (hc : Contiguous sc) (hv : sc.voltas = []) (hb : b < sc.measures.length)
    (hk : ∀ k, k < sc.measures.length →
      (sc.measure k).sectionBreak = false ∧
      (sc.measure k).repeatFlags.START = false ∧
      (sc.measure k).repeatFlags.JUMP = false ∧
      ((sc.measure k).repeatFlags.END = true ↔ k = b))
    (hrc : (sc.measure b).repeatCount = 2)
    (fuel : Nat) (hf : 2 * sc.measures.length ≤ fuel) :
    ∃ (sc1 : Score) (segs : List (RepeatSegment R)),
      unwind tl fuel sc old = some (Outcome.done sc1 segs) ∧
      measureSequence sc segs =
        List.range' 1 (b + 1) ++ List.range' 1 (b + 1) ++
          List.range' (b + 2) (sc.measures.length - (b + 1)) := by
  have hbr : Bracket sc 0 b 2 sc.measures.length :=
    ⟨hc, hv, Nat.zero_le _, hb, le_refl _,
      startRepeat_zero sc b (fun k hk1 => (hk k (by omega)).2.1) (fun k hk1 => (hk k (by omega)).1),
      fun k hk1 => ⟨(hk k hk1).2.2.1, (hk k hk1).2.2.2⟩, by rw [hrc]; rfl, le_refl _⟩
  have hN : (b + 1) + (2 - 1) * (b - 0 + 1) + (sc.measures.length - 1 - b) ≤ fuel := by omega
  obtain ⟨r, hr⟩ := Nat.exists_eq_add_of_le hN
  obtain ⟨sc2, hs2, hw2⟩ := bracket_run tl sc 0 b 2 sc.measures.length hbr
    (r + (sc.measures.length - 1 - b))
  obtain ⟨sc3, hs3, hw3⟩ := plain_tail tl sc b r
    { score := sc2,
      segs := [({ tick := 0, len := (sc.measure b).tick + (sc.measure b).ticks - 0,
                  utick := 0, utime := 0, timeOffset := 0 } : RepeatSegment R)] ++
        List.replicate (2 - 2)
          ({ tick := (sc.measure 0).tick,
             len := (sc.measure b).tick + (sc.measure b).ticks - (sc.measure 0).tick,
             utick := 0, utime := 0, timeOffset := 0 } : RepeatSegment R),
      rs := { tick := (sc.measure 0).tick, len := 0, utick := 0, utime := 0, timeOffset := 0 },
      endRepeat := none, continueAt := none, loop := 0, repeatCount := ((2 : Nat) : Int),
      isGoto := false, jumps := [] }
    hv
    (fun k hk1 hk2 => by
      refine ⟨?_, (hk k hk2).2.2.1⟩
      cases hs : (sc.measure k).repeatFlags.END with
      | false => rfl
      | true => have := (hk k hk2).2.2.2.mp hs; omega)
    hs2 rfl
  have hfuel : fuel = r + (sc.measures.length - 1 - b) + (2 - 1) * (b - 0 + 1) + (b + 1) := by
    omega
  have hlen3 := length_of_reset_eq hs3
  have hlast := measure_static_of_reset_eq hs3 (sc.measures.length - 1)
  have hpos : (sc.measure (sc.measures.length - 1)).endTick - (sc.measure 0).tick ≠ 0 := by
    have h1 := contiguous_endTick_le_last sc hc 0 (by omega)
    have h2 := hc.1 0 (by omega)
    unfold Measure.endTick at h1 ⊢
    omega
  have hfin := hw2.trans hw3
  rw [← hfuel] at hfin
  refine ⟨sc3,
    update tl
      ([({ tick := 0, len := (sc.measure b).tick + (sc.measure b).ticks - 0,
           utick := 0, utime := 0, timeOffset := 0 } : RepeatSegment R)] ++
        [({ tick := (sc.measure 0).tick,
            len := (sc.measure (sc.measures.length - 1)).tick +
              (sc.measure (sc.measures.length - 1)).ticks - (sc.measure 0).tick,
            utick := 0, utime := 0, timeOffset := 0 } : RepeatSegment R)]), ?_, ?_⟩
  · unfold unwind
    simp only [List.drop_length]
    have hfm : sc.firstMeasure = some 0 := by
      unfold Score.firstMeasure; rw [if_neg (by omega)]
    rw [hfm]
    simp only []
    rw [hfin]
    unfold finish
    simp only [hlen3, Measure.endTick, hlast.1, hlast.2.1]
    rw [if_pos (by unfold Measure.endTick at hpos; exact hpos)]
    rfl
  · rw [measureSequence_update]
    simp only [measureSequence_append, measureSequence_singleton]
    have e1 := segmentMeasures_span sc hc 0 b (by omega)
      ({ tick := 0, len := (sc.measure b).tick + (sc.measure b).ticks - 0,
         utick := 0, utime := 0, timeOffset := 0 } : RepeatSegment R)
      (by show (0 : Int) = (sc.measure 0).tick
          rw [hc.2.1])
      (by show (0 : Int) + ((sc.measure b).tick + (sc.measure b).ticks - 0) = (sc.measure (0 + b)).endTick
          unfold Measure.endTick; rw [Nat.zero_add]; omega)
    have e3 := segmentMeasures_span sc hc 0 (sc.measures.length - 1) (by omega)
      ({ tick := (sc.measure 0).tick,
         len := (sc.measure (sc.measures.length - 1)).tick + (sc.measure (sc.measures.length - 1)).ticks - (sc.measure 0).tick,
         utick := 0, utime := 0, timeOffset := 0 } : RepeatSegment R) rfl
      (by show (sc.measure 0).tick + ((sc.measure (sc.measures.length - 1)).tick + (sc.measure (sc.measures.length - 1)).ticks - (sc.measure 0).tick) = (sc.measure (0 + (sc.measures.length - 1))).endTick
          rw [Nat.zero_add]; unfold Measure.endTick; omega)
    rw [e1, e3]
    have hsplit : List.range' (0 + 1) (sc.measures.length - 1 + 1) =
        List.range' (0 + 1) (b + 1) ++ List.range' (b + 2) (sc.measures.length - (b + 1)) := by
      have := List.range'_append (0 + 1) (b + 1) (sc.measures.length - (b + 1)) 1
      simp only [Nat.one_mul] at this
      have e5 : 0 + 1 + (b + 1) = b + 2 := by omega
      rw [e5] at this
      rw [this]
      congr 1
      omega
    rw [hsplit]
    simp only [Nat.zero_add, List.append_assoc]

theorem end_without_start_witness :
    ∃ (sc1 : Score) (segs : List (RepeatSegment Int)),
      unwind unitTempo 12 scoreRepeat03 [] = some (Outcome.done sc1 segs) ∧
      measureSequence scoreRepeat03 segs = [1, 2, 1, 2, 3, 4, 5, 6] :=
  end_without_start unitTempo scoreRepeat03 [] 1 contiguous_scoreRepeat03 rfl (by decide)
    (by decide) rfl 12 (by decide)

/-- C26. The function `jumpToStartRepeat`, called on measure `m`, appends the
segment under construction with `len = m.endTick - rs.tick`, and returns the
nearest measure `r` at or before `m` that carries START, or is the first
measure, or whose predecessor has a section break: no measure after `r` up to
and including `m` carries START or follows a section break. The new segment
under construction is a fresh one starting at `r.tick`. With a section break on
measure 1 and END on measure 3 of three measures the search from measure 3 stops
at measure 2. -/
theorem jumpToStartRepeat_nearest_start [Zero R] (st : UState R) (m : Nat) :
    (jumpToStartRepeat st m).1.segs =
      st.segs ++ [{ st.rs with len := (st.score.measure m).endTick - st.rs.tick }] ∧
    (jumpToStartRepeat st m).1.rs =
      { (RepeatSegment.new : RepeatSegment R) with
          tick := (st.score.measure (jumpToStartRepeat st m).2).tick } ∧
    (jumpToStartRepeat st m).2 ≤ m ∧
    ((st.score.measure (jumpToStartRepeat st m).2).repeatFlags.START = true ∨
      (jumpToStartRepeat st m).2 = 0 ∨
      (st.score.measure ((jumpToStartRepeat st m).2 - 1)).sectionBreak = true) ∧
    (∀ k, (jumpToStartRepeat st m).2 < k → k ≤ m →
      (st.score.measure k).repeatFlags.START = false ∧
      (st.score.measure (k - 1)).sectionBreak = false) ∧
    startRepeat scoreSectionBreak 2 = 1 :=
  ⟨rfl, rfl, startRepeat_le _ _, startRepeat_stop _ _, startRepeat_nearest _ _, rfl⟩

/-- C27, as amended. Nested jumps are not deferred. On a visit of a measure with
the JUMP flag made while a bracket ending at another measure is open, if no
volta excludes the measure, `doJump` is set and `isGoto` cleared; when the first
Jump of the measure is not yet in `jumps` and its `jumpTo` and `playUntil`
resolve, the Jump is taken on that visit: the segment is closed at the end of
the measure and the walk goes on at the `jumpTo` target with the bracket of the
Jump open. -/
theorem nested_jump_taken [Zero R] [Add R] [Sub R] (tl : TempoMap R) (st : UState R)
    (mi e p : Nat) (j : Jump) (nm e2 : Nat)
    (hm : mi < st.score.measures.length)
    (he : st.endRepeat = some e) (hne : e ≠ mi)
    (hJ : (st.score.measure mi).repeatFlags.JUMP = true)
    (hv : ∀ v, st.score.searchVolta (st.score.measure mi).tick = some v →
      v.hasEnding ((st.score.measure mi).playbackCount + 1) = true)
    (hj : firstJump 0 (st.score.measure mi).el = some (p, j))
    (hjs : st.jumps.contains (some (mi, p)) = false)
    (hto : st.score.searchLabel j.jumpTo = some nm)
    (hpu : st.score.searchLabel j.playUntil = some e2) :
    (voltaAndJumpFlag (countVisit st mi) ((countVisit st mi).score.measure mi)).2 = true ∧
    body tl st mi =
      Step.next
        { countVisit st mi with
            jumps := st.jumps ++ [some (mi, p)],
            endRepeat := some e2,
            continueAt := st.score.searchLabel j.continueAt,
            isGoto := true,
            segs := st.segs ++ [{ st.rs with len := (st.score.measure mi).endTick - st.rs.tick }],
            rs := { (RepeatSegment.new : RepeatSegment R) with tick := (st.score.measure nm).tick } }
        (some nm) := by
  obtain ⟨c1, c2, c3, c4⟩ := countVisit_fields st mi
  have c5 := countVisit_jumps st mi
  have hvj := voltaAndJumpFlag_in_jump (countVisit st mi) ((countVisit st mi).score.measure mi) e
    (by rw [c4]; exact he)
    (by rw [c1, measure_incPlaybackCount_repeatFlags]; exact hJ)
    (by
      intro v
      rw [c1, measure_incPlaybackCount_tick, measure_incPlaybackCount_self _ _ hm,
        searchVolta_incPlaybackCount]
      exact hv v)
  refine ⟨by rw [hvj], ?_⟩
  rw [body_eq, hvj]
  simp only []
  rw [gotoOrEnd_other_bracket tl _ mi e true rfl (by rw [← he, ← c4]) hne]
  rw [jumpOrAdvance_take _ mi p j nm e2 rfl
    (by show firstJump 0 ((countVisit st mi).score.measure mi).el = some (p, j)
        rw [c1, measure_incPlaybackCount_el]; exact hj)
    (by show (countVisit st mi).jumps.contains (some (mi, p)) = false
        rw [c5]; exact hjs)
    (by show (countVisit st mi).score.searchLabel j.jumpTo = some nm
        rw [c1, searchLabel_incPlaybackCount]; exact hto)
    (by show (countVisit st mi).score.searchLabel j.playUntil = some e2
        rw [c1, searchLabel_incPlaybackCount]; exact hpu)]
  simp only [c1, c2, c3, c5, searchLabel_incPlaybackCount, measure_incPlaybackCount_endTick,
    measure_incPlaybackCount_tick]

theorem nested_jump_taken_witness :
    (voltaAndJumpFlag (countVisit stateNestedJumpAtSecond 1)
      ((countVisit stateNestedJumpAtSecond 1).score.measure 1)).2 = true ∧
    body unitTempo stateNestedJumpAtSecond 1 =
      Step.next
        { countVisit stateNestedJumpAtSecond 1 with
            jumps := stateNestedJumpAtSecond.jumps ++ [some (1, 1)],
            endRepeat := some 2,
            continueAt := stateNestedJumpAtSecond.score.searchLabel "",
            isGoto := true,
            segs := stateNestedJumpAtSecond.segs ++
              [{ stateNestedJumpAtSecond.rs with
                  len := (stateNestedJumpAtSecond.score.measure 1).endTick -
                    stateNestedJumpAtSecond.rs.tick }],
            rs := { (RepeatSegment.new : RepeatSegment Int) with
                      tick := (stateNestedJumpAtSecond.score.measure 0).tick } }
        (some 0) :=
  nested_jump_taken unitTempo stateNestedJumpAtSecond 1 2 1
    { jumpTo := "start", playUntil := "end", continueAt := "" } 0 2
    (by decide) rfl (by decide) rfl (fun v h => by cases h) rfl rfl rfl rfl

/-- C27, counterexample. In `scoreNestedJump` the Jump of measure 1 opens a
bracket that ends at measure 3 and sends the walk to measure 2. On the visit of
measure 2 the bracket is open and ends at another measure, yet `doJump` is set
and the Jump of measure 2 is taken: the walk goes on at measure 1, not at
measure 3. -/
theorem nested_jump_not_deferred :
    configAfter unitTempo 1 (initState scoreNestedJump []) scoreNestedJump.firstMeasure =
      some (stateNestedJumpAtSecond, 1) ∧
    stateNestedJumpAtSecond.endRepeat = some 2 ∧
    (stateNestedJumpAtSecond.score.measure 1).repeatFlags.JUMP = true ∧
    (voltaAndJumpFlag (countVisit stateNestedJumpAtSecond 1)
      ((countVisit stateNestedJumpAtSecond 1).score.measure 1)).2 = true ∧
    TakesJump unitTempo stateNestedJumpAtSecond 1 (1, 1) ∧
    (∃ st1 : UState Int, body unitTempo stateNestedJumpAtSecond 1 = Step.next st1 (some 0)) ∧
    stateNestedJumpAtSecond.score.nextMeasure 1 = some 2 :=
  ⟨rfl, rfl, rfl, rfl, ⟨_, _, body_stateNestedJumpAtSecond, rfl, rfl⟩,
    ⟨_, body_stateNestedJumpAtSecond⟩, rfl⟩

/-- C28, as amended. The volta skip closes the segment under construction at
`m.tick`, appending it only if it started before, starts the next one at
`m.endTick` and leaves `doJump` clear. On a measure that carries no END and does
not end a once-only jump, the walk then advances to the next measure, and the
visit changes nothing else than the playback count of `m`, the list and `rs`. -/
theorem volta_skip_then_next [Zero R] [Add R] [Sub R] (tl : TempoMap R) (st : UState R)
    (mi e : Nat) (v : Volta)
    (hm : mi < st.score.measures.length)
    (he : st.endRepeat = some e)
    (hv : st.score.searchVolta (st.score.measure mi).tick = some v)
    (hk : v.hasEnding ((st.score.measure mi).playbackCount + 1) = false)
    (hE : (st.score.measure mi).repeatFlags.END = false)
    (hg : st.isGoto = true → e ≠ mi) :
    (st.rs.tick < (st.score.measure mi).tick →
      body tl st mi =
        Step.next
          { st with
              score := st.score.incPlaybackCount mi,
              segs := st.segs ++ [{ st.rs with len := (st.score.measure mi).tick - st.rs.tick }],
              rs := { (RepeatSegment.new : RepeatSegment R) with
                        tick := (st.score.measure mi).endTick } }
          (st.score.nextMeasure mi)) ∧
    (¬ st.rs.tick < (st.score.measure mi).tick →
      body tl st mi =
        Step.next
          { st with
              score := st.score.incPlaybackCount mi,
              rs := { st.rs with tick := (st.score.measure mi).endTick } }
          (st.score.nextMeasure mi)) := by
  obtain ⟨score, segs, rs, endRepeat, continueAt, loop, repeatCount, isGoto, jumps⟩ := st
  simp only [] at hm he hv hk hE hg ⊢
  subst he
  have hg1 : (isGoto && decide (some e = some mi)) = false := by
    cases h : isGoto with
    | false => rfl
    | true =>
      have := hg h
      simp [this]
  have hbody : ∀ X : UState R, X.isGoto = isGoto → X.endRepeat = some e →
      (X.score.measure mi).repeatFlags.END = false →
      gotoOrEnd tl X mi false = Step.next X (X.score.nextMeasure mi) := by
    intro X h1 h2 h3
    unfold gotoOrEnd
    simp only [h1, h2, hg1, h3, Bool.false_eq_true, if_false, jumpOrAdvance_no_jump]
  rw [body_eq, countVisit_plain _ mi (by simp only [hE, Bool.and_false])]
  simp only []
  have hvolta : voltaAndJumpFlag
      ({ score := score.incPlaybackCount mi, segs := segs, rs := rs, endRepeat := some e,
         continueAt := continueAt, loop := loop, repeatCount := repeatCount,
         isGoto := isGoto, jumps := jumps } : UState R)
      ((score.incPlaybackCount mi).measure mi) =
      (if rs.tick < (score.measure mi).tick then
        ({ score := score.incPlaybackCount mi,
           segs := segs ++ [{ rs with len := (score.measure mi).tick - rs.tick }],
           rs := { (RepeatSegment.new : RepeatSegment R) with tick := (score.measure mi).endTick },
           endRepeat := some e, continueAt := continueAt, loop := loop,
           repeatCount := repeatCount, isGoto := isGoto, jumps := jumps } : UState R)
       else
        ({ score := score.incPlaybackCount mi, segs := segs,
           rs := { rs with tick := (score.measure mi).endTick },
           endRepeat := some e, continueAt := continueAt, loop := loop,
           repeatCount := repeatCount, isGoto := isGoto, jumps := jumps } : UState R),
       false) := by
    unfold voltaAndJumpFlag
    simp only [searchVolta_incPlaybackCount, measure_incPlaybackCount_tick, hv,
      measure_incPlaybackCount_self _ _ hm, hk, Bool.not_false, if_true,
      measure_incPlaybackCount_endTick]
    split <;> rfl
  rw [hvolta]
  constructor
  · intro hlt
    simp only [if_pos hlt]
    rw [hbody _ rfl rfl (by simp only [measure_incPlaybackCount_repeatFlags]; exact hE)]
    simp only [nextMeasure_incPlaybackCount]
  · intro hlt
    simp only [if_neg hlt]
    rw [hbody _ rfl rfl (by simp only [measure_incPlaybackCount_repeatFlags]; exact hE)]
    simp only [nextMeasure_incPlaybackCount]

theorem volta_skip_then_next_witness :
    (stateFirstSecondEndingAtSkip.rs.tick < (stateFirstSecondEndingAtSkip.score.measure 2).tick →
      body unitTempo stateFirstSecondEndingAtSkip 2 =
        Step.next
          { stateFirstSecondEndingAtSkip with
              score := stateFirstSecondEndingAtSkip.score.incPlaybackCount 2,
              segs := stateFirstSecondEndingAtSkip.segs ++
                [{ stateFirstSecondEndingAtSkip.rs with
                    len := (stateFirstSecondEndingAtSkip.score.measure 2).tick -
                      stateFirstSecondEndingAtSkip.rs.tick }],
              rs := { (RepeatSegment.new : RepeatSegment Int) with
                        tick := (stateFirstSecondEndingAtSkip.score.measure 2).endTick } }
          (stateFirstSecondEndingAtSkip.score.nextMeasure 2)) ∧
    (¬ stateFirstSecondEndingAtSkip.rs.tick <
        (stateFirstSecondEndingAtSkip.score.measure 2).tick →
      body unitTempo stateFirstSecondEndingAtSkip 2 =
        Step.next
          { stateFirstSecondEndingAtSkip with
              score := stateFirstSecondEndingAtSkip.score.incPlaybackCount 2,
              rs := { stateFirstSecondEndingAtSkip.rs with
                        tick := (stateFirstSecondEndingAtSkip.score.measure 2).endTick } }
          (stateFirstSecondEndingAtSkip.score.nextMeasure 2)) :=
  volta_skip_then_next unitTempo stateFirstSecondEndingAtSkip 2 1
    { tick := 3840, tick2 := 5760, endings := [2] }
    (by decide) rfl rfl rfl rfl (fun h => by cases h)

/-- C28, counterexample. On the second visit of measure 2 of
`scoreFirstSecondEnding` the bracket ending at measure 2 is open and the volta
with ending set {1} excludes the visit. The measure is skipped, and its END flag
is acted upon all the same: `loop` reaches the repeat count and the visit clears
`endRepeat` and `loop`. -/
theorem volta_skip_acts_on_end :
    configAfter unitTempo 3 (initState scoreFirstSecondEnding [])
      scoreFirstSecondEnding.firstMeasure = some (stateFirstSecondEndingAtSkip, 1) ∧
    stateFirstSecondEndingAtSkip.endRepeat = some 1 ∧
    stateFirstSecondEndingAtSkip.loop = 1 ∧
    stateFirstSecondEndingAtSkip.score.searchVolta
      (stateFirstSecondEndingAtSkip.score.measure 1).tick =
        some { tick := 1920, tick2 := 3840, endings := [1] } ∧
    Volta.hasEnding { tick := 1920, tick2 := 3840, endings := [1] }
      ((stateFirstSecondEndingAtSkip.score.measure 1).playbackCount + 1) = false ∧
    body unitTempo stateFirstSecondEndingAtSkip 1 =
      Step.next
        ({ stateFirstSecondEndingAtSkip with
            score := stateFirstSecondEndingAtSkip.score.incPlaybackCount 1,
            segs := [{ tick := 0, len := 3840, utick := 0, utime := 0, timeOffset := 0 },
                     { tick := 0, len := 1920, utick := 0, utime := 0, timeOffset := 0 }],
            rs := { tick := 3840, len := 0, utick := 0, utime := 0, timeOffset := 0 },
            endRepeat := none,
            loop := 0 } : UState Int)
        (some 2) :=
  ⟨rfl, rfl, rfl, rfl, rfl, rfl⟩

/-- C29. Repeats are not replayed during a D.C. For a score of `n` measures whose
only annotations are START on measure `i = a + 1`, END with repeat count `c ≥ 2`
on measure `j = b + 1` (`i ≤ j < n`) and, on the last measure, the JUMP flag with
a Jump to "start" that plays until "end" and has an empty `continueAt`, with no
Marker carrying an empty label, `unwind` returns for every budget of at least
`(c + 1) * n` loop iterations, and the measure sequence read from its list is
`1..j`, `c - 1` further copies of `i..j`, `j+1..n`, and then `1..n` once. -/
theorem repeat_not_replayed_in_dc [Zero R] [Add R] [Sub R] (tl : TempoMap R) (sc : Score)
    (old : List (RepeatSegment R)) (a b c p : Nat) (j : Jump)
    (h : RepeatThenDC sc a b c p j)
    (fuel : Nat) (hf : (c + 1) * sc.measures.length ≤ fuel) :
    ∃ (sc1 : Score) (segs : List (RepeatSegment R)),
      unwind tl fuel sc old = some (Outcome.done sc1 segs) ∧
      measureSequence sc segs =
        List.range' 1 (b + 1) ++
          (List.replicate (c - 1) (List.range' (a + 1) (b - a + 1))).flatten ++
          List.range' (b + 2) (sc.measures.length - (b + 1)) ++
          List.range' 1 sc.measures.length := by
  have hh := h
  obtain ⟨hc, hv, hab, hb, hk, hrc, hc2, hj, hto, hpu, hca⟩ := h
  have hN : sc.measures.length + 1 + (sc.measures.length - 2 - b) + (c - 1) * (b - a + 1) +
      (b + 1) ≤ fuel := by
    have h1 : (c - 1) * (b - a + 1) ≤ (c - 1) * sc.measures.length :=
      Nat.mul_le_mul_left _ (by omega)
    have h2 : (c + 1) * sc.measures.length =
        (c - 1) * sc.measures.length + 2 * sc.measures.length := by
      have e : c + 1 = (c - 1) + 2 := by omega
      conv_lhs => rw [e, Nat.add_mul]
    omega
  obtain ⟨r, hr⟩ := Nat.exists_eq_add_of_le hN
  obtain ⟨sc4, hs4, hw4⟩ := repeatThenDC_first tl sc a b c p j hh (r + sc.measures.length)
  obtain ⟨st1, hsegs, hrs, hs5, hw5⟩ := repeatThenDC_pass tl sc a b c p j hh r
    ({ score := sc4,
       segs := [({ tick := 0, len := (sc.measure b).tick + (sc.measure b).ticks - 0,
                   utick := 0, utime := 0, timeOffset := 0 } : RepeatSegment R)] ++
         List.replicate (c - 2)
           ({ tick := (sc.measure a).tick,
              len := (sc.measure b).tick + (sc.measure b).ticks - (sc.measure a).tick,
              utick := 0, utime := 0, timeOffset := 0 } : RepeatSegment R) ++
         [({ tick := (sc.measure a).tick,
             len := (sc.measure (sc.measures.length - 1)).endTick - (sc.measure a).tick,
             utick := 0, utime := 0, timeOffset := 0 } : RepeatSegment R)],
       rs := { tick := (sc.measure 0).tick, len := 0, utick := 0, utime := 0,
               timeOffset := 0 },
       endRepeat := some (sc.measures.length - 1), continueAt := none, loop := 0,
       repeatCount := (c : Int), isGoto := true,
       jumps := [some (sc.measures.length - 1, p)] } : UState R)
    hs4 rfl rfl (by simp)
  have hfuel : fuel = r + sc.measures.length + 1 + (sc.measures.length - 2 - b) +
      (c - 1) * (b - a + 1) + (b + 1) := by omega
  have hlen := length_of_reset_eq hs5
  have hlast := measure_static_of_reset_eq hs5 (sc.measures.length - 1)
  have hpos : (sc.measure (sc.measures.length - 1)).endTick - (sc.measure 0).tick ≠ 0 := by
    have h1 := contiguous_endTick_le_last sc hc 0 (by omega)
    have h2 := hc.1 0 (by omega)
    unfold Measure.endTick at h1 ⊢
    omega
  have hfin := hw4.trans hw5
  rw [← hfuel] at hfin
  refine ⟨st1.score,
    update tl
      ([({ tick := 0, len := (sc.measure b).tick + (sc.measure b).ticks - 0,
           utick := 0, utime := 0, timeOffset := 0 } : RepeatSegment R)] ++
        List.replicate (c - 2)
          ({ tick := (sc.measure a).tick,
             len := (sc.measure b).tick + (sc.measure b).ticks - (sc.measure a).tick,
             utick := 0, utime := 0, timeOffset := 0 } : RepeatSegment R) ++
        [({ tick := (sc.measure a).tick,
            len := (sc.measure (sc.measures.length - 1)).endTick - (sc.measure a).tick,
            utick := 0, utime := 0, timeOffset := 0 } : RepeatSegment R)] ++
        [({ tick := (sc.measure 0).tick,
            len := (sc.measure (sc.measures.length - 1)).endTick - (sc.measure 0).tick,
            utick := 0, utime := 0, timeOffset := 0 } : RepeatSegment R)]), ?_, ?_⟩
  · unfold unwind
    simp only [List.drop_length]
    have hfm : sc.firstMeasure = some 0 := by
      unfold Score.firstMeasure; rw [if_neg (by omega)]
    rw [hfm]
    simp only []
    rw [hfin]
    unfold finish
    simp only [hsegs, hrs, hlen, Measure.endTick, hlast.1, hlast.2.1]
    rw [if_pos (by unfold Measure.endTick at hpos; exact hpos)]
  · rw [measureSequence_update]
    simp only [measureSequence_append, measureSequence_replicate, measureSequence_singleton]
    have e1 := segmentMeasures_span sc hc 0 b (by omega)
      ({ tick := 0, len := (sc.measure b).tick + (sc.measure b).ticks - 0,
         utick := 0, utime := 0, timeOffset := 0 } : RepeatSegment R)
      (by show (0 : Int) = (sc.measure 0).tick
          rw [hc.2.1])
      (by show (0 : Int) + ((sc.measure b).tick + (sc.measure b).ticks - 0) = (sc.measure (0 + b)).endTick
          unfold Measure.endTick; rw [Nat.zero_add]; omega)
    have e2 := segmentMeasures_span sc hc a (b - a) (by omega)
      ({ tick := (sc.measure a).tick, len := (sc.measure b).tick + (sc.measure b).ticks - (sc.measure a).tick,
         utick := 0, utime := 0, timeOffset := 0 } : RepeatSegment R) rfl
      (by show (sc.measure a).tick + ((sc.measure b).tick + (sc.measure b).ticks - (sc.measure a).tick) = (sc.measure (a + (b - a))).endTick
          have e : a + (b - a) = b := by omega
          rw [e]; unfold Measure.endTick; omega)
    have e3 := segmentMeasures_span sc hc a (sc.measures.length - 1 - a) (by omega)
      ({ tick := (sc.measure a).tick,
         len := (sc.measure (sc.measures.length - 1)).endTick - (sc.measure a).tick,
         utick := 0, utime := 0, timeOffset := 0 } : RepeatSegment R) rfl
      (by show (sc.measure a).tick + ((sc.measure (sc.measures.length - 1)).endTick - (sc.measure a).tick) = (sc.measure (a + (sc.measures.length - 1 - a))).endTick
          have e : a + (sc.measures.length - 1 - a) = sc.measures.length - 1 := by omega
          rw [e]; omega)
    have e4 := segmentMeasures_span sc hc 0 (sc.measures.length - 1) (by omega)
      ({ tick := (sc.measure 0).tick,
         len := (sc.measure (sc.measures.length - 1)).endTick - (sc.measure 0).tick,
         utick := 0, utime := 0, timeOffset := 0 } : RepeatSegment R) rfl
      (by show (sc.measure 0).tick + ((sc.measure (sc.measures.length - 1)).endTick - (sc.measure 0).tick) = (sc.measure (0 + (sc.measures.length - 1))).endTick
          rw [Nat.zero_add]; omega)
    rw [e1, e2, e3, e4]
    have hsplit : List.range' (a + 1) (sc.measures.length - 1 - a + 1) =
        List.range' (a + 1) (b - a + 1) ++ List.range' (b + 2) (sc.measures.length - (b + 1)) := by
      have := List.range'_append (a + 1) (b - a + 1) (sc.measures.length - (b + 1)) 1
      simp only [Nat.one_mul] at this
      have e5 : a + 1 + (b - a + 1) = b + 2 := by omega
      rw [e5] at this
      rw [this]
      congr 1
      omega
    have hrep : List.replicate (c - 1) (List.range' (a + 1) (b - a + 1)) =
        List.replicate (c - 2) (List.range' (a + 1) (b - a + 1)) ++ [List.range' (a + 1) (b - a + 1)] := by
      have e : c - 1 = (c - 2) + 1 := by omega
      rw [e, List.replicate_succ']
    have hall : 0 + 1 = 1 ∧ sc.measures.length - 1 + 1 = sc.measures.length := by omega
    rw [hsplit, hrep, List.flatten_append, hall.1, hall.2]
    simp only [List.flatten_cons, List.flatten_nil, List.append_nil, List.append_assoc]

theorem repeat_not_replayed_in_dc_witness :
    RepeatThenDC scoreRepeatDC 1 2 2 0
      { jumpTo := "start", playUntil := "end", continueAt := "" } ∧
    ∃ (sc1 : Score) (segs : List (RepeatSegment Int)),
      unwind unitTempo 15 scoreRepeatDC [] = some (Outcome.done sc1 segs) ∧
      measureSequence scoreRepeatDC segs = [1, 2, 3, 2, 3, 4, 5, 1, 2, 3, 4, 5] :=
  ⟨repeatThenDC_scoreRepeatDC,
   repeat_not_replayed_in_dc unitTempo scoreRepeatDC [] 1 2 2 0
     { jumpTo := "start", playUntil := "end", continueAt := "" }
     repeatThenDC_scoreRepeatDC 15 (by decide)⟩

/-- C30. After `update` the unwound time of segment `i` is the sum, over the
segments before it, of `tick2time (tick + len) - tick2time tick`, and its
`timeOffset` is `utime - tick2time tick`, for every tempo map and with the
arithmetic of `qreal` taken as that of a commutative group. On a list whose
segments have `len ≥ 0`, `utick2utime` at the `utick` of a segment with `len > 0`
is the `utime` of that segment, for every cursor. -/
theorem update_unwound_times [AddCommGroup R] (tl : TempoMap R)
    (base : List (RepeatSegment R)) (i : Nat) (s : RepeatSegment R)
    (hs : (update tl base).get? i = some s) :
    s.utime = (((update tl base).take i).map
      (fun a => tl.tick2time (a.tick + a.len) - tl.tick2time a.tick)).sum ∧
    s.timeOffset = s.utime - tl.tick2time s.tick ∧
    ((∀ a ∈ base, 0 ≤ a.len) → 0 < s.len → ∀ idx1 idx2 : Nat,
      utick2utime tl { segs := update tl base, idx1 := idx1, idx2 := idx2 } s.utick =
        s.utime) := by
  have hoff : s.timeOffset = s.utime - tl.tick2time s.tick :=
    updateFrom_timeOffset tl base 0 0 s (List.get?_mem hs)
  refine ⟨?_, hoff, ?_⟩
  · rw [update_take_map tl base i
      (fun p => tl.tick2time (p.1 + p.2) - tl.tick2time p.1)]
    have := updateFrom_utime_sum tl base 0 0 i s hs
    rw [zero_add] at this
    exact this
  · intro hb hpos idx1 idx2
    have hsu := (updateFrom_utick_sorted tl base hb 0 0).2
    have hc : List.Chain' (fun a b : RepeatSegment R => b.utick = a.utick + a.len)
        (update tl base) := updateFrom_chain' tl base 0 0
    have hn := update_len_nonneg tl base hb
    have hf := findUtick_chain s.utick (update tl base) hc hn 0 i s hs (le_refl _) (by omega)
    rw [utick2utime_eq tl (update tl base) hsu idx1 idx2 s.utick, hf]
    simp only []
    have e : s.utick - (s.utick - s.tick) = s.tick := by omega
    rw [e, hoff]
    exact add_sub_cancel _ _

theorem update_unwound_times_witness :
    (update unitTempo segsRepeat01).get? 1 =
      some { tick := 1920, len := 9600, utick := 5760, utime := 5760, timeOffset := 3840 } ∧
    (5760 : Int) = (((update unitTempo segsRepeat01).take 1).map
      (fun a => unitTempo.tick2time (a.tick + a.len) - unitTempo.tick2time a.tick)).sum ∧
    (3840 : Int) = 5760 - unitTempo.tick2time 1920 ∧
    ((∀ a ∈ segsRepeat01, 0 ≤ a.len) → (0 : Int) < 9600 → ∀ idx1 idx2 : Nat,
      utick2utime unitTempo { segs := update unitTempo segsRepeat01, idx1 := idx1, idx2 := idx2 }
        5760 = 5760) :=
  ⟨rfl, update_unwound_times unitTempo segsRepeat01 1
    { tick := 1920, len := 9600, utick := 5760, utime := 5760, timeOffset := 3840 } rfl⟩

/-- C31. The function `searchLabel` returns `firstMeasure()` for "start" and
`lastMeasure()` for "end" whatever markers the score holds; for any other label
`s` it returns measure `k` exactly when `k` carries a Marker labelled `s` and no
earlier measure does, and it returns null exactly when no measure carries such
a Marker. -/
theorem searchLabel_sentinels_first_match (sc : Score) :
    sc.searchLabel "start" = sc.firstMeasure ∧
    sc.searchLabel "end" = sc.lastMeasure ∧
    ∀ s : String, s ≠ "start" → s ≠ "end" →
      (∀ k, sc.searchLabel s = some k ↔
        (k < sc.measures.length ∧ Element.MARKER s ∈ (sc.measure k).el ∧
          ∀ l, l < k → Element.MARKER s ∉ (sc.measure l).el)) ∧
      (sc.searchLabel s = none ↔
        ∀ l, l < sc.measures.length → Element.MARKER s ∉ (sc.measure l).el) := by
  refine ⟨rfl, rfl, ?_⟩
  intro s h1 h2
  unfold Score.searchLabel
  rw [if_neg h1, if_neg h2]
  refine ⟨?_, searchLabelFrom_none_iff s sc.measures 0⟩
  intro k
  rw [searchLabelFrom_some_iff]
  constructor
  · rintro ⟨j, hk, hj, hin, hfirst⟩
    have : k = j := by omega
    subst this
    exact ⟨hj, hin, hfirst⟩
  · rintro ⟨hk, hin, hfirst⟩
    exact ⟨k, by omega, hk, hin, hfirst⟩

theorem searchLabel_sentinels_first_match_witness :
    scoreRepeat08.searchLabel "start" = some 0 ∧
    scoreRepeat08.searchLabel "end" = some 10 ∧
    scoreRepeat08.searchLabel "coda" = some 3 ∧
    scoreRepeat08.searchLabel "fine" = none :=
  ⟨(searchLabel_sentinels_first_match scoreRepeat08).1,
   (searchLabel_sentinels_first_match scoreRepeat08).2.1,
   (((searchLabel_sentinels_first_match scoreRepeat08).2.2 "coda" (by decide) (by decide)).1 3).mpr
     ⟨by decide, by decide, by decide⟩,
   ((searchLabel_sentinels_first_match scoreRepeat08).2.2 "fine" (by decide) (by decide)).2.mpr
     (by decide)⟩

/-- C32, as amended. For a score in which no Marker has an empty label,
`searchLabel("")` returns null. -/
theorem searchLabel_empty_string (sc : Score)
    (h : ∀ k, k < sc.measures.length → Element.MARKER "" ∉ (sc.measure k).el) :
    sc.searchLabel "" = none := by
  unfold Score.searchLabel
  rw [if_neg (by decide), if_neg (by decide)]
  exact (searchLabelFrom_none_iff "" sc.measures 0).mpr h

/-- C32, counterexample. In `scoreEmptyLabel` measure 1 carries a Marker with an
empty label, and `searchLabel("")` returns measure 1: the empty `continueAt` of
the D.C. al fine on measure 3 resolves to a measure, and after the fine on
measure 2 the walk resumes at measure 1 instead of returning. -/
theorem searchLabel_empty_string_found :
    Element.MARKER "" ∈ (scoreEmptyLabel.measure 0).el ∧
    scoreEmptyLabel.searchLabel "" = some 0 ∧
    emitted scoreEmptyLabel (unwind unitTempo 20 scoreEmptyLabel []) =
      some [1, 2, 3, 1, 2, 1, 2, 3] := by
  refine ⟨by decide, by decide, by decide⟩

theorem searchLabel_empty_string_witness :
    (∀ k, k < scoreRepeat08.measures.length → Element.MARKER "" ∉ (scoreRepeat08.measure k).el) ∧
    scoreRepeat08.searchLabel "" = none :=
  ⟨by decide, searchLabel_empty_string scoreRepeat08 (by decide)⟩

/-- C33, failing input. The measure loop of `unwind` ends for every score, within
some budget of iterations, but not always by returning: with START and a JUMP
flag without Jump element on measure 1 and END on measure 2, the first visit of
measure 1 stores the null pointer in `jumps`, the repeat leads back to measure
1, and the second visit dereferences the null pointer in `s->playUntil()`,
whatever the budget from 3 iterations on. -/
theorem unwind_ends_not_always_returning :
    (∀ (sc : Score) (old : List (RepeatSegment Int)),
      ∃ fuel o, ∀ f, fuel ≤ f → unwind unitTempo f sc old = some o) ∧
    unwind unitTempo 3 scoreBareJumpInRepeat [] = some Outcome.crash ∧
    ∀ f, 3 ≤ f → ∀ sc1 segs,
      unwind unitTempo f scoreBareJumpInRepeat [] ≠ some (Outcome.done sc1 segs) := by
  refine ⟨fun sc old => unwind_terminates unitTempo sc old, rfl, ?_⟩
  intro f hf sc1 segs h
  have := unwind_mono unitTempo 3 f scoreBareJumpInRepeat [] Outcome.crash hf rfl
  rw [this] at h
  simp at h

/-- C34. When the walk of `unwind` on a score with contiguous measures reaches,
with no bracket open (`endRepeat` null), a measure `m` flagged END whose
playback count, the present visit counted, has reached its repeat count, the
loop is left at once and `unwind` returns: the segment under construction is
closed at `lastMeasure()->endTick()`, not at `m->endTick()`, and appended last.
That segment starts at a measure `x` at or before `m`, and its read-out is the
measures from `x` to the last one in score order, so every measure after `m` is
emitted exactly once more, whatever its flags, voltas and jumps. -/
theorem serviced_end_plays_out [Zero R] [Add R] [Sub R] (tl : TempoMap R) (sc : Score)
    (old : List (RepeatSegment R)) (k fuel : Nat) (st : UState R) (mi : Nat)
    (hc : Contiguous sc)
    (h : configAfter tl k (initState sc []) sc.firstMeasure = some (st, mi))
    (hE : (st.score.measure mi).repeatFlags.END = true)
    (he : st.endRepeat = none)
    (hp : (st.score.measure mi).repeatCount ≤ (st.score.measure mi).playbackCount + 1) :
    body tl st mi = Step.brk (countVisit st mi) ∧
    unwind tl (k + (fuel + 1)) sc old =
      some (Outcome.done (st.score.incPlaybackCount mi)
        (update tl (st.segs ++
          [{ st.rs with
              len := (sc.measure (sc.measures.length - 1)).endTick - st.rs.tick }]))) ∧
    ∃ x, x ≤ mi ∧
      segmentMeasures (st.score.incPlaybackCount mi)
          { st.rs with
              len := (sc.measure (sc.measures.length - 1)).endTick - st.rs.tick } =
        List.range' (x + 1) (sc.measures.length - x) ∧
      ∀ j, mi < j → j < sc.measures.length →
        (segmentMeasures (st.score.incPlaybackCount mi)
          { st.rs with
              len := (sc.measure (sc.measures.length - 1)).endTick - st.rs.tick }).count
          (j + 1) = 1 := by
  obtain ⟨hr, x, hx, hrs⟩ := configAfter_align tl sc hc [] k st mi h
  have hlen := length_of_reset_eq hr
  have hm : mi < st.score.measures.length := by
    by_contra hn
    rw [measure_default st.score mi (by omega)] at hE
    exact absurd hE (by decide)
  have hb := body_end_break_open tl st mi hE he hm hp
  obtain ⟨c1, c2, c3, _⟩ := countVisit_fields st mi
  have hr1 : resetPlaybackCounts (st.score.incPlaybackCount mi) = resetPlaybackCounts sc := by
    rw [reset_incPlaybackCount]; exact hr
  have hc1 : Contiguous (st.score.incPlaybackCount mi) := contiguous_of_reset_eq hr1 hc
  have hlen1 := length_of_reset_eq hr1
  have hend : ∀ i, ((st.score.incPlaybackCount mi).measure i).endTick = (sc.measure i).endTick := by
    intro i
    unfold Measure.endTick
    rw [(measure_static_of_reset_eq hr1 i).1, (measure_static_of_reset_eq hr1 i).2.1]
  have htick : ∀ i, ((st.score.incPlaybackCount mi).measure i).tick = (sc.measure i).tick :=
    fun i => (measure_static_of_reset_eq hr1 i).1
  have hrs1 : st.rs.tick = (sc.measure x).tick := by
    rw [hrs, (measure_static_of_reset_eq hr x).1]
  have hlt : (sc.measure x).tick < (sc.measure (sc.measures.length - 1)).endTick := by
    have h1 := hc.1 (sc.measures.length - 1) (by omega)
    rcases Nat.eq_or_lt_of_le (show x ≤ sc.measures.length - 1 by omega) with e | e
    · rw [← e] at h1 ⊢
      unfold Measure.endTick; omega
    · have := contiguous_tick_lt sc hc x (sc.measures.length - 1) e (by omega)
      unfold Measure.endTick; omega
  have hseg : segmentMeasures (st.score.incPlaybackCount mi)
        { st.rs with
            len := (sc.measure (sc.measures.length - 1)).endTick - st.rs.tick } =
      List.range' (x + 1) (sc.measures.length - x) := by
    have := segmentMeasures_span (st.score.incPlaybackCount mi) hc1 x
      (sc.measures.length - 1 - x) (by omega)
      { st.rs with
          len := (sc.measure (sc.measures.length - 1)).endTick - st.rs.tick }
      (by rw [htick]; exact hrs1) (by
        simp only []
        rw [show x + (sc.measures.length - 1 - x) = sc.measures.length - 1 by omega, hend]
        omega)
    rw [this]
    congr 1
    omega
  refine ⟨hb, ?_, x, hx, hseg, ?_⟩
  · have hfm : sc.firstMeasure = some 0 := by
      unfold Score.firstMeasure
      rw [if_neg (by omega)]
    unfold unwind
    simp only [List.drop_length, hfm]
    rw [hfm] at h
    rw [unwindLoop_configAfter tl k _ _ st mi (fuel + 1) h]
    simp only [unwindLoop, hb]
    unfold finish
    simp only [c1, c2, c3, hlen1, hend]
    rw [if_pos (by simp only [ne_eq]; omega)]
  · intro j hj1 hj2
    rw [hseg]
    apply List.count_eq_one_of_mem (List.nodup_range' _ _)
    rw [List.mem_range']
    exact ⟨j - x, by omega, by omega⟩

theorem serviced_end_plays_out_witness :
    configAfter unitTempo 0 (initState scoreEndCountOne []) scoreEndCountOne.firstMeasure =
      some (initState scoreEndCountOne [], 0) ∧
    unwind unitTempo (0 + (0 + 1)) scoreEndCountOne [] =
      some (Outcome.done
        ((initState scoreEndCountOne ([] : List (RepeatSegment Int))).score.incPlaybackCount 0)
        (update unitTempo ([] ++ [(⟨0, 7680, 0, 0, 0⟩ : RepeatSegment Int)]))) ∧
    segmentMeasures scoreEndCountOne (⟨0, 7680, 0, 0, 0⟩ : RepeatSegment Int) = [1, 2, 3, 4] :=
  ⟨rfl,
   (serviced_end_plays_out unitTempo scoreEndCountOne [] 0 0 (initState scoreEndCountOne []) 0
      contiguous_scoreEndCountOne rfl rfl rfl (by decide)).2.1,
   rfl⟩

/-- C35. On a list produced by `update` from segments with `len ≥ 0`, for a
score tick `t` inside the span `[tick, tick + len)` of at least one segment,
`tick2utick` returns an unwound tick that `utick2tick` maps back to `t`,
whatever the cursors and in debug mode as well. -/
theorem tick_roundtrip [Zero R] [Add R] [Sub R] (tl : TempoMap R)
    (base : List (RepeatSegment R)) (hb : ∀ s ∈ base, 0 ≤ s.len)
    (dbg : Bool) (idx1 idx2 : Nat) (t : Int)
    (ht : ∃ s ∈ update tl base, s.tick ≤ t ∧ t < s.tick + s.len) :
    ∃ u, tick2utick (update tl base) t = some u ∧
      (utick2tick dbg { segs := update tl base, idx1 := idx1, idx2 := idx2 } u).map Prod.fst =
        some t := by
  obtain ⟨i, s, hg, h1, h2, hf⟩ := findTick_of_mem t (update tl base) ht
  refine ⟨s.utick + (t - s.tick), ?_, ?_⟩
  · unfold tick2utick
    rw [hf]
  · rw [utick2tick_in_span tl base hb dbg idx1 idx2 (s.utick + (t - s.tick)) i s hg
      (by omega) (by omega)]
    simp only [Option.map_some', Option.some.injEq]
    omega

theorem tick_roundtrip_witness :
    (∀ s ∈ ([⟨0, 5760, 0, 0, 0⟩, ⟨1920, 9600, 0, 0, 0⟩] : List (RepeatSegment Int)), 0 ≤ s.len) ∧
    ∃ u, tick2utick
        (update unitTempo ([⟨0, 5760, 0, 0, 0⟩, ⟨1920, 9600, 0, 0, 0⟩] : List (RepeatSegment Int)))
        7000 = some u ∧
      (utick2tick true
        { segs := update unitTempo
            ([⟨0, 5760, 0, 0, 0⟩, ⟨1920, 9600, 0, 0, 0⟩] : List (RepeatSegment Int)),
          idx1 := 1, idx2 := 0 } u).map Prod.fst = some 7000 :=
  ⟨by decide,
   tick_roundtrip unitTempo [⟨0, 5760, 0, 0, 0⟩, ⟨1920, 9600, 0, 0, 0⟩] (by decide) true 1 0 7000
    ⟨⟨1920, 9600, 5760, 5760, 3840⟩, by decide, by decide, by decide⟩⟩

/-- C36. Over exact arithmetic (an ordered group of times), on a list produced by
`update` from segments that all have `len > 0`, under a tempo map whose
`tick2time` is strictly increasing and whose `time2tick` inverts it,
`utime2utick (utick2utime u) = u` for every `u` with `0 ≤ u < ticks()`,
whatever the cursors and in debug mode as well. -/
theorem seconds_roundtrip [LinearOrderedAddCommGroup R] (tl : TempoMap R)
    (hstrict : ∀ a b : Int, a < b → tl.tick2time a < tl.tick2time b)
    (hinv : ∀ x : Int, tl.time2tick (tl.tick2time x) = x)
    (base : List (RepeatSegment R)) (hb : ∀ s ∈ base, 0 < s.len)
    (dbg : Bool) (idx1 idx2 idx3 idx4 : Nat) (u : Int)
    (h0 : 0 ≤ u) (hu : u < ticks (update tl base)) :
    (utime2utick dbg tl { segs := update tl base, idx1 := idx3, idx2 := idx4 }
      (utick2utime tl { segs := update tl base, idx1 := idx1, idx2 := idx2 } u)).map Prod.fst =
      some u := by
  have hb0 : ∀ s ∈ base, 0 ≤ s.len := fun s hs => le_of_lt (hb s hs)
  have hmono : ∀ a b : Int, a ≤ b → tl.tick2time a ≤ tl.tick2time b := by
    intro a b hab
    rcases lt_or_eq_of_le hab with h | h
    · exact le_of_lt (hstrict a b h)
    · rw [h]
  have hupd : update tl base = updateFrom tl 0 0 base := rfl
  have hsu := (updateFrom_utick_sorted tl base hb0 0 0).2
  have hst := (updateFrom_utime_sorted tl hmono base hb0 0 0).2
  have hoff := updateFrom_timeOffset tl base 0 0
  have hcu := updateFrom_chain tl base 0 0
  have hct := updateFrom_utime_chain tl base 0 0
  rw [hupd] at hu ⊢
  -- the list is not empty
  cases hL : updateFrom tl 0 0 base with
  | nil =>
    rw [hL] at hu
    simp [ticks] at hu
    omega
  | cons x rest =>
    rw [← hL]
    have hhead : (updateFrom tl 0 0 base).head? = some x := by rw [hL]; rfl
    have hx0 : x.utick = 0 := updateFrom_head tl base 0 0 x hhead
    obtain ⟨⟨i, s⟩, hp⟩ := findUtick_isSome u (updateFrom tl 0 0 base) 0 x hhead (by omega)
    obtain ⟨k, hik, hk, hsu1, hnext⟩ := findUtick_some u (updateFrom tl 0 0 base) 0 i s hp
    have hmem : s ∈ updateFrom tl 0 0 base := by
      exact List.get?_mem hk
    have hso := hoff s hmem
    rw [utick2utime_eq tl (updateFrom tl 0 0 base) hsu idx1 idx2 u, hp]
    simp only []
    have hge : s.utime ≤ tl.tick2time (u - (s.utick - s.tick)) + s.timeOffset := by
      rw [hso]
      have h1 : tl.tick2time s.tick ≤ tl.tick2time (u - (s.utick - s.tick)) :=
        hmono _ _ (by omega)
      have h2 : s.utime = tl.tick2time s.tick + (s.utime - tl.tick2time s.tick) := by abel
      calc s.utime = tl.tick2time s.tick + (s.utime - tl.tick2time s.tick) := h2
        _ ≤ tl.tick2time (u - (s.utick - s.tick)) + (s.utime - tl.tick2time s.tick) :=
          add_le_add_right h1 _
    have hlt : ∀ b, (updateFrom tl 0 0 base).get? (k + 1) = some b →
        tl.tick2time (u - (s.utick - s.tick)) + s.timeOffset < b.utime := by
      intro b hbk
      have e1 := hcu k s b hk hbk
      have e2 := hct k s b hk hbk
      have h3 := hnext b hbk
      have h4 : tl.tick2time (u - (s.utick - s.tick)) < tl.tick2time (s.tick + s.len) :=
        hstrict _ _ (by omega)
      rw [e2, hso]
      have h5 : s.utime + (tl.tick2time (s.tick + s.len) - tl.tick2time s.tick) =
          tl.tick2time (s.tick + s.len) + (s.utime - tl.tick2time s.tick) := by abel
      rw [h5]
      exact add_lt_add_right h4 _
    have hf := findUtime_at (tl.tick2time (u - (s.utick - s.tick)) + s.timeOffset)
      (updateFrom tl 0 0 base) hst k s hk hge hlt
    unfold utime2utick
    simp only []
    rw [findUtime_startIndexTime _ _ hst idx4, hf]
    simp only [Option.map_some', Option.some.injEq, add_sub_cancel_right, hinv]
    omega

theorem seconds_roundtrip_witness :
    (∀ s ∈ ([⟨0, 5760, 0, 0, 0⟩, ⟨1920, 9600, 0, 0, 0⟩] : List (RepeatSegment Int)), 0 < s.len) ∧
    (7000 : Int) <
      ticks (update unitTempo
        ([⟨0, 5760, 0, 0, 0⟩, ⟨1920, 9600, 0, 0, 0⟩] : List (RepeatSegment Int))) ∧
    (utime2utick true unitTempo
      { segs := update unitTempo
          ([⟨0, 5760, 0, 0, 0⟩, ⟨1920, 9600, 0, 0, 0⟩] : List (RepeatSegment Int)),
        idx1 := 0, idx2 := 1 }
      (utick2utime unitTempo
        { segs := update unitTempo
            ([⟨0, 5760, 0, 0, 0⟩, ⟨1920, 9600, 0, 0, 0⟩] : List (RepeatSegment Int)),
          idx1 := 1, idx2 := 0 } 7000)).map Prod.fst = some 7000 :=
  ⟨by decide, by decide,
   seconds_roundtrip unitTempo (fun _ _ h => h) (fun _ => rfl)
    [⟨0, 5760, 0, 0, 0⟩, ⟨1920, 9600, 0, 0, 0⟩] (by decide) true 1 0 0 1 7000
    (by decide) (by decide)⟩

/-- C37. For a score with at least one measure whose measures are contiguous from
tick 0 with positive lengths, the call of `unwind` ends within some budget of
loop iterations, and the list that it returns holds at least one segment, so
`tick2utick` is defined on it for every tick: the call of `last()` in its
fallback is never made on an empty list. -/
theorem unwind_result_nonempty [Zero R] [Add R] [Sub R] (tl : TempoMap R)
    (sc : Score) (old : List (RepeatSegment R)) (hc : Contiguous sc)
    (hn : 0 < sc.measures.length) :
    (∃ fuel o, ∀ f, fuel ≤ f → unwind tl f sc old = some o) ∧
    ∀ (fuel : Nat) (sc1 : Score) (segs : List (RepeatSegment R)),
      unwind tl fuel sc old = some (Outcome.done sc1 segs) →
      segs ≠ [] ∧ ∀ t, ∃ u, tick2utick segs t = some u :=
  ⟨unwind_terminates tl sc old,
   fun fuel sc1 segs h => unwind_done_nonempty tl fuel sc sc1 old segs hc hn h⟩

theorem unwind_result_nonempty_witness :
    Contiguous scoreRepeat01 ∧ 0 < scoreRepeat01.measures.length ∧
    unwind unitTempo 20 scoreRepeat01 [] = some (Outcome.done scoreRepeat01Played segsRepeat01) ∧
    segsRepeat01 ≠ [] ∧ ∀ t, ∃ u, tick2utick segsRepeat01 t = some u :=
  ⟨contiguous_scoreRepeat01, by decide, unwind_scoreRepeat01,
   (unwind_result_nonempty unitTempo scoreRepeat01 [] contiguous_scoreRepeat01 (by decide)).2
     20 scoreRepeat01Played segsRepeat01 unwind_scoreRepeat01⟩
/-- C38. At the head of every iteration of the measure loop of `unwind`, reached
from the initial state after any number `k` of passes through the body,
`isGoto = true` implies that `endRepeat` is not null. -/
theorem goto_has_end_repeat [Zero R] [Add R] [Sub R] (tl : TempoMap R) (sc : Score)
    (old : List (RepeatSegment R)) (k : Nat) (st : UState R) (m : Nat)
    (h : configAfter tl k (initState sc old) sc.firstMeasure = some (st, m))
    (hg : st.isGoto = true) : st.endRepeat ≠ none :=
  configAfter_inv tl (fun st => st.isGoto = true → st.endRepeat ≠ none)
    (fun st mi hP => body_goto tl st mi hP) k (initState sc old) sc.firstMeasure st m
    (fun h0 => by simp [initState] at h0) h hg

theorem goto_has_end_repeat_witness :
    configAfter unitTempo 3 (initState scoreDCSentinel []) scoreDCSentinel.firstMeasure =
      some (stateDCSentinelInGoto, 0) ∧
    stateDCSentinelInGoto.isGoto = true ∧ stateDCSentinelInGoto.endRepeat ≠ none :=
  ⟨configAfter_scoreDCSentinel, rfl,
   goto_has_end_repeat unitTempo scoreDCSentinel [] 3 stateDCSentinelInGoto 0
    configAfter_scoreDCSentinel rfl⟩

end Ms
